import Mathlib

/-!
The knfmt lexer: token model, scanner, classifier and cursor

A shallow embedding of `src/lexer.c` (with `src/token.h` and the declarations
of `src/extern.h`).

Conventions of the embedding.

* A pointer to a token of the main stream is the index of the token in the
  arena `lx_heap` (tokens are numbered in allocation order); `NULL` is `none`.
  `lx_tokens` is the `TAILQ` of the main stream, as the list of the linked
  tokens in stream order.
* The tokens hanging off a main-stream token (`tk_prefixes`, `tk_suffixes`)
  are owned by it and are never addressed from elsewhere; those lists hold the
  tokens by value (`Dangling`: the scalar fields of `struct token`, a hanging
  token never has lists or branch links of its own).
* `unsigned int` counters wrap modulo `2^32`; `int` counters and `size_t`
  offsets are natural numbers.
* A function that can dereference `NULL`, fail an `assert`, read outside the
  buffer or loop forever returns `Except Fault _`.  Loops are bounded by a
  fuel that the function itself takes from its input (buffer length, number
  of tokens); `Fault.diverge` is returned when the bound is exhausted.
* Diagnostics (`fprintf`, `lexer_trace`) are not modelled.
-/

namespace Knfmt

/-! ## Token kinds: `enum token_type`, generated from `token.h` -/

/-- The enumeration `enum token_type` of `extern.h`: one constructor per entry
of `token.h`, in the order of the file.  `TOKEN_CPP_IF`, `TOKEN_CPP_ELSE` and
`TOKEN_CPP_ENDIF` are used by `lexer.c` (`lexer_cpp`, `lexer_read`) and listed
by the specification among the sentinels, but have no entry in `token.h`; they
are added at the end. -/
inductive TokenType where
  | TOKEN_ATTRIBUTE | TOKEN_BREAK | TOKEN_CASE | TOKEN_CHAR | TOKEN_CONST
  | TOKEN_CONTINUE | TOKEN_DEFAULT | TOKEN_DO | TOKEN_DOUBLE | TOKEN_ELSE
  | TOKEN_ENUM | TOKEN_EXTERN | TOKEN_FLOAT | TOKEN_FOR | TOKEN_GOTO
  | TOKEN_IF | TOKEN_INLINE | TOKEN_INT | TOKEN_LONG | TOKEN_REGISTER
  | TOKEN_RETURN | TOKEN_SHORT | TOKEN_SIGNED | TOKEN_SIZEOF | TOKEN_STATIC
  | TOKEN_STRUCT | TOKEN_SWITCH | TOKEN_TYPEDEF | TOKEN_UNION | TOKEN_UNSIGNED
  | TOKEN_VOID | TOKEN_VOLATILE | TOKEN_WHILE
  | TOKEN_LSQUARE | TOKEN_RSQUARE | TOKEN_LPAREN | TOKEN_RPAREN | TOKEN_LBRACE
  | TOKEN_RBRACE | TOKEN_PERIOD | TOKEN_ELLIPSIS | TOKEN_AMP | TOKEN_AMPAMP
  | TOKEN_AMPEQUAL | TOKEN_STAR | TOKEN_STAREQUAL | TOKEN_PLUS | TOKEN_PLUSPLUS
  | TOKEN_PLUSEQUAL | TOKEN_MINUS | TOKEN_ARROW | TOKEN_MINUSMINUS
  | TOKEN_MINUSEQUAL | TOKEN_TILDE | TOKEN_EXCLAIM | TOKEN_EXCLAIMEQUAL
  | TOKEN_SLASH | TOKEN_SLASHEQUAL | TOKEN_PERCENT | TOKEN_PERCENTEQUAL
  | TOKEN_LESS | TOKEN_LESSLESS | TOKEN_LESSEQUAL | TOKEN_LESSLESSEQUAL
  | TOKEN_GREATER | TOKEN_GREATERGREATER | TOKEN_GREATEREQUAL
  | TOKEN_GREATERGREATEREQUAL | TOKEN_CARET | TOKEN_CARETEQUAL | TOKEN_PIPE
  | TOKEN_PIPEPIPE | TOKEN_PIPEEQUAL | TOKEN_QUESTION | TOKEN_COLON
  | TOKEN_SEMI | TOKEN_EQUAL | TOKEN_EQUALEQUAL | TOKEN_COMMA | TOKEN_BACKSLASH
  | TOKEN_COMMENT | TOKEN_CPP | TOKEN_EOF | TOKEN_ERROR | TOKEN_IDENT
  | TOKEN_LITERAL | TOKEN_SPACE | TOKEN_STRING | TOKEN_UNKNOWN | TOKEN_NONE
  | TOKEN_CPP_IF | TOKEN_CPP_ELSE | TOKEN_CPP_ENDIF
  deriving DecidableEq, Repr

open TokenType

/-! ## Flags of `struct token` (`extern.h`) -/

def TOKEN_FLAG_TYPE : Nat := 0x00000001
def TOKEN_FLAG_QUALIFIER : Nat := 0x00000002
def TOKEN_FLAG_STORAGE : Nat := 0x00000004
def TOKEN_FLAG_IDENT : Nat := 0x00000008
def TOKEN_FLAG_DANGLING : Nat := 0x00000010
def TOKEN_FLAG_ASSIGN : Nat := 0x00000020
def TOKEN_FLAG_AMBIGUOUS : Nat := 0x00000040
def TOKEN_FLAG_BINARY : Nat := 0x00000080
def TOKEN_FLAG_DISCARD : Nat := 0x00000100
def TOKEN_FLAG_UNMUTE : Nat := 0x00000200
def TOKEN_FLAG_NEWLINE : Nat := 0x00000400
def TOKEN_FLAG_FAKE : Nat := 0x00000800
def TOKEN_FLAG_FREE : Nat := 0x00001000
def TOKEN_FLAG_TYPE_ARGS : Nat := 0x08000000
def TOKEN_FLAG_TYPE_FUNC : Nat := 0x10000000

/-- Number of values of an `unsigned int`. -/
def UINT_MOD : Nat := 4294967296

/-! ## Faults -/

/-- The ways in which the C code can leave its defined behaviour or fail to
return. -/
inductive Fault where
  /-- dereference of `NULL` (or of a pointer to no token) -/
  | nullDeref
  /-- a failed `assert` -/
  | assertion
  /-- a read outside the buffer -/
  | outOfBounds
  /-- the bound of a loop is exhausted: the C loop does not terminate -/
  | diverge
  deriving DecidableEq, Repr

/-! ## Tokens -/

/-- The member `tk_str` of `struct token`: `NULL`, a pointer to a string
constant of the program, or a pointer into the buffer at an offset. -/
inductive StrPtr where
  | null
  | static (s : List Nat)
  | buf (off : Nat)
  deriving DecidableEq, Repr

/-- A token hanging off a main-stream token (an element of `tk_prefixes` or
`tk_suffixes`): the scalar members of `struct token`. -/
structure Dangling where
  tk_type : TokenType
  tk_lno : Nat
  tk_cno : Nat
  tk_flags : Nat
  tk_str : StrPtr
  tk_len : Nat
  deriving DecidableEq, Repr

/-- The record `struct token` of `extern.h`.  `tk_markers`, `tk_off` and the
anonymous union are not used by `lexer.c` and left out; `tk_align` is
assigned by `lexer_peek_if_type` and has no declaration in `extern.h`. -/
structure Token where
  tk_type : TokenType
  tk_lno : Nat := 0
  tk_cno : Nat := 0
  tk_flags : Nat := 0
  tk_str : StrPtr := StrPtr.null
  tk_len : Nat := 0
  tk_align : Option Nat := none
  br_pv : Option Nat := none
  br_nx : Option Nat := none
  tk_prefixes : List Dangling := []
  tk_suffixes : List Dangling := []
  deriving DecidableEq, Repr

/-- The scalar members of a token, as stored in a prefix or suffix list. -/
def Token.toDangling (t : Token) : Dangling :=
  { tk_type := t.tk_type, tk_lno := t.tk_lno, tk_cno := t.tk_cno,
    tk_flags := t.tk_flags, tk_str := t.tk_str, tk_len := t.tk_len }

/-- The record `struct lexer_state`. -/
structure LexerState where
  st_tok : Option Nat := none
  st_lno : Nat := 0
  st_cno : Nat := 0
  st_err : Nat := 0
  st_off : Nat := 0
  deriving DecidableEq, Repr

/-- The record `struct lexer`.  `lx_bf` is the byte content of the buffer
(`bf_ptr[0 .. bf_len)`), `lx_heap` the arena of the linked tokens,
`lx_tokens` the main stream and `lx_branches` the list `br_tk` of the open
branches, the last opened last.  `lx_cf` and `lx_path` only feed the
diagnostics. -/
structure Lexer where
  lx_st : LexerState := {}
  lx_bf : List Nat := []
  lx_branch : Option Nat := none
  lx_eof : Nat := 0
  lx_peek : Nat := 0
  lx_heap : List Token := []
  lx_tokens : List Nat := []
  lx_branches : List Nat := []
  deriving DecidableEq, Repr

/-! ## Token predicates -/

/-- The function `token_has_dangling`. -/
def token_has_dangling (tk : Token) : Bool :=
  !tk.tk_prefixes.isEmpty || !tk.tk_suffixes.isEmpty

/-- The function `token_has_line`. -/
def token_has_line (tk : Token) : Bool :=
  tk.tk_suffixes.any (fun tmp => decide (tmp.tk_type = TOKEN_SPACE))

/-- The function `token_is_branch`. -/
def token_is_branch (tk : Token) (bidirectional : Bool) : Bool :=
  if tk.br_pv.isSome && tk.br_nx.isSome then true
  else if bidirectional then false
  else tk.br_pv.isSome && tk.br_nx.isNone

/-- The function `token_trim`. -/
def token_trim (tk : Token) : Token :=
  { tk with tk_suffixes := tk.tk_suffixes.filter (fun s => decide (s.tk_type ≠ TOKEN_SPACE)) }

/-! ## The token stream as a `TAILQ` -/

/-- The successor of `p` in the queue (`TAILQ_NEXT`), `none` at the tail (and
for a token that is not linked). -/
def tailq_next : List Nat → Nat → Option Nat
  | [], _ => none
  | a :: rest, p => if a = p then rest.head? else tailq_next rest p

/-- The predecessor of `p` in the queue (`TAILQ_PREV`), `none` at the head. -/
def tailq_prev : List Nat → Nat → Option Nat
  | [], _ => none
  | [_], _ => none
  | a :: b :: rest, p => if b = p then some a else tailq_prev (b :: rest) p

/-- Dereference of a token pointer. -/
def deref (heap : List Token) (p : Nat) : Except Fault Token :=
  match heap[p]? with
  | some t => Except.ok t
  | none => Except.error Fault.nullDeref

/-! ## Cursor -/

/-- The loop `while (branch->tk_branch.br_nx != NULL) branch = branch->tk_branch.br_nx`
of `lexer_pop`. -/
def branch_last : Nat → List Token → Nat → Except Fault Nat
  | 0, _, _ => Except.error Fault.diverge
  | fuel + 1, heap, branch =>
    match heap[branch]? with
    | none => Except.error Fault.nullDeref
    | some t =>
      match t.br_nx with
      | none => Except.ok branch
      | some nx => branch_last fuel heap nx

/-- The label `out` of `lexer_pop`: fail on `NULL`, else yield `st_tok`. -/
def lexer_pop_out (lx : Lexer) : Except Fault (Lexer × Option Nat) :=
  Except.ok (lx, lx.lx_st.st_tok)

/-- The function `lexer_pop`.  The result holds the lexer afterwards and the
token stored to `*tk`: `some _` when the function returns 1 and `none` when it
returns 0. -/
def lexer_pop (lx : Lexer) : Except Fault (Lexer × Option Nat) :=
  if lx.lx_tokens = [] then Except.ok (lx, none)
  else
    match lx.lx_st.st_tok with
    | none => lexer_pop_out { lx with lx_st := { lx.lx_st with st_tok := lx.lx_tokens.head? } }
    | some cur =>
      match deref lx.lx_heap cur with
      | Except.error e => Except.error e
      | Except.ok c =>
        if c.tk_type ≠ TOKEN_EOF then
          if lx.lx_peek = 0 ∧ token_is_branch c true = true then Except.ok (lx, none)
          else
            match tailq_next lx.lx_tokens cur with
            | none => Except.error Fault.nullDeref
            | some nx =>
              let lx1 := { lx with lx_st := { lx.lx_st with st_tok := some nx } }
              match deref lx.lx_heap nx with
              | Except.error e => Except.error e
              | Except.ok n =>
                if token_is_branch n true = false then lexer_pop_out lx1
                else
                  let lx2 := if lx1.lx_branch = none then { lx1 with lx_branch := some nx } else lx1
                  if lx2.lx_peek = 0 then Except.ok (lx2, none)
                  else
                    match branch_last lx.lx_heap.length lx.lx_heap nx with
                    | Except.error e => Except.error e
                    | Except.ok b =>
                      lexer_pop_out { lx2 with lx_st := { lx2.lx_st with st_tok := some b } }
        else lexer_pop_out lx

/-- The function `lexer_back`. -/
def lexer_back (lx : Lexer) : Option Nat :=
  lx.lx_st.st_tok

/-- The function `lexer_is_branch`. -/
def lexer_is_branch (lx : Lexer) : Except Fault Bool :=
  match lexer_back lx with
  | none => Except.ok false
  | some tk =>
    match deref lx.lx_heap tk with
    | Except.error e => Except.error e
    | Except.ok t => Except.ok (token_is_branch t true)

/-- The function `lexer_peek_enter`: the saved state and the lexer. -/
def lexer_peek_enter (lx : Lexer) : Lexer × LexerState :=
  ({ lx with lx_peek := lx.lx_peek + 1 }, lx.lx_st)

/-- The function `lexer_peek_leave`. -/
def lexer_peek_leave (lx : Lexer) (st : LexerState) : Except Fault Lexer :=
  if lx.lx_peek > 0 then Except.ok { lx with lx_st := st, lx_peek := lx.lx_peek - 1 }
  else Except.error Fault.assertion

/-- The function `lexer_emit_error`: the first error while no branch is
pending latches `st_err`; the diagnostic is written (through
`token_sprintf(tk)`, which dereferences `tk`) only for the first error outside
of a peek. -/
def lexer_emit_error (lx : Lexer) (tk : Option Nat) : Except Fault Lexer :=
  if lx.lx_branch ≠ none then Except.ok lx
  else
    let lx1 := { lx with lx_st := { lx.lx_st with st_err := (lx.lx_st.st_err + 1) % UINT_MOD } }
    if lx.lx_st.st_err > 0 then Except.ok lx1
    else if lx.lx_peek > 0 then Except.ok lx1
    else
      match tk with
      | none => Except.error Fault.nullDeref
      | some p =>
        match deref lx.lx_heap p with
        | Except.error e => Except.error e
        | Except.ok _ => Except.ok lx1

/-- The function `__lexer_expect`. -/
def __lexer_expect (lx : Lexer) (type : TokenType) : Except Fault (Lexer × Option Nat) := do
  let (lx, t) ← lexer_pop lx
  match t with
  | none =>
    let lx ← lexer_emit_error lx none
    return (lx, none)
  | some p =>
    let tok ← deref lx.lx_heap p
    if tok.tk_type = type then return (lx, some p)
    else
      let lx ← lexer_emit_error lx (some p)
      return (lx, none)

/-- The function `lexer_peek`. -/
def lexer_peek (lx : Lexer) : Except Fault (Lexer × Option Nat) := do
  let (lx, s) := lexer_peek_enter lx
  let (lx, t) ← lexer_pop lx
  let lx ← lexer_peek_leave lx s
  return (lx, t)

/-- The function `lexer_peek_if`. -/
def lexer_peek_if (lx : Lexer) (type : TokenType) : Except Fault (Lexer × Option Nat) := do
  let (lx, t) ← lexer_peek lx
  match t with
  | none => return (lx, none)
  | some p =>
    let tok ← deref lx.lx_heap p
    if tok.tk_type = type then return (lx, some p) else return (lx, none)

/-- The function `lexer_if`.  The result holds the return value and what was
stored to `*tk`: `lexer_peek_if` stores the token before `lexer_pop` is
tried. -/
def lexer_if (lx : Lexer) (type : TokenType) : Except Fault (Lexer × Bool × Option Nat) := do
  let (lx, tk) ← lexer_peek_if lx type
  match tk with
  | none => return (lx, false, none)
  | some p =>
    let (lx, t) ← lexer_pop lx
    return (lx, t.isSome, some p)

/-- The function `lexer_if_flags`. -/
def lexer_if_flags (lx : Lexer) (flags : Nat) : Except Fault (Lexer × Option Nat) := do
  let (lx, s) := lexer_peek_enter lx
  let (lx, t) ← lexer_pop lx
  let error ← (match t with
    | none => pure true
    | some p => do
      let tok ← deref lx.lx_heap p
      pure (decide (tok.tk_flags &&& flags = 0)) : Except Fault Bool)
  let lx ← lexer_peek_leave lx s
  if error then return (lx, none)
  else
    let (lx, t) ← lexer_pop lx
    return (lx, t)

/-- The function `lexer_peek_if_flags`. -/
def lexer_peek_if_flags (lx : Lexer) (flags : Nat) : Except Fault (Lexer × Option Nat) := do
  let (lx, s) := lexer_peek_enter lx
  let (lx, tk) ← lexer_if_flags lx flags
  let lx ← lexer_peek_leave lx s
  return (lx, tk)

/-- The loop of `lexer_peek_if_pair`, from the values of `t` and `pair`. -/
def lexer_peek_if_pair_loop (lhs rhs : TokenType) :
    Nat → Lexer → Option Nat → Int → Except Fault (Lexer × Option Nat × Int)
  | 0, _, _, _ => Except.error Fault.diverge
  | fuel + 1, lx, t, pair => do
    let (lx, t1) ← lexer_pop lx
    match t1 with
    | none => return (lx, t, pair)
    | some p =>
      let tok ← deref lx.lx_heap p
      if tok.tk_type = TOKEN_EOF then return (lx, some p, pair)
      else
        let pair := if tok.tk_type = lhs then pair + 1 else pair
        let pair := if tok.tk_type = rhs then pair - 1 else pair
        if pair = 0 then return (lx, some p, pair)
        else lexer_peek_if_pair_loop lhs rhs fuel lx (some p) pair

/-- The function `lexer_peek_if_pair`. -/
def lexer_peek_if_pair (lx : Lexer) (lhs rhs : TokenType) : Except Fault (Lexer × Option Nat) := do
  let (lx, b) ← lexer_peek_if lx lhs
  match b with
  | none => return (lx, none)
  | some _ =>
    let (lx, s) := lexer_peek_enter lx
    let (lx, t, pair) ← lexer_peek_if_pair_loop lhs rhs (lx.lx_tokens.length + 1) lx none 0
    let lx ← lexer_peek_leave lx s
    if lx.lx_st.st_err = 0 ∧ pair = 0 then return (lx, t) else return (lx, none)

/-- The function `lexer_if_pair`. -/
def lexer_if_pair (lx : Lexer) (lhs rhs : TokenType) : Except Fault (Lexer × Option Nat) := do
  let (lx, e) ← lexer_peek_if_pair lx lhs rhs
  match e with
  | none => return (lx, none)
  | some p => return ({ lx with lx_st := { lx.lx_st with st_tok := some p } }, some p)

/-- The function `__lexer_until`. -/
def __lexer_until (type : TokenType) (stop : Option Nat) :
    Nat → Lexer → Except Fault (Lexer × Option Nat)
  | 0, _ => Except.error Fault.diverge
  | fuel + 1, lx => do
    let (lx, t) ← lexer_pop lx
    match t with
    | none =>
      let lx ← lexer_emit_error lx none
      return (lx, none)
    | some p =>
      let tok ← deref lx.lx_heap p
      if tok.tk_type = TOKEN_EOF ∨ stop = some p then
        let lx ← lexer_emit_error lx (some p)
        return (lx, none)
      else if tok.tk_type = type then return (lx, some p)
      else __lexer_until type stop fuel lx

/-- The macro `lexer_until` of `extern.h`. -/
def lexer_until (lx : Lexer) (type : TokenType) : Except Fault (Lexer × Option Nat) :=
  __lexer_until type none (lx.lx_tokens.length + 1) lx

/-- The function `lexer_peek_until`. -/
def lexer_peek_until (lx : Lexer) (type : TokenType) : Except Fault (Lexer × Option Nat) := do
  let (lx, s) := lexer_peek_enter lx
  let (lx, tk) ← lexer_until lx type
  let lx ← lexer_peek_leave lx s
  return (lx, tk)

/-- The function `lexer_peek_until_stop`. -/
def lexer_peek_until_stop (lx : Lexer) (type : TokenType) (stop : Option Nat) :
    Except Fault (Lexer × Option Nat) := do
  let (lx, s) := lexer_peek_enter lx
  let (lx, tk) ← __lexer_until type stop (lx.lx_tokens.length + 1) lx
  let lx ← lexer_peek_leave lx s
  return (lx, tk)

/-- The loop of `lexer_peek_until_loose`, from the value of `nest`; the
result holds `peek` and `t`. -/
def lexer_peek_until_loose_loop (type : TokenType) (stop : Option Nat) :
    Nat → Lexer → Int → Except Fault (Lexer × Bool × Option Nat)
  | 0, _, _ => Except.error Fault.diverge
  | fuel + 1, lx, nest => do
    let (lx, t) ← lexer_pop lx
    match t with
    | none => return (lx, false, none)
    | some p =>
      let tok ← deref lx.lx_heap p
      if some p = stop ∨ tok.tk_type = TOKEN_EOF then return (lx, false, some p)
      else if tok.tk_type = type ∧ nest = 0 then return (lx, true, some p)
      else
        let nest :=
          if tok.tk_type = TOKEN_LPAREN ∨ tok.tk_type = TOKEN_LBRACE then nest + 1
          else if tok.tk_type = TOKEN_RPAREN ∨ tok.tk_type = TOKEN_RBRACE then nest - 1
          else nest
        lexer_peek_until_loose_loop type stop fuel lx nest

/-- The function `lexer_peek_until_loose`. -/
def lexer_peek_until_loose (lx : Lexer) (type : TokenType) (stop : Option Nat) :
    Except Fault (Lexer × Option Nat) := do
  let (lx, s) := lexer_peek_enter lx
  let (lx, peek, t) ← lexer_peek_until_loose_loop type stop (lx.lx_tokens.length + 1) lx 0
  let lx ← lexer_peek_leave lx s
  if peek then return (lx, t) else return (lx, none)

/-- The loop `while (lexer_if(lx, TOKEN_STAR, NULL)) continue` of
`lexer_peek_if_func_ptr`. -/
def lexer_if_star_loop : Nat → Lexer → Except Fault Lexer
  | 0, _ => Except.error Fault.diverge
  | fuel + 1, lx => do
    let (lx, r, _) ← lexer_if lx TOKEN_STAR
    if r then lexer_if_star_loop fuel lx else return lx

/-- The function `lexer_peek_if_func_ptr`: the token stored to `*tk` when the
function returns non-zero, `none` when it returns 0. -/
def lexer_peek_if_func_ptr (lx : Lexer) : Except Fault (Lexer × Option Nat) := do
  let (lx, s) := lexer_peek_enter lx
  let (lx, r1, _) ← lexer_if lx TOKEN_LPAREN
  let (lx, tk) ← (if r1 then do
      let (lx, r2, _) ← lexer_if lx TOKEN_STAR
      if r2 then do
        let lx ← lexer_if_star_loop (lx.lx_tokens.length + 1) lx
        let (lx, _) ← lexer_if_flags lx TOKEN_FLAG_QUALIFIER
        let (lx, _, _) ← lexer_if lx TOKEN_IDENT
        let (lx, _, _) ← lexer_if lx TOKEN_LSQUARE
        let (lx, _, _) ← lexer_if lx TOKEN_RSQUARE
        let (lx, r3, _) ← lexer_if lx TOKEN_RPAREN
        if r3 then do
          let (lx, lparen) ← lexer_peek_if lx TOKEN_LPAREN
          match lparen with
          | none => pure (lx, none)
          | some lp => do
            let (lx, tk) ← lexer_if_pair lx TOKEN_LPAREN TOKEN_RPAREN
            match tk with
            | none => pure (lx, none)
            | some e => do
              let tok ← deref lx.lx_heap lp
              let tok1 : Token := { tok with tk_flags := tok.tk_flags ||| TOKEN_FLAG_TYPE_ARGS }
              pure ({ lx with lx_heap := lx.lx_heap.set lp tok1 }, some e)
        else pure (lx, none)
      else pure (lx, none)
    else pure (lx, none) : Except Fault (Lexer × Option Nat))
  let lx ← lexer_peek_leave lx s
  return (lx, tk)

/-- The first probe of the identifier arm of `lexer_peek_if_type`: a single
type and no variable name (`ident = 1`). -/
def lexer_peek_if_type_unnamed (lx : Lexer) (ntokens : Nat) : Except Fault (Lexer × Bool) := do
  let (lx, ss) := lexer_peek_enter lx
  let (lx, ident) ← (if ntokens = 0 then do
      let (lx, r, _) ← lexer_if lx TOKEN_IDENT
      if r then do
        let (lx, r1, _) ← lexer_if lx TOKEN_RPAREN
        if r1 then pure (lx, true)
        else do
          let (lx, r2, _) ← lexer_if lx TOKEN_COMMA
          pure (lx, r2)
      else pure (lx, false)
    else pure (lx, false) : Except Fault (Lexer × Bool))
  let lx ← lexer_peek_leave lx ss
  return (lx, ident)

/-- The second probe of the identifier arm of `lexer_peek_if_type`: the value
of `ident`, 0 when the identifier is not part of the type. -/
def lexer_peek_if_type_ident (lx : Lexer) : Except Fault (Lexer × Bool) := do
  let (lx, ss) := lexer_peek_enter lx
  let (lx, r, _) ← lexer_if lx TOKEN_IDENT
  let (lx, stop) ← (if r then do
      let (lx, a) ← lexer_if_flags lx TOKEN_FLAG_ASSIGN
      if a.isSome then pure (lx, true) else do
      let (lx, b, _) ← lexer_if lx TOKEN_LSQUARE
      if b then pure (lx, true) else do
      let (lx, c, _) ← lexer_if lx TOKEN_LPAREN
      let (lx, c1) ← (if c then do
          let (lx, star) ← lexer_peek_if lx TOKEN_STAR
          pure (lx, star.isNone)
        else pure (lx, false) : Except Fault (Lexer × Bool))
      if c1 then pure (lx, true) else do
      let (lx, d, _) ← lexer_if lx TOKEN_RPAREN
      if d then pure (lx, true) else do
      let (lx, e, _) ← lexer_if lx TOKEN_SEMI
      if e then pure (lx, true) else do
      let (lx, f, _) ← lexer_if lx TOKEN_COMMA
      if f then pure (lx, true) else do
      let (lx, g, _) ← lexer_if lx TOKEN_COLON
      if g then pure (lx, true) else do
      let (lx, h, _) ← lexer_if lx TOKEN_ATTRIBUTE
      pure (lx, h)
    else pure (lx, false) : Except Fault (Lexer × Bool))
  let lx ← lexer_peek_leave lx ss
  return (lx, !stop)

/-- The loop of `lexer_peek_if_type`, from the values of `t`, `peek` and
`ntokens`; the result holds `t`, `peek`, `ntokens` and `unknown`. -/
def lexer_peek_if_type_loop :
    Nat → Lexer → Option Nat → Bool → Nat → Except Fault (Lexer × Option Nat × Bool × Nat × Bool)
  | 0, _, _, _, _ => Except.error Fault.diverge
  | fuel + 1, lx, t, peek, ntokens => do
    let (lx, e) ← lexer_peek_if lx TOKEN_EOF
    if e.isSome then return (lx, t, peek, ntokens, false)
    else
      let (lx, f) ← lexer_if_flags lx (TOKEN_FLAG_TYPE ||| TOKEN_FLAG_QUALIFIER ||| TOKEN_FLAG_STORAGE)
      match f with
      | some p =>
        let tok ← deref lx.lx_heap p
        let (lx, t) ← (if tok.tk_flags &&& TOKEN_FLAG_IDENT ≠ 0 then do
            let (lx, _, w) ← lexer_if lx TOKEN_IDENT
            pure (lx, w <|> some p)
          else pure (lx, some p) : Except Fault (Lexer × Option Nat))
        let (lx, w) ← lexer_if_pair lx TOKEN_LSQUARE TOKEN_RSQUARE
        lexer_peek_if_type_loop fuel lx (w <|> t) true (ntokens + 1)
      | none =>
        let (lx, r, w) ← lexer_if lx TOKEN_STAR
        let t := w <|> t
        if r then
          let (lx, i) ← lexer_peek_if lx TOKEN_IDENT
          if i.isSome then return (lx, t, peek, ntokens, false)
          else if ntokens = 0 then return (lx, t, peek, ntokens, false)
          else lexer_peek_if_type_loop fuel lx t true (ntokens + 1)
        else
          let (lx, i) ← lexer_peek_if lx TOKEN_IDENT
          if i.isSome then
            let (lx, ident) ← lexer_peek_if_type_unnamed lx ntokens
            if ident then
              let (lx, q) ← lexer_pop lx
              match q with
              | some q => return (lx, some q, true, ntokens, false)
              | none => return (lx, t, peek, ntokens, false)
            else
              let (lx, ident) ← lexer_peek_if_type_ident lx
              if !ident then return (lx, t, peek, ntokens, false)
              else
                let (lx, _, w) ← lexer_if lx TOKEN_IDENT
                lexer_peek_if_type_loop fuel lx (w <|> t) peek (ntokens + 1)
          else
            let (lx, fp) ← lexer_peek_if_func_ptr lx
            match fp with
            | some e =>
              match lexer_back lx with
              | some align =>
                let tok ← deref lx.lx_heap e
                let tok1 : Token := { tok with tk_align := some align }
                return ({ lx with lx_heap := lx.lx_heap.set e tok1 }, some e, true, ntokens, false)
              | none => return (lx, some e, true, ntokens, false)
            | none => return (lx, t, peek, ntokens, true)

/-- The function `lexer_peek_if_type`: the return value and the value of `t`,
which is stored to `*tk` when the function returns non-zero. -/
def lexer_peek_if_type (lx : Lexer) : Except Fault (Lexer × Bool × Option Nat) := do
  let (lx, b) ← lexer_peek lx
  match b with
  | none => return (lx, false, none)
  | some beg =>
    let (lx, s) := lexer_peek_enter lx
    let (lx, t, peek, ntokens, unknown) ←
      lexer_peek_if_type_loop (lx.lx_tokens.length + 1) lx none false 0
    let lx ← lexer_peek_leave lx s
    let btok ← deref lx.lx_heap beg
    let peek :=
      if ntokens = 1 ∧ btok.tk_flags &&& (TOKEN_FLAG_QUALIFIER ||| TOKEN_FLAG_STORAGE) ≠ 0 then false
      else if !peek ∧ !unknown ∧ ntokens > 0 then true
      else peek
    return (lx, peek, t)

/-- The function `lexer_if_type`. -/
def lexer_if_type (lx : Lexer) : Except Fault (Lexer × Option Nat) := do
  let (lx, peek, t) ← lexer_peek_if_type lx
  if peek then return ({ lx with lx_st := { lx.lx_st with st_tok := t } }, t)
  else return (lx, none)

/-! ## Calls made between `lexer_peek_enter` and `lexer_peek_leave` -/

/-- A call of `lexer_pop`, of one of the `lexer_peek*` functions or of one of
the `lexer_if*` functions, with its arguments. -/
inductive CursorCall where
  | pop
  | peek
  | peek_if (type : TokenType)
  | peek_if_flags (flags : Nat)
  | peek_if_pair (lhs rhs : TokenType)
  | peek_if_type
  | peek_until (type : TokenType)
  | peek_until_loose (type : TokenType) (stop : Option Nat)
  | peek_until_stop (type : TokenType) (stop : Option Nat)
  | if_ (type : TokenType)
  | if_flags (flags : Nat)
  | if_pair (lhs rhs : TokenType)
  | if_type
  deriving DecidableEq, Repr

/-- Run one call; the results of the call are dropped. -/
def CursorCall.run (lx : Lexer) : CursorCall → Except Fault Lexer
  | CursorCall.pop => (lexer_pop lx).map Prod.fst
  | CursorCall.peek => (lexer_peek lx).map Prod.fst
  | CursorCall.peek_if type => (lexer_peek_if lx type).map Prod.fst
  | CursorCall.peek_if_flags flags => (lexer_peek_if_flags lx flags).map Prod.fst
  | CursorCall.peek_if_pair lhs rhs => (lexer_peek_if_pair lx lhs rhs).map Prod.fst
  | CursorCall.peek_if_type => (lexer_peek_if_type lx).map Prod.fst
  | CursorCall.peek_until type => (lexer_peek_until lx type).map Prod.fst
  | CursorCall.peek_until_loose type stop => (lexer_peek_until_loose lx type stop).map Prod.fst
  | CursorCall.peek_until_stop type stop => (lexer_peek_until_stop lx type stop).map Prod.fst
  | CursorCall.if_ type => (lexer_if lx type).map Prod.fst
  | CursorCall.if_flags flags => (lexer_if_flags lx flags).map Prod.fst
  | CursorCall.if_pair lhs rhs => (lexer_if_pair lx lhs rhs).map Prod.fst
  | CursorCall.if_type => (lexer_if_type lx).map Prod.fst

/-- Run a sequence of calls, in order. -/
def run_calls : Lexer → List CursorCall → Except Fault Lexer
  | lx, [] => Except.ok lx
  | lx, c :: cs =>
    match c.run lx with
    | Except.error e => Except.error e
    | Except.ok lx1 => run_calls lx1 cs

/-- The calls `lexer_peek_enter(lx, &s)`, then the given calls, then
`lexer_peek_leave(lx, &s)`. -/
def peek_frame (lx : Lexer) (cs : List CursorCall) : Except Fault Lexer :=
  match run_calls (lexer_peek_enter lx).1 cs with
  | Except.error e => Except.error e
  | Except.ok lx1 => lexer_peek_leave lx1 (lexer_peek_enter lx).2

/-! ## Bytes -/

/-- The bytes of a string constant of the program. -/
def cstr (s : String) : List Nat :=
  s.toList.map Char.toNat

def CH_NUL : Nat := 0
def CH_TAB : Nat := 9
def CH_NEWLINE : Nat := 10
def CH_SPACE : Nat := 32
def CH_DQUOTE : Nat := 34
def CH_HASH : Nat := 35
def CH_SQUOTE : Nat := 39
def CH_STAR : Nat := 42
def CH_PERIOD : Nat := 46
def CH_SLASH : Nat := 47
def CH_UPPER_L : Nat := 76
def CH_BACKSLASH : Nat := 92
def CH_UNDERSCORE : Nat := 95
def CH_LOWER_L : Nat := 108
def CH_LOWER_U : Nat := 117
def CH_LOWER_X : Nat := 120

/-- The function `isdigit` of the C locale. -/
def isdigit (c : Nat) : Bool := decide (48 ≤ c ∧ c ≤ 57)

/-- The function `isalpha` of the C locale. -/
def isalpha (c : Nat) : Bool := decide ((65 ≤ c ∧ c ≤ 90) ∨ (97 ≤ c ∧ c ≤ 122))

/-- The function `isalnum` of the C locale. -/
def isalnum (c : Nat) : Bool := isalpha c || isdigit c

/-- The function `isxdigit` of the C locale. -/
def isxdigit (c : Nat) : Bool :=
  isdigit c || decide ((65 ≤ c ∧ c ≤ 70) ∨ (97 ≤ c ∧ c ≤ 102))

/-- The function `tolower` of the C locale. -/
def tolower (c : Nat) : Nat := if 65 ≤ c ∧ c ≤ 90 then c + 32 else c

/-- The function `isnum`. -/
def isnum (ch : Nat) (pfx : Bool) : Bool :=
  if pfx then isdigit ch
  else
    let ch := tolower ch
    isdigit ch || isxdigit ch || decide (ch = CH_LOWER_L) || decide (ch = CH_LOWER_X) ||
      decide (ch = CH_LOWER_U) || decide (ch = CH_PERIOD)

/-! ## Token templates and the keyword table -/

def tkcomment : Token := { tk_type := TOKEN_COMMENT, tk_flags := TOKEN_FLAG_DANGLING }
def tkcpp : Token := { tk_type := TOKEN_CPP, tk_flags := TOKEN_FLAG_DANGLING }
def tkeof : Token := { tk_type := TOKEN_EOF, tk_str := StrPtr.static [] }
def tkerr : Token := { tk_type := TOKEN_ERROR, tk_str := StrPtr.static [] }
def tkident : Token := { tk_type := TOKEN_IDENT }
def tkline : Token :=
  { tk_type := TOKEN_SPACE, tk_str := StrPtr.static [CH_NEWLINE], tk_len := 1,
    tk_flags := TOKEN_FLAG_DANGLING }
def tklit : Token := { tk_type := TOKEN_LITERAL }
def tkspace : Token := { tk_type := TOKEN_SPACE, tk_flags := TOKEN_FLAG_DANGLING }
def tkstr : Token := { tk_type := TOKEN_STRING }
def tkunknown : Token := { tk_type := TOKEN_UNKNOWN }

/-- The macro `T(t, s, f)` of `lexer_init`: an entry of the array `keywords`. -/
def T (t : TokenType) (s : String) (f : Nat) : Token :=
  { tk_type := t, tk_lno := 0, tk_cno := 0, tk_flags := f,
    tk_str := StrPtr.static (cstr s), tk_len := (cstr s).length }

/-- The array `keywords` of `lexer_init`: the entries of `token.h` before the
first one of type `TOKEN_NONE`, where the loop of `lexer_init` stops. -/
def keywords : List Token := [
  T TOKEN_ATTRIBUTE "__attribute__" 0,
  T TOKEN_BREAK "break" 0,
  T TOKEN_CASE "case" 0,
  T TOKEN_CHAR "char" TOKEN_FLAG_TYPE,
  T TOKEN_CONST "const" TOKEN_FLAG_QUALIFIER,
  T TOKEN_CONTINUE "continue" 0,
  T TOKEN_DEFAULT "default" 0,
  T TOKEN_DO "do" 0,
  T TOKEN_DOUBLE "double" TOKEN_FLAG_TYPE,
  T TOKEN_ELSE "else" 0,
  T TOKEN_ENUM "enum" (TOKEN_FLAG_TYPE ||| TOKEN_FLAG_IDENT),
  T TOKEN_EXTERN "extern" TOKEN_FLAG_STORAGE,
  T TOKEN_FLOAT "float" TOKEN_FLAG_TYPE,
  T TOKEN_FOR "for" 0,
  T TOKEN_GOTO "goto" 0,
  T TOKEN_IF "if" 0,
  T TOKEN_INLINE "inline" TOKEN_FLAG_STORAGE,
  T TOKEN_INT "int" TOKEN_FLAG_TYPE,
  T TOKEN_LONG "long" TOKEN_FLAG_TYPE,
  T TOKEN_REGISTER "register" TOKEN_FLAG_STORAGE,
  T TOKEN_RETURN "return" 0,
  T TOKEN_SHORT "short" TOKEN_FLAG_TYPE,
  T TOKEN_SIGNED "signed" TOKEN_FLAG_TYPE,
  T TOKEN_SIZEOF "sizeof" 0,
  T TOKEN_STATIC "static" TOKEN_FLAG_STORAGE,
  T TOKEN_STRUCT "struct" (TOKEN_FLAG_TYPE ||| TOKEN_FLAG_IDENT),
  T TOKEN_SWITCH "switch" 0,
  T TOKEN_TYPEDEF "typedef" TOKEN_FLAG_TYPE,
  T TOKEN_UNION "union" (TOKEN_FLAG_TYPE ||| TOKEN_FLAG_IDENT),
  T TOKEN_UNSIGNED "unsigned" TOKEN_FLAG_TYPE,
  T TOKEN_VOID "void" TOKEN_FLAG_TYPE,
  T TOKEN_VOLATILE "volatile" TOKEN_FLAG_QUALIFIER,
  T TOKEN_WHILE "while" 0,
  T TOKEN_LSQUARE "[" 0,
  T TOKEN_RSQUARE "]" 0,
  T TOKEN_LPAREN "(" 0,
  T TOKEN_RPAREN ")" 0,
  T TOKEN_LBRACE "\x7b" 0,
  T TOKEN_RBRACE "\x7d" 0,
  T TOKEN_PERIOD "." TOKEN_FLAG_AMBIGUOUS,
  T TOKEN_ELLIPSIS "..." TOKEN_FLAG_TYPE,
  T TOKEN_AMP "&" (TOKEN_FLAG_AMBIGUOUS ||| TOKEN_FLAG_BINARY),
  T TOKEN_AMPAMP "&&" TOKEN_FLAG_BINARY,
  T TOKEN_AMPEQUAL "&=" TOKEN_FLAG_ASSIGN,
  T TOKEN_STAR "*" (TOKEN_FLAG_AMBIGUOUS ||| TOKEN_FLAG_BINARY),
  T TOKEN_STAREQUAL "*=" TOKEN_FLAG_ASSIGN,
  T TOKEN_PLUS "+" (TOKEN_FLAG_AMBIGUOUS ||| TOKEN_FLAG_BINARY),
  T TOKEN_PLUSPLUS "++" 0,
  T TOKEN_PLUSEQUAL "+=" TOKEN_FLAG_ASSIGN,
  T TOKEN_MINUS "-" (TOKEN_FLAG_AMBIGUOUS ||| TOKEN_FLAG_BINARY),
  T TOKEN_ARROW "->" 0,
  T TOKEN_MINUSMINUS "--" 0,
  T TOKEN_MINUSEQUAL "-=" TOKEN_FLAG_ASSIGN,
  T TOKEN_TILDE "~" 0,
  T TOKEN_EXCLAIM "!" TOKEN_FLAG_AMBIGUOUS,
  T TOKEN_EXCLAIMEQUAL "!=" TOKEN_FLAG_BINARY,
  T TOKEN_SLASH "/" (TOKEN_FLAG_AMBIGUOUS ||| TOKEN_FLAG_BINARY),
  T TOKEN_SLASHEQUAL "/=" TOKEN_FLAG_ASSIGN,
  T TOKEN_PERCENT "%" (TOKEN_FLAG_AMBIGUOUS ||| TOKEN_FLAG_BINARY),
  T TOKEN_PERCENTEQUAL "%=" TOKEN_FLAG_ASSIGN,
  T TOKEN_LESS "<" (TOKEN_FLAG_AMBIGUOUS ||| TOKEN_FLAG_BINARY),
  T TOKEN_LESSLESS "<<" (TOKEN_FLAG_AMBIGUOUS ||| TOKEN_FLAG_BINARY),
  T TOKEN_LESSEQUAL "<=" TOKEN_FLAG_BINARY,
  T TOKEN_LESSLESSEQUAL "<<=" TOKEN_FLAG_ASSIGN,
  T TOKEN_GREATER ">" (TOKEN_FLAG_AMBIGUOUS ||| TOKEN_FLAG_BINARY),
  T TOKEN_GREATERGREATER ">>" (TOKEN_FLAG_AMBIGUOUS ||| TOKEN_FLAG_BINARY),
  T TOKEN_GREATEREQUAL ">=" TOKEN_FLAG_ASSIGN,
  T TOKEN_GREATERGREATEREQUAL ">>=" TOKEN_FLAG_ASSIGN,
  T TOKEN_CARET "^" TOKEN_FLAG_AMBIGUOUS,
  T TOKEN_CARETEQUAL "^=" TOKEN_FLAG_ASSIGN,
  T TOKEN_PIPE "|" (TOKEN_FLAG_AMBIGUOUS ||| TOKEN_FLAG_BINARY),
  T TOKEN_PIPEPIPE "||" TOKEN_FLAG_BINARY,
  T TOKEN_PIPEEQUAL "|=" TOKEN_FLAG_ASSIGN,
  T TOKEN_QUESTION "?" 0,
  T TOKEN_COLON ":" 0,
  T TOKEN_SEMI ";" 0,
  T TOKEN_EQUAL "=" (TOKEN_FLAG_AMBIGUOUS ||| TOKEN_FLAG_ASSIGN),
  T TOKEN_EQUALEQUAL "==" TOKEN_FLAG_BINARY,
  T TOKEN_COMMA "," 0,
  T TOKEN_BACKSLASH "\\" TOKEN_FLAG_DISCARD,
  T TOKEN_COMMENT "" 0,
  T TOKEN_CPP "" 0,
  T TOKEN_EOF "" 0,
  T TOKEN_ERROR "" 0,
  T TOKEN_IDENT "" 0,
  T TOKEN_LITERAL "" 0,
  T TOKEN_SPACE "" 0,
  T TOKEN_STRING "" 0,
  T TOKEN_UNKNOWN "" 0 ]

/-- The hash map `tokens` as filled by `lexer_init`: the entries of
`keywords` with `tk_len > 0`. -/
def tokens : List Token :=
  keywords.filter (fun th => decide (th.tk_len > 0))

/-- The lookup `HASH_FIND(th_hh, tokens, key, len, th)`: the entry whose key
is the given byte string. -/
def hash_find (key : List Nat) : Option Token :=
  tokens.find? (fun th => decide (th.tk_str = StrPtr.static key))

/-! ## Scanner -/

/-- The function `lexer_getc`: `none` when the function returns 1, else the
byte stored to `*ch`. -/
def lexer_getc (lx : Lexer) : Except Fault (Lexer × Option Nat) :=
  if lx.lx_st.st_off = lx.lx_bf.length then
    if lx.lx_eof > 0 then Except.ok ({ lx with lx_eof := lx.lx_eof + 1 }, none)
    else Except.ok ({ lx with lx_eof := lx.lx_eof + 1 }, some CH_NUL)
  else
    match lx.lx_bf[lx.lx_st.st_off]? with
    | none => Except.error Fault.outOfBounds
    | some c =>
      if c = CH_NEWLINE then
        Except.ok ({ lx with lx_st := { lx.lx_st with
          st_off := lx.lx_st.st_off + 1,
          st_lno := (lx.lx_st.st_lno + 1) % UINT_MOD,
          st_cno := 1 } }, some c)
      else
        Except.ok ({ lx with lx_st := { lx.lx_st with
          st_off := lx.lx_st.st_off + 1,
          st_cno := (lx.lx_st.st_cno + 1) % UINT_MOD } }, some c)

/-- The function `lexer_ungetc`. -/
def lexer_ungetc (lx : Lexer) : Except Fault Lexer :=
  if lx.lx_eof ≠ 0 then Except.ok lx
  else if lx.lx_st.st_off = 0 then Except.error Fault.assertion
  else
    match lx.lx_bf[lx.lx_st.st_off - 1]? with
    | none => Except.error Fault.outOfBounds
    | some c =>
      if c = CH_NEWLINE then
        if lx.lx_st.st_lno = 0 then Except.error Fault.assertion
        else Except.ok { lx with lx_st := { lx.lx_st with
          st_off := lx.lx_st.st_off - 1, st_lno := lx.lx_st.st_lno - 1, st_cno := 1 } }
      else
        if lx.lx_st.st_cno = 0 then Except.error Fault.assertion
        else Except.ok { lx with lx_st := { lx.lx_st with
          st_off := lx.lx_st.st_off - 1, st_cno := lx.lx_st.st_cno - 1 } }

/-- The function `lexer_eof`. -/
def lexer_eof (lx : Lexer) : Bool :=
  decide (lx.lx_st.st_off = lx.lx_bf.length)

/-- The bytes of the buffer from the offset of `st` up to the current
offset. -/
def lexer_buffer_slice (lx : Lexer) (st : LexerState) : List Nat :=
  (lx.lx_bf.drop st.st_off).take (lx.lx_st.st_off - st.st_off)

/-- The function `lexer_find_token`. -/
def lexer_find_token (lx : Lexer) (st : LexerState) : Option Token :=
  hash_find (lexer_buffer_slice lx st)

/-- The function `lexer_buffer_strcmp`. -/
def lexer_buffer_strcmp (lx : Lexer) (st : LexerState) (str : List Nat) : Bool :=
  if str.length > lx.lx_st.st_off - st.st_off then false
  else decide ((lx.lx_bf.drop st.st_off).take str.length = str)

/-! ## Emission -/

/-- The pointer returned by `lexer_emit`: a token linked into the main stream
(its index in the arena) or a token that is not linked. -/
inductive TokRef where
  | linked (ptr : Nat)
  | loose (tk : Dangling)
  deriving DecidableEq, Repr

/-- The function `lexer_emit`. -/
def lexer_emit (lx : Lexer) (st : LexerState) (tk : Token) : Lexer × TokRef :=
  let t : Token := { tk with tk_lno := st.st_lno, tk_cno := st.st_cno }
  let t : Token :=
    if t.tk_str = StrPtr.null then
      { t with tk_str := StrPtr.buf st.st_off, tk_len := lx.lx_st.st_off - st.st_off }
    else t
  let t : Token := { t with tk_prefixes := [], tk_suffixes := [] }
  if t.tk_flags &&& TOKEN_FLAG_DANGLING = 0 then
    ({ lx with lx_heap := lx.lx_heap ++ [t], lx_tokens := lx.lx_tokens ++ [lx.lx_heap.length] },
      TokRef.linked lx.lx_heap.length)
  else (lx, TokRef.loose t.toDangling)

/-- The token behind a pointer that its user appends to a prefix or suffix
list; appending a token that is linked into the main stream would corrupt
both queues. -/
def TokRef.dangling : TokRef → Except Fault Dangling
  | TokRef.loose tk => Except.ok tk
  | TokRef.linked _ => Except.error Fault.assertion

/-- The pointer to a token that its user treats as a token of the main
stream. -/
def TokRef.ptr : TokRef → Except Fault Nat
  | TokRef.linked p => Except.ok p
  | TokRef.loose _ => Except.error Fault.assertion

/-! ## Classifier -/

/-- The loop of `lexer_eat_lines`, from the value of `nlines`. -/
def lexer_eat_lines_loop : Nat → Lexer → Nat → Except Fault (Lexer × Nat)
  | 0, _, _ => Except.error Fault.diverge
  | fuel + 1, lx, nlines => do
    let (lx, ch) ← lexer_getc lx
    match ch with
    | none => return (lx, nlines)
    | some ch =>
      if ch = CH_NEWLINE then lexer_eat_lines_loop fuel lx (nlines + 1)
      else
        let lx ← lexer_ungetc lx
        return (lx, nlines)

/-- The function `lexer_eat_lines`. -/
def lexer_eat_lines (lx : Lexer) (emit : Bool) : Except Fault (Lexer × Option TokRef) := do
  let st := lx.lx_st
  let (lx, nlines) ← lexer_eat_lines_loop (lx.lx_bf.length + 2) lx 0
  if nlines ≤ 1 then return (lx, none)
  else if emit then
    let (lx, t) := lexer_emit lx st tkline
    return (lx, some t)
  else return (lx, none)

/-- The loop of `lexer_eat_space`: `none` when `lexer_getc` fails (the
function returns `NULL` at once), else the lexer after the first byte that is
not skipped. -/
def lexer_eat_space_loop (newline : Bool) : Nat → Lexer → Except Fault (Lexer × Bool)
  | 0, _ => Except.error Fault.diverge
  | fuel + 1, lx => do
    let (lx, ch) ← lexer_getc lx
    match ch with
    | none => return (lx, false)
    | some ch =>
      if ch = CH_SPACE ∨ ch = CH_TAB ∨ (ch = CH_NEWLINE ∧ newline = true) then
        lexer_eat_space_loop newline fuel lx
      else return (lx, true)

/-- The function `lexer_eat_space`. -/
def lexer_eat_space (lx : Lexer) (newline emit : Bool) : Except Fault (Lexer × Option TokRef) := do
  let st := lx.lx_st
  let (lx, more) ← lexer_eat_space_loop newline (lx.lx_bf.length + 2) lx
  if !more then return (lx, none)
  else
    let lx ← lexer_ungetc lx
    if !emit ∨ st.st_off = lx.lx_st.st_off then return (lx, none)
    else
      let (lx, t) := lexer_emit lx st tkspace
      return (lx, some t)

/-- The function `lexer_ellipsis`, called with the offset after the first
period: the entry of the table for the three periods. -/
def lexer_ellipsis (lx : Lexer) (st : LexerState) : Except Fault (Lexer × Option Token) := do
  let oldst := lx.lx_st
  if lexer_eof lx then return ({ lx with lx_st := oldst }, none)
  else
    let (lx, ch) ← lexer_getc lx
    if ch ≠ some CH_PERIOD then return ({ lx with lx_st := oldst }, none)
    else if lexer_eof lx then return ({ lx with lx_st := oldst }, none)
    else
      let (lx, ch) ← lexer_getc lx
      if ch ≠ some CH_PERIOD then return ({ lx with lx_st := oldst }, none)
      else return (lx, lexer_find_token lx st)

/-- The loop of `lexer_keyword`, from the value of `pv`: the value of `tk`
after the loop. -/
def lexer_keyword_loop (st : LexerState) :
    Nat → Lexer → Option Token → Except Fault (Lexer × Option Token)
  | 0, _, _ => Except.error Fault.diverge
  | fuel + 1, lx, pv =>
    match lexer_find_token lx st with
    | none => do
      let lx ← lexer_ungetc lx
      return (lx, pv)
    | some tmp =>
      if tmp.tk_flags &&& TOKEN_FLAG_AMBIGUOUS = 0 then return (lx, some tmp)
      else do
        let (lx, ellipsis) ← (if tmp.tk_type = TOKEN_PERIOD then lexer_ellipsis lx st
          else pure (lx, none) : Except Fault (Lexer × Option Token))
        match ellipsis with
        | some e => return (lx, some e)
        | none =>
          let (lx, ch) ← lexer_getc lx
          match ch with
          | none => return (lx, some tmp)
          | some _ => lexer_keyword_loop st fuel lx (some tmp)

/-- The value returned by `lexer_keyword` when it is not `NULL`: the entry of
the table itself, for an entry with the flag `DISCARD`, or the token
emitted. -/
inductive Keyword where
  | discard (tk : Token)
  | emitted (t : TokRef)
  deriving DecidableEq, Repr

/-- The function `lexer_keyword`. -/
def lexer_keyword (lx : Lexer) : Except Fault (Lexer × Option Keyword) := do
  let st := lx.lx_st
  let (lx, ch) ← lexer_getc lx
  match ch with
  | none => return (lx, none)
  | some _ =>
    let (lx, tk) ← lexer_keyword_loop st (lx.lx_bf.length + 2) lx none
    match tk with
    | none => return ({ lx with lx_st := st }, none)
    | some tk =>
      if tk.tk_flags &&& TOKEN_FLAG_DISCARD ≠ 0 then return (lx, some (Keyword.discard tk))
      else
        let (lx, t) := lexer_emit lx st tk
        return (lx, some (Keyword.emitted t))

/-- The inner loop of `lexer_comment`, from the value of `ch`. -/
def lexer_comment_body (cstyle : Bool) : Nat → Lexer → Nat → Except Fault Lexer
  | 0, _, _ => Except.error Fault.diverge
  | fuel + 1, lx, ch => do
    let (lx, peek) ← lexer_getc lx
    match peek with
    | none => return lx
    | some peek =>
      if cstyle then
        if ch = CH_STAR ∧ peek = CH_SLASH then return lx
        else lexer_comment_body cstyle fuel lx peek
      else
        if peek = CH_NEWLINE then lexer_ungetc lx
        else lexer_comment_body cstyle fuel lx ch

/-- The outer loop of `lexer_comment`, from the value of `ncomments`. -/
def lexer_comment_loop (block : Bool) : Nat → Lexer → Nat → Except Fault (Lexer × Nat)
  | 0, _, _ => Except.error Fault.diverge
  | fuel + 1, lx, ncomments => do
    let oldst := lx.lx_st
    let (lx, _) ← lexer_eat_space lx block false
    let (lx, ch) ← lexer_getc lx
    if ch ≠ some CH_SLASH then return ({ lx with lx_st := oldst }, ncomments)
    else
      let (lx, ch) ← lexer_getc lx
      if ch ≠ some CH_SLASH ∧ ch ≠ some CH_STAR then return ({ lx with lx_st := oldst }, ncomments)
      else
        let cstyle := decide (ch = some CH_STAR)
        let lx ← lexer_comment_body cstyle (lx.lx_bf.length + 2) lx CH_NUL
        if !block then return (lx, ncomments + 1)
        else lexer_comment_loop block fuel lx (ncomments + 1)

/-- The function `lexer_comment`. -/
def lexer_comment (lx : Lexer) (block : Bool) : Except Fault (Lexer × Option TokRef) := do
  let st := lx.lx_st
  let (lx, ncomments) ← lexer_comment_loop block (lx.lx_bf.length + 2) lx 0
  if ncomments = 0 then return (lx, none)
  else
    let lx ← (if block then do
        let (lx, _) ← lexer_eat_space lx false false
        let (lx, _) ← lexer_eat_lines lx false
        pure lx
      else pure lx : Except Fault Lexer)
    let (lx, t) := lexer_emit lx st tkcomment
    return (lx, some t)

/-- The inner loop of `lexer_cpp`, from the values of `ch` and `comment`. -/
def lexer_cpp_line : Nat → Lexer → Nat → Bool → Except Fault Lexer
  | 0, _, _, _ => Except.error Fault.diverge
  | fuel + 1, lx, ch, comment => do
    let (lx, peek) ← lexer_getc lx
    match peek with
    | none => return lx
    | some peek =>
      if ch = CH_SLASH ∧ peek = CH_STAR then lexer_cpp_line fuel lx peek true
      else if comment = true ∧ ch = CH_STAR ∧ peek = CH_SLASH then lexer_cpp_line fuel lx peek false
      else if comment = false ∧ ch ≠ CH_BACKSLASH ∧ peek = CH_NEWLINE then return lx
      else lexer_cpp_line fuel lx peek comment

/-- The outer loop of `lexer_cpp`, from the values of `ncpp` and `off`: the
values of `type` and `ncpp` after the loop. -/
def lexer_cpp_loop : Nat → Lexer → Nat → Int → Except Fault (Lexer × TokenType × Nat)
  | 0, _, _, _ => Except.error Fault.diverge
  | fuel + 1, lx, ncpp, off => do
    let oldst := lx.lx_st
    let (lx, _) ← lexer_eat_space lx true false
    let cppst := lx.lx_st
    let (lx, ch) ← lexer_getc lx
    match ch with
    | none => return ({ lx with lx_st := oldst }, TOKEN_CPP, ncpp)
    | some ch =>
      if ch ≠ CH_HASH ∧ off = 0 then return ({ lx with lx_st := oldst }, TOKEN_CPP, ncpp)
      else
        let lx ← lexer_cpp_line (lx.lx_bf.length + 2) lx CH_NUL false
        let ncpp := ncpp + 1
        if off ≠ 0 then
          if lexer_buffer_strcmp lx cppst (cstr "#if") then lexer_cpp_loop fuel lx ncpp (off + 1)
          else if lexer_buffer_strcmp lx cppst (cstr "#endif") then
            lexer_cpp_loop fuel lx ncpp (off - 1)
          else lexer_cpp_loop fuel lx ncpp off
        else
          if lexer_buffer_strcmp lx cppst (cstr "#if 0") ||
              lexer_buffer_strcmp lx cppst (cstr "#ifdef notyet") then
            lexer_cpp_loop fuel lx ncpp (off + 1)
          else if lexer_buffer_strcmp lx cppst (cstr "#if") then return (lx, TOKEN_CPP_IF, ncpp)
          else if lexer_buffer_strcmp lx cppst (cstr "#else") ||
              lexer_buffer_strcmp lx cppst (cstr "#elif") then
            return (lx, TOKEN_CPP_ELSE, ncpp)
          else if lexer_buffer_strcmp lx cppst (cstr "#endif") then
            return (lx, TOKEN_CPP_ENDIF, ncpp)
          else lexer_cpp_loop fuel lx ncpp off

/-- The function `lexer_cpp`. -/
def lexer_cpp (lx : Lexer) : Except Fault (Lexer × Option TokRef) := do
  let st := lx.lx_st
  let (lx, type, ncpp) ← lexer_cpp_loop (lx.lx_bf.length + 2) lx 0 0
  if ncpp = 0 then return (lx, none)
  else
    let (lx, _) ← lexer_eat_lines lx false
    let cpp : Token := { tkcpp with tk_type := type }
    let (lx, t) := lexer_emit lx st cpp
    return (lx, some t)

/-! ## Branches -/

/-- Assignment through a token pointer. -/
def heap_update (heap : List Token) (p : Nat) (f : Token → Token) : Except Fault (List Token) :=
  match heap[p]? with
  | none => Except.error Fault.nullDeref
  | some t => Except.ok (heap.set p (f t))

/-- The function `lexer_branch_enter`. -/
def lexer_branch_enter (lx : Lexer) (tk : Nat) : Except Fault Lexer := do
  let t ← deref lx.lx_heap tk
  let heap ← (match t.br_pv with
    | some pv => do
      let heap ← heap_update lx.lx_heap pv (fun x => { x with br_nx := none })
      heap_update heap tk (fun x => { x with br_pv := none })
    | none => pure lx.lx_heap : Except Fault (List Token))
  return { lx with lx_heap := heap, lx_branches := lx.lx_branches ++ [tk] }

/-- The function `lexer_branch_leave`. -/
def lexer_branch_leave (lx : Lexer) (_tk : Nat) : Except Fault Lexer :=
  match lx.lx_branches.getLast? with
  | none => Except.error Fault.nullDeref
  | some _ => Except.ok { lx with lx_branches := lx.lx_branches.dropLast }

/-- The function `lexer_branch_link`. -/
def lexer_branch_link (lx : Lexer) (tk : Nat) : Except Fault Lexer :=
  match lx.lx_branches.getLast? with
  | none => Except.error Fault.nullDeref
  | some br_tk =>
    if br_tk = tk then Except.ok lx
    else do
      let heap ← heap_update lx.lx_heap br_tk (fun x => { x with br_nx := some tk })
      let heap ← heap_update heap tk (fun x => { x with br_pv := some br_tk })
      return { lx with lx_heap := heap, lx_branches := lx.lx_branches.dropLast ++ [tk] }

/-! ## `lexer_read` -/

/-- The first loop of `lexer_read`: comments and preprocessor directives
before the token, from the list `dangling` so far. -/
def lexer_read_dangling : Nat → Lexer → List Dangling → Except Fault (Lexer × List Dangling)
  | 0, _, _ => Except.error Fault.diverge
  | fuel + 1, lx, dangling => do
    let (lx, tmp) ← lexer_comment lx true
    match tmp with
    | some t =>
      let d ← t.dangling
      lexer_read_dangling fuel lx (dangling ++ [d])
    | none =>
      let (lx, tmp) ← lexer_cpp lx
      match tmp with
      | some t =>
        let d ← t.dangling
        lexer_read_dangling fuel lx (dangling ++ [d])
      | none => return (lx, dangling)

/-- The second loop of `lexer_read`: the keyword emitted (the jump to `out`),
or `none` when the loop is left by `break`. -/
def lexer_read_keyword : Nat → Lexer → Except Fault (Lexer × Option Nat)
  | 0, _ => Except.error Fault.diverge
  | fuel + 1, lx => do
    let (lx, _) ← lexer_eat_space lx true false
    let (lx, tk) ← lexer_keyword lx
    match tk with
    | none => return (lx, none)
    | some (Keyword.discard tk) =>
      if tk.tk_flags &&& TOKEN_FLAG_DISCARD ≠ 0 then lexer_read_keyword fuel lx
      else Except.error Fault.assertion
    | some (Keyword.emitted t) =>
      let p ← t.ptr
      let tok ← deref lx.lx_heap p
      if tok.tk_flags &&& TOKEN_FLAG_DISCARD ≠ 0 then lexer_read_keyword fuel lx
      else return (lx, some p)

/-- The loop of the string and character literals of `lexer_read`, from the
value of `pch`: `false` when `lexer_getc` fails (the jump to `eof`). -/
def lexer_read_string (delim : Nat) : Nat → Lexer → Nat → Except Fault (Lexer × Bool)
  | 0, _, _ => Except.error Fault.diverge
  | fuel + 1, lx, pch => do
    let (lx, ch) ← lexer_getc lx
    match ch with
    | none => return (lx, false)
    | some ch =>
      if pch = CH_BACKSLASH ∧ ch = CH_BACKSLASH then lexer_read_string delim fuel lx CH_NUL
      else if pch ≠ CH_BACKSLASH ∧ ch = delim then return (lx, true)
      else lexer_read_string delim fuel lx ch

/-- The loop of the numeric literals of `lexer_read`: `false` when
`lexer_getc` fails. -/
def lexer_read_number : Nat → Lexer → Except Fault (Lexer × Bool)
  | 0, _ => Except.error Fault.diverge
  | fuel + 1, lx => do
    let (lx, ch) ← lexer_getc lx
    match ch with
    | none => return (lx, false)
    | some ch => if isnum ch false then lexer_read_number fuel lx else return (lx, true)

/-- The loop of the identifiers of `lexer_read`, from the value of `ch`:
`false` when `lexer_getc` fails. -/
def lexer_read_ident : Nat → Lexer → Nat → Except Fault (Lexer × Bool)
  | 0, _, _ => Except.error Fault.diverge
  | fuel + 1, lx, ch =>
    if isalnum ch ∨ ch = CH_UNDERSCORE then do
      let (lx, ch) ← lexer_getc lx
      match ch with
      | none => return (lx, false)
      | some ch => lexer_read_ident fuel lx ch
    else return (lx, true)

/-- The loop of the trailing comments of `lexer_read`, after the label
`out`. -/
def lexer_read_suffixes : Nat → Lexer → Nat → Except Fault Lexer
  | 0, _, _ => Except.error Fault.diverge
  | fuel + 1, lx, tk => do
    let (lx, tmp) ← lexer_comment lx false
    match tmp with
    | none => return lx
    | some t =>
      let d ← t.dangling
      let heap ← heap_update lx.lx_heap tk (fun x => { x with tk_suffixes := x.tk_suffixes ++ [d] })
      lexer_read_suffixes fuel { lx with lx_heap := heap } tk

/-- The loop over the prefixes at the end of `lexer_read`. -/
def lexer_read_branches (tk : Nat) : Lexer → List Dangling → Except Fault Lexer
  | lx, [] => Except.ok lx
  | lx, tmp :: rest =>
    if tmp.tk_type = TOKEN_CPP_IF then do
      let lx ← lexer_branch_enter lx tk
      lexer_read_branches tk lx rest
    else if tmp.tk_type = TOKEN_CPP_ELSE then do
      let lx ← lexer_branch_link lx tk
      lexer_read_branches tk lx rest
    else if tmp.tk_type = TOKEN_CPP_ENDIF then do
      let lx ← lexer_branch_link lx tk
      let lx ← lexer_branch_leave lx tk
      lexer_read_branches tk lx rest
    else lexer_read_branches tk lx rest

/-- The part of `lexer_read` from the label `out`, for the token `*tk`. -/
def lexer_read_out (lx : Lexer) (tk : Nat) (dangling : List Dangling) : Except Fault Lexer := do
  let heap ← heap_update lx.lx_heap tk (fun x => { x with tk_prefixes := x.tk_prefixes ++ dangling })
  let lx := { lx with lx_heap := heap }
  let lx ← lexer_read_suffixes (lx.lx_bf.length + 2) lx tk
  let (lx, tmp) ← lexer_eat_lines lx true
  let lx ← (match tmp with
    | none => pure lx
    | some t => do
      let d ← t.dangling
      let heap ← heap_update lx.lx_heap tk (fun x => { x with tk_suffixes := x.tk_suffixes ++ [d] })
      pure { lx with lx_heap := heap } : Except Fault Lexer)
  let t ← deref lx.lx_heap tk
  lexer_read_branches tk lx t.tk_prefixes

/-- Emission of a token of the main stream by `lexer_read`, followed by the
jump to `out`. -/
def lexer_read_emit (lx : Lexer) (st : LexerState) (tmpl : Token) (dangling : List Dangling) :
    Except Fault (Lexer × Nat) := do
  let (lx, t) := lexer_emit lx st tmpl
  let p ← t.ptr
  let lx ← lexer_read_out lx p dangling
  return (lx, p)

/-- The function `lexer_read`: the return value and the token stored to
`*tk`. -/
def lexer_read (lx : Lexer) : Except Fault (Lexer × Bool × Nat) := do
  let st := lx.lx_st
  if lx.lx_st.st_err ≠ 0 then
    let (lx, p) ← lexer_read_emit lx st tkerr []
    return (lx, false, p)
  else
    let (lx, dangling) ← lexer_read_dangling (lx.lx_bf.length + 2) lx []
    let (lx, kw) ← lexer_read_keyword (lx.lx_bf.length + 2) lx
    match kw with
    | some p =>
      let lx ← lexer_read_out lx p dangling
      return (lx, true, p)
    | none =>
      let st := lx.lx_st
      let (lx, ch) ← lexer_getc lx
      match ch with
      | none =>
        let (lx, p) ← lexer_read_emit lx st tkeof dangling
        return (lx, true, p)
      | some ch =>
        let (lx, ch) ← (if ch = CH_UPPER_L then do
            let (lx, peek) ← lexer_getc lx
            if peek = some CH_DQUOTE ∨ peek = some CH_SQUOTE then pure (lx, peek.getD ch)
            else do
              let lx ← lexer_ungetc lx
              pure (lx, ch)
          else pure (lx, ch) : Except Fault (Lexer × Nat))
        if ch = CH_DQUOTE ∨ ch = CH_SQUOTE then
          let (lx, closed) ← lexer_read_string ch (lx.lx_bf.length + 2) lx ch
          let (lx, p) ← lexer_read_emit lx st
            (if !closed then tkeof else if ch = CH_DQUOTE then tkstr else tklit) dangling
          return (lx, true, p)
        else if isnum ch true then
          let (lx, more) ← lexer_read_number (lx.lx_bf.length + 2) lx
          if !more then
            let (lx, p) ← lexer_read_emit lx st tkeof dangling
            return (lx, true, p)
          else
            let lx ← lexer_ungetc lx
            let (lx, p) ← lexer_read_emit lx st tklit dangling
            return (lx, true, p)
        else if isalpha ch ∨ ch = CH_UNDERSCORE then
          let (lx, more) ← lexer_read_ident (lx.lx_bf.length + 2) lx ch
          if !more then
            let (lx, p) ← lexer_read_emit lx st tkeof dangling
            return (lx, true, p)
          else
            let lx ← lexer_ungetc lx
            let (lx, p) ← lexer_read_emit lx st
              (match lexer_find_token lx st with
               | some t => t
               | none => tkident) dangling
            return (lx, true, p)
        else
          let (lx, p) ← lexer_read_emit lx st tkunknown dangling
          return (lx, true, p)

/-! ## `lexer_alloc` -/

/-- The loop of `lexer_alloc`: the value of `error` after the loop. -/
def lexer_alloc_loop : Nat → Lexer → Except Fault (Lexer × Bool)
  | 0, _ => Except.error Fault.diverge
  | fuel + 1, lx => do
    let (lx, ok, tk) ← lexer_read lx
    if !ok then return (lx, true)
    else
      let t ← deref lx.lx_heap tk
      if t.tk_type = TOKEN_EOF then return (lx, false)
      else lexer_alloc_loop fuel lx

/-- The lexer of `lexer_alloc` before its loop, for the bytes read from the
file. -/
def lexer_new (bf : List Nat) : Lexer :=
  { lx_bf := bf, lx_st := { st_lno := 1, st_cno := 1 } }

/-- The function `lexer_alloc`, for the bytes that `buffer_read` returns:
`none` when the function returns `NULL`. -/
def lexer_alloc (bf : List Nat) : Except Fault (Option Lexer) := do
  let (lx, error) ← lexer_alloc_loop (bf.length + 2) (lexer_new bf)
  if lx.lx_branches ≠ [] then Except.error Fault.assertion
  else if error then return none
  else return some { lx with lx_branch := none }

/-! ## Notions used by the statements -/

/-- The token `t` is reached from the token `b` by following `n` links
`br_nx`, and `t` has no link `br_nx`. -/
inductive BranchEnd (heap : List Token) : Nat → Nat → Nat → Prop where
  | last (b : Nat) (tok : Token) : heap[b]? = some tok → tok.br_nx = none → BranchEnd heap 0 b b
  | next (n b nx t : Nat) (tok : Token) : heap[b]? = some tok → tok.br_nx = some nx →
      BranchEnd heap n nx t → BranchEnd heap (n + 1) b t

/-- What every cursor call keeps of the lexer: the peek depth, and a branch
that is pending. -/
def Keeps (lx lx1 : Lexer) : Prop :=
  lx1.lx_peek = lx.lx_peek ∧ ∀ b, lx.lx_branch = some b → lx1.lx_branch = some b

/-- The bytes `tk_str[0 .. tk_len)` of a token of the buffer `bf`. -/
def lexeme (bf : List Nat) (tk_str : StrPtr) (tk_len : Nat) : List Nat :=
  match tk_str with
  | StrPtr.null => []
  | StrPtr.static s => s.take tk_len
  | StrPtr.buf off => (bf.drop off).take tk_len

/-- The tokens of the main stream, in order. -/
def Lexer.stream (lx : Lexer) : List Token :=
  lx.lx_tokens.filterMap (fun p => lx.lx_heap[p]?)

/-- The lexemes of the prefixes of a token, its own lexeme and the lexemes of
its suffixes, concatenated. -/
def Token.text (bf : List Nat) (t : Token) : List Nat :=
  t.tk_prefixes.flatMap (fun d => lexeme bf d.tk_str d.tk_len) ++ lexeme bf t.tk_str t.tk_len ++
    t.tk_suffixes.flatMap (fun d => lexeme bf d.tk_str d.tk_len)

/-- The texts of the tokens of the main stream, concatenated in order. -/
def Lexer.text (lx : Lexer) : List Nat :=
  lx.stream.flatMap (Token.text lx.lx_bf)

/-- The bytes other than space, tab and newline. -/
def strip (l : List Nat) : List Nat :=
  l.filter (fun c => !(decide (c = CH_SPACE) || decide (c = CH_TAB) || decide (c = CH_NEWLINE)))

/-- The lexer that `lexer_alloc` returns for the given bytes (the empty lexer
when it returns none). -/
def lexer_of (bf : List Nat) : Lexer :=
  match lexer_alloc bf with
  | Except.ok (some lx) => lx
  | _ => {}

/-- The lexer with the cursor moved to the token `p`. -/
def Lexer.at (lx : Lexer) (p : Nat) : Lexer :=
  { lx with lx_st := { lx.lx_st with st_tok := some p } }

/-- The lexer inside `n` nested peeks. -/
def Lexer.peeking (lx : Lexer) (n : Nat) : Lexer :=
  { lx with lx_peek := n }

/-- The scenario of the specification with two branches. -/
def branch_example : List Nat :=
  cstr "#if A\nint x;\n#else\nlong x;\n#endif\n"

/-- A scenario with a branch of three alternatives. -/
def elif_example : List Nat :=
  cstr "a\n#if A\nb\n#elif B\nc\n#else\nd\n#endif\ne\n"

/-! ## Notions used by the lemmas on the classifier -/

/-- What the scanner keeps while it reads: the buffer, the tokens, and it
moves forward. -/
structure Scans (lx lx1 : Lexer) : Prop where
  bf : lx1.lx_bf = lx.lx_bf
  heap : lx1.lx_heap = lx.lx_heap
  tokens : lx1.lx_tokens = lx.lx_tokens
  eof_le : lx.lx_eof ≤ lx1.lx_eof
  off_le : lx.lx_st.st_off ≤ lx1.lx_st.st_off

/-- A scan after which `lexer_ungetc` does not step back before the start. -/
def Scans1 (lx lx1 : Lexer) : Prop :=
  Scans lx lx1 ∧ (lx1.lx_eof ≠ 0 ∨ lx.lx_st.st_off < lx1.lx_st.st_off)

/-- The bytes of `l` other than space, tab and newline occur in
`bf[a .. b)`, in the same order. -/
def Within (bf : List Nat) (a b : Nat) (l : List Nat) : Prop :=
  (strip l).Sublist (strip ((bf.drop a).take (b - a)))

/-- The entry `t` of the table is spelled by the bytes of the buffer from
`a`, within `bf[a .. b)`. -/
def KeyAt (bf : List Nat) (a b : Nat) (t : Token) : Prop :=
  ∃ k, t.tk_str = StrPtr.static ((bf.drop a).take k) ∧ a + k ≤ b

/-- A token that `lexer_emit` appended to the main stream of `lx`: it has no
dangling tokens yet, and its lexeme lies within `bf[a .. b)`. -/
structure Emitted (lx lx1 : Lexer) (p : Nat) (t : Token) : Prop where
  ptr : p = lx.lx_heap.length
  heap : lx1.lx_heap = lx.lx_heap ++ [t]
  tokens : lx1.lx_tokens = lx.lx_tokens ++ [p]
  bf : lx1.lx_bf = lx.lx_bf
  eof_le : lx.lx_eof ≤ lx1.lx_eof
  off_le : lx.lx_st.st_off ≤ lx1.lx_st.st_off
  flags : t.tk_flags &&& TOKEN_FLAG_DANGLING = 0
  prefixes : t.tk_prefixes = []
  suffixes : t.tk_suffixes = []
  within : Within lx.lx_bf lx.lx_st.st_off lx1.lx_st.st_off (lexeme lx.lx_bf t.tk_str t.tk_len)

/-- A comment or a directive returned by the classifier: a token that is not
linked, with the flag `DANGLING`, whose lexeme is `bf[a .. b)`. -/
def IsDangling (d : Dangling) (a b : Nat) : Prop :=
  d.tk_flags = TOKEN_FLAG_DANGLING ∧ d.tk_str = StrPtr.buf a ∧ d.tk_len = b - a

/-- The kinds of the tokens that `lexer_cpp` returns. -/
def IsCppType (type : TokenType) : Prop :=
  type = TOKEN_CPP ∨ type = TOKEN_CPP_IF ∨ type = TOKEN_CPP_ELSE ∨ type = TOKEN_CPP_ENDIF

/-- The token without its branch links. -/
def Token.plain (t : Token) : Token :=
  { t with br_pv := none, br_nx := none }

/-- What the specification says of a prefix. -/
def PrefixOK (d : Dangling) : Prop :=
  d.tk_flags &&& TOKEN_FLAG_DANGLING ≠ 0 ∧ (d.tk_type = TOKEN_COMMENT ∨ IsCppType d.tk_type)

/-- What the specification says of a suffix. -/
def SuffixOK (d : Dangling) : Prop :=
  d.tk_flags &&& TOKEN_FLAG_DANGLING ≠ 0 ∧ (d.tk_type = TOKEN_COMMENT ∨ d.tk_type = TOKEN_SPACE)

/-- What the specification says of a token of the main stream and of the
tokens hanging off it. -/
def TokOK (t : Token) : Prop :=
  t.tk_flags &&& TOKEN_FLAG_DANGLING = 0 ∧ (∀ d ∈ t.tk_prefixes, PrefixOK d) ∧
    (∀ d ∈ t.tk_suffixes, SuffixOK d)

/-- The lexemes of a list of dangling tokens, concatenated. -/
def dangling_text (bf : List Nat) (l : List Dangling) : List Nat :=
  l.flatMap (fun d => lexeme bf d.tk_str d.tk_len)

/-- What the classifier keeps when it updates tokens in place. -/
structure Reads (lx lx1 : Lexer) : Prop where
  bf : lx1.lx_bf = lx.lx_bf
  tokens : lx1.lx_tokens = lx.lx_tokens
  off_le : lx.lx_st.st_off ≤ lx1.lx_st.st_off

/-- What the functions of the branches keep: the scanner, the stream, and the
tokens up to their branch links. -/
structure Links (lx lx1 : Lexer) : Prop where
  bf : lx1.lx_bf = lx.lx_bf
  tokens : lx1.lx_tokens = lx.lx_tokens
  st : lx1.lx_st = lx.lx_st
  heap : lx1.lx_heap.map Token.plain = lx.lx_heap.map Token.plain

/-- What `lexer_read` does to the lexer: it appends the token `t` (here
without its branch links) to the main stream, and the text of `t` lies within
the bytes that the call has read. -/
structure ReadStep (lx lx1 : Lexer) (p : Nat) (t : Token) : Prop where
  ptr : p = lx.lx_heap.length
  heap : lx1.lx_heap.map Token.plain = lx.lx_heap.map Token.plain ++ [t]
  tokens : lx1.lx_tokens = lx.lx_tokens ++ [p]
  bf : lx1.lx_bf = lx.lx_bf
  off_le : lx.lx_st.st_off ≤ lx1.lx_st.st_off
  ok : TokOK t
  within : Within lx.lx_bf lx.lx_st.st_off lx1.lx_st.st_off (Token.text lx.lx_bf t)

/-- Input with comments before and after tokens, blank lines and directives. -/
def trivia_example : List Nat :=
  cstr "/* c */ int x; // d\n\n\n#define Y 1\n#if 0\n#if Z\n#endif\n#endif\nint y; /* e */\n"

/-- A buffer whose `#if` has no `#endif`. -/
def open_if_example : List Nat :=
  cstr "#if A\nint x;\n"

/-! ## Notions used by the lemmas on `lexer_read` -/

/-- Two nested conditionals whose `#if` lines follow each other. -/
def nested_if_example : List Nat :=
  cstr "#if A\n#if B\na\n#endif\nb\n#endif\nc\n"

/-- The bytes of the buffer that the scanner has not read. -/
def Lexer.rest (lx : Lexer) : List Nat :=
  lx.lx_bf.drop lx.lx_st.st_off

/-- The counters of the scanner are within the buffer and cannot wrap: the
offset is at most the length of the buffer, line and column are at most the
offset plus one, and the length of the buffer plus one is at most `UINT_MAX`. -/
def Fits (lx : Lexer) : Prop :=
  lx.lx_st.st_off ≤ lx.lx_bf.length ∧ lx.lx_st.st_cno ≤ lx.lx_st.st_off + 1 ∧
    lx.lx_st.st_lno ≤ lx.lx_st.st_off + 1 ∧ lx.lx_bf.length + 1 < UINT_MOD

/-- The number of calls of `lexer_getc` that can still return 0. -/
def Lexer.left (lx : Lexer) : Nat :=
  lx.lx_bf.length - lx.lx_st.st_off + (if lx.lx_eof = 0 then 1 else 0)

/-- What a call of the scanner or the classifier that returns keeps: the
counters fit, the buffer, the error counter and the list of the open branches
are the same. -/
structure Safe (lx lx1 : Lexer) : Prop where
  fits : Fits lx1
  bf : lx1.lx_bf = lx.lx_bf
  err : lx1.lx_st.st_err = lx.lx_st.st_err
  branches : lx1.lx_branches = lx.lx_branches

/-- The directive is none of those that `lexer_read` links into a branch. -/
def Dangling.unlinked (d : Dangling) : Prop :=
  d.tk_type ≠ TOKEN_CPP_IF ∧ d.tk_type ≠ TOKEN_CPP_ELSE ∧ d.tk_type ≠ TOKEN_CPP_ENDIF

/-- What `lexer_read` appends to the main stream: the token `p`, of the given
kind and lexeme, with the given prefixes. -/
structure Appends (lx lx1 : Lexer) (p : Nat) (type : TokenType) (str : StrPtr) (len : Nat)
    (D : List Dangling) : Prop where
  tokens : lx1.lx_tokens = lx.lx_tokens ++ [p]
  length : lx1.lx_heap.length = lx.lx_heap.length + 1
  tok : ∃ tok, lx1.lx_heap[p]? = some tok ∧ tok.tk_type = type ∧ tok.tk_str = str ∧
    tok.tk_len = len ∧ tok.tk_prefixes = D ∧ tok.br_pv = none ∧ tok.br_nx = none ∧
    lx1.lx_heap = lx.lx_heap ++ [tok]

/-- The lexer after `lexer_emit` appended the token `t` to the main stream. -/
def Lexer.push (lx : Lexer) (t : Token) : Lexer :=
  { lx with lx_heap := lx.lx_heap ++ [t], lx_tokens := lx.lx_tokens ++ [lx.lx_heap.length] }

/-- The lexer after a call of `lexer_getc` that reads the byte `c` from the
buffer. -/
def Lexer.next (lx : Lexer) (c : Nat) : Lexer :=
  if c = CH_NEWLINE then
    { lx with lx_st := { lx.lx_st with
        st_off := lx.lx_st.st_off + 1,
        st_lno := (lx.lx_st.st_lno + 1) % UINT_MOD,
        st_cno := 1 } }
  else
    { lx with lx_st := { lx.lx_st with
        st_off := lx.lx_st.st_off + 1,
        st_cno := (lx.lx_st.st_cno + 1) % UINT_MOD } }

/-- The lexer after the bytes of `l` are read, one call of `lexer_getc`
each. -/
def Lexer.reads (lx : Lexer) (l : List Nat) : Lexer :=
  l.foldl Lexer.next lx

/-- The scanner can step back: the counters fit and the end of the buffer has
not been reached by `lexer_getc`. -/
structure Ready (lx : Lexer) : Prop where
  fits : Fits lx
  eof : lx.lx_eof = 0

/-- The byte is not space, tab or newline. -/
def inked (c : Nat) : Prop :=
  c ≠ CH_SPACE ∧ c ≠ CH_TAB ∧ c ≠ CH_NEWLINE

/-- The number of backslashes in a row at the end of the bytes. -/
def trailing_backslashes (l : List Nat) : Nat :=
  (l.reverse.takeWhile (fun c => decide (c = CH_BACKSLASH))).length

/-- The byte of index `k` is the quote `q`, after an even number of
backslashes in a row. -/
def closes (q : Nat) (body : List Nat) (k : Nat) : Prop :=
  body[k]? = some q ∧ trailing_backslashes (body.take k) % 2 = 0

/-- The lexer `lx1` is the lexer `lx` after `n` more bytes of the buffer are
read: the counters fit, and the tokens, the buffer, the error counter and the
open branches are the same. -/
structure Moved (lx lx1 : Lexer) (n : Nat) : Prop where
  safe : Safe lx lx1
  heap : lx1.lx_heap = lx.lx_heap
  tokens : lx1.lx_tokens = lx.lx_tokens
  off : lx1.lx_st.st_off = lx.lx_st.st_off + n

/-- The state that `lexer_ungetc` restores after the byte `c` was read: the
column of a newline is not known, and set to 1. -/
def Lexer.back (lx : Lexer) (c : Nat) : Lexer :=
  if c = CH_NEWLINE then { lx with lx_st := { lx.lx_st with st_cno := 1 } } else lx

/-- The spelling of an entry of the table. -/
def Token.key (t : Token) : List Nat :=
  match t.tk_str with
  | StrPtr.static s => s
  | _ => []

/-- The entries of `token.h` under the heading of the punctuators. -/
def punctuators : List Token :=
  (keywords.drop 33).take 47

/-- The entry `t` of the table is the longest punctuator that the bytes `r`
start with. -/
structure Longest (r : List Nat) (t : Token) : Prop where
  mem : t ∈ punctuators
  pre : t.key <+: r
  max : ∀ t1 ∈ punctuators, t1.key <+: r → t1.key.length ≤ t.key.length

/-- A line of a preprocessor region, without its newline: blank bytes, then
the text of the line. -/
structure CppLine where
  indent : List Nat
  text : List Nat
  deriving DecidableEq, Repr

/-- The depth of the conditionals after a line, from the depth `d` before
it: a line that starts with `#if` opens one, a line that starts with `#endif`
closes one. -/
def cpp_nest (d : Int) (text : List Nat) : Int :=
  if cstr "#if" <+: text then d + 1 else if cstr "#endif" <+: text then d - 1 else d

/-- The token that `lexer_cpp` emits for `len` bytes from the offset of
`lx`. -/
def Lexer.cpp (lx : Lexer) (len : Nat) : Dangling :=
  { tk_type := TOKEN_CPP, tk_lno := lx.lx_st.st_lno, tk_cno := lx.lx_st.st_cno,
    tk_flags := TOKEN_FLAG_DANGLING, tk_str := StrPtr.buf lx.lx_st.st_off, tk_len := len }

/-- The call of `lexer_read` in the state `lx` returns 1 in the state `lx1`,
and appends the one token `tok` to the arena and to the main stream. -/
structure Yields (lx lx1 : Lexer) (tok : Token) : Prop where
  read : lexer_read lx = Except.ok (lx1, true, lx.lx_heap.length)
  heap : lx1.lx_heap = lx.lx_heap ++ [tok]
  tokens : lx1.lx_tokens = lx.lx_tokens ++ [lx.lx_heap.length]

instance inked_decidable (c : Nat) : Decidable (inked c) :=
  inferInstanceAs (Decidable (c ≠ CH_SPACE ∧ c ≠ CH_TAB ∧ c ≠ CH_NEWLINE))

instance closes_decidable (q : Nat) (body : List Nat) (k : Nat) : Decidable (closes q body k) :=
  inferInstanceAs (Decidable (body[k]? = some q ∧ trailing_backslashes (body.take k) % 2 = 0))

/-- Calls of `lexer_getc` one after the other, `n` of them: the lexer
afterwards and what each call yielded, in order. -/
def lexer_getc_repeat : Nat → Lexer → Except Fault (Lexer × List (Option Nat))
  | 0, lx => Except.ok (lx, [])
  | n + 1, lx =>
    match lexer_getc lx with
    | Except.error e => Except.error e
    | Except.ok (lx1, r) =>
      match lexer_getc_repeat n lx1 with
      | Except.error e => Except.error e
      | Except.ok (lx2, rs) => Except.ok (lx2, r :: rs)

/-- The lexer of `lexer_new`, moved to the state `st` of the scanner. -/
def lexer_at (bf : List Nat) (off lno cno : Nat) : Lexer :=
  { lx_bf := bf, lx_st := { st_off := off, st_lno := lno, st_cno := cno } }

/-- The kinds and the lexemes of the tokens of the main stream, in order. -/
def Lexer.spelling (lx : Lexer) : List (TokenType × List Nat) :=
  lx.stream.map (fun t => (t.tk_type, lexeme lx.lx_bf t.tk_str t.tk_len))

/-- The pointers of the tokens of the main stream that have one of the
`flags` set. -/
def Lexer.flagged (lx : Lexer) (flags : Nat) : List Nat :=
  lx.lx_tokens.filter (fun p =>
    match lx.lx_heap[p]? with
    | some t => decide (t.tk_flags &&& flags ≠ 0)
    | none => false)

/-- Input with one conditional: `x` opens the branch, `y` is its second arm
and has both branch links. -/
def else_example : List Nat :=
  cstr "#if A\nx\n#else\ny\n#endif\n"

/-- The lexer after `lexer_emit_error` has counted an error. -/
def Lexer.latched (lx : Lexer) : Lexer :=
  { lx with lx_st := { lx.lx_st with st_err := (lx.lx_st.st_err + 1) % UINT_MOD } }

/-- The kind of the token that `p` points to. -/
def Lexer.kind (lx : Lexer) (p : Nat) : Option TokenType :=
  (lx.lx_heap[p]?).map (fun t => t.tk_type)

/-- The main stream as a queue: its entries are distinct tokens of the
arena. -/
structure Queue (lx : Lexer) : Prop where
  nodup : lx.lx_tokens.Nodup
  valid : ∀ p ∈ lx.lx_tokens, p < lx.lx_heap.length

/-- The token that `p` points to has both branch links. -/
def Lexer.is_branch (lx : Lexer) (p : Nat) : Bool :=
  match lx.lx_heap[p]? with
  | some t => token_is_branch t true
  | none => false

/-- No token of the main stream is a branch token with both links; so it is
for a stream without branch links. -/
def Unbranched (lx : Lexer) : Prop :=
  ∀ p ∈ lx.lx_tokens, lx.is_branch p = false

instance unbranched_decidable (lx : Lexer) : Decidable (Unbranched lx) :=
  inferInstanceAs (Decidable (∀ p ∈ lx.lx_tokens, lx.is_branch p = false))

/-- The link `br_nx` of the token that `p` points to. -/
def Lexer.br_nx (lx : Lexer) (p : Nat) : Option Nat :=
  match lx.lx_heap[p]? with
  | some t => t.br_nx
  | none => none

/-- The link `br_nx` of the token `p` of the main stream, if it has one,
points to a token that comes later in the main stream. -/
def Lexer.forward_at (lx : Lexer) (p : Nat) : Bool :=
  match lx.br_nx p with
  | none => true
  | some n => decide (n ∈ lx.lx_tokens ∧ lx.lx_tokens.indexOf p < lx.lx_tokens.indexOf n)

/-- The links `br_nx` of the tokens of the main stream point forward in the
main stream. -/
def Forward (lx : Lexer) : Prop :=
  ∀ p ∈ lx.lx_tokens, lx.forward_at p = true

instance forward_decidable (lx : Lexer) : Decidable (Forward lx) :=
  inferInstanceAs (Decidable (∀ p ∈ lx.lx_tokens, lx.forward_at p = true))

/-- The cursor has consumed the tokens `pre` of the main stream, the last of
which is the current token, and the tokens `rest` come after it. -/
structure Cursor (lx : Lexer) (pre rest : List Nat) : Prop where
  tokens : lx.lx_tokens = pre ++ rest
  tok : lx.lx_st.st_tok = pre.getLast?
  live : ∀ c, pre.getLast? = some c → lx.kind c ≠ some TOKEN_EOF

/-- The specification of `__lexer_until`: `p` is the first token of kind
`type` among the tokens `rest` after the cursor, and neither `p` nor a token
before it is `EOF` or the token `stop`. -/
def FoundBefore (lx : Lexer) (type : TokenType) (stop : Option Nat) (rest : List Nat)
    (p : Nat) : Prop :=
  ∃ a b, rest = a ++ p :: b ∧ lx.kind p = some type ∧ (∀ q ∈ a, lx.kind q ≠ some type) ∧
    ∀ q ∈ a ++ [p], lx.kind q ≠ some TOKEN_EOF ∧ stop ≠ some q

/-- What the token `q` adds to the nesting depth of the pair `lhs`, `rhs`. -/
def Lexer.pair_step (lx : Lexer) (lhs rhs : TokenType) (q : Nat) : Int :=
  (if lx.kind q = some lhs then 1 else 0) - (if lx.kind q = some rhs then 1 else 0)

/-- The nesting depth after the tokens `l`: the number of tokens of kind
`lhs` less the number of tokens of kind `rhs`. -/
def Lexer.pair_depth (lx : Lexer) (lhs rhs : TokenType) (l : List Nat) : Int :=
  (l.map (lx.pair_step lhs rhs)).sum

/-- The specification of `lexer_if_pair`: from the depth `d`, the token `p`
of `rest` is the first one at which the depth is back to 0, and neither `p`
nor a token before it is `EOF`.  With `d = 0` and `rest` starting with the
opener, `p` is the closer that matches the opener. -/
def Matches (lx : Lexer) (lhs rhs : TokenType) (d : Int) (rest : List Nat) (p : Nat) : Prop :=
  ∃ a b, rest = a ++ p :: b ∧ d + lx.pair_depth lhs rhs (a ++ [p]) = 0 ∧
    (∀ k < a.length, d + lx.pair_depth lhs rhs (a.take (k + 1)) ≠ 0) ∧
    ∀ q ∈ a ++ [p], lx.kind q ≠ some TOKEN_EOF

/-- Input with a token before a conditional of two arms, three tokens each. -/
def seek_example : List Nat :=
  cstr "f\n#if A\nint x;\n#else\nlong x;\n#endif\n"

/-- The loop of `lexer_branch`: `TAILQ_REMOVE` of `rm` and of the tokens after
it, up to the token before `branch`. -/
def lexer_branch_loop (branch : Nat) : Nat → Lexer → Nat → Except Fault Lexer
  | 0, _, _ => Except.error Fault.diverge
  | fuel + 1, lx, rm =>
    let nx := tailq_next lx.lx_tokens rm
    let lx1 := { lx with lx_tokens := lx.lx_tokens.erase rm }
    if nx = some branch then Except.ok lx1
    else
      match nx with
      | none => Except.error Fault.nullDeref
      | some n => lexer_branch_loop branch fuel lx1 n

/-- The function `lexer_branch`: the lexer afterwards and the return value.
`token_free` leaves the arena as it is: the entries of the removed tokens stay,
out of the main stream; a `seek` that points to none of the tokens left in the
main stream is a pointer to no token. -/
def lexer_branch (lx : Lexer) (seek : Option Nat) : Except Fault (Lexer × Bool) :=
  match lx.lx_branch with
  | none => Except.ok (lx, false)
  | some branch => do
    let b ← deref lx.lx_heap branch
    let seek := if seek = b.br_pv then some branch else seek
    match b.br_pv with
    | none => Except.error Fault.nullDeref
    | some rm =>
      let lx ← lexer_branch_loop branch (lx.lx_tokens.length + 1) lx rm
      let b ← deref lx.lx_heap branch
      let b1 : Token := { b with br_pv := none, tk_flags := b.tk_flags ||| TOKEN_FLAG_UNMUTE }
      let lx := { lx with lx_heap := lx.lx_heap.set branch b1 }
      match seek with
      | none => Except.error Fault.nullDeref
      | some s =>
        if s ∈ lx.lx_tokens then
          Except.ok ({ lx with lx_st := { lx.lx_st with st_tok := tailq_prev lx.lx_tokens s },
                               lx_branch := none }, true)
        else Except.error Fault.nullDeref

/-- The lexer after `lexer_branch` took the pending branch `B`: the main
stream is `tokens`, `B` has no link `br_pv` and has the flag `UNMUTE`, no
branch is pending and the current token is the one before `seek`. -/
def Lexer.branched (lx : Lexer) (B : Nat) (b : Token) (tokens : List Nat) (seek : Nat) : Lexer :=
  { lx with
    lx_tokens := tokens
    lx_heap := lx.lx_heap.set B { b with br_pv := none, tk_flags := b.tk_flags ||| TOKEN_FLAG_UNMUTE }
    lx_st := { lx.lx_st with st_tok := tailq_prev tokens seek }
    lx_branch := none }

/-- The line of the offset `a` of the buffer, counted from 1: one more than
the number of newlines before `a`. -/
def line_of (bf : List Nat) (a : Nat) : Nat :=
  1 + (bf.take a).count CH_NEWLINE

/-- The column of the offset `a` of the buffer, counted from 1: one more than
the number of bytes between the last newline before `a`, or the start of the
buffer, and `a`. -/
def column_of (bf : List Nat) (a : Nat) : Nat :=
  1 + ((bf.take a).reverse.takeWhile (fun c => decide (c ≠ CH_NEWLINE))).length

/-- The state of the scanner holds the line and the column of its offset, and
no error. -/
def Exact (bf : List Nat) (st : LexerState) : Prop :=
  st.st_off ≤ bf.length ∧ st.st_err = 0 ∧ st.st_lno = line_of bf st.st_off ∧
    st.st_cno = column_of bf st.st_off

/-- The state of the scanner holds the line of its offset and no error, and
the column of its offset unless the next byte is a newline, over which
`lexer_ungetc` has stepped back. -/
def Sited (bf : List Nat) (st : LexerState) : Prop :=
  st.st_off ≤ bf.length ∧ st.st_err = 0 ∧ st.st_lno = line_of bf st.st_off ∧
    (st.st_cno = column_of bf st.st_off ∨ bf[st.st_off]? = some CH_NEWLINE)

/-- The lexer scans the buffer `bf`, whose positions fit `unsigned int`, and
its state is sited. -/
structure Placed (bf : List Nat) (lx : Lexer) : Prop where
  buffer : lx.lx_bf = bf
  size : bf.length + 1 < UINT_MOD
  sited : Sited bf lx.lx_st

/-- The end of the buffer was reached and `lexer_getc` fails from now on. -/
def Spent (lx : Lexer) : Prop :=
  lx.lx_st.st_off = lx.lx_bf.length ∧ lx.lx_eof ≠ 0

/-- The state after a call of `lexer_getc`: `lexer_ungetc` does nothing, or
the state is exact. -/
def Fresh (bf : List Nat) (lx : Lexer) : Prop :=
  Placed bf lx ∧ (lx.lx_eof ≠ 0 ∨ Exact bf lx.lx_st)

/-- The state in which `lexer_read` looks for a token of the main stream:
exact, or at the end with `lexer_getc` failing. -/
def Poised (bf : List Nat) (lx : Lexer) : Prop :=
  Placed bf lx ∧ (Exact bf lx.lx_st ∨ Spent lx)

/-- The token `t` starts at the offset `a` of the buffer: its lexeme is there,
a token that points into the buffer points to `a`, and its line and column are
those of `a`. -/
def LocatedAt (bf : List Nat) (t : Token) (a : Nat) : Prop :=
  a ≤ bf.length ∧
    lexeme bf t.tk_str t.tk_len = (bf.drop a).take (lexeme bf t.tk_str t.tk_len).length ∧
    (∀ o, t.tk_str = StrPtr.buf o → o = a) ∧
    t.tk_lno = line_of bf a ∧ t.tk_cno = column_of bf a

/-- The tokens `ts` lie in the buffer between the offsets `b` and `e`, in
order and without overlap: every token other than `EOF` starts at an offset
that is not before the end of the lexeme of the one before it. -/
def Laid (bf : List Nat) : Nat → List Token → Nat → Prop
  | b, [], e => b ≤ e
  | b, t :: ts, e =>
    (t.tk_type = TOKEN_EOF ∧ Laid bf b ts e) ∨
      ∃ a, b ≤ a ∧ LocatedAt bf t a ∧ Laid bf (a + (lexeme bf t.tk_str t.tk_len).length) ts e

/-- Input of two lines, the second one indented. -/
def lines_example : List Nat :=
  cstr "int x;\n  y = 22; /* c */ z\n"

/-! ## Notions used by the lemmas on failing calls, the flags and the suffixes -/

/-- The spellings of the assignment operators of C: `=` and the compound
assignments `op=`. -/
def assignment_operators : List (List Nat) :=
  [cstr "=", cstr "*=", cstr "/=", cstr "%=", cstr "+=", cstr "-=", cstr "<<=", cstr ">>=",
    cstr "&=", cstr "^=", cstr "|="]

/-- The spellings of the comparison operators that end in `=`. -/
def comparison_operators : List (List Nat) :=
  [cstr "<=", cstr ">=", cstr "==", cstr "!="]

/-- The token at which `lexer_pop` takes note of a branch: the token after
the current one, when the current token is not `EOF` and the token after it is
a fully linked branch. -/
def Lexer.branch_ahead (lx : Lexer) : Option Nat :=
  match lx.lx_st.st_tok with
  | none => none
  | some cur =>
    match lx.lx_heap[cur]? with
    | none => none
    | some c =>
      if c.tk_type = TOKEN_EOF then none
      else
        match tailq_next lx.lx_tokens cur with
        | none => none
        | some nx =>
          match lx.lx_heap[nx]? with
          | none => none
          | some n => if token_is_branch n true = true then some nx else none

/-- The pending branch after a call of `lexer_pop` moved on from the current
token: the branch that was pending, else the branch ahead. -/
def Lexer.noted (lx : Lexer) : Option Nat :=
  match lx.lx_branch with
  | some b => some b
  | none => lx.branch_ahead

/-- What the scanner and the classifier keep of the cursor: the peek depth
and the current token. -/
structure Idle (lx lx1 : Lexer) : Prop where
  peek : lx1.lx_peek = lx.lx_peek
  tok : lx1.lx_st.st_tok = lx.lx_st.st_tok

/-- The main stream ends in a token of kind `EOF`. -/
def Ended (lx : Lexer) : Prop :=
  ∃ p, lx.lx_tokens.getLast? = some p ∧ lx.kind p = some TOKEN_EOF

/-- The cursor is before the first token or on a token of the main stream. -/
def Lexer.on_stream (lx : Lexer) : Prop :=
  ∀ c, lx.lx_st.st_tok = some c → c ∈ lx.lx_tokens

/-- The state of a lexer on which `lexer_pop` is called outside of a peek
after tokenization: the main stream is a queue that ends in `EOF`, and the
cursor is before the first token or on a token of the stream. -/
structure Committed (lx : Lexer) : Prop where
  queue : Queue lx
  ended : Ended lx
  cursor : lx.on_stream
  peek : lx.lx_peek = 0

/-! ## Notions for disabled regions, token boundaries and the text of the stream -/

/-- The loop of a line in `lexer_cpp`, on the bytes after the first byte of
the line, from the values of `ch` and `comment`: the bytes after the newline
that ends the line, or `none` when the bytes end before the line does.  A
newline inside a block comment or right after a backslash does not end the
line. -/
def cpp_line_rest : Nat → Bool → List Nat → Option (List Nat)
  | _, _, [] => none
  | ch, comment, peek :: r =>
    if ch = CH_SLASH ∧ peek = CH_STAR then cpp_line_rest peek true r
    else if comment = true ∧ ch = CH_STAR ∧ peek = CH_SLASH then cpp_line_rest peek false r
    else if comment = false ∧ ch ≠ CH_BACKSLASH ∧ peek = CH_NEWLINE then some r
    else cpp_line_rest peek comment r

/-- The line is one line for `lexer_cpp`: blank bytes, then a byte that is
not blank, and the loop over the bytes after it ends at the newline of the
line and not before. -/
def CppLine.whole (l : CppLine) : Prop :=
  (∀ b ∈ l.indent, ¬inked b) ∧ (l.text ≠ [] ∧ inked (l.text.headD CH_NUL)) ∧
    cpp_line_rest CH_NUL false (l.text.tail ++ [CH_NEWLINE]) = some []

/-- The lines are inside conditionals of depth `d`, and the last of them
closes the outermost. -/
def cpp_region : Int → List CppLine → Prop
  | d, [] => d = 0
  | d, l :: ls => d ≠ 0 ∧ l.whole ∧ cpp_region (cpp_nest d l.text) ls

instance whole_decidable (l : CppLine) : Decidable l.whole :=
  inferInstanceAs (Decidable ((∀ b ∈ l.indent, ¬inked b) ∧
    (l.text ≠ [] ∧ inked (l.text.headD CH_NUL)) ∧
    cpp_line_rest CH_NUL false (l.text.tail ++ [CH_NEWLINE]) = some []))

/-- Whether the lines form a region is decided line by line. -/
def cpp_region_decide : ∀ (d : Int) (ls : List CppLine), Decidable (cpp_region d ls)
  | d, [] => inferInstanceAs (Decidable (d = 0))
  | d, l :: ls =>
    have := cpp_region_decide (cpp_nest d l.text) ls
    inferInstanceAs (Decidable (d ≠ 0 ∧ l.whole ∧ cpp_region (cpp_nest d l.text) ls))

instance cpp_region_decidable (d : Int) (ls : List CppLine) : Decidable (cpp_region d ls) :=
  cpp_region_decide d ls

/-- What the scanner keeps while it reads comments and directives: the error
counter and the list of the open branches. -/
structure Calm (lx lx1 : Lexer) : Prop where
  err : lx1.lx_st.st_err = lx.lx_st.st_err
  branches : lx1.lx_branches = lx.lx_branches

/-- Every `#else`, `#elif` and `#endif` among the directives finds a branch
open, when `n` branches are open before the first directive. -/
def Hooked : Nat → List Dangling → Prop
  | _, [] => True
  | n, d :: ds =>
    if d.tk_type = TOKEN_CPP_IF then Hooked (n + 1) ds
    else if d.tk_type = TOKEN_CPP_ELSE then 0 < n ∧ Hooked n ds
    else if d.tk_type = TOKEN_CPP_ENDIF then 0 < n ∧ Hooked (n - 1) ds
    else Hooked n ds

/-- Whether the directives find their branches open is decided directive by
directive. -/
def hooked_decide : ∀ (n : Nat) (ds : List Dangling), Decidable (Hooked n ds)
  | _, [] => isTrue trivial
  | n, d :: ds =>
    have := hooked_decide (n + 1) ds
    have := hooked_decide n ds
    have := hooked_decide (n - 1) ds
    inferInstanceAs (Decidable (
      if d.tk_type = TOKEN_CPP_IF then Hooked (n + 1) ds
      else if d.tk_type = TOKEN_CPP_ELSE then 0 < n ∧ Hooked n ds
      else if d.tk_type = TOKEN_CPP_ENDIF then 0 < n ∧ Hooked (n - 1) ds
      else Hooked n ds))

instance hooked_decidable (n : Nat) (ds : List Dangling) : Decidable (Hooked n ds) :=
  hooked_decide n ds

/-- The bytes other than space, tab, newline and backslash. -/
def squeeze (l : List Nat) : List Nat :=
  l.filter (fun c => !(decide (c = CH_SPACE) || decide (c = CH_TAB) || decide (c = CH_NEWLINE) ||
    decide (c = CH_BACKSLASH)))

/-- The bytes are space, tab and newline, with or without one slash at the
end. -/
def Slack (l : List Nat) : Prop :=
  ∃ ws tl, l = ws ++ tl ∧ (∀ b ∈ ws, ¬inked b) ∧ (tl = [] ∨ tl = [CH_SLASH])

/-- Once `lexer_getc` has reached the end of the buffer, `lexer_ungetc` does
nothing: what is left of the buffer then is space, tab and newline only. -/
def Tail (lx : Lexer) : Prop :=
  lx.lx_eof = 0 ∨ ∀ b ∈ lx.rest, ¬inked b

/-- The weaker state in which `lexer_comment` leaves the lexer when the last
byte of the buffer is a slash that it took for the start of a comment: what is
left of the buffer can end with that slash. -/
def Loose (lx : Lexer) : Prop :=
  lx.lx_eof = 0 ∨ Slack lx.rest

/-- The bytes `l` are the bytes `bf[a .. b)`, up to space, tab, newline and
backslash, and up to a slash that is the last byte of the buffer. -/
def Covers (bf : List Nat) (a b : Nat) (l : List Nat) : Prop :=
  squeeze l = squeeze ((bf.drop a).take (b - a)) ∨
    (bf.getLast? = some CH_SLASH ∧ a < bf.length ∧ bf.length ≤ b ∧
      squeeze l = squeeze ((bf.drop a).take (bf.length - 1 - a)))

theorem BranchEnd.steps_unique {heap : List Token} {n m b t u : Nat}
    (h1 : BranchEnd heap n b t) (h2 : BranchEnd heap m b u) : n = m := by
  induction h1 generalizing m u with
  | last b tok hb hnx =>
    cases h2 with
    | last _ _ _ _ => rfl
    | next _ _ _ _ tok2 hb2 hnx2 _ =>
      rw [hb] at hb2
      cases hb2
      rw [hnx] at hnx2
      cases hnx2
  | next n b nx t tok hb hnx _ ih =>
    cases h2 with
    | last _ tok2 hb2 hnx2 =>
      rw [hb] at hb2
      cases hb2
      rw [hnx] at hnx2
      cases hnx2
    | next m _ nx2 _ tok2 hb2 hnx2 hrest =>
      rw [hb] at hb2
      cases hb2
      rw [hnx] at hnx2
      cases hnx2
      rw [ih hrest]

theorem BranchEnd.path {heap : List Token} {n b t : Nat} (h : BranchEnd heap n b t) :
    ∃ l : List Nat, l.length = n + 1 ∧ l.Nodup ∧ (∀ x ∈ l, x < heap.length) ∧
      (∀ x ∈ l, ∃ m, m ≤ n ∧ BranchEnd heap m x t) := by
  induction h with
  | last b tok hb hnx =>
    refine ⟨[b], rfl, List.nodup_singleton b, ?_, ?_⟩
    · intro x hx
      rw [List.mem_singleton] at hx
      subst hx
      by_contra hlt
      rw [List.getElem?_eq_none (by omega)] at hb
      cases hb
    · intro x hx
      rw [List.mem_singleton] at hx
      subst hx
      exact ⟨0, le_refl 0, BranchEnd.last x tok hb hnx⟩
  | next n b nx t tok hb hnx hrest ih =>
    obtain ⟨l, hlen, hnd, hlt, hmem⟩ := ih
    refine ⟨b :: l, by simp [hlen], ?_, ?_, ?_⟩
    · rw [List.nodup_cons]
      refine ⟨?_, hnd⟩
      intro hbl
      obtain ⟨m, hm, hbm⟩ := hmem b hbl
      have := BranchEnd.steps_unique hbm (BranchEnd.next n b nx t tok hb hnx hrest)
      omega
    · intro x hx
      rw [List.mem_cons] at hx
      rcases hx with hx | hx
      · subst hx
        by_contra hge
        rw [List.getElem?_eq_none (by omega)] at hb
        cases hb
      · exact hlt x hx
    · intro x hx
      rw [List.mem_cons] at hx
      rcases hx with hx | hx
      · subst hx
        exact ⟨n + 1, le_refl _, BranchEnd.next n x nx t tok hb hnx hrest⟩
      · obtain ⟨m, hm, hxm⟩ := hmem x hx
        exact ⟨m, by omega, hxm⟩

theorem BranchEnd.steps_lt_length {heap : List Token} {n b t : Nat} (h : BranchEnd heap n b t) :
    n < heap.length := by
  obtain ⟨l, hlen, hnd, hlt, _⟩ := h.path
  have hsub : l ⊆ List.range heap.length := by
    intro x hx
    exact List.mem_range.mpr (hlt x hx)
  have := (List.subperm_of_subset hnd hsub).length_le
  rw [List.length_range] at this
  omega

theorem branch_last_of_end {heap : List Token} {n b t : Nat} (h : BranchEnd heap n b t) :
    ∀ fuel, n < fuel → branch_last fuel heap b = Except.ok t := by
  induction h with
  | last b tok hb hnx =>
    intro fuel hf
    obtain ⟨k, rfl⟩ : ∃ k, fuel = k + 1 := ⟨fuel - 1, by omega⟩
    simp [branch_last, hb, hnx]
  | next n b nx t tok hb hnx _ ih =>
    intro fuel hf
    obtain ⟨k, rfl⟩ : ∃ k, fuel = k + 1 := ⟨fuel - 1, by omega⟩
    simp [branch_last, hb, hnx]
    exact ih k (by omega)

theorem Keeps.keeps_refl (lx : Lexer) : Keeps lx lx := ⟨rfl, fun _ h => h⟩

theorem Keeps.keeps_trans {a b c : Lexer} (h1 : Keeps a b) (h2 : Keeps b c) : Keeps a c :=
  ⟨h2.1.trans h1.1, fun x hx => h2.2 x (h1.2 x hx)⟩

theorem bind_ok {ε α β : Type} {m : Except ε α} {f : α → Except ε β} {b : β}
    (h : (m >>= f) = Except.ok b) : ∃ a, m = Except.ok a ∧ f a = Except.ok b := by
  cases m with
  | error e => cases h
  | ok a => exact ⟨a, rfl, h⟩

theorem lexer_pop_keeps {lx lx1 : Lexer} {t : Option Nat}
    (h : lexer_pop lx = Except.ok (lx1, t)) : Keeps lx lx1 := by
  unfold lexer_pop at h
  simp only [lexer_pop_out] at h
  repeat' split at h
  all_goals first
    | (cases h; done)
    | (simp only [Except.ok.injEq, Prod.mk.injEq] at h
       obtain ⟨rfl, rfl⟩ := h
       refine ⟨?_, ?_⟩
       · rfl
       · intro b hb
         first | exact hb | simp_all)

theorem enter_leave_keeps {lx lx2 lx3 : Lexer} {s : LexerState}
    (h : Keeps (lexer_peek_enter lx).1 lx2) (hl : lexer_peek_leave lx2 s = Except.ok lx3) :
    Keeps lx lx3 := by
  unfold lexer_peek_leave at hl
  split at hl
  · cases hl
    obtain ⟨h1, h2⟩ := h
    simp only [lexer_peek_enter] at h1 h2
    refine ⟨?_, ?_⟩
    · simp only [h1]; omega
    · exact h2
  · cases hl

theorem lexer_peek_keeps {lx lx1 : Lexer} {t : Option Nat}
    (h : lexer_peek lx = Except.ok (lx1, t)) : Keeps lx lx1 := by
  unfold lexer_peek at h
  obtain ⟨⟨lx2, t2⟩, h1, h⟩ := bind_ok h
  obtain ⟨lx3, h2, h⟩ := bind_ok h
  cases h
  exact enter_leave_keeps (lexer_pop_keeps h1) h2

theorem pure_ok {ε α : Type} {a b : α} (h : (pure a : Except ε α) = Except.ok b) : a = b := by
  cases h; rfl

theorem lexer_emit_error_keeps {lx lx1 : Lexer} {tk : Option Nat}
    (h : lexer_emit_error lx tk = Except.ok lx1) : Keeps lx lx1 := by
  unfold lexer_emit_error at h
  repeat' split at h
  all_goals first
    | (cases h; done)
    | (cases h; exact Keeps.keeps_refl _)

theorem lexer_peek_if_keeps {lx lx1 : Lexer} {type : TokenType} {t : Option Nat}
    (h : lexer_peek_if lx type = Except.ok (lx1, t)) : Keeps lx lx1 := by
  unfold lexer_peek_if at h
  obtain ⟨⟨lx2, t2⟩, h1, h⟩ := bind_ok h
  have k1 := lexer_peek_keeps h1
  cases t2 with
  | none => cases h; exact k1
  | some p =>
    obtain ⟨tok, _, h⟩ := bind_ok h
    split at h <;> (cases h; exact k1)

theorem lexer_if_keeps {lx lx1 : Lexer} {type : TokenType} {r : Bool × Option Nat}
    (h : lexer_if lx type = Except.ok (lx1, r)) : Keeps lx lx1 := by
  unfold lexer_if at h
  obtain ⟨⟨lx2, t2⟩, h1, h⟩ := bind_ok h
  have k1 := lexer_peek_if_keeps h1
  cases t2 with
  | none => cases h; exact k1
  | some p =>
    obtain ⟨⟨lx3, t3⟩, h2, h⟩ := bind_ok h
    cases h
    exact k1.keeps_trans (lexer_pop_keeps h2)

theorem lexer_if_flags_keeps {lx lx1 : Lexer} {flags : Nat} {t : Option Nat}
    (h : lexer_if_flags lx flags = Except.ok (lx1, t)) : Keeps lx lx1 := by
  unfold lexer_if_flags at h
  obtain ⟨⟨lx2, t2⟩, h1, h⟩ := bind_ok h
  obtain ⟨err, _, h⟩ := bind_ok h
  obtain ⟨lx3, h3, h⟩ := bind_ok h
  have k3 := enter_leave_keeps (lexer_pop_keeps h1) h3
  split at h
  · cases h; exact k3
  · obtain ⟨⟨lx4, t4⟩, h4, h⟩ := bind_ok h
    cases h
    exact k3.keeps_trans (lexer_pop_keeps h4)

theorem lexer_peek_if_flags_keeps {lx lx1 : Lexer} {flags : Nat} {t : Option Nat}
    (h : lexer_peek_if_flags lx flags = Except.ok (lx1, t)) : Keeps lx lx1 := by
  unfold lexer_peek_if_flags at h
  obtain ⟨⟨lx2, t2⟩, h1, h⟩ := bind_ok h
  obtain ⟨lx3, h3, h⟩ := bind_ok h
  cases h
  exact enter_leave_keeps (lexer_if_flags_keeps h1) h3

theorem lexer_peek_if_pair_loop_keeps (lhs rhs : TokenType) :
    ∀ (fuel : Nat) (lx lx1 : Lexer) (t : Option Nat) (pair : Int) (r : Option Nat × Int),
      lexer_peek_if_pair_loop lhs rhs fuel lx t pair = Except.ok (lx1, r) → Keeps lx lx1 := by
  intro fuel
  induction fuel with
  | zero => intro lx lx1 t pair r h; cases h
  | succ n ih =>
    intro lx lx1 t pair r h
    unfold lexer_peek_if_pair_loop at h
    obtain ⟨⟨lx2, t2⟩, h1, h⟩ := bind_ok h
    have k1 := lexer_pop_keeps h1
    cases t2 with
    | none => cases h; exact k1
    | some p =>
      obtain ⟨tok, _, h⟩ := bind_ok h
      dsimp only at h
      repeat' split at h
      all_goals first
        | (cases h; exact k1)
        | exact k1.keeps_trans (ih _ _ _ _ _ h)

theorem lexer_peek_if_pair_keeps {lx lx1 : Lexer} {lhs rhs : TokenType} {t : Option Nat}
    (h : lexer_peek_if_pair lx lhs rhs = Except.ok (lx1, t)) : Keeps lx lx1 := by
  unfold lexer_peek_if_pair at h
  obtain ⟨⟨lx2, t2⟩, h1, h⟩ := bind_ok h
  have k1 := lexer_peek_if_keeps h1
  cases t2 with
  | none => cases h; exact k1
  | some p =>
    obtain ⟨⟨lx3, r3⟩, h3, h⟩ := bind_ok h
    obtain ⟨lx4, h4, h⟩ := bind_ok h
    have k4 := enter_leave_keeps (lexer_peek_if_pair_loop_keeps _ _ _ _ _ _ _ _ h3) h4
    split at h <;> (cases h; exact k1.keeps_trans k4)

theorem lexer_if_pair_keeps {lx lx1 : Lexer} {lhs rhs : TokenType} {t : Option Nat}
    (h : lexer_if_pair lx lhs rhs = Except.ok (lx1, t)) : Keeps lx lx1 := by
  unfold lexer_if_pair at h
  obtain ⟨⟨lx2, t2⟩, h1, h⟩ := bind_ok h
  have k1 := lexer_peek_if_pair_keeps h1
  cases t2 with
  | none => cases h; exact k1
  | some p => cases h; exact k1.keeps_trans ⟨rfl, fun _ hb => hb⟩

theorem lexer_until_loop_keeps (type : TokenType) (stop : Option Nat) :
    ∀ (fuel : Nat) (lx lx1 : Lexer) (t : Option Nat),
      __lexer_until type stop fuel lx = Except.ok (lx1, t) → Keeps lx lx1 := by
  intro fuel
  induction fuel with
  | zero => intro lx lx1 t h; cases h
  | succ n ih =>
    intro lx lx1 t h
    unfold __lexer_until at h
    obtain ⟨⟨lx2, t2⟩, h1, h⟩ := bind_ok h
    have k1 := lexer_pop_keeps h1
    cases t2 with
    | none =>
      obtain ⟨lx3, h3, h⟩ := bind_ok h
      cases h
      exact k1.keeps_trans (lexer_emit_error_keeps h3)
    | some p =>
      obtain ⟨tok, _, h⟩ := bind_ok h
      split at h
      · obtain ⟨lx3, h3, h⟩ := bind_ok h
        cases h
        exact k1.keeps_trans (lexer_emit_error_keeps h3)
      · split at h
        · cases h; exact k1
        · exact k1.keeps_trans (ih _ _ _ h)

theorem lexer_peek_until_keeps {lx lx1 : Lexer} {type : TokenType} {t : Option Nat}
    (h : lexer_peek_until lx type = Except.ok (lx1, t)) : Keeps lx lx1 := by
  unfold lexer_peek_until lexer_until at h
  obtain ⟨⟨lx2, t2⟩, h1, h⟩ := bind_ok h
  obtain ⟨lx3, h3, h⟩ := bind_ok h
  cases h
  exact enter_leave_keeps (lexer_until_loop_keeps _ _ _ _ _ _ h1) h3

theorem lexer_peek_until_stop_keeps {lx lx1 : Lexer} {type : TokenType} {stop t : Option Nat}
    (h : lexer_peek_until_stop lx type stop = Except.ok (lx1, t)) : Keeps lx lx1 := by
  unfold lexer_peek_until_stop at h
  obtain ⟨⟨lx2, t2⟩, h1, h⟩ := bind_ok h
  obtain ⟨lx3, h3, h⟩ := bind_ok h
  cases h
  exact enter_leave_keeps (lexer_until_loop_keeps _ _ _ _ _ _ h1) h3

theorem lexer_peek_until_loose_loop_keeps (type : TokenType) (stop : Option Nat) :
    ∀ (fuel : Nat) (lx lx1 : Lexer) (nest : Int) (r : Bool × Option Nat),
      lexer_peek_until_loose_loop type stop fuel lx nest = Except.ok (lx1, r) → Keeps lx lx1 := by
  intro fuel
  induction fuel with
  | zero => intro lx lx1 nest r h; cases h
  | succ n ih =>
    intro lx lx1 nest r h
    unfold lexer_peek_until_loose_loop at h
    obtain ⟨⟨lx2, t2⟩, h1, h⟩ := bind_ok h
    have k1 := lexer_pop_keeps h1
    cases t2 with
    | none => cases h; exact k1
    | some p =>
      obtain ⟨tok, _, h⟩ := bind_ok h
      dsimp only at h
      repeat' split at h
      all_goals first
        | (cases h; exact k1)
        | exact k1.keeps_trans (ih _ _ _ _ h)

theorem lexer_peek_until_loose_keeps {lx lx1 : Lexer} {type : TokenType} {stop t : Option Nat}
    (h : lexer_peek_until_loose lx type stop = Except.ok (lx1, t)) : Keeps lx lx1 := by
  unfold lexer_peek_until_loose at h
  obtain ⟨⟨lx2, r2⟩, h1, h⟩ := bind_ok h
  obtain ⟨lx3, h3, h⟩ := bind_ok h
  have k := enter_leave_keeps (lexer_peek_until_loose_loop_keeps _ _ _ _ _ _ _ h1) h3
  split at h <;> (cases h; exact k)

theorem lexer_if_star_loop_keeps :
    ∀ (fuel : Nat) (lx lx1 : Lexer), lexer_if_star_loop fuel lx = Except.ok lx1 → Keeps lx lx1 := by
  intro fuel
  induction fuel with
  | zero => intro lx lx1 h; cases h
  | succ n ih =>
    intro lx lx1 h
    unfold lexer_if_star_loop at h
    obtain ⟨⟨lx2, r, w⟩, h1, h⟩ := bind_ok h
    have k1 := lexer_if_keeps h1
    dsimp only at h
    split at h
    · exact k1.keeps_trans (ih _ _ h)
    · cases h; exact k1

theorem lexer_peek_if_func_ptr_keeps {lx lx1 : Lexer} {t : Option Nat}
    (h : lexer_peek_if_func_ptr lx = Except.ok (lx1, t)) : Keeps lx lx1 := by
  unfold lexer_peek_if_func_ptr at h
  obtain ⟨⟨lx2, r1, w1⟩, h1, h⟩ := bind_ok h
  obtain ⟨⟨lx3, tk3⟩, hb, h⟩ := bind_ok h
  obtain ⟨lx4, hl, h⟩ := bind_ok h
  cases h
  refine enter_leave_keeps ?_ hl
  have k1 := lexer_if_keeps h1
  refine k1.keeps_trans ?_
  dsimp only at hb
  split at hb
  · obtain ⟨⟨lx5, r2, w2⟩, h2, hb⟩ := bind_ok hb
    have k2 := lexer_if_keeps h2
    dsimp only at hb
    split at hb
    · obtain ⟨lx6, h6, hb⟩ := bind_ok hb
      obtain ⟨⟨lx7, w7⟩, h7, hb⟩ := bind_ok hb
      obtain ⟨⟨lx8, r8, w8⟩, h8, hb⟩ := bind_ok hb
      obtain ⟨⟨lx9, r9, w9⟩, h9, hb⟩ := bind_ok hb
      obtain ⟨⟨lx10, r10, w10⟩, h10, hb⟩ := bind_ok hb
      obtain ⟨⟨lx11, r11, w11⟩, h11, hb⟩ := bind_ok hb
      have k11 : Keeps lx2 lx11 :=
        k2.keeps_trans ((lexer_if_star_loop_keeps _ _ _ h6).keeps_trans ((lexer_if_flags_keeps h7).keeps_trans
          ((lexer_if_keeps h8).keeps_trans ((lexer_if_keeps h9).keeps_trans
            ((lexer_if_keeps h10).keeps_trans (lexer_if_keeps h11))))))
      dsimp only at hb
      split at hb
      · obtain ⟨⟨lx12, lparen⟩, h12, hb⟩ := bind_ok hb
        have k12 := k11.keeps_trans (lexer_peek_if_keeps h12)
        cases lparen with
        | none => cases hb; exact k12
        | some lp =>
          obtain ⟨⟨lx13, e⟩, h13, hb⟩ := bind_ok hb
          have k13 := k12.keeps_trans (lexer_if_pair_keeps h13)
          cases e with
          | none => cases hb; exact k13
          | some e =>
            obtain ⟨tok, _, hb⟩ := bind_ok hb
            cases hb
            exact k13.keeps_trans ⟨rfl, fun _ hx => hx⟩
      · cases hb; exact k11
    · cases hb; exact k2
  · cases hb; exact Keeps.keeps_refl _

theorem lexer_peek_if_type_unnamed_keeps {lx lx1 : Lexer} {ntokens : Nat} {r : Bool}
    (h : lexer_peek_if_type_unnamed lx ntokens = Except.ok (lx1, r)) : Keeps lx lx1 := by
  unfold lexer_peek_if_type_unnamed at h
  obtain ⟨⟨lx2, r2⟩, hb, h⟩ := bind_ok h
  obtain ⟨lx3, hl, h⟩ := bind_ok h
  cases h
  refine enter_leave_keeps ?_ hl
  dsimp only at hb
  split at hb
  · obtain ⟨⟨lx4, r4, w4⟩, h4, hb⟩ := bind_ok hb
    have k4 := lexer_if_keeps h4
    dsimp only at hb
    split at hb
    · obtain ⟨⟨lx5, r5, w5⟩, h5, hb⟩ := bind_ok hb
      have k5 := k4.keeps_trans (lexer_if_keeps h5)
      dsimp only at hb
      split at hb
      · cases hb; exact k5
      · obtain ⟨⟨lx6, r6, w6⟩, h6, hb⟩ := bind_ok hb
        cases hb
        exact k5.keeps_trans (lexer_if_keeps h6)
    · cases hb; exact k4
  · cases hb; exact Keeps.keeps_refl _

theorem lexer_peek_if_type_ident_keeps {lx lx1 : Lexer} {r : Bool}
    (h : lexer_peek_if_type_ident lx = Except.ok (lx1, r)) : Keeps lx lx1 := by
  unfold lexer_peek_if_type_ident at h
  obtain ⟨⟨lx2, r2, w2⟩, h2, h⟩ := bind_ok h
  obtain ⟨⟨lx3, r3⟩, hb, h⟩ := bind_ok h
  obtain ⟨lx4, hl, h⟩ := bind_ok h
  cases h
  refine enter_leave_keeps ?_ hl
  have k2 := lexer_if_keeps h2
  refine k2.keeps_trans ?_
  dsimp only at hb
  split at hb
  · obtain ⟨⟨lxa, a⟩, ha, hb⟩ := bind_ok hb
    have ka := lexer_if_flags_keeps ha
    dsimp only at hb
    split at hb
    · cases hb; exact ka
    · obtain ⟨⟨lxb, b, wb⟩, hb1, hb⟩ := bind_ok hb
      have kb := ka.keeps_trans (lexer_if_keeps hb1)
      dsimp only at hb
      split at hb
      · cases hb; exact kb
      · obtain ⟨⟨lxc, c, wc⟩, hc1, hb⟩ := bind_ok hb
        have kc := kb.keeps_trans (lexer_if_keeps hc1)
        obtain ⟨⟨lxd, c1⟩, hd1, hb⟩ := bind_ok hb
        have kd : Keeps lx2 lxd := by
          dsimp only at hd1
          split at hd1
          · obtain ⟨⟨lxs, star⟩, hs, hd1⟩ := bind_ok hd1
            cases hd1
            exact kc.keeps_trans (lexer_peek_if_keeps hs)
          · cases hd1; exact kc
        dsimp only at hb
        split at hb
        · cases hb; exact kd
        · obtain ⟨⟨lxe, d, wd⟩, he1, hb⟩ := bind_ok hb
          have ke := kd.keeps_trans (lexer_if_keeps he1)
          dsimp only at hb
          split at hb
          · cases hb; exact ke
          · obtain ⟨⟨lxf, e, we⟩, hf1, hb⟩ := bind_ok hb
            have kf := ke.keeps_trans (lexer_if_keeps hf1)
            dsimp only at hb
            split at hb
            · cases hb; exact kf
            · obtain ⟨⟨lxg, f, wf⟩, hg1, hb⟩ := bind_ok hb
              have kg := kf.keeps_trans (lexer_if_keeps hg1)
              dsimp only at hb
              split at hb
              · cases hb; exact kg
              · obtain ⟨⟨lxh, g, wg⟩, hh1, hb⟩ := bind_ok hb
                have kh := kg.keeps_trans (lexer_if_keeps hh1)
                dsimp only at hb
                split at hb
                · cases hb; exact kh
                · obtain ⟨⟨lxi, i, wi⟩, hi1, hb⟩ := bind_ok hb
                  cases hb
                  exact kh.keeps_trans (lexer_if_keeps hi1)
  · cases hb; exact Keeps.keeps_refl _

theorem lexer_peek_if_type_loop_keeps :
    ∀ (fuel : Nat) (lx lx1 : Lexer) (t : Option Nat) (peek : Bool) (ntokens : Nat)
      (r : Option Nat × Bool × Nat × Bool),
      lexer_peek_if_type_loop fuel lx t peek ntokens = Except.ok (lx1, r) → Keeps lx lx1 := by
  intro fuel
  induction fuel with
  | zero => intro lx lx1 t peek ntokens r h; cases h
  | succ n ih =>
    intro lx lx1 t peek ntokens r h
    unfold lexer_peek_if_type_loop at h
    obtain ⟨⟨lx2, e⟩, h2, h⟩ := bind_ok h
    have k2 := lexer_peek_if_keeps h2
    dsimp only at h
    split at h
    · cases h; exact k2
    · obtain ⟨⟨lx3, f⟩, h3, h⟩ := bind_ok h
      have k3 := k2.keeps_trans (lexer_if_flags_keeps h3)
      cases f with
      | some p =>
        obtain ⟨tok, _, h⟩ := bind_ok h
        obtain ⟨⟨lx4, t4⟩, h4, h⟩ := bind_ok h
        have k4 : Keeps lx lx4 := by
          dsimp only at h4
          split at h4
          · obtain ⟨⟨lx5, r5, w5⟩, h5, h4⟩ := bind_ok h4
            cases h4
            exact k3.keeps_trans (lexer_if_keeps h5)
          · cases h4; exact k3
        obtain ⟨⟨lx6, w6⟩, h6, h⟩ := bind_ok h
        exact (k4.keeps_trans (lexer_if_pair_keeps h6)).keeps_trans (ih _ _ _ _ _ _ h)
      | none =>
        obtain ⟨⟨lx4, r4, w4⟩, h4, h⟩ := bind_ok h
        have k4 := k3.keeps_trans (lexer_if_keeps h4)
        dsimp only at h
        split at h
        · obtain ⟨⟨lx5, i⟩, h5, h⟩ := bind_ok h
          have k5 := k4.keeps_trans (lexer_peek_if_keeps h5)
          dsimp only at h
          split at h
          · cases h; exact k5
          · split at h
            · cases h; exact k5
            · exact k5.keeps_trans (ih _ _ _ _ _ _ h)
        · obtain ⟨⟨lx5, i⟩, h5, h⟩ := bind_ok h
          have k5 := k4.keeps_trans (lexer_peek_if_keeps h5)
          dsimp only at h
          split at h
          · obtain ⟨⟨lx6, ident⟩, h6, h⟩ := bind_ok h
            have k6 := k5.keeps_trans (lexer_peek_if_type_unnamed_keeps h6)
            dsimp only at h
            split at h
            · obtain ⟨⟨lx7, q⟩, h7, h⟩ := bind_ok h
              have k7 := k6.keeps_trans (lexer_pop_keeps h7)
              cases q with
              | some q => cases h; exact k7
              | none => cases h; exact k7
            · obtain ⟨⟨lx7, ident2⟩, h7, h⟩ := bind_ok h
              have k7 := k6.keeps_trans (lexer_peek_if_type_ident_keeps h7)
              dsimp only at h
              split at h
              · cases h; exact k7
              · obtain ⟨⟨lx8, r8, w8⟩, h8, h⟩ := bind_ok h
                exact (k7.keeps_trans (lexer_if_keeps h8)).keeps_trans (ih _ _ _ _ _ _ h)
          · obtain ⟨⟨lx6, fp⟩, h6, h⟩ := bind_ok h
            have k6 := k5.keeps_trans (lexer_peek_if_func_ptr_keeps h6)
            cases fp with
            | none => cases h; exact k6
            | some e =>
              dsimp only at h
              split at h
              · obtain ⟨tok, _, h⟩ := bind_ok h
                cases h
                exact k6.keeps_trans ⟨rfl, fun _ hx => hx⟩
              · cases h; exact k6

theorem lexer_peek_if_type_keeps {lx lx1 : Lexer} {r : Bool × Option Nat}
    (h : lexer_peek_if_type lx = Except.ok (lx1, r)) : Keeps lx lx1 := by
  unfold lexer_peek_if_type at h
  obtain ⟨⟨lx2, b⟩, h2, h⟩ := bind_ok h
  have k2 := lexer_peek_keeps h2
  cases b with
  | none => cases h; exact k2
  | some beg =>
    obtain ⟨⟨lx3, r3⟩, h3, h⟩ := bind_ok h
    obtain ⟨lx4, h4, h⟩ := bind_ok h
    obtain ⟨btok, _, h⟩ := bind_ok h
    cases h
    exact k2.keeps_trans (enter_leave_keeps (lexer_peek_if_type_loop_keeps _ _ _ _ _ _ _ h3) h4)

theorem lexer_if_type_keeps {lx lx1 : Lexer} {t : Option Nat}
    (h : lexer_if_type lx = Except.ok (lx1, t)) : Keeps lx lx1 := by
  unfold lexer_if_type at h
  obtain ⟨⟨lx2, peek, t2⟩, h2, h⟩ := bind_ok h
  have k2 := lexer_peek_if_type_keeps h2
  dsimp only at h
  split at h
  · cases h; exact k2.keeps_trans ⟨rfl, fun _ hx => hx⟩
  · cases h; exact k2

theorem map_fst_ok {α : Type} {m : Except Fault (Lexer × α)} {lx1 : Lexer}
    (h : m.map Prod.fst = Except.ok lx1) : ∃ a, m = Except.ok (lx1, a) := by
  cases m with
  | error e => cases h
  | ok p =>
    obtain ⟨l, a⟩ := p
    cases h
    exact ⟨a, rfl⟩

theorem CursorCall.run_keeps {lx lx1 : Lexer} {c : CursorCall}
    (h : c.run lx = Except.ok lx1) : Keeps lx lx1 := by
  cases c <;> simp only [CursorCall.run] at h <;> obtain ⟨a, ha⟩ := map_fst_ok h
  · exact lexer_pop_keeps ha
  · exact lexer_peek_keeps ha
  · exact lexer_peek_if_keeps ha
  · exact lexer_peek_if_flags_keeps ha
  · exact lexer_peek_if_pair_keeps ha
  · exact lexer_peek_if_type_keeps ha
  · exact lexer_peek_until_keeps ha
  · exact lexer_peek_until_loose_keeps ha
  · exact lexer_peek_until_stop_keeps ha
  · exact lexer_if_keeps ha
  · exact lexer_if_flags_keeps ha
  · exact lexer_if_pair_keeps ha
  · exact lexer_if_type_keeps ha

theorem run_calls_keeps : ∀ (cs : List CursorCall) (lx lx1 : Lexer),
    run_calls lx cs = Except.ok lx1 → Keeps lx lx1 := by
  intro cs
  induction cs with
  | nil => intro lx lx1 h; cases h; exact Keeps.keeps_refl _
  | cons c cs ih =>
    intro lx lx1 h
    unfold run_calls at h
    split at h
    · cases h
    · rename_i lx2 h2
      exact (CursorCall.run_keeps h2).keeps_trans (ih _ _ h)

/-! ## The cursor: `lexer_pop` at a branch -/

/-- C1: with peek depth 0 and the current token a fully-linked branch token
that is not `EOF`, `lexer_pop` returns 0 and changes nothing in the lexer (the
current token, the error counter and the pending branch included). -/
theorem lexer_pop_halt_at_branch (lx : Lexer) (cur : Nat) (c : Token)
    (hpeek : lx.lx_peek = 0) (hcur : lx.lx_st.st_tok = some cur)
    (hc : lx.lx_heap[cur]? = some c) (heof : c.tk_type ≠ TOKEN_EOF)
    (hpv : c.br_pv.isSome = true) (hnx : c.br_nx.isSome = true) :
    lexer_pop lx = Except.ok (lx, none) := by
  unfold lexer_pop
  by_cases he : lx.lx_tokens = []
  · simp [he]
  · have hcb : token_is_branch c true = true := by simp [token_is_branch, hpv, hnx]
    simp [he, hcur, deref, hc, heof, hpeek, hcb]

/-- C1 at the token `long` of the scenario with two branches. -/
theorem lexer_pop_halt_at_branch_witness :
    lexer_pop ((lexer_of branch_example).at 3) = Except.ok ((lexer_of branch_example).at 3, none) :=
  lexer_pop_halt_at_branch ((lexer_of branch_example).at 3) 3
    (((lexer_of branch_example).at 3).lx_heap.getD 3 tkeof)
    (by decide) (by decide) (by decide) (by decide) (by decide) (by decide)

/-- C2: with peek depth 0, the current token neither `EOF` nor a fully-linked
branch and its successor `b` a fully-linked branch token, `lexer_pop` returns
0, makes `b` the current token and makes `b` the pending branch when none was
pending; a branch that was pending is kept. -/
theorem lexer_pop_parks_on_branch (lx : Lexer) (cur b : Nat) (c B : Token)
    (hpeek : lx.lx_peek = 0) (hcur : lx.lx_st.st_tok = some cur)
    (hc : lx.lx_heap[cur]? = some c) (heof : c.tk_type ≠ TOKEN_EOF)
    (hcb : token_is_branch c true = false)
    (hnext : tailq_next lx.lx_tokens cur = some b)
    (hB : lx.lx_heap[b]? = some B)
    (hpv : B.br_pv.isSome = true) (hnx : B.br_nx.isSome = true) :
    lexer_pop lx = Except.ok
      ({ lx with
          lx_st := { lx.lx_st with st_tok := some b },
          lx_branch := (match lx.lx_branch with
            | none => some b
            | some pending => some pending) }, none) := by
  have he : lx.lx_tokens ≠ [] := by
    intro h
    rw [h] at hnext
    simp [tailq_next] at hnext
  have hBb : token_is_branch B true = true := by simp [token_is_branch, hpv, hnx]
  unfold lexer_pop
  cases hbr : lx.lx_branch <;>
    simp [he, hcur, deref, hc, heof, hpeek, hcb, hnext, hB, hBb, hbr]

/-- C2 at the token before `long` of the scenario with two branches. -/
theorem lexer_pop_parks_on_branch_witness :
    lexer_pop ((lexer_of branch_example).at 2) =
      Except.ok ({ (lexer_of branch_example).at 3 with lx_branch := some 3 }, none) :=
  lexer_pop_parks_on_branch ((lexer_of branch_example).at 2) 2 3
    (((lexer_of branch_example).at 2).lx_heap.getD 2 tkeof)
    (((lexer_of branch_example).at 2).lx_heap.getD 3 tkeof)
    (by decide) (by decide) (by decide) (by decide) (by decide) (by decide) (by decide)
    (by decide) (by decide)

/-- C3: with peek depth above 0, the current token not `EOF` and its successor
`b` a fully-linked branch token, `lexer_pop` returns 1 and yields, and makes
current, the token `t` reached from `b` by following the links `br_nx` up to
the token that has none. -/
theorem lexer_pop_peek_follows_branch (lx : Lexer) (cur b t n : Nat) (c B : Token)
    (hpeek : lx.lx_peek > 0) (hcur : lx.lx_st.st_tok = some cur)
    (hc : lx.lx_heap[cur]? = some c) (heof : c.tk_type ≠ TOKEN_EOF)
    (hnext : tailq_next lx.lx_tokens cur = some b)
    (hB : lx.lx_heap[b]? = some B)
    (hpv : B.br_pv.isSome = true) (hnx : B.br_nx.isSome = true)
    (hend : BranchEnd lx.lx_heap n b t) :
    lexer_pop lx = Except.ok
      ({ lx with
          lx_st := { lx.lx_st with st_tok := some t },
          lx_branch := (match lx.lx_branch with
            | none => some b
            | some pending => some pending) }, some t) := by
  have he : lx.lx_tokens ≠ [] := by
    intro h
    rw [h] at hnext
    simp [tailq_next] at hnext
  have hBb : token_is_branch B true = true := by simp [token_is_branch, hpv, hnx]
  have hlast := branch_last_of_end hend lx.lx_heap.length hend.steps_lt_length
  have hp : lx.lx_peek ≠ 0 := by omega
  unfold lexer_pop
  cases hbr : lx.lx_branch <;>
    simp [he, hcur, deref, hc, heof, hp, hnext, hB, hBb, hbr, hlast, lexer_pop_out]

/-- C3 at the first alternative of a branch of three alternatives: the pop
yields the token after `#endif`. -/
theorem lexer_pop_peek_follows_branch_witness :
    lexer_pop (((lexer_of elif_example).at 1).peeking 1) =
      Except.ok ({ ((lexer_of elif_example).at 4).peeking 1 with lx_branch := some 2 }, some 4) :=
  lexer_pop_peek_follows_branch (((lexer_of elif_example).at 1).peeking 1) 1 2 4 2
    ((lexer_of elif_example).lx_heap.getD 1 tkeof)
    ((lexer_of elif_example).lx_heap.getD 2 tkeof)
    (by decide) (by decide) (by decide) (by decide) (by decide) (by decide) (by decide)
    (by decide)
    (BranchEnd.next 1 2 3 4 ((lexer_of elif_example).lx_heap.getD 2 tkeof) (by decide) (by decide)
      (BranchEnd.next 0 3 4 4 ((lexer_of elif_example).lx_heap.getD 3 tkeof) (by decide) (by decide)
        (BranchEnd.last 4 ((lexer_of elif_example).lx_heap.getD 4 tkeof) (by decide) (by decide))))

/-! ## The cursor: peek frames -/

/-- C4, as stated, fails: in the scenario with two branches a frame of four
calls of `lexer_pop` returns with the pending branch set to the token `long`,
and no branch was pending at `lexer_peek_enter`. -/
theorem peek_frame_sets_pending_branch :
    (lexer_of branch_example).lx_branch = none ∧
      ∃ lx1, peek_frame (lexer_of branch_example)
          [CursorCall.pop, CursorCall.pop, CursorCall.pop, CursorCall.pop] = Except.ok lx1 ∧
        lx1.lx_branch = some 3 := by
  refine ⟨by decide, _, rfl, ?_⟩
  decide

/-- C4, amended: after `lexer_peek_enter`, any sequence of calls of
`lexer_pop`, `lexer_peek*` and `lexer_if*` and the matching
`lexer_peek_leave`, the state `lx_st` (current token, line, column, offset and
error counter) and the peek depth are those before the enter, and a branch
that was pending before the enter is still pending. -/
theorem peek_frame_restores_state (lx lx1 : Lexer) (cs : List CursorCall)
    (h : peek_frame lx cs = Except.ok lx1) :
    lx1.lx_st = lx.lx_st ∧ lx1.lx_peek = lx.lx_peek ∧
      (∀ b, lx.lx_branch = some b → lx1.lx_branch = some b) := by
  unfold peek_frame at h
  split at h
  · cases h
  · rename_i lx2 h2
    have k := enter_leave_keeps (run_calls_keeps _ _ _ h2) h
    refine ⟨?_, k.1, k.2⟩
    unfold lexer_peek_leave at h
    split at h
    · cases h; rfl
    · cases h

/-- C4, amended, in the scenario with two branches. -/
theorem peek_frame_restores_state_witness :
    ∃ lx1, peek_frame (lexer_of branch_example)
        [CursorCall.pop, CursorCall.peek_if_type, CursorCall.if_ TOKEN_IDENT, CursorCall.pop,
          CursorCall.pop, CursorCall.if_pair TOKEN_LPAREN TOKEN_RPAREN] = Except.ok lx1 ∧
      lx1.lx_st = (lexer_of branch_example).lx_st ∧
      lx1.lx_peek = (lexer_of branch_example).lx_peek ∧
      (∀ b, (lexer_of branch_example).lx_branch = some b → lx1.lx_branch = some b) := by
  have h : ∃ lx1, peek_frame (lexer_of branch_example)
      [CursorCall.pop, CursorCall.peek_if_type, CursorCall.if_ TOKEN_IDENT, CursorCall.pop,
        CursorCall.pop, CursorCall.if_pair TOKEN_LPAREN TOKEN_RPAREN] = Except.ok lx1 := ⟨_, rfl⟩
  obtain ⟨lx1, h1⟩ := h
  exact ⟨lx1, h1, peek_frame_restores_state _ _ _ h1⟩

/-! ## Lemmas on the scanner and the classifier -/

theorem Scans.scans_refl (lx : Lexer) : Scans lx lx :=
  ⟨rfl, rfl, rfl, le_refl _, le_refl _⟩

theorem Scans.scans_trans {a b c : Lexer} (h1 : Scans a b) (h2 : Scans b c) : Scans a c :=
  ⟨h2.bf.trans h1.bf, h2.heap.trans h1.heap, h2.tokens.trans h1.tokens,
    le_trans h1.eof_le h2.eof_le, le_trans h1.off_le h2.off_le⟩

theorem Scans.restore {a b : Lexer} (h : Scans a b) (st : LexerState)
    (hst : a.lx_st.st_off ≤ st.st_off) : Scans a { b with lx_st := st } :=
  ⟨h.bf, h.heap, h.tokens, h.eof_le, hst⟩

theorem Scans1.scans {a b : Lexer} (h : Scans1 a b) : Scans a b := h.1

theorem Scans.trans1 {a b c : Lexer} (h1 : Scans a b) (h2 : Scans1 b c) : Scans1 a c := by
  refine ⟨h1.scans_trans h2.1, ?_⟩
  rcases h2.2 with h | h
  · exact Or.inl h
  · exact Or.inr (lt_of_le_of_lt h1.off_le h)

theorem Scans1.scans1_trans {a b c : Lexer} (h1 : Scans1 a b) (h2 : Scans b c) : Scans1 a c := by
  refine ⟨h1.1.scans_trans h2, ?_⟩
  rcases h1.2 with h | h
  · left
    have := h2.eof_le
    omega
  · exact Or.inr (lt_of_lt_of_le h h2.off_le)

theorem lexer_getc_scans {lx lx1 : Lexer} {ch : Option Nat}
    (h : lexer_getc lx = Except.ok (lx1, ch)) : Scans1 lx lx1 := by
  unfold lexer_getc at h
  repeat' split at h
  all_goals first
    | (cases h; done)
    | (cases h
       refine ⟨⟨rfl, rfl, rfl, ?_, ?_⟩, ?_⟩ <;> simp)

theorem lexer_ungetc_scans {a lx lx1 : Lexer} (ha : Scans1 a lx)
    (h : lexer_ungetc lx = Except.ok lx1) : Scans a lx1 := by
  obtain ⟨hs, hu⟩ := ha
  unfold lexer_ungetc at h
  repeat' split at h
  all_goals first
    | (cases h; done)
    | (cases h; exact hs)
    | (cases h
       refine ⟨hs.bf, hs.heap, hs.tokens, hs.eof_le, ?_⟩
       simp only
       omega)

theorem lexer_emit_loose {lx lx1 : Lexer} {st : LexerState} {tk : Token} {d : Dangling}
    (h : lexer_emit lx st tk = (lx1, TokRef.loose d)) :
    lx1 = lx ∧ d.tk_type = tk.tk_type ∧ d.tk_flags = tk.tk_flags ∧
      tk.tk_flags &&& TOKEN_FLAG_DANGLING ≠ 0 ∧
      (tk.tk_str = StrPtr.null →
        d.tk_str = StrPtr.buf st.st_off ∧ d.tk_len = lx.lx_st.st_off - st.st_off) ∧
      (tk.tk_str ≠ StrPtr.null → d.tk_str = tk.tk_str ∧ d.tk_len = tk.tk_len) := by
  unfold lexer_emit at h
  by_cases hnull : tk.tk_str = StrPtr.null <;>
    by_cases hflags : tk.tk_flags &&& TOKEN_FLAG_DANGLING = 0 <;>
    simp [hnull, hflags, Token.toDangling] at h
  · obtain ⟨rfl, rfl⟩ := h
    simp [hnull, hflags]
  · obtain ⟨rfl, rfl⟩ := h
    simp [hnull, hflags]

theorem lexer_emit_linked {lx lx1 : Lexer} {st : LexerState} {tk : Token} {p : Nat}
    (h : lexer_emit lx st tk = (lx1, TokRef.linked p)) :
    p = lx.lx_heap.length ∧ ∃ t : Token,
      lx1 = { lx with lx_heap := lx.lx_heap ++ [t], lx_tokens := lx.lx_tokens ++ [p] } ∧
      t.tk_type = tk.tk_type ∧ t.tk_flags = tk.tk_flags ∧
      t.tk_flags &&& TOKEN_FLAG_DANGLING = 0 ∧ t.tk_prefixes = [] ∧ t.tk_suffixes = [] ∧
      (tk.tk_str = StrPtr.null →
        t.tk_str = StrPtr.buf st.st_off ∧ t.tk_len = lx.lx_st.st_off - st.st_off) ∧
      (tk.tk_str ≠ StrPtr.null → t.tk_str = tk.tk_str ∧ t.tk_len = tk.tk_len) := by
  unfold lexer_emit at h
  by_cases hnull : tk.tk_str = StrPtr.null <;>
    by_cases hflags : tk.tk_flags &&& TOKEN_FLAG_DANGLING = 0 <;>
    simp [hnull, hflags] at h
  · obtain ⟨rfl, rfl⟩ := h
    exact ⟨rfl, _, rfl, rfl, rfl, hflags, rfl, rfl, by simp, by simp [hnull]⟩
  · obtain ⟨rfl, rfl⟩ := h
    exact ⟨rfl, _, rfl, rfl, rfl, hflags, rfl, rfl, by simp [hnull], by simp⟩

/-! ### Bytes within a range of the buffer -/

theorem slice_append (bf : List Nat) {a b c : Nat} (hab : a ≤ b) (hbc : b ≤ c) :
    (bf.drop a).take (c - a) = (bf.drop a).take (b - a) ++ (bf.drop b).take (c - b) := by
  have h1 : c - a = (b - a) + (c - b) := by omega
  rw [h1, List.take_add, List.drop_drop]
  have h2 : a + (b - a) = b := by omega
  rw [h2]

theorem strip_append (l1 l2 : List Nat) : strip (l1 ++ l2) = strip l1 ++ strip l2 := by
  simp [strip]

theorem Within.nil (bf : List Nat) (a b : Nat) : Within bf a b [] := by
  simp [Within, strip]

theorem Within.slice (bf : List Nat) (a b : Nat) : Within bf a b ((bf.drop a).take (b - a)) :=
  List.Sublist.refl _

theorem Within.append {bf : List Nat} {a b c : Nat} {l1 l2 : List Nat} (hab : a ≤ b) (hbc : b ≤ c)
    (h1 : Within bf a b l1) (h2 : Within bf b c l2) : Within bf a c (l1 ++ l2) := by
  unfold Within at *
  rw [slice_append bf hab hbc, strip_append, strip_append]
  exact h1.append h2

theorem Within.widen {bf : List Nat} {a b a1 b1 : Nat} {l : List Nat} (h : Within bf a b l)
    (ha : a1 ≤ a) (hab : a ≤ b) (hb : b ≤ b1) : Within bf a1 b1 l := by
  have h1 := Within.append ha hab (Within.nil bf a1 a) h
  have h2 := Within.append (le_trans ha hab) hb h1 (Within.nil bf b b1)
  simpa using h2

theorem Within.of_blank (bf : List Nat) (a b : Nat) {l : List Nat} (h : strip l = []) :
    Within bf a b l := by
  simp [Within, h]

theorem KeyAt.extend {bf : List Nat} {a b b1 : Nat} {t : Token} (h : KeyAt bf a b t) (hb : b ≤ b1) :
    KeyAt bf a b1 t := by
  obtain ⟨k, hk, hle⟩ := h
  exact ⟨k, hk, le_trans hle hb⟩

theorem KeyAt.lexeme_within {bf : List Nat} {a b : Nat} {t : Token} (h : KeyAt bf a b t) :
    Within bf a b (lexeme bf t.tk_str t.tk_len) := by
  obtain ⟨k, hk, hle⟩ := h
  unfold Within
  apply List.Sublist.filter
  rw [hk]
  simp only [lexeme]
  have h1 : k = min k (b - a) := by omega
  calc ((bf.drop a).take k).take t.tk_len
      _ |>.Sublist ((bf.drop a).take k) := List.take_sublist _ _
      _ = ((bf.drop a).take (b - a)).take k := by rw [List.take_take]; rw [← h1]
      _ |>.Sublist ((bf.drop a).take (b - a)) := List.take_sublist _ _

theorem hash_find_static {key : List Nat} {t : Token} (h : hash_find key = some t) :
    t.tk_str = StrPtr.static key := by
  unfold hash_find at h
  have := List.find?_some h
  simpa using this

theorem lexer_find_token_key {lx : Lexer} {st : LexerState} {t : Token}
    (h : lexer_find_token lx st = some t) (hst : st.st_off ≤ lx.lx_st.st_off) :
    KeyAt lx.lx_bf st.st_off lx.lx_st.st_off t := by
  unfold lexer_find_token lexer_buffer_slice at h
  exact ⟨lx.lx_st.st_off - st.st_off, hash_find_static h, by omega⟩

/-! ### The scanner moves forward -/

theorem lexer_eat_lines_loop_scans : ∀ (fuel : Nat) (lx lx1 : Lexer) (n n1 : Nat),
    lexer_eat_lines_loop fuel lx n = Except.ok (lx1, n1) → Scans lx lx1 := by
  intro fuel
  induction fuel with
  | zero => intro lx lx1 n n1 h; cases h
  | succ f ih =>
    intro lx lx1 n n1 h
    unfold lexer_eat_lines_loop at h
    obtain ⟨⟨lx2, ch⟩, h1, h⟩ := bind_ok h
    have k1 := lexer_getc_scans h1
    cases ch with
    | none => cases h; exact k1.1
    | some c =>
      dsimp only at h
      split at h
      · exact k1.1.scans_trans (ih _ _ _ _ h)
      · obtain ⟨lx3, h3, h⟩ := bind_ok h
        cases h
        exact lexer_ungetc_scans k1 h3

theorem lexer_emit_tkline (lx : Lexer) (st : LexerState) :
    lexer_emit lx st tkline = (lx, TokRef.loose
      { tk_type := TOKEN_SPACE, tk_lno := st.st_lno, tk_cno := st.st_cno,
        tk_flags := TOKEN_FLAG_DANGLING, tk_str := StrPtr.static [CH_NEWLINE], tk_len := 1 }) := by
  simp [lexer_emit, tkline, Token.toDangling, TOKEN_FLAG_DANGLING]

theorem lexer_emit_tkcomment (lx : Lexer) (st : LexerState) :
    lexer_emit lx st tkcomment = (lx, TokRef.loose
      { tk_type := TOKEN_COMMENT, tk_lno := st.st_lno, tk_cno := st.st_cno,
        tk_flags := TOKEN_FLAG_DANGLING, tk_str := StrPtr.buf st.st_off,
        tk_len := lx.lx_st.st_off - st.st_off }) := by
  simp [lexer_emit, tkcomment, tkcpp, Token.toDangling, TOKEN_FLAG_DANGLING]

theorem lexer_emit_tkcpp (lx : Lexer) (st : LexerState) (type : TokenType) :
    lexer_emit lx st { tkcpp with tk_type := type } = (lx, TokRef.loose
      { tk_type := type, tk_lno := st.st_lno, tk_cno := st.st_cno,
        tk_flags := TOKEN_FLAG_DANGLING, tk_str := StrPtr.buf st.st_off,
        tk_len := lx.lx_st.st_off - st.st_off }) := by
  simp [lexer_emit, tkcomment, tkcpp, Token.toDangling, TOKEN_FLAG_DANGLING]

theorem lexer_eat_lines_scans {lx lx1 : Lexer} {emit : Bool} {r : Option TokRef}
    (h : lexer_eat_lines lx emit = Except.ok (lx1, r)) :
    Scans lx lx1 ∧ ∀ t, r = some t → ∃ d, t = TokRef.loose d ∧ d.tk_type = TOKEN_SPACE ∧
      d.tk_flags = TOKEN_FLAG_DANGLING ∧ d.tk_str = StrPtr.static [CH_NEWLINE] ∧ d.tk_len = 1 := by
  unfold lexer_eat_lines at h
  obtain ⟨⟨lx2, n⟩, h1, h⟩ := bind_ok h
  have k1 := lexer_eat_lines_loop_scans _ _ _ _ _ h1
  dsimp only at h
  split at h
  · cases h; exact ⟨k1, fun t ht => by cases ht⟩
  · split at h
    · rw [lexer_emit_tkline] at h
      cases h
      refine ⟨k1, ?_⟩
      intro t ht
      cases ht
      exact ⟨_, rfl, rfl, rfl, rfl, rfl⟩
    · cases h; exact ⟨k1, fun t ht => by cases ht⟩

theorem lexer_eat_space_loop_scans (newline : Bool) : ∀ (fuel : Nat) (lx lx1 : Lexer) (more : Bool),
    lexer_eat_space_loop newline fuel lx = Except.ok (lx1, more) → Scans1 lx lx1 := by
  intro fuel
  induction fuel with
  | zero => intro lx lx1 more h; cases h
  | succ f ih =>
    intro lx lx1 more h
    unfold lexer_eat_space_loop at h
    obtain ⟨⟨lx2, ch⟩, h1, h⟩ := bind_ok h
    have k1 := lexer_getc_scans h1
    cases ch with
    | none => cases h; exact k1
    | some c =>
      dsimp only at h
      split at h
      · exact k1.scans1_trans (ih _ _ _ h).1
      · cases h; exact k1

theorem lexer_eat_space_scans {lx lx1 : Lexer} {newline : Bool} {r : Option TokRef}
    (h : lexer_eat_space lx newline false = Except.ok (lx1, r)) : Scans lx lx1 := by
  unfold lexer_eat_space at h
  obtain ⟨⟨lx2, more⟩, h1, h⟩ := bind_ok h
  have k1 := lexer_eat_space_loop_scans _ _ _ _ _ h1
  dsimp only at h
  split at h
  · cases h; exact k1.1
  · obtain ⟨lx3, h3, h⟩ := bind_ok h
    have k3 := lexer_ungetc_scans k1 h3
    simp at h
    cases h
    exact k3

theorem lexer_ellipsis_scans {lx lx1 : Lexer} {st : LexerState} {r : Option Token}
    (h : lexer_ellipsis lx st = Except.ok (lx1, r)) :
    Scans lx lx1 ∧ ∀ t, r = some t → lexer_find_token lx1 st = some t := by
  unfold lexer_ellipsis at h
  dsimp only at h
  split at h
  · cases h; exact ⟨Scans.scans_refl _, fun t ht => by cases ht⟩
  · obtain ⟨⟨lx2, ch⟩, h2, h⟩ := bind_ok h
    have k2 := (lexer_getc_scans h2).1
    dsimp only at h
    split at h
    · cases h; exact ⟨k2.restore _ (le_refl _), fun t ht => by cases ht⟩
    · split at h
      · cases h; exact ⟨k2.restore _ (le_refl _), fun t ht => by cases ht⟩
      · obtain ⟨⟨lx3, ch3⟩, h3, h⟩ := bind_ok h
        have k3 := k2.scans_trans (lexer_getc_scans h3).1
        dsimp only at h
        split at h
        · cases h; exact ⟨k3.restore _ (le_refl _), fun t ht => by cases ht⟩
        · cases h
          exact ⟨k3, fun t ht => ht⟩

theorem lexer_keyword_loop_scans (st : LexerState) :
    ∀ (fuel : Nat) (base lx lx1 : Lexer) (pv r : Option Token),
      lexer_keyword_loop st fuel lx pv = Except.ok (lx1, r) →
      Scans1 base lx → st.st_off ≤ base.lx_st.st_off →
      (∀ t, pv = some t → KeyAt base.lx_bf st.st_off base.lx_st.st_off t) →
      Scans base lx1 ∧ ∀ t, r = some t → KeyAt lx1.lx_bf st.st_off lx1.lx_st.st_off t := by
  intro fuel
  induction fuel with
  | zero => intro base lx lx1 pv r h; cases h
  | succ f ih =>
    intro base lx lx1 pv r h hb hst hpv
    unfold lexer_keyword_loop at h
    split at h
    · obtain ⟨lx2, h2, h⟩ := bind_ok h
      cases h
      have k2 := lexer_ungetc_scans hb h2
      refine ⟨k2, fun t ht => ?_⟩
      rw [k2.bf]
      exact (hpv t ht).extend k2.off_le
    · rename_i tmp hfind
      have hstlx : st.st_off ≤ lx.lx_st.st_off := le_trans hst hb.1.off_le
      have hkey := lexer_find_token_key hfind hstlx
      split at h
      · cases h
        refine ⟨hb.1, fun t ht => ?_⟩
        cases ht
        exact hkey
      · obtain ⟨⟨lx2, e⟩, h2, h⟩ := bind_ok h
        have k2 : Scans lx lx2 ∧ ∀ t, e = some t → lexer_find_token lx2 st = some t := by
          split at h2
          · exact lexer_ellipsis_scans h2
          · cases h2; exact ⟨Scans.scans_refl _, fun t ht => by cases ht⟩
        cases e with
        | some e =>
          cases h
          refine ⟨hb.1.scans_trans k2.1, fun t ht => ?_⟩
          cases ht
          exact lexer_find_token_key (k2.2 _ rfl) (le_trans hstlx k2.1.off_le)
        | none =>
          obtain ⟨⟨lx3, ch⟩, h3, h⟩ := bind_ok h
          have k3 := lexer_getc_scans h3
          have hkey2 : KeyAt lx2.lx_bf st.st_off lx2.lx_st.st_off tmp := by
            rw [k2.1.bf]
            exact hkey.extend k2.1.off_le
          cases ch with
          | none =>
            cases h
            refine ⟨hb.1.scans_trans (k2.1.scans_trans k3.1), fun t ht => ?_⟩
            cases ht
            rw [k3.1.bf]
            exact hkey2.extend k3.1.off_le
          | some c =>
            have := ih lx2 lx3 lx1 (some tmp) r h k3 (le_trans hstlx k2.1.off_le)
              (fun t ht => by cases ht; exact hkey2)
            exact ⟨hb.1.scans_trans (k2.1.scans_trans this.1), this.2⟩

theorem lexer_keyword_scans {lx lx1 : Lexer} {r : Option Keyword}
    (h : lexer_keyword lx = Except.ok (lx1, r)) :
    (∀ p, r = some (Keyword.emitted (TokRef.linked p)) →
        ∃ t, Emitted lx lx1 p t ∧ t.tk_flags &&& TOKEN_FLAG_DISCARD = 0) ∧
      ((∀ p, r ≠ some (Keyword.emitted (TokRef.linked p))) → Scans lx lx1) := by
  unfold lexer_keyword at h
  obtain ⟨⟨lx2, ch⟩, h2, h⟩ := bind_ok h
  have k2 := lexer_getc_scans h2
  cases ch with
  | none =>
    cases h
    exact ⟨fun p hp => (by cases hp), fun _ => k2.1⟩
  | some c =>
    obtain ⟨⟨lx3, tk⟩, h3, h⟩ := bind_ok h
    have k3 := lexer_keyword_loop_scans lx.lx_st _ lx lx2 lx3 none tk h3 k2 (le_refl _)
      (fun t ht => by cases ht)
    cases tk with
    | none =>
      cases h
      exact ⟨fun p hp => (by cases hp), fun _ => k3.1.restore _ (le_refl _)⟩
    | some tk =>
      dsimp only at h
      split at h
      · cases h
        exact ⟨fun p hp => (by cases hp), fun _ => k3.1⟩
      · rename_i hdiscard
        cases hemit : lexer_emit lx3 lx.lx_st tk with
        | mk lx4 ref =>
          rw [hemit] at h
          cases h
          cases ref with
          | loose d =>
            obtain ⟨rfl, _⟩ := lexer_emit_loose hemit
            exact ⟨fun p hp => (by cases hp), fun _ => k3.1⟩
          | linked q =>
            obtain ⟨hq, t, rfl, _, hfl, hflags, hpre, hsuf, hnull, hstr⟩ := lexer_emit_linked hemit
            refine ⟨fun p hp => ?_, fun hne => absurd rfl (hne q)⟩
            cases hp
            have hkey := k3.2 tk rfl
            have hne : tk.tk_str ≠ StrPtr.null := by
              obtain ⟨k, hk, _⟩ := hkey
              rw [hk]
              exact fun hc => by cases hc
            obtain ⟨hs, hl⟩ := hstr hne
            refine ⟨t, ⟨?_, ?_, ?_, k3.1.bf, k3.1.eof_le, k3.1.off_le, hflags, hpre, hsuf, ?_⟩, ?_⟩
            rotate_right
            · rw [hfl]
              simpa using hdiscard
            · rw [hq, k3.1.heap]
            · simp [k3.1.heap]
            · simp [k3.1.tokens]
            · rw [hs, hl, ← k3.1.bf]
              exact hkey.lexeme_within

theorem lexer_comment_body_scans (cstyle : Bool) : ∀ (fuel : Nat) (lx lx1 : Lexer) (ch : Nat),
    lexer_comment_body cstyle fuel lx ch = Except.ok lx1 → Scans lx lx1 := by
  intro fuel
  induction fuel with
  | zero => intro lx lx1 ch h; cases h
  | succ f ih =>
    intro lx lx1 ch h
    unfold lexer_comment_body at h
    obtain ⟨⟨lx2, peek⟩, h2, h⟩ := bind_ok h
    have k2 := lexer_getc_scans h2
    cases peek with
    | none => cases h; exact k2.1
    | some c =>
      dsimp only at h
      split at h
      · split at h
        · cases h; exact k2.1
        · exact k2.1.scans_trans (ih _ _ _ h)
      · split at h
        · exact lexer_ungetc_scans k2 h
        · exact k2.1.scans_trans (ih _ _ _ h)

theorem lexer_comment_loop_scans (block : Bool) : ∀ (fuel : Nat) (lx lx1 : Lexer) (n n1 : Nat),
    lexer_comment_loop block fuel lx n = Except.ok (lx1, n1) → Scans lx lx1 := by
  intro fuel
  induction fuel with
  | zero => intro lx lx1 n n1 h; cases h
  | succ f ih =>
    intro lx lx1 n n1 h
    unfold lexer_comment_loop at h
    obtain ⟨⟨lx2, r2⟩, h2, h⟩ := bind_ok h
    have k2 := lexer_eat_space_scans h2
    obtain ⟨⟨lx3, ch⟩, h3, h⟩ := bind_ok h
    have k3 := k2.scans_trans (lexer_getc_scans h3).1
    dsimp only at h
    split at h
    · cases h; exact k3.restore _ (le_refl _)
    · obtain ⟨⟨lx4, ch4⟩, h4, h⟩ := bind_ok h
      have k4 := k3.scans_trans (lexer_getc_scans h4).1
      dsimp only at h
      split at h
      · cases h; exact k4.restore _ (le_refl _)
      · obtain ⟨lx5, h5, h⟩ := bind_ok h
        have k5 := k4.scans_trans (lexer_comment_body_scans _ _ _ _ _ h5)
        split at h
        · cases h; exact k5
        · exact k5.scans_trans (ih _ _ _ _ h)

theorem lexer_comment_scans {lx lx1 : Lexer} {block : Bool} {r : Option TokRef}
    (h : lexer_comment lx block = Except.ok (lx1, r)) :
    Scans lx lx1 ∧ ∀ t, r = some t → ∃ d, t = TokRef.loose d ∧ d.tk_type = TOKEN_COMMENT ∧
      IsDangling d lx.lx_st.st_off lx1.lx_st.st_off := by
  unfold lexer_comment at h
  obtain ⟨⟨lx2, n⟩, h2, h⟩ := bind_ok h
  have k2 := lexer_comment_loop_scans _ _ _ _ _ _ h2
  dsimp only at h
  split at h
  · cases h; exact ⟨k2, fun t ht => by cases ht⟩
  · obtain ⟨lx3, h3, h⟩ := bind_ok h
    have k3 : Scans lx lx3 := by
      split at h3
      · obtain ⟨⟨lx4, r4⟩, h4, h3⟩ := bind_ok h3
        obtain ⟨⟨lx5, r5⟩, h5, h3⟩ := bind_ok h3
        cases h3
        exact k2.scans_trans ((lexer_eat_space_scans h4).scans_trans (lexer_eat_lines_scans h5).1)
      · cases h3; exact k2
    rw [lexer_emit_tkcomment] at h
    cases h
    refine ⟨k3, fun t ht => ?_⟩
    cases ht
    exact ⟨_, rfl, rfl, rfl, rfl, rfl⟩

theorem lexer_cpp_line_scans : ∀ (fuel : Nat) (lx lx1 : Lexer) (ch : Nat) (comment : Bool),
    lexer_cpp_line fuel lx ch comment = Except.ok lx1 → Scans lx lx1 := by
  intro fuel
  induction fuel with
  | zero => intro lx lx1 ch comment h; cases h
  | succ f ih =>
    intro lx lx1 ch comment h
    unfold lexer_cpp_line at h
    obtain ⟨⟨lx2, peek⟩, h2, h⟩ := bind_ok h
    have k2 := (lexer_getc_scans h2).1
    cases peek with
    | none => cases h; exact k2
    | some c =>
      dsimp only at h
      repeat' split at h
      all_goals first
        | (cases h; exact k2)
        | exact k2.scans_trans (ih _ _ _ _ h)

theorem lexer_cpp_loop_scans : ∀ (fuel : Nat) (lx lx1 : Lexer) (ncpp : Nat) (off : Int)
    (r : TokenType × Nat),
    lexer_cpp_loop fuel lx ncpp off = Except.ok (lx1, r) → Scans lx lx1 ∧ IsCppType r.1 := by
  intro fuel
  induction fuel with
  | zero => intro lx lx1 ncpp off r h; cases h
  | succ f ih =>
    intro lx lx1 ncpp off r h
    unfold lexer_cpp_loop at h
    obtain ⟨⟨lx2, r2⟩, h2, h⟩ := bind_ok h
    have k2 := lexer_eat_space_scans h2
    obtain ⟨⟨lx3, ch⟩, h3, h⟩ := bind_ok h
    have k3 := k2.scans_trans (lexer_getc_scans h3).1
    cases ch with
    | none => cases h; exact ⟨k3.restore _ (le_refl _), Or.inl rfl⟩
    | some c =>
      dsimp only at h
      split at h
      · cases h; exact ⟨k3.restore _ (le_refl _), Or.inl rfl⟩
      · obtain ⟨lx4, h4, h⟩ := bind_ok h
        have k4 := k3.scans_trans (lexer_cpp_line_scans _ _ _ _ _ h4)
        repeat' split at h
        all_goals first
          | (cases h; exact ⟨k4, Or.inr (Or.inl rfl)⟩)
          | (cases h; exact ⟨k4, Or.inr (Or.inr (Or.inl rfl))⟩)
          | (cases h; exact ⟨k4, Or.inr (Or.inr (Or.inr rfl))⟩)
          | exact ⟨k4.scans_trans (ih _ _ _ _ _ h).1, (ih _ _ _ _ _ h).2⟩

theorem lexer_cpp_scans {lx lx1 : Lexer} {r : Option TokRef}
    (h : lexer_cpp lx = Except.ok (lx1, r)) :
    Scans lx lx1 ∧ ∀ t, r = some t → ∃ d, t = TokRef.loose d ∧ IsCppType d.tk_type ∧
      IsDangling d lx.lx_st.st_off lx1.lx_st.st_off := by
  unfold lexer_cpp at h
  obtain ⟨⟨lx2, type, ncpp⟩, h2, h⟩ := bind_ok h
  have k2 := lexer_cpp_loop_scans _ _ _ _ _ _ h2
  dsimp only at h
  split at h
  · cases h; exact ⟨k2.1, fun t ht => by cases ht⟩
  · obtain ⟨⟨lx3, r3⟩, h3, h⟩ := bind_ok h
    have k3 := k2.1.scans_trans (lexer_eat_lines_scans h3).1
    rw [lexer_emit_tkcpp] at h
    cases h
    refine ⟨k3, fun t ht => ?_⟩
    cases ht
    exact ⟨_, rfl, k2.2, rfl, rfl, rfl⟩

theorem Scans.reads {a b : Lexer} (h : Scans a b) : Reads a b := ⟨h.bf, h.tokens, h.off_le⟩

theorem Reads.reads_refl (a : Lexer) : Reads a a := ⟨rfl, rfl, le_refl _⟩

theorem Reads.reads_trans {a b c : Lexer} (h1 : Reads a b) (h2 : Reads b c) : Reads a c :=
  ⟨h2.bf.trans h1.bf, h2.tokens.trans h1.tokens, le_trans h1.off_le h2.off_le⟩

theorem IsDangling.flags {d : Dangling} {a b : Nat} (h : IsDangling d a b) :
    d.tk_flags &&& TOKEN_FLAG_DANGLING ≠ 0 := by
  rw [h.1]
  decide

theorem IsDangling.lexeme_slice {d : Dangling} {a b : Nat} (h : IsDangling d a b) (bf : List Nat) :
    Within bf a b (lexeme bf d.tk_str d.tk_len) := by
  rw [h.2.1, h.2.2]
  exact Within.slice bf a b

theorem dangling_text_append (bf : List Nat) (l1 l2 : List Dangling) :
    dangling_text bf (l1 ++ l2) = dangling_text bf l1 ++ dangling_text bf l2 := by
  simp [dangling_text]

theorem lexer_read_dangling_scans : ∀ (fuel : Nat) (lx lx1 : Lexer) (D D1 : List Dangling),
    lexer_read_dangling fuel lx D = Except.ok (lx1, D1) →
    Scans lx lx1 ∧ ∃ D2, D1 = D ++ D2 ∧ (∀ d ∈ D2, PrefixOK d) ∧
      Within lx.lx_bf lx.lx_st.st_off lx1.lx_st.st_off (dangling_text lx.lx_bf D2) := by
  intro fuel
  induction fuel with
  | zero => intro lx lx1 D D1 h; cases h
  | succ f ih =>
    intro lx lx1 D D1 h
    unfold lexer_read_dangling at h
    obtain ⟨⟨lx2, tmp⟩, h2, h⟩ := bind_ok h
    have k2 := lexer_comment_scans h2
    cases tmp with
    | some t =>
      obtain ⟨d, hd, h⟩ := bind_ok h
      obtain ⟨d1, rfl, htype, hdang⟩ := k2.2 t rfl
      cases hd
      obtain ⟨k3, D2, rfl, hok, hw⟩ := ih _ _ _ _ h
      refine ⟨k2.1.scans_trans k3, d :: D2, (by simp), ?_, ?_⟩
      · intro x hx
        rcases List.mem_cons.mp hx with rfl | hx
        · exact ⟨hdang.flags, Or.inl htype⟩
        · exact hok x hx
      · have : dangling_text lx.lx_bf (d :: D2) =
            lexeme lx.lx_bf d.tk_str d.tk_len ++ dangling_text lx.lx_bf D2 := by
          simp [dangling_text]
        rw [this]
        rw [k2.1.bf] at hw
        exact Within.append k2.1.off_le k3.off_le (hdang.lexeme_slice _) hw
    | none =>
      obtain ⟨⟨lx3, tmp3⟩, h3, h⟩ := bind_ok h
      have k3 := lexer_cpp_scans h3
      have k23 := k2.1.scans_trans k3.1
      cases tmp3 with
      | some t =>
        obtain ⟨d, hd, h⟩ := bind_ok h
        obtain ⟨d1, rfl, htype, hdang⟩ := k3.2 t rfl
        cases hd
        obtain ⟨k4, D2, rfl, hok, hw⟩ := ih _ _ _ _ h
        refine ⟨k23.scans_trans k4, d :: D2, (by simp), ?_, ?_⟩
        · intro x hx
          rcases List.mem_cons.mp hx with rfl | hx
          · exact ⟨hdang.flags, Or.inr htype⟩
          · exact hok x hx
        · have : dangling_text lx.lx_bf (d :: D2) =
              lexeme lx.lx_bf d.tk_str d.tk_len ++ dangling_text lx.lx_bf D2 := by
            simp [dangling_text]
          rw [this]
          rw [k23.bf] at hw
          have hd2 := (hdang.lexeme_slice lx.lx_bf).widen k2.1.off_le k3.1.off_le (le_refl _)
          exact Within.append k23.off_le k4.off_le hd2 hw
      | none =>
        cases h
        exact ⟨k23, [], (by simp), (fun d hd => by cases hd), Within.nil _ _ _⟩

theorem Emitted.of_scans {a b c : Lexer} {p : Nat} {t : Token} (h1 : Scans a b)
    (h2 : Emitted b c p t) : Emitted a c p t := by
  refine ⟨?_, ?_, ?_, h2.bf.trans h1.bf, le_trans h1.eof_le h2.eof_le,
    le_trans h1.off_le h2.off_le, h2.flags, h2.prefixes, h2.suffixes, ?_⟩
  · rw [h2.ptr, h1.heap]
  · rw [h2.heap, h1.heap]
  · rw [h2.tokens, h1.tokens]
  · have := h2.within
    rw [h1.bf] at this
    exact this.widen h1.off_le h2.off_le (le_refl _)

theorem lexer_read_keyword_scans : ∀ (fuel : Nat) (lx lx1 : Lexer) (r : Option Nat),
    lexer_read_keyword fuel lx = Except.ok (lx1, r) →
    (r = none → Scans lx lx1) ∧ (∀ p, r = some p → ∃ t, Emitted lx lx1 p t) := by
  intro fuel
  induction fuel with
  | zero => intro lx lx1 r h; cases h
  | succ f ih =>
    intro lx lx1 r h
    unfold lexer_read_keyword at h
    obtain ⟨⟨lx2, r2⟩, h2, h⟩ := bind_ok h
    have k2 := lexer_eat_space_scans h2
    obtain ⟨⟨lx3, kw⟩, h3, h⟩ := bind_ok h
    have k3 := lexer_keyword_scans h3
    cases kw with
    | none =>
      cases h
      have := k3.2 (fun p hp => by cases hp)
      exact ⟨fun _ => k2.scans_trans this, fun p hp => by cases hp⟩
    | some kw =>
      cases kw with
      | discard tk =>
        have k23 := k2.scans_trans (k3.2 (fun p hp => by cases hp))
        dsimp only at h
        split at h
        · have := ih _ _ _ h
          refine ⟨fun hr => k23.scans_trans (this.1 hr), fun p hp => ?_⟩
          obtain ⟨t, ht⟩ := this.2 p hp
          exact ⟨t, ht.of_scans k23⟩
        · cases h
      | emitted ref =>
        cases ref with
        | loose d =>
          obtain ⟨p, hp, _⟩ := bind_ok h
          cases hp
        | linked q =>
          obtain ⟨p, hp, hq⟩ := bind_ok h
          cases hp
          obtain ⟨t, hem, hdis⟩ := k3.1 q rfl
          obtain ⟨tok, htok, h⟩ := bind_ok hq
          have : tok = t := by
            unfold deref at htok
            rw [hem.heap, hem.ptr, List.getElem?_concat_length] at htok
            cases htok
            rfl
          subst this
          split at h
          · rename_i hc
            exact absurd hdis hc
          · cases h
            refine ⟨fun hr => (by cases hr), fun p1 hp => ?_⟩
            cases hp
            exact ⟨tok, hem.of_scans k2⟩

theorem lexer_read_string_scans (delim : Nat) : ∀ (fuel : Nat) (lx lx1 : Lexer) (pch : Nat)
    (r : Bool), lexer_read_string delim fuel lx pch = Except.ok (lx1, r) → Scans lx lx1 := by
  intro fuel
  induction fuel with
  | zero => intro lx lx1 pch r h; cases h
  | succ f ih =>
    intro lx lx1 pch r h
    unfold lexer_read_string at h
    obtain ⟨⟨lx2, ch⟩, h2, h⟩ := bind_ok h
    have k2 := (lexer_getc_scans h2).1
    cases ch with
    | none => cases h; exact k2
    | some c =>
      dsimp only at h
      repeat' split at h
      all_goals first
        | (cases h; exact k2)
        | exact k2.scans_trans (ih _ _ _ _ h)

theorem lexer_read_number_scans : ∀ (fuel : Nat) (lx lx1 : Lexer) (r : Bool),
    lexer_read_number fuel lx = Except.ok (lx1, r) → Scans lx lx1 := by
  intro fuel
  induction fuel with
  | zero => intro lx lx1 r h; cases h
  | succ f ih =>
    intro lx lx1 r h
    unfold lexer_read_number at h
    obtain ⟨⟨lx2, ch⟩, h2, h⟩ := bind_ok h
    have k2 := (lexer_getc_scans h2).1
    cases ch with
    | none => cases h; exact k2
    | some c =>
      dsimp only at h
      split at h
      · exact k2.scans_trans (ih _ _ _ h)
      · cases h; exact k2

theorem lexer_read_ident_scans : ∀ (fuel : Nat) (lx lx1 : Lexer) (ch : Nat) (r : Bool),
    lexer_read_ident fuel lx ch = Except.ok (lx1, r) → Scans lx lx1 := by
  intro fuel
  induction fuel with
  | zero => intro lx lx1 ch r h; cases h
  | succ f ih =>
    intro lx lx1 ch r h
    unfold lexer_read_ident at h
    split at h
    · obtain ⟨⟨lx2, ch2⟩, h2, h⟩ := bind_ok h
      have k2 := (lexer_getc_scans h2).1
      cases ch2 with
      | none => cases h; exact k2
      | some c => exact k2.scans_trans (ih _ _ _ _ h)
    · cases h; exact Scans.scans_refl _

/-! ### Updates of tokens in place -/

theorem heap_update_last (h0 : List Token) (t : Token) (f : Token → Token) :
    heap_update (h0 ++ [t]) h0.length f = Except.ok (h0 ++ [f t]) := by
  unfold heap_update
  rw [List.getElem?_concat_length]
  simp

theorem heap_update_plain {heap heap1 : List Token} {p : Nat} {f : Token → Token}
    (h : heap_update heap p f = Except.ok heap1) (hf : ∀ x, (f x).plain = x.plain) :
    heap1.map Token.plain = heap.map Token.plain := by
  unfold heap_update at h
  split at h
  · cases h
  · rename_i t ht
    cases h
    apply List.ext_getElem?
    intro n
    rw [List.getElem?_map, List.getElem?_map, List.getElem?_set]
    split
    · rename_i hpn
      subst hpn
      rw [ht]
      have hlt : p < heap.length := by
        rw [List.getElem?_eq_some] at ht
        exact ht.1
      simp [hlt, hf]
    · rfl

theorem Links.links_refl (a : Lexer) : Links a a := ⟨rfl, rfl, rfl, rfl⟩

theorem Links.links_trans {a b c : Lexer} (h1 : Links a b) (h2 : Links b c) : Links a c :=
  ⟨h2.bf.trans h1.bf, h2.tokens.trans h1.tokens, h2.st.trans h1.st, h2.heap.trans h1.heap⟩

theorem lexer_branch_enter_links {lx lx1 : Lexer} {tk : Nat}
    (h : lexer_branch_enter lx tk = Except.ok lx1) : Links lx lx1 := by
  unfold lexer_branch_enter at h
  obtain ⟨t, _, h⟩ := bind_ok h
  obtain ⟨heap, hh, h⟩ := bind_ok h
  cases h
  refine ⟨rfl, rfl, rfl, ?_⟩
  split at hh
  · obtain ⟨heap2, h2, hh⟩ := bind_ok hh
    exact (heap_update_plain hh (fun _ => rfl)).trans (heap_update_plain h2 (fun _ => rfl))
  · cases hh; rfl

theorem lexer_branch_leave_links {lx lx1 : Lexer} {tk : Nat}
    (h : lexer_branch_leave lx tk = Except.ok lx1) : Links lx lx1 := by
  unfold lexer_branch_leave at h
  split at h
  · cases h
  · cases h; exact ⟨rfl, rfl, rfl, rfl⟩

theorem lexer_branch_link_links {lx lx1 : Lexer} {tk : Nat}
    (h : lexer_branch_link lx tk = Except.ok lx1) : Links lx lx1 := by
  unfold lexer_branch_link at h
  split at h
  · cases h
  · split at h
    · cases h; exact Links.links_refl _
    · obtain ⟨heap2, h2, h⟩ := bind_ok h
      obtain ⟨heap3, h3, h⟩ := bind_ok h
      cases h
      exact ⟨rfl, rfl, rfl,
        (heap_update_plain h3 (fun _ => rfl)).trans (heap_update_plain h2 (fun _ => rfl))⟩

theorem lexer_read_branches_links (tk : Nat) : ∀ (l : List Dangling) (lx lx1 : Lexer),
    lexer_read_branches tk lx l = Except.ok lx1 → Links lx lx1 := by
  intro l
  induction l with
  | nil => intro lx lx1 h; cases h; exact Links.links_refl _
  | cons d rest ih =>
    intro lx lx1 h
    unfold lexer_read_branches at h
    split at h
    · obtain ⟨lx2, h2, h⟩ := bind_ok h
      exact (lexer_branch_enter_links h2).links_trans (ih _ _ h)
    · split at h
      · obtain ⟨lx2, h2, h⟩ := bind_ok h
        exact (lexer_branch_link_links h2).links_trans (ih _ _ h)
      · split at h
        · obtain ⟨lx2, h2, h⟩ := bind_ok h
          obtain ⟨lx3, h3, h⟩ := bind_ok h
          exact ((lexer_branch_link_links h2).links_trans (lexer_branch_leave_links h3)).links_trans (ih _ _ h)
        · exact ih _ _ h

theorem lexer_read_suffixes_reads : ∀ (fuel : Nat) (lx lx1 : Lexer) (h0 : List Token) (t : Token),
    lx.lx_heap = h0 ++ [t] → lexer_read_suffixes fuel lx h0.length = Except.ok lx1 →
    ∃ S, lx1.lx_heap = h0 ++ [{ t with tk_suffixes := t.tk_suffixes ++ S }] ∧
      (∀ d ∈ S, SuffixOK d) ∧
      Within lx.lx_bf lx.lx_st.st_off lx1.lx_st.st_off (dangling_text lx.lx_bf S) ∧
      Reads lx lx1 := by
  intro fuel
  induction fuel with
  | zero => intro lx lx1 h0 t _ h; cases h
  | succ f ih =>
    intro lx lx1 h0 t hheap h
    unfold lexer_read_suffixes at h
    obtain ⟨⟨lx2, tmp⟩, h2, h⟩ := bind_ok h
    have k2 := lexer_comment_scans h2
    cases tmp with
    | none =>
      cases h
      refine ⟨[], ?_, fun d hd => (by cases hd), Within.nil _ _ _, k2.1.reads⟩
      rw [k2.1.heap, hheap]
      simp
    | some r =>
      obtain ⟨d, hd, ha⟩ := bind_ok h
      obtain ⟨d1, rfl, htype, hdang⟩ := k2.2 r rfl
      cases hd
      obtain ⟨heap3, h3, hb⟩ := bind_ok ha
      rw [k2.1.heap, hheap, heap_update_last] at h3
      cases h3
      obtain ⟨S, hS, hok, hw, hr⟩ := ih _ _ h0 _ rfl hb
      refine ⟨d :: S, ?_, ?_, ?_, ?_⟩
      · rw [hS]
        simp
      · intro x hx
        rcases List.mem_cons.mp hx with rfl | hx
        · exact ⟨hdang.flags, Or.inl htype⟩
        · exact hok x hx
      · have : dangling_text lx.lx_bf (d :: S) =
            lexeme lx.lx_bf d.tk_str d.tk_len ++ dangling_text lx.lx_bf S := by
          simp [dangling_text]
        rw [this]
        simp only [k2.1.bf] at hw
        exact Within.append k2.1.off_le hr.off_le (hdang.lexeme_slice _) hw
      · exact ⟨hr.bf.trans k2.1.bf, hr.tokens.trans k2.1.tokens, le_trans k2.1.off_le hr.off_le⟩

theorem lexer_read_out_reads {lx lx1 : Lexer} {h0 : List Token} {t : Token} {D : List Dangling}
    (hheap : lx.lx_heap = h0 ++ [t]) (hpre : t.tk_prefixes = []) (hsuf : t.tk_suffixes = [])
    (h : lexer_read_out lx h0.length D = Except.ok lx1) :
    ∃ S, lx1.lx_heap.map Token.plain =
        h0.map Token.plain ++ [Token.plain { t with tk_prefixes := D, tk_suffixes := S }] ∧
      (∀ d ∈ S, SuffixOK d) ∧
      Within lx.lx_bf lx.lx_st.st_off lx1.lx_st.st_off (dangling_text lx.lx_bf S) ∧
      Reads lx lx1 := by
  unfold lexer_read_out at h
  obtain ⟨heap2, h2, ha⟩ := bind_ok h
  rw [hheap, heap_update_last] at h2
  cases h2
  obtain ⟨lx3, h3, hb⟩ := bind_ok ha
  obtain ⟨S, hS, hok, hw, hr⟩ := lexer_read_suffixes_reads _ _ _ h0 _ rfl h3
  obtain ⟨⟨lx4, tmp⟩, h4, hc⟩ := bind_ok hb
  have k4 := lexer_eat_lines_scans h4
  obtain ⟨lx5, h5, hd⟩ := bind_ok hc
  obtain ⟨t5, _, he⟩ := bind_ok hd
  have k6 := lexer_read_branches_links _ _ _ _ he
  simp only [hpre, hsuf, List.nil_append] at hS
  have hr4 : Reads lx lx4 := by
    have := hr.reads_trans k4.1.reads
    exact ⟨this.bf, this.tokens, this.off_le⟩
  have hw4 : Within lx.lx_bf lx.lx_st.st_off lx4.lx_st.st_off (dangling_text lx.lx_bf S) :=
    hw.widen (le_refl _) hr.off_le k4.1.off_le
  cases tmp with
  | none =>
    cases h5
    refine ⟨S, ?_, hok, ?_, ?_⟩
    · rw [k6.heap, k4.1.heap, hS]
      simp
    · rw [k6.st]
      exact hw4
    · exact ⟨k6.bf.trans hr4.bf, k6.tokens.trans hr4.tokens, by rw [k6.st]; exact hr4.off_le⟩
  | some r =>
    obtain ⟨d, hd1, h5a⟩ := bind_ok h5
    obtain ⟨d1, rfl, htype, hflags, hstr, hlen⟩ := k4.2 r rfl
    cases hd1
    obtain ⟨heap6, h6, h5b⟩ := bind_ok h5a
    rw [k4.1.heap, hS, heap_update_last] at h6
    cases h6
    cases h5b
    refine ⟨S ++ [d], ?_, ?_, ?_, ?_⟩
    · rw [k6.heap]
      simp
    · intro x hx
      rcases List.mem_append.mp hx with hx | hx
      · exact hok x hx
      · rw [List.mem_singleton] at hx
        subst hx
        refine ⟨?_, Or.inr htype⟩
        rw [hflags]
        decide
    · rw [k6.st, dangling_text_append]
      have hblank : Within lx.lx_bf lx4.lx_st.st_off lx4.lx_st.st_off (dangling_text lx.lx_bf [d]) := by
        apply Within.of_blank
        simp [dangling_text, lexeme, hstr, hlen, strip, CH_NEWLINE]
      exact Within.append hr4.off_le (le_refl _) hw4 hblank
    · exact ⟨k6.bf.trans hr4.bf, k6.tokens.trans hr4.tokens, by rw [k6.st]; exact hr4.off_le⟩

theorem read_step_assemble {lx0 lx1 : Lexer} {p : Nat} {t : Token} {D S : List Dangling}
    {a b : Nat}
    (hp : p = lx0.lx_heap.length)
    (hh : lx1.lx_heap.map Token.plain =
      lx0.lx_heap.map Token.plain ++ [Token.plain { t with tk_prefixes := D, tk_suffixes := S }])
    (htok : lx1.lx_tokens = lx0.lx_tokens ++ [p]) (hbf : lx1.lx_bf = lx0.lx_bf)
    (hflags : t.tk_flags &&& TOKEN_FLAG_DANGLING = 0)
    (hD : ∀ d ∈ D, PrefixOK d) (hS : ∀ d ∈ S, SuffixOK d)
    (h0a : lx0.lx_st.st_off ≤ a) (hab : a ≤ b) (hb1 : b ≤ lx1.lx_st.st_off)
    (hDw : Within lx0.lx_bf lx0.lx_st.st_off a (dangling_text lx0.lx_bf D))
    (htw : Within lx0.lx_bf a b (lexeme lx0.lx_bf t.tk_str t.tk_len))
    (hSw : Within lx0.lx_bf b lx1.lx_st.st_off (dangling_text lx0.lx_bf S)) :
    ReadStep lx0 lx1 p (Token.plain { t with tk_prefixes := D, tk_suffixes := S }) := by
  refine ⟨hp, hh, htok, hbf, le_trans h0a (le_trans hab hb1), ⟨hflags, hD, hS⟩, ?_⟩
  have : Token.text lx0.lx_bf (Token.plain { t with tk_prefixes := D, tk_suffixes := S }) =
      dangling_text lx0.lx_bf D ++ lexeme lx0.lx_bf t.tk_str t.tk_len ++
        dangling_text lx0.lx_bf S := rfl
  rw [this]
  exact Within.append (le_trans h0a hab) hb1 (Within.append h0a hab hDw htw) hSw

theorem lexer_read_emit_step {lx0 lx lx1 : Lexer} {st : LexerState} {tmpl : Token}
    {D : List Dangling} {p a : Nat}
    (h : lexer_read_emit lx st tmpl D = Except.ok (lx1, p))
    (hs : Scans lx0 lx) (hD : ∀ d ∈ D, PrefixOK d)
    (h0a : lx0.lx_st.st_off ≤ a) (hast : a ≤ st.st_off) (hst : st.st_off ≤ lx.lx_st.st_off)
    (hDw : Within lx0.lx_bf lx0.lx_st.st_off a (dangling_text lx0.lx_bf D))
    (htm : tmpl.tk_str ≠ StrPtr.null →
      Within lx0.lx_bf st.st_off lx.lx_st.st_off (lexeme lx0.lx_bf tmpl.tk_str tmpl.tk_len)) :
    ∃ t, ReadStep lx0 lx1 p t ∧ t.tk_type = tmpl.tk_type := by
  unfold lexer_read_emit at h
  cases hemit : lexer_emit lx st tmpl with
  | mk lx2 ref =>
    rw [hemit] at h
    cases ref with
    | loose d =>
      obtain ⟨q, hq, _⟩ := bind_ok h
      cases hq
    | linked q =>
      obtain ⟨q1, hq, ha⟩ := bind_ok h
      cases hq
      obtain ⟨lx3, h3, hb⟩ := bind_ok ha
      cases hb
      obtain ⟨hq, t, rfl, htype, _, hflags, hpre, hsuf, hnull, hstr⟩ := lexer_emit_linked hemit
      subst hq
      obtain ⟨S, hS, hok, hw, hr⟩ := lexer_read_out_reads rfl hpre hsuf h3
      refine ⟨_, read_step_assemble (t := t) (a := a) (b := lx.lx_st.st_off) ?_ ?_ ?_ ?_ hflags hD hok
        h0a (le_trans hast hst) hr.off_le hDw ?_ ?_, htype⟩
      · rw [hs.heap]
      · rw [hS, hs.heap]
      · rw [hr.tokens]
        simp [hs.tokens, hs.heap]
      · rw [hr.bf]
        exact hs.bf
      · by_cases hn : tmpl.tk_str = StrPtr.null
        · obtain ⟨h1, h2⟩ := hnull hn
          rw [h1, h2]
          exact (Within.slice _ _ _).widen hast hst (le_refl _)
        · obtain ⟨h1, h2⟩ := hstr hn
          rw [h1, h2]
          exact (htm hn).widen hast hst (le_refl _)
      · rw [← hs.bf]
        exact hw

theorem lexer_read_step {lx lx1 : Lexer} {r : Bool} {p : Nat}
    (h : lexer_read lx = Except.ok (lx1, r, p)) : ∃ t, ReadStep lx lx1 p t := by
  unfold lexer_read at h
  dsimp only at h
  split at h
  · obtain ⟨⟨lx2, q⟩, h2, ha⟩ := bind_ok h
    cases ha
    obtain ⟨t, ht, _⟩ := lexer_read_emit_step (a := lx.lx_st.st_off) h2 (Scans.scans_refl lx)
      (fun d hd => by cases hd) (le_refl _) (le_refl _) (le_refl _) (Within.nil _ _ _)
      (fun _ => Within.nil _ _ _)
    exact ⟨t, ht⟩
  · obtain ⟨⟨lxd, D⟩, hd, ha⟩ := bind_ok h
    obtain ⟨kd, D2, hD2, hDok, hDw⟩ := lexer_read_dangling_scans _ _ _ _ _ hd
    simp only [List.nil_append] at hD2
    subst hD2
    obtain ⟨⟨lxk, kw⟩, hk, hb⟩ := bind_ok ha
    have kk := lexer_read_keyword_scans _ _ _ _ hk
    cases kw with
    | some q =>
      obtain ⟨lx3, h3, hc⟩ := bind_ok hb
      obtain ⟨t, hem⟩ := kk.2 q rfl
      have hq : q = lx.lx_heap.length := by rw [hem.ptr, kd.heap]
      have hheap : lxk.lx_heap = lx.lx_heap ++ [t] := by rw [hem.heap, kd.heap]
      rw [hq] at h3
      obtain ⟨S, hS, hok, hw, hr⟩ := lexer_read_out_reads hheap hem.prefixes hem.suffixes h3
      have hstep : ReadStep lx lx3 q
          (Token.plain { t with tk_prefixes := D, tk_suffixes := S }) := by
        refine read_step_assemble (t := t) (a := lxd.lx_st.st_off) (b := lxk.lx_st.st_off)
          hq hS ?_ ?_ hem.flags hDok hok kd.off_le hem.off_le hr.off_le hDw ?_ ?_
        · rw [hr.tokens, hem.tokens, kd.tokens]
        · rw [hr.bf, hem.bf, kd.bf]
        · have := hem.within
          rw [kd.bf] at this
          exact this
        · have := hw
          rw [hem.bf, kd.bf] at this
          exact this
      cases hc
      exact ⟨_, hstep⟩
    | none =>
      have kdk : Scans lx lxk := kd.scans_trans (kk.1 rfl)
      have hak : lxd.lx_st.st_off ≤ lxk.lx_st.st_off := (kk.1 rfl).off_le
      obtain ⟨⟨lxa, ch⟩, hga, hc⟩ := bind_ok hb
      have ka := lexer_getc_scans hga
      have emit : ∀ (lxe : Lexer) (tmpl : Token) (q : Nat) (lxf : Lexer), Scans lxk lxe →
          (tmpl.tk_str ≠ StrPtr.null → Within lx.lx_bf lxk.lx_st.st_off lxe.lx_st.st_off
            (lexeme lx.lx_bf tmpl.tk_str tmpl.tk_len)) →
          lexer_read_emit lxe lxk.lx_st tmpl D = Except.ok (lxf, q) →
          ∃ t, ReadStep lx lxf q t := by
        intro lxe tmpl q lxf hse htm he
        obtain ⟨t, ht, _⟩ := lexer_read_emit_step (a := lxd.lx_st.st_off) he (kdk.scans_trans hse) hDok
          kd.off_le hak hse.off_le hDw htm
        exact ⟨t, ht⟩
      have heof : ∀ (lxe : Lexer), tkeof.tk_str ≠ StrPtr.null →
          Within lx.lx_bf lxk.lx_st.st_off lxe.lx_st.st_off
            (lexeme lx.lx_bf tkeof.tk_str tkeof.tk_len) := fun _ _ => Within.nil _ _ _
      have hnull : ∀ (lxe : Lexer) (tmpl : Token), tmpl.tk_str = StrPtr.null →
          tmpl.tk_str ≠ StrPtr.null → Within lx.lx_bf lxk.lx_st.st_off lxe.lx_st.st_off
            (lexeme lx.lx_bf tmpl.tk_str tmpl.tk_len) := fun _ _ h1 h2 => absurd h1 h2
      cases ch with
      | none =>
        obtain ⟨⟨lxf, q⟩, he, hg⟩ := bind_ok hc
        cases hg
        exact emit _ _ _ _ ka.1 (heof _) he
      | some c =>
        obtain ⟨⟨lxb, c2⟩, hlb, hd1⟩ := bind_ok hc
        have kb : Scans1 lxk lxb := by
          split at hlb
          · obtain ⟨⟨lxp, peek⟩, hp, hlb⟩ := bind_ok hlb
            have kp := lexer_getc_scans hp
            dsimp only at hlb
            split at hlb
            · cases hlb; exact ka.scans1_trans kp.1
            · obtain ⟨lxu, hu, hlb⟩ := bind_ok hlb
              cases hlb
              exact ka.scans1_trans (lexer_ungetc_scans kp hu)
          · cases hlb; exact ka
        dsimp only at hd1
        split at hd1
        · obtain ⟨⟨lxc, closed⟩, hs1, hd2⟩ := bind_ok hd1
          have kc := kb.1.scans_trans (lexer_read_string_scans _ _ _ _ _ _ hs1)
          obtain ⟨⟨lxf, q⟩, he, hg⟩ := bind_ok hd2
          cases hg
          refine emit _ _ _ _ kc ?_ he
          split
          · exact heof _
          · split
            · exact hnull _ _ rfl
            · exact hnull _ _ rfl
        · split at hd1
          · obtain ⟨⟨lxc, more⟩, hs1, hd2⟩ := bind_ok hd1
            have kc := kb.scans1_trans (lexer_read_number_scans _ _ _ _ hs1)
            dsimp only at hd2
            split at hd2
            · obtain ⟨⟨lxf, q⟩, he, hg⟩ := bind_ok hd2
              cases hg
              exact emit _ _ _ _ kc.1 (heof _) he
            · obtain ⟨lxu, hu, hd3⟩ := bind_ok hd2
              have ku := lexer_ungetc_scans kc hu
              obtain ⟨⟨lxf, q⟩, he, hg⟩ := bind_ok hd3
              cases hg
              exact emit _ _ _ _ ku (hnull _ _ rfl) he
          · split at hd1
            · obtain ⟨⟨lxc, more⟩, hs1, hd2⟩ := bind_ok hd1
              have kc := kb.scans1_trans (lexer_read_ident_scans _ _ _ _ _ hs1)
              dsimp only at hd2
              split at hd2
              · obtain ⟨⟨lxf, q⟩, he, hg⟩ := bind_ok hd2
                cases hg
                exact emit _ _ _ _ kc.1 (heof _) he
              · obtain ⟨lxu, hu, hd3⟩ := bind_ok hd2
                have ku := lexer_ungetc_scans kc hu
                obtain ⟨⟨lxf, q⟩, he, hg⟩ := bind_ok hd3
                cases hg
                refine emit _ _ _ _ ku ?_ he
                split
                · rename_i t hfind
                  intro _
                  have := (lexer_find_token_key hfind ku.off_le).lexeme_within
                  rw [ku.bf, kdk.bf] at this
                  exact this
                · exact hnull _ _ rfl
            · obtain ⟨⟨lxf, q⟩, he, hg⟩ := bind_ok hd1
              cases hg
              exact emit _ _ _ _ kb.1 (hnull _ _ rfl) he

theorem lexer_alloc_loop_steps : ∀ (fuel : Nat) (lx lx1 : Lexer) (err : Bool),
    lexer_alloc_loop fuel lx = Except.ok (lx1, err) →
    ∃ ts : List Token, lx1.lx_heap.map Token.plain = lx.lx_heap.map Token.plain ++ ts ∧
      (∀ t ∈ ts, TokOK t) ∧
      lx1.lx_tokens = lx.lx_tokens ++ List.range' lx.lx_heap.length ts.length ∧
      lx1.lx_bf = lx.lx_bf ∧ lx.lx_st.st_off ≤ lx1.lx_st.st_off ∧
      Within lx.lx_bf lx.lx_st.st_off lx1.lx_st.st_off (ts.flatMap (Token.text lx.lx_bf)) := by
  intro fuel
  induction fuel with
  | zero => intro lx lx1 err h; cases h
  | succ f ih =>
    intro lx lx1 err h
    unfold lexer_alloc_loop at h
    obtain ⟨⟨lx2, ok, tk⟩, h2, ha⟩ := bind_ok h
    obtain ⟨t, ht⟩ := lexer_read_step h2
    have one : ∃ ts : List Token, lx2.lx_heap.map Token.plain = lx.lx_heap.map Token.plain ++ ts ∧
        (∀ t ∈ ts, TokOK t) ∧
        lx2.lx_tokens = lx.lx_tokens ++ List.range' lx.lx_heap.length ts.length ∧
        lx2.lx_bf = lx.lx_bf ∧ lx.lx_st.st_off ≤ lx2.lx_st.st_off ∧
        Within lx.lx_bf lx.lx_st.st_off lx2.lx_st.st_off (ts.flatMap (Token.text lx.lx_bf)) := by
      refine ⟨[t], ht.heap, ?_, ?_, ht.bf, ht.off_le, ?_⟩
      · intro x hx
        rw [List.mem_singleton] at hx
        subst hx
        exact ht.ok
      · rw [ht.tokens, ht.ptr]
        simp
      · simpa using ht.within
    dsimp only at ha
    split at ha
    · cases ha; exact one
    · obtain ⟨tok, _, hb⟩ := bind_ok ha
      split at hb
      · cases hb; exact one
      · obtain ⟨ts, hheap, hok, htok, hbf, hoff, hw⟩ := ih _ _ _ hb
        have hlen : lx2.lx_heap.length = lx.lx_heap.length + 1 := by
          have := congrArg List.length ht.heap
          simpa using this
        refine ⟨t :: ts, ?_, ?_, ?_, hbf.trans ht.bf, le_trans ht.off_le hoff, ?_⟩
        · rw [hheap, ht.heap]
          simp
        · intro x hx
          rcases List.mem_cons.mp hx with rfl | hx
          · exact ht.ok
          · exact hok x hx
        · rw [htok, ht.tokens, ht.ptr, hlen]
          simp [List.range'_succ]
        · rw [List.flatMap_cons]
          rw [ht.bf] at hw
          exact Within.append ht.off_le hoff ht.within hw

theorem filterMap_range_getElem? (heap : List Token) :
    (List.range heap.length).filterMap (fun p => heap[p]?) = heap := by
  induction heap using List.reverseRecOn with
  | nil => rfl
  | append_singleton l a ih =>
    rw [List.length_append, List.length_singleton, List.range_succ, List.filterMap_append]
    have h1 : (List.range l.length).filterMap (fun p => (l ++ [a])[p]?) =
        (List.range l.length).filterMap (fun p => l[p]?) := by
      apply List.filterMap_congr
      intro x hx
      rw [List.mem_range] at hx
      exact List.getElem?_append_left hx
    rw [h1, ih]
    simp

theorem TokOK.of_plain {t : Token} (h : TokOK t.plain) : TokOK t := h

theorem Token.text_plain (bf : List Nat) (t : Token) : Token.text bf t.plain = Token.text bf t :=
  rfl

/-- What `lexer_alloc` returns: the tokens of the main stream are those of
the arena, in order, and satisfy the invariants of the specification; their
texts lie within the buffer. -/
theorem lexer_alloc_stream {bf : List Nat} {lx : Lexer}
    (h : lexer_alloc bf = Except.ok (some lx)) :
    lx.lx_bf = bf ∧ lx.stream = lx.lx_heap ∧ (∀ t ∈ lx.lx_heap, TokOK t) ∧
      ∃ b, Within bf 0 b lx.text := by
  unfold lexer_alloc at h
  obtain ⟨⟨lx1, err⟩, h1, ha⟩ := bind_ok h
  obtain ⟨ts, hheap, hok, htok, hbf, hoff, hw⟩ := lexer_alloc_loop_steps _ _ _ _ h1
  dsimp only at ha
  split at ha
  · cases ha
  · split at ha
    · cases ha
    · cases ha
      simp only [lexer_new, List.map_nil, List.nil_append, List.length_nil] at hheap htok hbf hw
      have hlen : ts.length = lx1.lx_heap.length := by
        have := congrArg List.length hheap
        simpa using this.symm
      have hstream : Lexer.stream { lx1 with lx_branch := none } = lx1.lx_heap := by
        simp only [Lexer.stream]
        rw [htok, hlen, ← List.range_eq_range']
        exact filterMap_range_getElem? _
      refine ⟨hbf, hstream, ?_, lx1.lx_st.st_off, ?_⟩
      · intro t ht
        apply TokOK.of_plain
        apply hok
        rw [← hheap]
        exact List.mem_map_of_mem _ ht
      · simp only [Lexer.text]
        rw [hstream]
        have : lx1.lx_heap.flatMap (Token.text lx1.lx_bf) = ts.flatMap (Token.text bf) := by
          rw [← hheap, List.flatMap_map, hbf]
          rfl
        rw [this]
        exact hw

/-! ## Tokenization -/

/-- C5, the code against the claim: for the buffer of the single line
`#endif`, `lexer_read` reaches `lexer_branch_link` with no open branch, and
the dereference of `TAILQ_LAST` of the empty list stops `lexer_alloc`: its
loop does not end with a stream.  (For the empty buffer the stream is `EOF`
alone, as claimed.) -/
theorem lexer_alloc_stray_endif :
    lexer_alloc (cstr "#endif\n") = Except.error Fault.nullDeref ∧
      ∃ lx, lexer_alloc [] = Except.ok (some lx) ∧
        lx.stream.map (fun t => t.tk_type) = [TOKEN_EOF] := by
  refine ⟨rfl, _, rfl, ?_⟩
  decide

/-- C6: the buffer `int x = 1;` is tokenized to the main stream `INT`,
`IDENT` with lexeme `x`, `EQUAL`, `LITERAL` with lexeme `1`, `SEMI`, `EOF`, and
no token has a prefix or a suffix. -/
theorem lexer_alloc_int_x :
    ∃ lx, lexer_alloc (cstr "int x = 1;") = Except.ok (some lx) ∧
      lx.stream.map (fun t =>
          (t.tk_type, lexeme lx.lx_bf t.tk_str t.tk_len, t.tk_prefixes, t.tk_suffixes)) =
        [(TOKEN_INT, cstr "int", [], []), (TOKEN_IDENT, cstr "x", [], []),
          (TOKEN_EQUAL, cstr "=", [], []), (TOKEN_LITERAL, cstr "1", [], []),
          (TOKEN_SEMI, cstr ";", [], []), (TOKEN_EOF, [], [], [])] := by
  refine ⟨_, rfl, ?_⟩
  decide

/-- C8: after tokenization no token of the main stream has the flag
`DANGLING`, every prefix and every suffix has it, every prefix has kind
`COMMENT`, `CPP`, `CPP_IF`, `CPP_ELSE` or `CPP_ENDIF`, and every suffix has
kind `COMMENT` or `SPACE`. -/
theorem lexer_alloc_dangling (bf : List Nat) (lx : Lexer)
    (h : lexer_alloc bf = Except.ok (some lx)) :
    ∀ t ∈ lx.stream,
      t.tk_flags &&& TOKEN_FLAG_DANGLING = 0 ∧
      (∀ d ∈ t.tk_prefixes, d.tk_flags &&& TOKEN_FLAG_DANGLING ≠ 0 ∧
        d.tk_type ∈ [TOKEN_COMMENT, TOKEN_CPP, TOKEN_CPP_IF, TOKEN_CPP_ELSE, TOKEN_CPP_ENDIF]) ∧
      (∀ d ∈ t.tk_suffixes, d.tk_flags &&& TOKEN_FLAG_DANGLING ≠ 0 ∧
        d.tk_type ∈ [TOKEN_COMMENT, TOKEN_SPACE]) := by
  obtain ⟨_, hstream, hok, _⟩ := lexer_alloc_stream h
  intro t ht
  rw [hstream] at ht
  obtain ⟨hflags, hpre, hsuf⟩ := hok t ht
  refine ⟨hflags, ?_, ?_⟩
  · intro d hd
    obtain ⟨h1, h2⟩ := hpre d hd
    refine ⟨h1, ?_⟩
    rcases h2 with h2 | h2 | h2 | h2 | h2 <;> simp [h2]
  · intro d hd
    obtain ⟨h1, h2⟩ := hsuf d hd
    refine ⟨h1, ?_⟩
    rcases h2 with h2 | h2 <;> simp [h2]

/-- C8 on an input with comments, blank lines and directives. -/
theorem lexer_alloc_dangling_witness :
    (lexer_of trivia_example).stream.map
        (fun t => (t.tk_type, t.tk_prefixes.map (fun d => d.tk_type),
          t.tk_suffixes.map (fun d => d.tk_type))) =
      [(TOKEN_INT, [TOKEN_COMMENT], []), (TOKEN_IDENT, [], []),
        (TOKEN_SEMI, [], [TOKEN_COMMENT, TOKEN_SPACE]),
        (TOKEN_INT, [TOKEN_CPP], []), (TOKEN_IDENT, [], []), (TOKEN_SEMI, [], [TOKEN_COMMENT]),
        (TOKEN_EOF, [], [])] ∧
    ∀ t ∈ (lexer_of trivia_example).stream,
      t.tk_flags &&& TOKEN_FLAG_DANGLING = 0 ∧
      (∀ d ∈ t.tk_prefixes, d.tk_flags &&& TOKEN_FLAG_DANGLING ≠ 0 ∧
        d.tk_type ∈ [TOKEN_COMMENT, TOKEN_CPP, TOKEN_CPP_IF, TOKEN_CPP_ELSE, TOKEN_CPP_ENDIF]) ∧
      (∀ d ∈ t.tk_suffixes, d.tk_flags &&& TOKEN_FLAG_DANGLING ≠ 0 ∧
        d.tk_type ∈ [TOKEN_COMMENT, TOKEN_SPACE]) :=
  ⟨by decide, lexer_alloc_dangling trivia_example (lexer_of trivia_example) rfl⟩

/-- C9: the scenario with two branches is tokenized to `INT`, `IDENT`, `SEMI`,
`LONG`, `IDENT`, `SEMI`, `EOF`, with the prefix `CPP_IF` on `INT`, `CPP_ELSE` on
`LONG` and `CPP_ENDIF` on `EOF`; the branch links are `INT.br_nx = LONG`,
`LONG.br_pv = INT`, `LONG.br_nx = EOF` and `EOF.br_pv = LONG` (the tokens are
numbered 0 to 6 in stream order); and from the cursor that `lexer_alloc`
leaves, outside of any peek, three calls of `lexer_pop` return 1 and the
fourth returns 0 with the token `LONG` current. -/
theorem lexer_alloc_branch_example :
    ∃ lx, lexer_alloc branch_example = Except.ok (some lx) ∧
      lx.lx_tokens = [0, 1, 2, 3, 4, 5, 6] ∧
      lx.stream.map (fun t =>
          (t.tk_type, t.tk_prefixes.map (fun d => d.tk_type), t.br_pv, t.br_nx)) =
        [(TOKEN_INT, [TOKEN_CPP_IF], none, some 3), (TOKEN_IDENT, [], none, none),
          (TOKEN_SEMI, [], none, none), (TOKEN_LONG, [TOKEN_CPP_ELSE], some 0, some 6),
          (TOKEN_IDENT, [], none, none), (TOKEN_SEMI, [], none, none),
          (TOKEN_EOF, [TOKEN_CPP_ENDIF], some 3, none)] ∧
      lx.lx_st.st_tok = none ∧ lx.lx_peek = 0 ∧
      ∃ lx1 lx2 lx3 lx4 t1 t2 t3,
        lexer_pop lx = Except.ok (lx1, some t1) ∧ lexer_pop lx1 = Except.ok (lx2, some t2) ∧
        lexer_pop lx2 = Except.ok (lx3, some t3) ∧ lexer_pop lx3 = Except.ok (lx4, none) ∧
        [t1, t2, t3] = [0, 1, 2] ∧ lx4.lx_st.st_tok = some 3 := by
  refine ⟨_, rfl, by decide, by decide, by decide, by decide, _, _, _, _, _, _, _, rfl, rfl, rfl,
    rfl, by decide, by decide⟩

/-- C10, the code against the claim: for a buffer whose `#if` has no `#endif`
the loop of `lexer_alloc` ends at `EOF` with the branch of the token `int`
still open, and the assertion of `lexer_alloc` fails; for the buffer of the
single line `#else`, `lexer_branch_link` is called with no open branch and
dereferences `TAILQ_LAST` of the empty list. -/
theorem lexer_alloc_open_branch :
    (∃ lx, lexer_alloc_loop (open_if_example.length + 2) (lexer_new open_if_example) =
        Except.ok (lx, false) ∧
      lx.stream.map (fun t => t.tk_type) = [TOKEN_INT, TOKEN_IDENT, TOKEN_SEMI, TOKEN_EOF] ∧
      lx.lx_branches = [0]) ∧
    lexer_alloc open_if_example = Except.error Fault.assertion ∧
    lexer_alloc (cstr "#else\n") = Except.error Fault.nullDeref := by
  refine ⟨⟨_, rfl, by decide, by decide⟩, rfl, rfl⟩

/-! ## Branch links, comments and wide literals -/

/-- C11, the code against the claim: in the buffer of two nested conditionals
whose `#if` lines follow each other, both directives hang off the token `a`,
which `lexer_branch_enter` puts twice on the list of branches.  The inner
`#endif` links `a` to `b`, the outer one links `a` to `c` and overwrites
`a.br_nx`: after tokenization `b.br_pv` is `a` while `a.br_nx` is `c` (the
tokens are numbered 0 to 3 in stream order). -/
theorem lexer_alloc_nested_if_links :
    ∃ lx, lexer_alloc nested_if_example = Except.ok (some lx) ∧
      lx.lx_tokens = [0, 1, 2, 3] ∧
      lx.stream.map (fun t =>
          (t.tk_type, lexeme lx.lx_bf t.tk_str t.tk_len, t.tk_prefixes.map (fun d => d.tk_type),
            t.br_pv, t.br_nx)) =
        [(TOKEN_IDENT, cstr "a", [TOKEN_CPP_IF, TOKEN_CPP_IF], none, some 2),
          (TOKEN_IDENT, cstr "b", [TOKEN_CPP_ENDIF], some 0, none),
          (TOKEN_IDENT, cstr "c", [TOKEN_CPP_ENDIF], some 0, none),
          (TOKEN_EOF, [], [], none, none)] := by
  refine ⟨_, rfl, ?_, ?_⟩
  · decide
  · decide

/-- C12, as stated, fails: the comment after `int` is read by the loop of the
trailing comments of `lexer_read` and becomes a suffix of `INT`; the token `x`
has no prefix. -/
theorem lexer_alloc_comment_trails :
    ∃ lx, lexer_alloc (cstr "/* c */ int /* d */ x;") = Except.ok (some lx) ∧
      lx.stream.map (fun t => (t.tk_type, t.tk_prefixes.length, t.tk_suffixes.length)) =
        [(TOKEN_INT, 1, 1), (TOKEN_IDENT, 0, 0), (TOKEN_SEMI, 0, 0), (TOKEN_EOF, 0, 0)] := by
  refine ⟨_, rfl, ?_⟩
  decide

/-- C12, amended: the buffer `/* c */ int /* d */ x;` is tokenized to the main
stream `INT`, `IDENT` with lexeme `x`, `SEMI`, `EOF`; the first comment, with
the space after it, is the one prefix of `INT`, the second comment, with the
space before it, is the one suffix of `INT`, and no other token has a prefix
or a suffix. -/
theorem lexer_alloc_comment_suffix :
    ∃ lx, lexer_alloc (cstr "/* c */ int /* d */ x;") = Except.ok (some lx) ∧
      lx.stream.map (fun t => (t.tk_type, lexeme lx.lx_bf t.tk_str t.tk_len)) =
        [(TOKEN_INT, cstr "int"), (TOKEN_IDENT, cstr "x"), (TOKEN_SEMI, cstr ";"),
          (TOKEN_EOF, [])] ∧
      lx.stream.map (fun t =>
          t.tk_prefixes.map (fun d => (d.tk_type, lexeme lx.lx_bf d.tk_str d.tk_len))) =
        [[(TOKEN_COMMENT, cstr "/* c */ ")], [], [], []] ∧
      lx.stream.map (fun t =>
          t.tk_suffixes.map (fun d => (d.tk_type, lexeme lx.lx_bf d.tk_str d.tk_len))) =
        [[(TOKEN_COMMENT, cstr " /* d */")], [], [], []] := by
  refine ⟨_, rfl, ?_, ?_, ?_⟩
  · decide
  · decide
  · decide

/-- C15: the buffer of the wide string literal is tokenized to one `STRING`
whose lexeme is the four bytes of the buffer, followed by `EOF`, and the buffer
of the wide character literal to one `LITERAL` whose lexeme is the four bytes
of the buffer, followed by `EOF`; no `IDENT` is produced. -/
theorem lexer_alloc_wide_literal :
    (∃ lx, lexer_alloc (cstr "L\"x\"") = Except.ok (some lx) ∧
      lx.stream.map (fun t => (t.tk_type, lexeme lx.lx_bf t.tk_str t.tk_len)) =
        [(TOKEN_STRING, cstr "L\"x\""), (TOKEN_EOF, [])]) ∧
    (∃ lx, lexer_alloc (cstr "L'x'") = Except.ok (some lx) ∧
      lx.stream.map (fun t => (t.tk_type, lexeme lx.lx_bf t.tk_str t.tk_len)) =
        [(TOKEN_LITERAL, cstr "L'x'"), (TOKEN_EOF, [])]) := by
  refine ⟨⟨_, rfl, ?_⟩, ⟨_, rfl, ?_⟩⟩
  · decide
  · decide

/-- C16, the code against the claim: when `L` is the last byte of the buffer,
the look at the byte after it is the one call of `lexer_getc` that the end of
the buffer tolerates, `lexer_ungetc` does nothing once the end was reached, and
the next call of `lexer_getc`, in the loop of the identifiers, fails: the
buffer `L` is tokenized to `EOF` alone.  (Followed by a byte, `L` is the
`IDENT` of the claim.) -/
theorem lexer_alloc_last_byte_wide :
    (∃ lx, lexer_alloc (cstr "L") = Except.ok (some lx) ∧
      lx.stream.map (fun t => (t.tk_type, lexeme lx.lx_bf t.tk_str t.tk_len)) =
        [(TOKEN_EOF, [])]) ∧
    (∃ lx, lexer_alloc (cstr "L;") = Except.ok (some lx) ∧
      lx.stream.map (fun t => (t.tk_type, lexeme lx.lx_bf t.tk_str t.tk_len)) =
        [(TOKEN_IDENT, cstr "L"), (TOKEN_SEMI, cstr ";"), (TOKEN_EOF, [])]) := by
  refine ⟨⟨_, rfl, ?_⟩, ⟨_, rfl, ?_⟩⟩
  · decide
  · decide

/-! ## `lexer_read`, token by token -/

theorem ok_bind {ε α β : Type} {m : Except ε α} {a : α} (f : α → Except ε β)
    (h : m = Except.ok a) : (m >>= f) = f a := by
  subst h
  rfl

theorem pure_eq_ok {ε α : Type} (a : α) : (pure a : Except ε α) = Except.ok a := rfl

theorem ok_bind_eq {ε α β : Type} (a : α) (f : α → Except ε β) :
    (Except.ok a >>= f) = f a := rfl

theorem Safe.safe_refl {lx : Lexer} (h : Fits lx) : Safe lx lx := ⟨h, rfl, rfl, rfl⟩

theorem Safe.safe_trans {a b c : Lexer} (h1 : Safe a b) (h2 : Safe b c) : Safe a c :=
  ⟨h2.fits, h2.bf.trans h1.bf, h2.err.trans h1.err, h2.branches.trans h1.branches⟩

theorem Safe.rewind {a b : Lexer} (h : Safe a b) (ha : Fits a) :
    Safe a { b with lx_st := a.lx_st } := by
  obtain ⟨h1, h2, h3, h4⟩ := ha
  refine ⟨⟨?_, h2, h3, ?_⟩, h.bf, rfl, h.branches⟩
  · show a.lx_st.st_off ≤ b.lx_bf.length
    rw [h.bf]; exact h1
  · show b.lx_bf.length + 1 < UINT_MOD
    rw [h.bf]; exact h4

theorem lexer_getc_total {lx : Lexer} (h : Fits lx) :
    ∃ lx1 ch, lexer_getc lx = Except.ok (lx1, ch) ∧ Safe lx lx1 ∧
      ∀ c, ch = some c → lx1.left < lx.left ∧
        (c ≠ CH_NUL → lx1.lx_st.st_off = lx.lx_st.st_off + 1) ∧
        ∃ lx2, lexer_ungetc lx1 = Except.ok lx2 ∧ Safe lx1 lx2 := by
  obtain ⟨h1, h2, h3, h4⟩ := h
  unfold lexer_getc
  by_cases hoff : lx.lx_st.st_off = lx.lx_bf.length
  · rw [if_pos hoff]
    by_cases he : lx.lx_eof > 0
    · rw [if_pos he]
      exact ⟨_, _, rfl, ⟨⟨h1, h2, h3, h4⟩, rfl, rfl, rfl⟩, by intro c hc; cases hc⟩
    · rw [if_neg he]
      refine ⟨_, _, rfl, ⟨⟨h1, h2, h3, h4⟩, rfl, rfl, rfl⟩, ?_⟩
      intro c hc
      refine ⟨?_, ?_, ?_⟩
      · simp only [Lexer.left]
        have : lx.lx_eof = 0 := by omega
        simp [this]
      · intro hne
        cases hc
        exact absurd rfl hne
      · refine ⟨_, ?_, Safe.safe_refl ⟨h1, h2, h3, h4⟩⟩
        unfold lexer_ungetc
        simp
  · rw [if_neg hoff]
    have hlt : lx.lx_st.st_off < lx.lx_bf.length := lt_of_le_of_ne h1 hoff
    rw [List.getElem?_eq_getElem hlt]
    dsimp only
    simp only [UINT_MOD] at h4
    by_cases hc : lx.lx_bf[lx.lx_st.st_off] = CH_NEWLINE
    · rw [if_pos hc]
      have hl : (lx.lx_st.st_lno + 1) % UINT_MOD = lx.lx_st.st_lno + 1 := by
        apply Nat.mod_eq_of_lt
        simp only [UINT_MOD]
        omega
      refine ⟨_, _, rfl, ⟨⟨?_, ?_, ?_, ?_⟩, rfl, rfl, rfl⟩, ?_⟩
      · show lx.lx_st.st_off + 1 ≤ lx.lx_bf.length
        omega
      · show 1 ≤ lx.lx_st.st_off + 1 + 1
        omega
      · show (lx.lx_st.st_lno + 1) % UINT_MOD ≤ lx.lx_st.st_off + 1 + 1
        rw [hl]; omega
      · show lx.lx_bf.length + 1 < UINT_MOD
        simp only [UINT_MOD]; omega
      · intro c _
        refine ⟨?_, fun _ => rfl, ?_⟩
        · simp only [Lexer.left]
          split <;> omega
        · unfold lexer_ungetc
          by_cases he : lx.lx_eof = 0
          · simp only [he, ne_eq, not_true_eq_false, if_false, Nat.add_eq_zero, one_ne_zero,
              and_false, Nat.add_sub_cancel, List.getElem?_eq_getElem hlt, hc, if_true, hl]
            refine ⟨_, rfl, ⟨?_, ?_, ?_, ?_⟩, rfl, rfl, rfl⟩
            · exact h1
            · show 1 ≤ lx.lx_st.st_off + 1
              omega
            · show lx.lx_st.st_lno + 1 - 1 ≤ lx.lx_st.st_off + 1
              omega
            · show lx.lx_bf.length + 1 < UINT_MOD
              simp only [UINT_MOD]; omega
          · simp only [ne_eq, he, not_false_eq_true, if_true]
            refine ⟨_, rfl, ⟨?_, ?_, ?_, ?_⟩, rfl, rfl, rfl⟩
            · show lx.lx_st.st_off + 1 ≤ lx.lx_bf.length
              omega
            · show 1 ≤ lx.lx_st.st_off + 1 + 1
              omega
            · show (lx.lx_st.st_lno + 1) % UINT_MOD ≤ lx.lx_st.st_off + 1 + 1
              rw [hl]; omega
            · show lx.lx_bf.length + 1 < UINT_MOD
              simp only [UINT_MOD]; omega
    · rw [if_neg hc]
      have hl : (lx.lx_st.st_cno + 1) % UINT_MOD = lx.lx_st.st_cno + 1 := by
        apply Nat.mod_eq_of_lt
        simp only [UINT_MOD]
        omega
      refine ⟨_, _, rfl, ⟨⟨?_, ?_, ?_, ?_⟩, rfl, rfl, rfl⟩, ?_⟩
      · show lx.lx_st.st_off + 1 ≤ lx.lx_bf.length
        omega
      · show (lx.lx_st.st_cno + 1) % UINT_MOD ≤ lx.lx_st.st_off + 1 + 1
        rw [hl]; omega
      · show lx.lx_st.st_lno ≤ lx.lx_st.st_off + 1 + 1
        omega
      · show lx.lx_bf.length + 1 < UINT_MOD
        simp only [UINT_MOD]; omega
      · intro c _
        refine ⟨?_, fun _ => rfl, ?_⟩
        · simp only [Lexer.left]
          split <;> omega
        · unfold lexer_ungetc
          by_cases he : lx.lx_eof = 0
          · simp only [he, ne_eq, not_true_eq_false, if_false, Nat.add_eq_zero, one_ne_zero,
              and_false, Nat.add_sub_cancel, List.getElem?_eq_getElem hlt, hc, hl]
            refine ⟨_, rfl, ⟨?_, ?_, ?_, ?_⟩, rfl, rfl, rfl⟩
            · exact h1
            · show lx.lx_st.st_cno + 1 - 1 ≤ lx.lx_st.st_off + 1
              omega
            · exact h3
            · show lx.lx_bf.length + 1 < UINT_MOD
              simp only [UINT_MOD]; omega
          · simp only [ne_eq, he, not_false_eq_true, if_true]
            refine ⟨_, rfl, ⟨?_, ?_, ?_, ?_⟩, rfl, rfl, rfl⟩
            · show lx.lx_st.st_off + 1 ≤ lx.lx_bf.length
              omega
            · show (lx.lx_st.st_cno + 1) % UINT_MOD ≤ lx.lx_st.st_off + 1 + 1
              rw [hl]; omega
            · show lx.lx_st.st_lno ≤ lx.lx_st.st_off + 1 + 1
              omega
            · show lx.lx_bf.length + 1 < UINT_MOD
              simp only [UINT_MOD]; omega

theorem lexer_eat_space_loop_total (newline : Bool) : ∀ (fuel : Nat) (lx : Lexer),
    Fits lx → lx.left < fuel →
    ∃ lx1 more, lexer_eat_space_loop newline fuel lx = Except.ok (lx1, more) ∧ Safe lx lx1 ∧
      (more = true → ∃ lx2, lexer_ungetc lx1 = Except.ok lx2 ∧ Safe lx1 lx2) := by
  intro fuel
  induction fuel with
  | zero => intro lx _ h; omega
  | succ f ih =>
    intro lx hf hl
    obtain ⟨lx1, ch, h1, s1, hc⟩ := lexer_getc_total hf
    unfold lexer_eat_space_loop
    rw [ok_bind _ h1]
    cases ch with
    | none => exact ⟨_, _, rfl, s1, by intro h; cases h⟩
    | some c =>
      obtain ⟨hlt, _, hu⟩ := hc c rfl
      dsimp only
      split
      · obtain ⟨lx2, more, h2, s2, hm⟩ := ih lx1 s1.fits (by omega)
        exact ⟨_, _, h2, s1.safe_trans s2, hm⟩
      · exact ⟨_, _, rfl, s1, fun _ => hu⟩

theorem lexer_eat_space_total {lx : Lexer} (newline : Bool) (hf : Fits lx) :
    ∃ lx1, lexer_eat_space lx newline false = Except.ok (lx1, none) ∧ Safe lx lx1 := by
  obtain ⟨lx1, more, h1, s1, hm⟩ := lexer_eat_space_loop_total newline (lx.lx_bf.length + 2) lx hf
    (by simp only [Lexer.left]; split <;> omega)
  unfold lexer_eat_space
  rw [ok_bind _ h1]
  dsimp only
  cases more with
  | false => exact ⟨_, rfl, s1⟩
  | true =>
    obtain ⟨lx2, h2, s2⟩ := hm rfl
    simp only [Bool.not_true, Bool.false_eq_true, if_false]
    rw [ok_bind _ h2]
    simp only [Bool.not_false, true_or, if_true]
    exact ⟨_, rfl, s1.safe_trans s2⟩

theorem lexer_eat_lines_loop_total : ∀ (fuel : Nat) (lx : Lexer) (n : Nat),
    Fits lx → lx.left < fuel →
    ∃ lx1 n1, lexer_eat_lines_loop fuel lx n = Except.ok (lx1, n1) ∧ Safe lx lx1 := by
  intro fuel
  induction fuel with
  | zero => intro lx _ _ h; omega
  | succ f ih =>
    intro lx n hf hl
    obtain ⟨lx1, ch, h1, s1, hc⟩ := lexer_getc_total hf
    unfold lexer_eat_lines_loop
    rw [ok_bind _ h1]
    cases ch with
    | none => exact ⟨_, _, rfl, s1⟩
    | some c =>
      obtain ⟨hlt, _, lx2, h2, s2⟩ := hc c rfl
      dsimp only
      split
      · obtain ⟨lx3, n3, h3, s3⟩ := ih lx1 (n + 1) s1.fits (by omega)
        exact ⟨_, _, h3, s1.safe_trans s3⟩
      · rw [ok_bind _ h2]
        exact ⟨_, _, rfl, s1.safe_trans s2⟩

theorem lexer_eat_lines_total {lx : Lexer} (emit : Bool) (hf : Fits lx) :
    ∃ lx1 r, lexer_eat_lines lx emit = Except.ok (lx1, r) ∧ Safe lx lx1 := by
  obtain ⟨lx1, n1, h1, s1⟩ := lexer_eat_lines_loop_total (lx.lx_bf.length + 2) lx 0 hf
    (by simp only [Lexer.left]; split <;> omega)
  unfold lexer_eat_lines
  rw [ok_bind _ h1]
  dsimp only
  split
  · exact ⟨_, _, rfl, s1⟩
  · split
    · rw [lexer_emit_tkline]
      exact ⟨_, _, rfl, s1⟩
    · exact ⟨_, _, rfl, s1⟩

theorem lexer_comment_body_total (cstyle : Bool) : ∀ (fuel : Nat) (lx : Lexer) (ch : Nat),
    Fits lx → lx.left < fuel →
    ∃ lx1, lexer_comment_body cstyle fuel lx ch = Except.ok lx1 ∧ Safe lx lx1 := by
  intro fuel
  induction fuel with
  | zero => intro lx _ _ h; omega
  | succ f ih =>
    intro lx ch hf hl
    obtain ⟨lx1, pk, h1, s1, hc⟩ := lexer_getc_total hf
    unfold lexer_comment_body
    rw [ok_bind _ h1]
    cases pk with
    | none => exact ⟨_, rfl, s1⟩
    | some c =>
      obtain ⟨hlt, _, lx2, h2, s2⟩ := hc c rfl
      dsimp only
      split
      · split
        · exact ⟨_, rfl, s1⟩
        · obtain ⟨lx3, h3, s3⟩ := ih lx1 c s1.fits (by omega)
          exact ⟨_, h3, s1.safe_trans s3⟩
      · split
        · exact ⟨_, h2, s1.safe_trans s2⟩
        · obtain ⟨lx3, h3, s3⟩ := ih lx1 ch s1.fits (by omega)
          exact ⟨_, h3, s1.safe_trans s3⟩

theorem lexer_comment_total {lx : Lexer} (hf : Fits lx) :
    ∃ lx1 r, lexer_comment lx false = Except.ok (lx1, r) ∧ Safe lx lx1 ∧
      (r ≠ none → lx.lx_st.st_off < lx1.lx_st.st_off) := by
  have one : ∃ lx1 n1, lexer_comment_loop false (lx.lx_bf.length + 2) lx 0 = Except.ok (lx1, n1) ∧
      Safe lx lx1 ∧ (n1 ≠ 0 → lx.lx_st.st_off < lx1.lx_st.st_off) := by
    unfold lexer_comment_loop
    obtain ⟨lx1, h1, s1⟩ := lexer_eat_space_total false hf
    have k1 := lexer_eat_space_scans h1
    rw [ok_bind _ h1]
    dsimp only
    obtain ⟨lx2, ch, h2, s2, hc2⟩ := lexer_getc_total s1.fits
    have k2 := (lexer_getc_scans h2).scans
    rw [ok_bind _ h2]
    dsimp only
    split
    · exact ⟨_, _, rfl, (s1.safe_trans s2).rewind hf, by intro h; exact absurd rfl h⟩
    · rename_i hch
      simp only [ne_eq, Decidable.not_not] at hch
      obtain ⟨_, ho2, _⟩ := hc2 _ hch
      have ho2 := ho2 (by decide)
      obtain ⟨lx3, ch3, h3, s3, hc3⟩ := lexer_getc_total s2.fits
      have k3 := (lexer_getc_scans h3).scans
      rw [ok_bind _ h3]
      dsimp only
      split
      · exact ⟨_, _, rfl, ((s1.safe_trans s2).safe_trans s3).rewind hf,
          by intro h; exact absurd rfl h⟩
      · obtain ⟨lx4, h4, s4⟩ := lexer_comment_body_total (decide (ch3 = some CH_STAR))
          (lx3.lx_bf.length + 2) lx3 CH_NUL s3.fits (by simp only [Lexer.left]; split <;> omega)
        have k4 := lexer_comment_body_scans _ _ _ _ _ h4
        rw [ok_bind _ h4]
        refine ⟨_, _, rfl, ((s1.safe_trans s2).safe_trans s3).safe_trans s4, ?_⟩
        intro _
        have a1 := k1.off_le
        have a3 := k3.off_le
        have a4 := k4.off_le
        omega
  obtain ⟨lx1, n1, h1, s1, hp⟩ := one
  unfold lexer_comment
  rw [ok_bind _ h1]
  dsimp only
  split
  · exact ⟨_, _, rfl, s1, by intro h; exact absurd rfl h⟩
  · rename_i hn
    simp only [Bool.false_eq_true, if_false, pure, Except.pure]
    rw [ok_bind _ rfl, lexer_emit_tkcomment]
    exact ⟨_, _, rfl, s1, fun _ => hp hn⟩

theorem lexer_read_suffixes_total : ∀ (fuel : Nat) (lx : Lexer) (h0 : List Token) (t : Token),
    lx.lx_heap = h0 ++ [t] → Fits lx → lx.lx_bf.length - lx.lx_st.st_off < fuel →
    ∃ lx1, lexer_read_suffixes fuel lx h0.length = Except.ok lx1 ∧ Safe lx lx1 := by
  intro fuel
  induction fuel with
  | zero => intro lx _ _ _ _ h; omega
  | succ f ih =>
    intro lx h0 t hheap hf hl
    obtain ⟨lx1, r, h1, s1, hp⟩ := lexer_comment_total hf
    obtain ⟨k1, hd⟩ := lexer_comment_scans h1
    unfold lexer_read_suffixes
    rw [ok_bind _ h1]
    cases r with
    | none => exact ⟨_, rfl, s1⟩
    | some tr =>
      obtain ⟨d, rfl, _, _⟩ := hd tr rfl
      have hlt := hp (by simp)
      dsimp only
      rw [ok_bind _ (show (TokRef.loose d).dangling = Except.ok d from rfl)]
      have hh : lx1.lx_heap = h0 ++ [t] := k1.heap.trans hheap
      rw [hh, heap_update_last, ok_bind _ rfl]
      have hf1 : Fits { lx1 with lx_heap := h0 ++ [{ t with tk_suffixes := t.tk_suffixes ++ [d] }] } :=
        s1.fits
      have hb := s1.bf
      have ho := s1.fits.1
      obtain ⟨lx2, h2, s2⟩ := ih { lx1 with lx_heap := h0 ++ [{ t with tk_suffixes := t.tk_suffixes ++ [d] }] }
        h0 _ rfl hf1 (by show lx1.lx_bf.length - lx1.lx_st.st_off < f; rw [hb]; rw [hb] at ho; omega)
      exact ⟨_, h2, ⟨s2.fits, s2.bf.trans s1.bf, s2.err.trans s1.err, s2.branches.trans s1.branches⟩⟩

theorem lexer_read_branches_unlinked (tk : Nat) (lx : Lexer) : ∀ (D : List Dangling),
    (∀ d ∈ D, d.unlinked) → lexer_read_branches tk lx D = Except.ok lx := by
  intro D
  induction D with
  | nil => intro _; rfl
  | cons d rest ih =>
    intro h
    obtain ⟨h1, h2, h3⟩ := h d (List.mem_cons_self _ _)
    unfold lexer_read_branches
    rw [if_neg h1, if_neg h2, if_neg h3]
    exact ih (fun x hx => h x (List.mem_cons_of_mem _ hx))

theorem deref_last (h0 : List Token) (t : Token) : deref (h0 ++ [t]) h0.length = Except.ok t := by
  simp [deref]

theorem lexer_read_out_total {lx : Lexer} {h0 : List Token} {t : Token} {D : List Dangling}
    (hheap : lx.lx_heap = h0 ++ [t]) (hpre : t.tk_prefixes = []) (hf : Fits lx)
    (hD : ∀ d ∈ D, d.unlinked) :
    ∃ lx1 S, lexer_read_out lx h0.length D = Except.ok lx1 ∧ Safe lx lx1 ∧
      lx1.lx_heap = h0 ++ [{ t with tk_prefixes := D, tk_suffixes := S }] ∧
      lx1.lx_tokens = lx.lx_tokens := by
  unfold lexer_read_out
  rw [hheap, heap_update_last, ok_bind _ rfl]
  dsimp only
  have hf0 : Fits { lx with lx_heap := h0 ++ [{ t with tk_prefixes := t.tk_prefixes ++ D }] } := hf
  obtain ⟨lx1, h1, s1⟩ := lexer_read_suffixes_total
    (({ lx with lx_heap := h0 ++ [{ t with tk_prefixes := t.tk_prefixes ++ D }] } : Lexer).lx_bf.length + 2)
    { lx with lx_heap := h0 ++ [{ t with tk_prefixes := t.tk_prefixes ++ D }] } h0 _ rfl hf0
    (by show lx.lx_bf.length - lx.lx_st.st_off < lx.lx_bf.length + 2; omega)
  obtain ⟨S, hh1, _, _, r1⟩ := lexer_read_suffixes_reads _ _ _ _ _ rfl h1
  rw [ok_bind _ h1]
  obtain ⟨lx2, r, h2, s2⟩ := lexer_eat_lines_total true s1.fits
  obtain ⟨k2, hr⟩ := lexer_eat_lines_scans h2
  rw [ok_bind _ h2]
  dsimp only
  have hh2 := k2.heap.trans hh1
  have ht2 : lx2.lx_tokens = lx.lx_tokens := k2.tokens.trans r1.tokens
  have s02 : Safe lx lx2 := ⟨s2.fits, (s2.bf.trans s1.bf), (s2.err.trans s1.err),
    (s2.branches.trans s1.branches)⟩
  cases r with
  | none =>
    dsimp only
    rw [ok_bind _ (show (pure lx2 : Except Fault Lexer) = Except.ok lx2 from rfl), hh2, deref_last,
      ok_bind _ rfl]
    dsimp only
    rw [hpre, List.nil_append, lexer_read_branches_unlinked _ _ _ hD]
    refine ⟨_, t.tk_suffixes ++ S, rfl, s02, ?_, ht2⟩
    rw [hh2, hpre]
    rfl
  | some tr =>
    obtain ⟨d, rfl, _⟩ := hr tr rfl
    dsimp only
    rw [ok_bind _ (show (TokRef.loose d).dangling = Except.ok d from rfl), hh2, heap_update_last,
      ok_bind _ rfl]
    simp only [pure, Except.pure]
    rw [ok_bind _ rfl]
    dsimp only
    rw [deref_last, ok_bind _ rfl]
    dsimp only
    rw [hpre, List.nil_append, lexer_read_branches_unlinked _ _ _ hD]
    refine ⟨_, t.tk_suffixes ++ S ++ [d], rfl, ⟨s02.fits, s02.bf, s02.err, s02.branches⟩, ?_, ht2⟩
    simp only [hpre, List.nil_append]

theorem lexer_emit_main (lx : Lexer) (st : LexerState) (tk : Token)
    (h : tk.tk_flags &&& TOKEN_FLAG_DANGLING = 0) :
    ∃ t : Token, lexer_emit lx st tk = (lx.push t, TokRef.linked lx.lx_heap.length) ∧
      t.tk_type = tk.tk_type ∧ t.tk_flags = tk.tk_flags ∧ t.tk_prefixes = [] ∧
      t.br_pv = tk.br_pv ∧ t.br_nx = tk.br_nx ∧
      t.tk_str = (if tk.tk_str = StrPtr.null then StrPtr.buf st.st_off else tk.tk_str) ∧
      t.tk_len = (if tk.tk_str = StrPtr.null then lx.lx_st.st_off - st.st_off else tk.tk_len) := by
  unfold lexer_emit Lexer.push
  by_cases hn : tk.tk_str = StrPtr.null
  · simp only [hn, if_true, h]
    exact ⟨_, rfl, rfl, rfl, rfl, rfl, rfl, rfl, rfl⟩
  · simp only [hn, if_false, h, if_true]
    exact ⟨_, rfl, rfl, rfl, rfl, rfl, rfl, rfl, rfl⟩

theorem lexer_read_emit_total {lx : Lexer} (st : LexerState) {tmpl : Token} {D : List Dangling}
    (hfl : tmpl.tk_flags &&& TOKEN_FLAG_DANGLING = 0)
    (hpv : tmpl.br_pv = none) (hnx : tmpl.br_nx = none)
    (hf : Fits lx) (hD : ∀ d ∈ D, d.unlinked) :
    ∃ lx1, lexer_read_emit lx st tmpl D = Except.ok (lx1, lx.lx_heap.length) ∧ Safe lx lx1 ∧
      Appends lx lx1 lx.lx_heap.length tmpl.tk_type
        (if tmpl.tk_str = StrPtr.null then StrPtr.buf st.st_off else tmpl.tk_str)
        (if tmpl.tk_str = StrPtr.null then lx.lx_st.st_off - st.st_off else tmpl.tk_len) D := by
  obtain ⟨t, he, h1, _, h3, h4, h5, h6, h7⟩ := lexer_emit_main lx st tmpl hfl
  unfold lexer_read_emit
  rw [he]
  dsimp only
  rw [ok_bind _ (show (TokRef.linked lx.lx_heap.length).ptr = Except.ok lx.lx_heap.length from rfl)]
  obtain ⟨lx1, S, ho, s1, hh, ht⟩ := @lexer_read_out_total
    (lx.push t) lx.lx_heap t D rfl h3 hf hD
  rw [ok_bind _ ho]
  refine ⟨_, rfl, ⟨s1.fits, s1.bf, s1.err, s1.branches⟩, ht, ?_, ?_⟩
  · rw [hh]; simp
  · refine ⟨{ t with tk_prefixes := D, tk_suffixes := S }, ?_, h1, h6, h7, rfl, ?_, ?_, hh⟩
    · rw [hh]; simp
    · exact h4.trans hpv
    · exact h5.trans hnx

theorem rest_cons {lx : Lexer} {c : Nat} {r : List Nat} (h : lx.rest = c :: r) :
    lx.lx_st.st_off < lx.lx_bf.length ∧ lx.lx_bf[lx.lx_st.st_off]? = some c := by
  unfold Lexer.rest at h
  have hlt : lx.lx_st.st_off < lx.lx_bf.length := by
    by_contra hc
    rw [List.drop_eq_nil_of_le (by omega)] at h
    cases h
  refine ⟨hlt, ?_⟩
  have := congrArg (fun l => l[0]?) h
  simpa using this

theorem Lexer.next_eof (lx : Lexer) (c : Nat) : (lx.next c).lx_eof = lx.lx_eof := by
  unfold Lexer.next; split <;> rfl

theorem Lexer.next_bf (lx : Lexer) (c : Nat) : (lx.next c).lx_bf = lx.lx_bf := by
  unfold Lexer.next; split <;> rfl

theorem Lexer.next_heap (lx : Lexer) (c : Nat) : (lx.next c).lx_heap = lx.lx_heap := by
  unfold Lexer.next; split <;> rfl

theorem Lexer.next_tokens (lx : Lexer) (c : Nat) : (lx.next c).lx_tokens = lx.lx_tokens := by
  unfold Lexer.next; split <;> rfl

theorem Lexer.next_branches (lx : Lexer) (c : Nat) :
    (lx.next c).lx_branches = lx.lx_branches := by
  unfold Lexer.next; split <;> rfl

theorem Lexer.next_off (lx : Lexer) (c : Nat) :
    (lx.next c).lx_st.st_off = lx.lx_st.st_off + 1 := by
  unfold Lexer.next; split <;> rfl

theorem Lexer.next_err (lx : Lexer) (c : Nat) :
    (lx.next c).lx_st.st_err = lx.lx_st.st_err := by
  unfold Lexer.next; split <;> rfl

theorem Lexer.next_restore (lx : Lexer) (c : Nat) :
    { lx.next c with lx_st := lx.lx_st } = lx := by
  unfold Lexer.next; split <;> rfl

theorem Lexer.next_rest {lx : Lexer} {c : Nat} {r : List Nat} (h : lx.rest = c :: r) :
    (lx.next c).rest = r := by
  unfold Lexer.rest at *
  rw [Lexer.next_bf, Lexer.next_off, ← List.drop_drop, h]
  rfl

theorem lexer_getc_next {lx : Lexer} {c : Nat} {r : List Nat} (h : lx.rest = c :: r) :
    lexer_getc lx = Except.ok (lx.next c, some c) := by
  obtain ⟨hlt, hc⟩ := rest_cons h
  unfold lexer_getc Lexer.next
  rw [if_neg (by omega), hc]
  dsimp only
  split <;> rfl

theorem Fits.fits_next {lx : Lexer} {c : Nat} {r : List Nat} (hf : Fits lx) (h : lx.rest = c :: r) :
    Fits (lx.next c) := by
  obtain ⟨lx1, ch, h1, s1, _⟩ := lexer_getc_total hf
  rw [lexer_getc_next h] at h1
  cases h1
  exact s1.fits

theorem Ready.after_next {lx : Lexer} {c : Nat} {r : List Nat} (hr : Ready lx) (h : lx.rest = c :: r) :
    Ready (lx.next c) :=
  ⟨hr.fits.fits_next h, (Lexer.next_eof lx c).trans hr.eof⟩

theorem lexer_ungetc_next {lx : Lexer} {c : Nat} {r : List Nat} (hr : Ready lx)
    (h : lx.rest = c :: r) (hc : c ≠ CH_NEWLINE) : lexer_ungetc (lx.next c) = Except.ok lx := by
  obtain ⟨hlt, hg⟩ := rest_cons h
  obtain ⟨⟨h1, h2, h3, h4⟩, he⟩ := hr
  have hl : (lx.lx_st.st_cno + 1) % UINT_MOD = lx.lx_st.st_cno + 1 := by
    apply Nat.mod_eq_of_lt
    omega
  unfold lexer_ungetc Lexer.next
  rw [if_neg hc]
  simp only [he, ne_eq, not_true_eq_false, if_false, Nat.add_eq_zero, one_ne_zero, and_false,
    Nat.add_sub_cancel, hg, hc, hl]
  rw [← he]

theorem lexer_getc_end {lx : Lexer} (h : lx.rest = []) (hf : Fits lx) (he : lx.lx_eof = 0) :
    lexer_getc lx = Except.ok ({ lx with lx_eof := 1 }, some CH_NUL) := by
  have : lx.lx_st.st_off = lx.lx_bf.length := by
    unfold Lexer.rest at h
    have := List.drop_eq_nil_iff.mp h
    have := hf.1
    omega
  unfold lexer_getc
  rw [if_pos this, if_neg (by omega), he]

theorem lexer_getc_fail {lx : Lexer} (h : lx.rest = []) (hf : Fits lx) (he : lx.lx_eof ≠ 0) :
    lexer_getc lx = Except.ok ({ lx with lx_eof := lx.lx_eof + 1 }, none) := by
  have : lx.lx_st.st_off = lx.lx_bf.length := by
    unfold Lexer.rest at h
    have := List.drop_eq_nil_iff.mp h
    have := hf.1
    omega
  unfold lexer_getc
  rw [if_pos this, if_pos (by omega)]

theorem lexer_eat_space_inked {lx : Lexer} {c : Nat} {r : List Nat} (hr : Ready lx)
    (h : lx.rest = c :: r) (hc : inked c) (newline emit : Bool) :
    lexer_eat_space lx newline emit = Except.ok (lx, none) := by
  obtain ⟨c1, c2, c3⟩ := hc
  unfold lexer_eat_space
  rw [lexer_eat_space_loop, ok_bind _ (lexer_getc_next h)]
  dsimp only
  rw [if_neg (by simp [c1, c2, c3]), pure_bind]
  dsimp only
  simp only [Bool.not_true, Bool.false_eq_true, if_false]
  rw [ok_bind _ (lexer_ungetc_next hr h c3)]
  simp [pure_eq_ok]

theorem lexer_comment_inked {lx : Lexer} {c : Nat} {r : List Nat} (hr : Ready lx)
    (h : lx.rest = c :: r) (hc : inked c) (hs : c ≠ CH_SLASH) (block : Bool) :
    lexer_comment lx block = Except.ok (lx, none) := by
  unfold lexer_comment
  rw [lexer_comment_loop, ok_bind _ (lexer_eat_space_inked hr h hc block false)]
  dsimp only
  rw [ok_bind _ (lexer_getc_next h)]
  dsimp only
  rw [if_pos (by simp [hs]), pure_bind]
  dsimp only
  rw [Lexer.next_restore]
  rfl

theorem lexer_cpp_inked {lx : Lexer} {c : Nat} {r : List Nat} (hr : Ready lx)
    (h : lx.rest = c :: r) (hc : inked c) (hs : c ≠ CH_HASH) :
    lexer_cpp lx = Except.ok (lx, none) := by
  unfold lexer_cpp
  rw [lexer_cpp_loop, ok_bind _ (lexer_eat_space_inked hr h hc true false)]
  dsimp only
  rw [ok_bind _ (lexer_getc_next h)]
  dsimp only
  rw [if_pos ⟨hs, rfl⟩, pure_bind]
  dsimp only
  rw [Lexer.next_restore]
  rfl

theorem lexer_read_dangling_inked {lx : Lexer} {c : Nat} {r : List Nat} (hr : Ready lx)
    (h : lx.rest = c :: r) (hc : inked c) (hs : c ≠ CH_SLASH) (hh : c ≠ CH_HASH)
    (fuel : Nat) (D : List Dangling) :
    lexer_read_dangling (fuel + 1) lx D = Except.ok (lx, D) := by
  rw [lexer_read_dangling, ok_bind _ (lexer_comment_inked hr h hc hs true)]
  dsimp only
  rw [ok_bind _ (lexer_cpp_inked hr h hc hh)]
  rfl

theorem lexer_eat_lines_inked {lx : Lexer} {c : Nat} {r : List Nat} (hr : Ready lx)
    (h : lx.rest = c :: r) (hc : c ≠ CH_NEWLINE) (emit : Bool) :
    lexer_eat_lines lx emit = Except.ok (lx, none) := by
  unfold lexer_eat_lines
  rw [lexer_eat_lines_loop, ok_bind _ (lexer_getc_next h)]
  dsimp only
  rw [if_neg hc, ok_bind _ (lexer_ungetc_next hr h hc)]
  simp [pure_eq_ok, ok_bind_eq]

theorem lexer_buffer_slice_next {lx : Lexer} {c : Nat} {r : List Nat} (h : lx.rest = c :: r) :
    lexer_buffer_slice (lx.next c) lx.lx_st = [c] := by
  unfold lexer_buffer_slice
  rw [Lexer.next_bf, Lexer.next_off]
  unfold Lexer.rest at h
  rw [h]
  simp

theorem lexer_keyword_none {lx : Lexer} {c : Nat} {r : List Nat} (hr : Ready lx)
    (h : lx.rest = c :: r) (hc : c ≠ CH_NEWLINE) (hk : hash_find [c] = none) :
    lexer_keyword lx = Except.ok (lx, none) := by
  unfold lexer_keyword
  rw [ok_bind _ (lexer_getc_next h)]
  dsimp only
  rw [lexer_keyword_loop]
  unfold lexer_find_token
  rw [lexer_buffer_slice_next h, hk]
  dsimp only
  rw [ok_bind _ (lexer_ungetc_next hr h hc)]
  simp only [pure_eq_ok, ok_bind_eq]

theorem lexer_read_keyword_none {lx : Lexer} {c : Nat} {r : List Nat} (hr : Ready lx)
    (h : lx.rest = c :: r) (hc : inked c) (hk : hash_find [c] = none) (fuel : Nat) :
    lexer_read_keyword (fuel + 1) lx = Except.ok (lx, none) := by
  rw [lexer_read_keyword, ok_bind _ (lexer_eat_space_inked hr h hc true false)]
  dsimp only
  rw [ok_bind _ (lexer_keyword_none hr h hc.2.2 hk)]
  rfl

theorem Lexer.reads_cons (lx : Lexer) (c : Nat) (l : List Nat) :
    lx.reads (c :: l) = (lx.next c).reads l := rfl

theorem Lexer.reads_off (l : List Nat) : ∀ lx : Lexer,
    (lx.reads l).lx_st.st_off = lx.lx_st.st_off + l.length := by
  induction l with
  | nil => intro lx; rfl
  | cons c l ih =>
    intro lx
    rw [Lexer.reads_cons, ih, Lexer.next_off, List.length_cons]
    omega

theorem Lexer.reads_bf (l : List Nat) : ∀ lx : Lexer, (lx.reads l).lx_bf = lx.lx_bf := by
  induction l with
  | nil => intro lx; rfl
  | cons c l ih => intro lx; rw [Lexer.reads_cons, ih, Lexer.next_bf]

theorem Lexer.reads_heap (l : List Nat) : ∀ lx : Lexer, (lx.reads l).lx_heap = lx.lx_heap := by
  induction l with
  | nil => intro lx; rfl
  | cons c l ih => intro lx; rw [Lexer.reads_cons, ih, Lexer.next_heap]

theorem Lexer.reads_tokens (l : List Nat) : ∀ lx : Lexer,
    (lx.reads l).lx_tokens = lx.lx_tokens := by
  induction l with
  | nil => intro lx; rfl
  | cons c l ih => intro lx; rw [Lexer.reads_cons, ih, Lexer.next_tokens]

theorem Lexer.reads_branches (l : List Nat) : ∀ lx : Lexer,
    (lx.reads l).lx_branches = lx.lx_branches := by
  induction l with
  | nil => intro lx; rfl
  | cons c l ih => intro lx; rw [Lexer.reads_cons, ih, Lexer.next_branches]

theorem Lexer.reads_eof (l : List Nat) : ∀ lx : Lexer, (lx.reads l).lx_eof = lx.lx_eof := by
  induction l with
  | nil => intro lx; rfl
  | cons c l ih => intro lx; rw [Lexer.reads_cons, ih, Lexer.next_eof]

theorem Lexer.reads_err (l : List Nat) : ∀ lx : Lexer,
    (lx.reads l).lx_st.st_err = lx.lx_st.st_err := by
  induction l with
  | nil => intro lx; rfl
  | cons c l ih => intro lx; rw [Lexer.reads_cons, ih, Lexer.next_err]

theorem Ready.after_reads (l : List Nat) : ∀ (lx : Lexer) (r : List Nat),
    Ready lx → lx.rest = l ++ r → Ready (lx.reads l) := by
  induction l with
  | nil => intro lx r hr _; exact hr
  | cons c l ih =>
    intro lx r hr h
    rw [Lexer.reads_cons]
    exact ih _ _ (hr.after_next h) (Lexer.next_rest h)

theorem Ready.safe {lx : Lexer} (l : List Nat) (r : List Nat) (hr : Ready lx)
    (h : lx.rest = l ++ r) : Safe lx (lx.reads l) :=
  ⟨(hr.after_reads l lx r h).fits, Lexer.reads_bf l lx, Lexer.reads_err l lx, Lexer.reads_branches l lx⟩

theorem rest_length {lx : Lexer} (hf : Fits lx) :
    lx.rest.length + lx.lx_st.st_off = lx.lx_bf.length := by
  unfold Lexer.rest
  rw [List.length_drop]
  have := hf.1
  omega

theorem trailing_backslashes_snoc (l : List Nat) (c : Nat) :
    trailing_backslashes (l ++ [c]) =
      if c = CH_BACKSLASH then trailing_backslashes l + 1 else 0 := by
  unfold trailing_backslashes
  rw [List.reverse_append, List.reverse_singleton, List.singleton_append, List.takeWhile_cons]
  split <;> simp_all

theorem lexer_read_string_closes (q : Nat) (hq : q ≠ CH_BACKSLASH) (body post : List Nat) :
    ∀ (mid pre : List Nat) (lx : Lexer) (pch fuel : Nat),
      body = pre ++ (mid ++ q :: post) →
      lx.rest = mid ++ q :: post →
      (pch = CH_BACKSLASH ↔ trailing_backslashes pre % 2 = 1) →
      (∀ j, pre.length ≤ j → j < pre.length + mid.length → ¬ closes q body j) →
      closes q body (pre.length + mid.length) →
      mid.length < fuel →
      lexer_read_string q fuel lx pch = Except.ok (lx.reads (mid ++ [q]), true) := by
  intro mid
  induction mid with
  | nil =>
    intro pre lx pch fuel hb hrest hinv _ hcl hfuel
    obtain ⟨f, rfl⟩ : ∃ f, fuel = f + 1 := ⟨fuel - 1, by omega⟩
    rw [List.nil_append] at hrest
    rw [lexer_read_string, ok_bind _ (lexer_getc_next hrest)]
    dsimp only
    have hp : pch ≠ CH_BACKSLASH := by
      intro hp
      have h1 := hinv.mp hp
      have h2 := hcl.2
      rw [hb] at h2
      simp only [List.length_nil, Nat.add_zero, List.take_left'] at h2
      omega
    rw [if_neg (by simp [hq]), if_pos ⟨hp, rfl⟩]
    rfl
  | cons c mid ih =>
    intro pre lx pch fuel hb hrest hinv hno hcl hfuel
    obtain ⟨f, rfl⟩ : ∃ f, fuel = f + 1 := ⟨fuel - 1, by simp at hfuel; omega⟩
    rw [List.cons_append] at hrest
    rw [lexer_read_string, ok_bind _ (lexer_getc_next hrest)]
    dsimp only
    have hb1 : body = (pre ++ [c]) ++ (mid ++ q :: post) := by
      rw [hb]; simp
    have hrest1 := Lexer.next_rest hrest
    have hlen : (pre ++ [c]).length = pre.length + 1 := by simp
    have hno1 : ∀ j, (pre ++ [c]).length ≤ j → j < (pre ++ [c]).length + mid.length →
        ¬ closes q body j := by
      intro j h1 h2
      apply hno j
      · omega
      · simp only [List.length_cons]; omega
    have hcl1 : closes q body ((pre ++ [c]).length + mid.length) := by
      have : (pre ++ [c]).length + mid.length = pre.length + (c :: mid).length := by
        simp only [hlen, List.length_cons]; omega
      rw [this]; exact hcl
    have hf1 : mid.length < f := by simp only [List.length_cons] at hfuel; omega
    have hhere : ¬ closes q body pre.length := hno _ (le_refl _) (by simp)
    have hget : body[pre.length]? = some c := by
      rw [hb, List.getElem?_append_right (le_refl _)]; simp
    have htake : body.take pre.length = pre := by
      rw [hb]; simp
    have hparity : trailing_backslashes pre % 2 = 0 ∨ trailing_backslashes pre % 2 = 1 := by
      omega
    rw [List.cons_append, Lexer.reads_cons]
    by_cases h1 : pch = CH_BACKSLASH ∧ c = CH_BACKSLASH
    · rw [if_pos h1]
      apply ih (pre ++ [c]) _ _ _ hb1 hrest1 _ hno1 hcl1 hf1
      rw [trailing_backslashes_snoc, if_pos h1.2]
      have := hinv.mp h1.1
      constructor
      · intro h; exact absurd h (by decide)
      · intro h; omega
    · rw [if_neg h1]
      have h2 : ¬ (pch ≠ CH_BACKSLASH ∧ c = q) := by
        rintro ⟨hp, rfl⟩
        apply hhere
        refine ⟨hget, ?_⟩
        rw [htake]
        rcases hparity with h | h
        · exact h
        · exact absurd (hinv.mpr h) hp
      rw [if_neg h2]
      apply ih (pre ++ [c]) _ _ _ hb1 hrest1 _ hno1 hcl1 hf1
      rw [trailing_backslashes_snoc]
      by_cases hc : c = CH_BACKSLASH
      · rw [if_pos hc]
        have hp : pch ≠ CH_BACKSLASH := fun hp => h1 ⟨hp, hc⟩
        constructor
        · intro _
          rcases hparity with h | h
          · omega
          · exact absurd (hinv.mpr h) hp
        · intro _; exact hc
      · rw [if_neg hc]
        constructor
        · intro h; exact absurd h hc
        · intro h; omega

theorem first_closes_split {q : Nat} {body : List Nat} {k : Nat} (hk : closes q body k) :
    ∃ post, body = body.take k ++ q :: post ∧ (body.take k).length = k := by
  obtain ⟨hget, _⟩ := hk
  have hlt : k < body.length := by
    by_contra hc
    rw [List.getElem?_eq_none (by omega)] at hget
    cases hget
  refine ⟨body.drop (k + 1), ?_, by simp; omega⟩
  have h1 : body.drop k = q :: body.drop (k + 1) := by
    rw [List.drop_eq_getElem_cons hlt]
    congr 1
    rw [List.getElem?_eq_getElem hlt] at hget
    exact Option.some.inj hget
  rw [← h1, List.take_append_drop]

theorem lexer_read_quote {lx : Lexer} {q : Nat} {body : List Nat} {k : Nat}
    (hr : Ready lx) (he : lx.lx_st.st_err = 0) (hq : q = CH_DQUOTE ∨ q = CH_SQUOTE)
    (h : lx.rest = q :: body) (hk : closes q body k) (hfirst : ∀ j, j < k → ¬ closes q body j) :
    ∃ lx1, lexer_read lx = Except.ok (lx1, true, lx.lx_heap.length) ∧ Safe lx lx1 ∧
      Appends lx lx1 lx.lx_heap.length (if q = CH_DQUOTE then TOKEN_STRING else TOKEN_LITERAL)
        (StrPtr.buf lx.lx_st.st_off) (k + 2) [] := by
  have hink : inked q := by
    rcases hq with rfl | rfl <;> exact ⟨by decide, by decide, by decide⟩
  have hs : q ≠ CH_SLASH := by rcases hq with rfl | rfl <;> decide
  have hh : q ≠ CH_HASH := by rcases hq with rfl | rfl <;> decide
  have hL : q ≠ CH_UPPER_L := by rcases hq with rfl | rfl <;> decide
  have hb : q ≠ CH_BACKSLASH := by rcases hq with rfl | rfl <;> decide
  have hkey : hash_find [q] = none := by rcases hq with rfl | rfl <;> decide
  obtain ⟨post, hsplit, hlen⟩ := first_closes_split hk
  have hrest1 : (lx.next q).rest = body.take k ++ q :: post := by
    rw [Lexer.next_rest h]; exact hsplit
  have hbody : body.length + 1 + lx.lx_st.st_off = lx.lx_bf.length := by
    have := rest_length hr.fits
    rw [h] at this
    simpa using this
  have hklt : k < body.length := by
    have := congrArg List.length hsplit
    simp only [List.length_append, List.length_cons, hlen] at this
    omega
  have hloop := lexer_read_string_closes q hb body post (body.take k) [] (lx.next q) q
    ((lx.next q).lx_bf.length + 2) (by simpa using hsplit) hrest1
    (by simp [trailing_backslashes, hb])
    (by intro j _ h2; apply hfirst; simp at h2; omega)
    (by simpa [hlen] using hk)
    (by rw [hlen, Lexer.next_bf]; omega)
  have hrd : Ready ((lx.next q).reads (body.take k ++ [q])) := by
    apply Ready.after_reads _ _ post (hr.after_next h)
    rw [hrest1]; simp
  obtain ⟨lx1, hemit, s1, ha⟩ := @lexer_read_emit_total ((lx.next q).reads (body.take k ++ [q]))
    lx.lx_st (if q = CH_DQUOTE then tkstr else tklit) []
    (by split <;> decide) (by split <;> rfl) (by split <;> rfl) hrd.fits (by simp)
  have hheap : ((lx.next q).reads (body.take k ++ [q])).lx_heap = lx.lx_heap := by
    rw [Lexer.reads_heap, Lexer.next_heap]
  have htok : ((lx.next q).reads (body.take k ++ [q])).lx_tokens = lx.lx_tokens := by
    rw [Lexer.reads_tokens, Lexer.next_tokens]
  have hoff : ((lx.next q).reads (body.take k ++ [q])).lx_st.st_off = lx.lx_st.st_off + (k + 2) := by
    rw [Lexer.reads_off, Lexer.next_off]
    simp only [List.length_append, hlen, List.length_singleton]
    omega
  have s0 : Safe lx ((lx.next q).reads (body.take k ++ [q])) :=
    (Ready.safe [q] body hr h).safe_trans (Ready.safe _ post (hr.after_next h) (by
      show (lx.next q).rest = _
      rw [hrest1]; simp))
  refine ⟨lx1, ?_, s0.safe_trans s1, ?_⟩
  · unfold lexer_read
    rw [if_neg (by simp [he])]
    rw [ok_bind _ (lexer_read_dangling_inked hr h hink hs hh (lx.lx_bf.length + 1) [])]
    dsimp only
    rw [ok_bind _ (lexer_read_keyword_none hr h hink hkey (lx.lx_bf.length + 1))]
    dsimp only
    rw [ok_bind _ (lexer_getc_next h)]
    dsimp only
    rw [if_neg hL, pure_bind]
    dsimp only
    rw [if_pos hq, ok_bind _ hloop]
    dsimp only
    simp only [Bool.not_true, Bool.false_eq_true, if_false]
    rw [hheap] at hemit
    rw [ok_bind _ hemit]
    rfl
  · obtain ⟨a1, a2, tok, b1, b2, b3, b4, b5, b6, b7, b8⟩ := ha
    rw [hheap] at a1 a2 b1 b8
    rw [htok] at a1
    refine ⟨a1, a2, tok, b1, ?_, ?_, ?_, b5, b6, b7, b8⟩
    · rw [b2]; split <;> rfl
    · rw [b3]; split <;> rfl
    · rw [b4, hoff]
      split <;> simp [tkstr, tklit]

theorem Moved.rest {lx lx1 : Lexer} {n : Nat} (h : Moved lx lx1 n) :
    lx1.rest = lx.rest.drop n := by
  unfold Lexer.rest
  rw [h.safe.bf, h.off, List.drop_drop, Nat.add_comm]

theorem Moved.moved_refl {lx : Lexer} (hf : Fits lx) : Moved lx lx 0 :=
  ⟨Safe.safe_refl hf, rfl, rfl, rfl⟩

theorem Moved.moved_trans {a b c : Lexer} {n m : Nat} (h1 : Moved a b n) (h2 : Moved b c m) :
    Moved a c (n + m) :=
  ⟨h1.safe.safe_trans h2.safe, h2.heap.trans h1.heap, h2.tokens.trans h1.tokens,
    by rw [h2.off, h1.off]; omega⟩

theorem Moved.of_next {lx : Lexer} {c : Nat} {r : List Nat} (hr : Ready lx) (h : lx.rest = c :: r) :
    Moved lx (lx.next c) 1 :=
  ⟨Ready.safe [c] r hr h, Lexer.next_heap _ _, Lexer.next_tokens _ _, Lexer.next_off _ _⟩

theorem Moved.of_reads {lx : Lexer} (l r : List Nat) (hr : Ready lx) (h : lx.rest = l ++ r) :
    Moved lx (lx.reads l) l.length :=
  ⟨Ready.safe l r hr h, Lexer.reads_heap _ _, Lexer.reads_tokens _ _, Lexer.reads_off _ _⟩

theorem Appends.of_moved {lx lx0 lx1 : Lexer} {n p : Nat} {type : TokenType} {str : StrPtr}
    {len : Nat} {D : List Dangling} (hm : Moved lx lx0 n)
    (h : Appends lx0 lx1 p type str len D) : Appends lx lx1 p type str len D := by
  obtain ⟨a1, a2, tok, a3, a4⟩ := h
  rw [hm.tokens] at a1
  rw [hm.heap] at a2
  refine ⟨a1, a2, tok, a3, ?_⟩
  rw [hm.heap] at a4
  exact a4

theorem lexer_ungetc_back {lx : Lexer} {c : Nat} {r : List Nat} (hr : Ready lx)
    (h : lx.rest = c :: r) : lexer_ungetc (lx.next c) = Except.ok (lx.back c) := by
  by_cases hc : c = CH_NEWLINE
  · obtain ⟨hlt, hg⟩ := rest_cons h
    obtain ⟨⟨h1, h2, h3, h4⟩, he⟩ := hr
    have hl : (lx.lx_st.st_lno + 1) % UINT_MOD = lx.lx_st.st_lno + 1 := by
      apply Nat.mod_eq_of_lt
      omega
    unfold lexer_ungetc Lexer.next Lexer.back
    rw [if_pos hc, if_pos hc]
    simp only [he, ne_eq, not_true_eq_false, if_false, Nat.add_eq_zero, one_ne_zero, and_false,
      Nat.add_sub_cancel, hg, hc, hl, if_true]
  · rw [lexer_ungetc_next hr h hc]
    unfold Lexer.back
    rw [if_neg hc]

theorem Ready.after_back {lx : Lexer} (hr : Ready lx) (c : Nat) : Ready (lx.back c) := by
  unfold Lexer.back
  split
  · obtain ⟨⟨h1, h2, h3, h4⟩, he⟩ := hr
    exact ⟨⟨h1, by show 1 ≤ lx.lx_st.st_off + 1; omega, h3, h4⟩, he⟩
  · exact hr

theorem Moved.of_back {lx : Lexer} (hr : Ready lx) (c : Nat) : Moved lx (lx.back c) 0 := by
  have hb := hr.after_back c
  unfold Lexer.back at *
  split
  · rw [if_pos (by assumption)] at hb
    exact ⟨⟨hb.fits, rfl, rfl, rfl⟩, rfl, rfl, rfl⟩
  · exact Moved.moved_refl hr.fits

theorem keywords_plain : ∀ t ∈ keywords,
    t.tk_flags &&& TOKEN_FLAG_DANGLING = 0 ∧ t.br_pv = none ∧ t.br_nx = none ∧
      (match t.tk_str with
        | StrPtr.static s => decide (t.tk_len = s.length)
        | _ => false) = true := by
  decide

theorem tokens_nodup : (tokens.map (fun t => t.tk_str)).Nodup := by
  decide

theorem tokens_keywords {t : Token} (h : t ∈ tokens) : t ∈ keywords :=
  (List.mem_filter.mp h).1

theorem hash_find_mem {key : List Nat} {t : Token} (h : hash_find key = some t) :
    t ∈ tokens ∧ t.tk_str = StrPtr.static key :=
  ⟨List.mem_of_find?_eq_some h, hash_find_static h⟩

theorem hash_find_none {key : List Nat} (h : hash_find key = none) :
    ∀ t ∈ tokens, t.tk_str ≠ StrPtr.static key := by
  intro t ht
  have := List.find?_eq_none.mp h t ht
  simpa using this

theorem hash_find_of_mem {key : List Nat} {t : Token} (ht : t ∈ tokens)
    (hk : t.tk_str = StrPtr.static key) : hash_find key = some t := by
  cases hf : hash_find key with
  | none => exact absurd hk (hash_find_none hf t ht)
  | some t1 =>
    obtain ⟨h1, h2⟩ := hash_find_mem hf
    have := List.inj_on_of_nodup_map tokens_nodup h1 ht (h2.trans hk.symm)
    rw [this]

theorem token_template {t : Token} {key : List Nat} (h : hash_find key = some t) :
    t.tk_flags &&& TOKEN_FLAG_DANGLING = 0 ∧ t.br_pv = none ∧ t.br_nx = none ∧
      t.tk_str = StrPtr.static key ∧ t.tk_len = key.length := by
  obtain ⟨hm, hs⟩ := hash_find_mem h
  obtain ⟨h1, h2, h3, h4⟩ := keywords_plain t (tokens_keywords hm)
  rw [hs] at h4
  exact ⟨h1, h2, h3, hs, by simpa using h4⟩

theorem lexer_buffer_slice_moved {lx lx1 : Lexer} {n : Nat} (hm : Moved lx lx1 n) :
    lexer_buffer_slice lx1 lx.lx_st = lx.rest.take n := by
  unfold lexer_buffer_slice Lexer.rest
  rw [hm.safe.bf, hm.off, Nat.add_sub_cancel_left]

theorem punctuators_tokens : ∀ t ∈ punctuators, t ∈ tokens := by
  decide

theorem tokens_punctuators : ∀ t ∈ tokens,
    (match t.key with
      | c :: _ => !(isalpha c) && !(decide (c = CH_UNDERSCORE))
      | [] => false) = true → t ∈ punctuators := by
  decide

theorem punctuators_key : ∀ t ∈ punctuators,
    (match t.key with
      | c :: _ => !(isalpha c) && !(decide (c = CH_UNDERSCORE)) && !(decide (c = CH_NEWLINE))
      | [] => false) = true ∧ t.key.length ≤ 3 ∧ t.tk_str = StrPtr.static t.key := by
  decide

theorem punctuators_closed : ∀ t ∈ punctuators, t.key ≠ [CH_PERIOD, CH_PERIOD, CH_PERIOD] →
    ∀ n ∈ [1, 2], n < t.key.length →
      (match hash_find (t.key.take n) with
        | some t1 => decide (t1.tk_flags &&& TOKEN_FLAG_AMBIGUOUS ≠ 0)
        | none => false) = true := by
  decide

theorem tokens_period : ∀ t ∈ tokens,
    (t.tk_type = TOKEN_PERIOD → t.key = [CH_PERIOD]) ∧
    (t.key.length = 2 → t.key.head? ≠ some CH_PERIOD) ∧
    (3 ≤ t.key.length → t.tk_flags &&& TOKEN_FLAG_AMBIGUOUS = 0) ∧
    (t.key.length = 3 → t.key.head? = some CH_PERIOD →
      t.key = [CH_PERIOD, CH_PERIOD, CH_PERIOD]) := by
  decide

theorem hash_find_key {key : List Nat} {t : Token} (h : hash_find key = some t) :
    t ∈ tokens ∧ t.key = key := by
  obtain ⟨h1, h2⟩ := hash_find_mem h
  exact ⟨h1, by simp [Token.key, h2]⟩

theorem hash_find_punctuator {t : Token} (h : t ∈ punctuators) : hash_find t.key = some t :=
  hash_find_of_mem (punctuators_tokens t h) (punctuators_key t h).2.2

theorem lexer_eof_nil {lx : Lexer} (hf : Fits lx) (h : lx.rest = []) : lexer_eof lx = true := by
  have := rest_length hf
  rw [h] at this
  simp only [lexer_eof, decide_eq_true_eq]
  simpa using this

theorem lexer_eof_cons {lx : Lexer} {c : Nat} {r : List Nat} (h : lx.rest = c :: r) :
    lexer_eof lx = false := by
  have := (rest_cons h).1
  simp only [lexer_eof, decide_eq_false_iff_not]
  omega

theorem Lexer.next_next_restore (lx : Lexer) (b c : Nat) :
    { (lx.next b).next c with lx_st := lx.lx_st } = lx := by
  unfold Lexer.next
  split <;> split <;> rfl

theorem lexer_ellipsis_none {lx : Lexer} (st : LexerState) (hr : Ready lx)
    (h : ¬ ([CH_PERIOD, CH_PERIOD] <+: lx.rest)) :
    lexer_ellipsis lx st = Except.ok (lx, none) := by
  unfold lexer_ellipsis
  cases h0 : lx.rest with
  | nil =>
    rw [lexer_eof_nil hr.fits h0]
    rfl
  | cons b r =>
    rw [lexer_eof_cons h0]
    simp only [Bool.false_eq_true, if_false]
    rw [ok_bind _ (lexer_getc_next h0)]
    dsimp only
    by_cases hb : b = CH_PERIOD
    · rw [if_neg (by simp [hb])]
      have h1 := Lexer.next_rest h0
      cases r with
      | nil =>
        rw [lexer_eof_nil (hr.after_next h0).fits h1]
        simp only [if_true, pure_eq_ok, Lexer.next_restore]
      | cons c r =>
        rw [lexer_eof_cons h1]
        simp only [Bool.false_eq_true, if_false]
        rw [ok_bind _ (lexer_getc_next h1)]
        dsimp only
        have hc : c ≠ CH_PERIOD := by
          intro hc
          apply h
          rw [h0, hb, hc]
          exact ⟨r, rfl⟩
        rw [if_pos (by simp [hc])]
        simp only [pure_eq_ok, Lexer.next_next_restore]
    · rw [if_pos (by simp [hb])]
      simp only [pure_eq_ok, Lexer.next_restore]

theorem lexer_ellipsis_some {lx : Lexer} (st : LexerState) {r : List Nat}
    (h : lx.rest = CH_PERIOD :: CH_PERIOD :: r) :
    lexer_ellipsis lx st = Except.ok ((lx.next CH_PERIOD).next CH_PERIOD,
      lexer_find_token ((lx.next CH_PERIOD).next CH_PERIOD) st) := by
  have h1 := Lexer.next_rest h
  unfold lexer_ellipsis
  rw [lexer_eof_cons h]
  simp only [Bool.false_eq_true, if_false]
  rw [ok_bind _ (lexer_getc_next h)]
  dsimp only
  rw [if_neg (by simp), lexer_eof_cons h1]
  simp only [Bool.false_eq_true, if_false]
  rw [ok_bind _ (lexer_getc_next h1)]
  dsimp only
  rw [if_neg (by simp)]
  rfl

theorem lexer_keyword_loop_final {st : LexerState} {lx : Lexer} {tmp : Token} {fuel : Nat}
    (pv : Option Token) (hfuel : 1 ≤ fuel) (hf : lexer_find_token lx st = some tmp)
    (ha : tmp.tk_flags &&& TOKEN_FLAG_AMBIGUOUS = 0) :
    lexer_keyword_loop st fuel lx pv = Except.ok (lx, some tmp) := by
  obtain ⟨f, rfl⟩ : ∃ f, fuel = f + 1 := ⟨fuel - 1, by omega⟩
  rw [lexer_keyword_loop, hf]
  dsimp only
  rw [if_pos ha]
  rfl

theorem lexer_keyword_loop_back {st : LexerState} {lx : Lexer} {b : Nat} {r : List Nat}
    {fuel : Nat} (pv : Option Token) (hfuel : 1 ≤ fuel) (hr : Ready lx) (h : lx.rest = b :: r)
    (hf : lexer_find_token (lx.next b) st = none) :
    lexer_keyword_loop st fuel (lx.next b) pv = Except.ok (lx.back b, pv) := by
  obtain ⟨f, rfl⟩ : ∃ f, fuel = f + 1 := ⟨fuel - 1, by omega⟩
  rw [lexer_keyword_loop, hf]
  dsimp only
  rw [ok_bind _ (lexer_ungetc_back hr h)]
  rfl

theorem lexer_keyword_loop_unfold {st : LexerState} {lx : Lexer} {tmp : Token}
    (f : Nat) (pv : Option Token) (hf : lexer_find_token lx st = some tmp)
    (ha : tmp.tk_flags &&& TOKEN_FLAG_AMBIGUOUS ≠ 0)
    (hp : tmp.tk_type = TOKEN_PERIOD → lexer_ellipsis lx st = Except.ok (lx, none)) :
    lexer_keyword_loop st (f + 1) lx pv = (do
      let (lx, ch) ← lexer_getc lx
      match ch with
      | none => return (lx, some tmp)
      | some _ => lexer_keyword_loop st f lx (some tmp)) := by
  rw [lexer_keyword_loop, hf]
  dsimp only
  rw [if_neg ha]
  have : (if tmp.tk_type = TOKEN_PERIOD then lexer_ellipsis lx st
      else pure (lx, none) : Except Fault (Lexer × Option Token)) = Except.ok (lx, none) := by
    split
    · exact hp (by assumption)
    · rfl
  rw [ok_bind _ this]

theorem lexer_keyword_loop_next {st : LexerState} {lx : Lexer} {tmp : Token} {b : Nat}
    {r : List Nat} {fuel : Nat} (pv : Option Token) (hfuel : 1 ≤ fuel)
    (hf : lexer_find_token lx st = some tmp)
    (ha : tmp.tk_flags &&& TOKEN_FLAG_AMBIGUOUS ≠ 0)
    (hp : tmp.tk_type = TOKEN_PERIOD → lexer_ellipsis lx st = Except.ok (lx, none))
    (h : lx.rest = b :: r) :
    lexer_keyword_loop st fuel lx pv =
      lexer_keyword_loop st (fuel - 1) (lx.next b) (some tmp) := by
  obtain ⟨f, rfl⟩ : ∃ f, fuel = f + 1 := ⟨fuel - 1, by omega⟩
  rw [lexer_keyword_loop_unfold f pv hf ha hp, ok_bind _ (lexer_getc_next h)]
  rfl

theorem lexer_keyword_loop_end {st : LexerState} {lx : Lexer} {tmp : Token}
    {fuel : Nat} (pv : Option Token) (hfuel : 2 ≤ fuel)
    (hf : lexer_find_token lx st = some tmp)
    (ha : tmp.tk_flags &&& TOKEN_FLAG_AMBIGUOUS ≠ 0)
    (hp : tmp.tk_type = TOKEN_PERIOD → lexer_ellipsis lx st = Except.ok (lx, none))
    (hr : Ready lx) (h : lx.rest = []) :
    lexer_keyword_loop st fuel lx pv = Except.ok ({ lx with lx_eof := 2 }, some tmp) := by
  obtain ⟨f, rfl⟩ : ∃ f, fuel = f + 2 := ⟨fuel - 2, by omega⟩
  rw [lexer_keyword_loop_unfold (f + 1) pv hf ha hp,
    ok_bind _ (lexer_getc_end h hr.fits hr.eof)]
  dsimp only
  have h1 : ({ lx with lx_eof := 1 } : Lexer).rest = [] := h
  have hp1 : tmp.tk_type = TOKEN_PERIOD →
      lexer_ellipsis { lx with lx_eof := 1 } st = Except.ok ({ lx with lx_eof := 1 }, none) := by
    intro _
    unfold lexer_ellipsis
    rw [@lexer_eof_nil { lx with lx_eof := 1 } hr.fits h1]
    rfl
  rw [@lexer_keyword_loop_unfold _ { lx with lx_eof := 1 } _ f (some tmp) hf ha hp1,
    ok_bind _ (@lexer_getc_fail { lx with lx_eof := 1 } h1 hr.fits (by simp))]
  rfl

theorem lexer_keyword_loop_ellipsis {st : LexerState} {lx lx1 : Lexer} {tmp e : Token}
    {fuel : Nat} (pv : Option Token) (hfuel : 1 ≤ fuel)
    (hf : lexer_find_token lx st = some tmp)
    (ha : tmp.tk_flags &&& TOKEN_FLAG_AMBIGUOUS ≠ 0) (hp : tmp.tk_type = TOKEN_PERIOD)
    (he : lexer_ellipsis lx st = Except.ok (lx1, some e)) :
    lexer_keyword_loop st fuel lx pv = Except.ok (lx1, some e) := by
  obtain ⟨f, rfl⟩ : ∃ f, fuel = f + 1 := ⟨fuel - 1, by omega⟩
  rw [lexer_keyword_loop, hf]
  dsimp only
  rw [if_neg ha, if_pos hp, ok_bind _ he]
  rfl

theorem lexer_find_token_moved {lx lx1 : Lexer} {n : Nat} (hm : Moved lx lx1 n) :
    lexer_find_token lx1 lx.lx_st = hash_find (lx.rest.take n) := by
  unfold lexer_find_token
  rw [lexer_buffer_slice_moved hm]

theorem ellipsis_punctuator :
    T TOKEN_ELLIPSIS "..." TOKEN_FLAG_TYPE ∈ punctuators ∧
      (T TOKEN_ELLIPSIS "..." TOKEN_FLAG_TYPE).key = [CH_PERIOD, CH_PERIOD, CH_PERIOD] := by
  decide

theorem period_token :
    hash_find [CH_PERIOD] = some (T TOKEN_PERIOD "." TOKEN_FLAG_AMBIGUOUS) := by
  decide

theorem prefix_head {a b : Nat} {s r : List Nat} (h : (a :: s) <+: (b :: r)) :
    a = b ∧ s <+: r := by
  obtain ⟨x, hx⟩ := h
  simp only [List.cons_append, List.cons.injEq] at hx
  exact ⟨hx.1, x, hx.2⟩

theorem lexer_keyword_loop_longest {lx : Lexer} {a : Nat} {r : List Nat} {t : Token}
    (hr : Ready lx) (h : lx.rest = a :: r) (hl : Longest (a :: r) t) :
    ∃ lx0, lexer_keyword_loop lx.lx_st (lx.lx_bf.length + 2) (lx.next a) none =
        Except.ok (lx0, some t) ∧
      Moved lx lx0 t.key.length ∧ (t.key.length < (a :: r).length → Ready lx0) := by
  obtain ⟨ht, hpre, hmax⟩ := hl
  obtain ⟨hhead, hlen3, _⟩ := punctuators_key t ht
  have hr1 := hr.after_next h
  have h1 := Lexer.next_rest h
  have m1 := Moved.of_next hr h
  have hblen := rest_length hr.fits
  rw [h] at hblen
  simp only [List.length_cons] at hblen
  have hfind : ∀ {lx1 : Lexer} {n : Nat}, Moved lx lx1 n →
      lexer_find_token lx1 lx.lx_st = hash_find ((a :: r).take n) := by
    intro lx1 n hm
    rw [lexer_find_token_moved hm, h]
  have hself := hash_find_punctuator ht
  have hper := tokens_period t (punctuators_tokens t ht)
  cases hk : t.key with
  | nil => rw [hk] at hhead; simp at hhead
  | cons a1 s1 =>
    rw [hk] at hpre hhead hlen3 hself hper hmax
    obtain ⟨rfl, hs1⟩ := prefix_head hpre
    have hna : (!(isalpha a1) && !(decide (a1 = CH_UNDERSCORE))) = true := by
      simp only [Bool.and_eq_true] at hhead ⊢
      exact hhead.1
    have hp2 : ∀ (key : List Nat) (t2 : Token), hash_find (a1 :: key) = some t2 →
        t2 ∈ punctuators ∧ t2.key = a1 :: key := by
      intro key t2 h2
      obtain ⟨g1, g2⟩ := hash_find_key h2
      refine ⟨tokens_punctuators t2 g1 ?_, g2⟩
      rw [g2]
      exact hna
    have hf1 : lexer_find_token (lx.next a1) lx.lx_st = hash_find [a1] := by
      rw [hfind m1]; rfl
    cases s1 with
    | nil =>
      -- the punctuator of one byte
      by_cases hamb : t.tk_flags &&& TOKEN_FLAG_AMBIGUOUS = 0
      · exact ⟨_, lexer_keyword_loop_final none (by omega) (hf1.trans hself) hamb, m1,
          fun _ => hr1⟩
      · have hp : t.tk_type = TOKEN_PERIOD →
            lexer_ellipsis (lx.next a1) lx.lx_st = Except.ok (lx.next a1, none) := by
          intro hty
          apply lexer_ellipsis_none _ hr1
          rw [h1]
          rintro ⟨x, hx⟩
          have ha := hper.1 hty
          simp only [List.cons.injEq, and_true] at ha
          have := hmax _ ellipsis_punctuator.1 (by
            rw [ellipsis_punctuator.2, ← hx, ha]
            exact ⟨x, rfl⟩)
          rw [ellipsis_punctuator.2] at this
          simp at this
        cases r with
        | nil =>
          refine ⟨_, lexer_keyword_loop_end none (by omega) (hf1.trans hself) hamb hp hr1 h1, ?_,
            fun hlt => by simp at hlt⟩
          exact ⟨⟨m1.safe.fits, m1.safe.bf, m1.safe.err, m1.safe.branches⟩, m1.heap, m1.tokens,
            m1.off⟩
        | cons b r1 =>
          have m2 := m1.moved_trans (Moved.of_next hr1 h1)
          have hf2 : lexer_find_token ((lx.next a1).next b) lx.lx_st = none := by
            rw [hfind m2]
            show hash_find [a1, b] = none
            cases h2 : hash_find [a1, b] with
            | none => rfl
            | some t2 =>
              obtain ⟨g1, g2⟩ := hp2 _ _ h2
              have := hmax t2 g1 (by rw [g2]; exact ⟨r1, rfl⟩)
              rw [g2] at this
              simp at this
          rw [lexer_keyword_loop_next none (by omega) (hf1.trans hself) hamb hp h1,
            lexer_keyword_loop_back (some t) (by omega) hr1 h1 hf2]
          exact ⟨_, rfl, m1.moved_trans (Moved.of_back hr1 b), fun _ => hr1.after_back b⟩
    | cons b1 s2 =>
      cases r with
      | nil => exact absurd hs1 (by simp)
      | cons b r1 =>
        obtain ⟨rfl, hs2⟩ := prefix_head hs1
        have hr2 := hr1.after_next h1
        have h2 := Lexer.next_rest h1
        have m2 := m1.moved_trans (Moved.of_next hr1 h1)
        have hf2 : lexer_find_token ((lx.next a1).next b1) lx.lx_st = hash_find [a1, b1] := by
          rw [hfind m2]; rfl
        by_cases hell : a1 :: b1 :: s2 = [CH_PERIOD, CH_PERIOD, CH_PERIOD]
        · -- the ellipsis
          simp only [List.cons.injEq] at hell
          obtain ⟨rfl, rfl, rfl⟩ := hell
          cases r1 with
          | nil => exact absurd hs2 (by simp)
          | cons c r2 =>
            obtain ⟨rfl, _⟩ := prefix_head hs2
            have m3 := m2.moved_trans (Moved.of_next hr2 h2)
            have hf3 : lexer_find_token (((lx.next CH_PERIOD).next CH_PERIOD).next CH_PERIOD)
                lx.lx_st = some t := by
              rw [hfind m3]
              exact hself
            have he := lexer_ellipsis_some lx.lx_st h1
            rw [hf3] at he
            refine ⟨_, lexer_keyword_loop_ellipsis none (by omega) (hf1.trans period_token)
              (by decide) rfl he, ?_, fun _ => hr2.after_next h2⟩
            exact m3
        · have hcl := punctuators_closed t ht (by rw [hk]; exact hell)
          rw [hk] at hcl
          have c1 := hcl 1 (by simp) (by simp)
          simp only [List.take_succ_cons, List.take_zero] at c1
          cases g1 : hash_find [a1] with
          | none => rw [g1] at c1; simp at c1
          | some t1 =>
            rw [g1] at c1
            simp only [ne_eq, decide_not, Bool.not_eq_true', decide_eq_false_iff_not] at c1
            have hk1 := (hash_find_key g1).2
            have hper1 := tokens_period t1 (hash_find_key g1).1
            have hnp1 : t1.tk_type ≠ TOKEN_PERIOD := by
              intro hty
              have e1 := hper1.1 hty
              rw [hk1] at e1
              simp only [List.cons.injEq, and_true] at e1
              subst e1
              cases s2 with
              | nil => exact hper.2.1 rfl rfl
              | cons c1 s3 =>
                have hl3 : s3 = [] := by
                  simp only [List.length_cons] at hlen3
                  exact List.length_eq_zero.mp (by omega)
                subst hl3
                exact hell (hper.2.2.2 rfl rfl)
            rw [lexer_keyword_loop_next none (by omega) (hf1.trans g1) c1
              (fun hty => absurd hty hnp1) h1]
            cases s2 with
            | nil =>
              -- the punctuator of two bytes
              by_cases hamb : t.tk_flags &&& TOKEN_FLAG_AMBIGUOUS = 0
              · exact ⟨_, lexer_keyword_loop_final _ (by omega) (hf2.trans hself) hamb, m2,
                  fun _ => hr2⟩
              · have hnp : t.tk_type ≠ TOKEN_PERIOD := by
                  intro hty
                  have := hper.1 hty
                  simp at this
                cases r1 with
                | nil =>
                  refine ⟨_, lexer_keyword_loop_end _ (by omega) (hf2.trans hself) hamb
                    (fun hty => absurd hty hnp) hr2 h2, ?_, fun hlt => by simp at hlt⟩
                  exact ⟨⟨m2.safe.fits, m2.safe.bf, m2.safe.err, m2.safe.branches⟩, m2.heap,
                    m2.tokens, m2.off⟩
                | cons c r2 =>
                  have m3 := m2.moved_trans (Moved.of_next hr2 h2)
                  have hf3 : lexer_find_token (((lx.next a1).next b1).next c) lx.lx_st = none := by
                    rw [hfind m3]
                    show hash_find [a1, b1, c] = none
                    cases h3 : hash_find [a1, b1, c] with
                    | none => rfl
                    | some t3 =>
                      obtain ⟨g3, g4⟩ := hp2 _ _ h3
                      have := hmax t3 g3 (by rw [g4]; exact ⟨r2, rfl⟩)
                      rw [g4] at this
                      simp at this
                  rw [lexer_keyword_loop_next _ (by omega) (hf2.trans hself) hamb
                    (fun hty => absurd hty hnp) h2,
                    lexer_keyword_loop_back (some t) (by omega) hr2 h2 hf3]
                  exact ⟨_, rfl, m2.moved_trans (Moved.of_back hr2 c), fun _ => hr2.after_back c⟩
            | cons c1 s3 =>
              -- the punctuator of three bytes
              have hl3 : s3 = [] := by
                simp only [List.length_cons] at hlen3
                exact List.length_eq_zero.mp (by omega)
              subst hl3
              cases r1 with
              | nil => exact absurd hs2 (by simp)
              | cons c r2 =>
                obtain ⟨rfl, _⟩ := prefix_head hs2
                have hr3 := hr2.after_next h2
                have m3 := m2.moved_trans (Moved.of_next hr2 h2)
                have hf3 : lexer_find_token (((lx.next a1).next b1).next c1) lx.lx_st =
                    some t := by
                  rw [hfind m3]
                  exact hself
                have c2 := hcl 2 (by simp) (by simp)
                simp only [List.take_succ_cons, List.take_zero] at c2
                cases g2 : hash_find [a1, b1] with
                | none => rw [g2] at c2; simp at c2
                | some t2 =>
                  rw [g2] at c2
                  simp only [ne_eq, decide_not, Bool.not_eq_true', decide_eq_false_iff_not] at c2
                  have hk2 := (hash_find_key g2).2
                  have hnp2 : t2.tk_type ≠ TOKEN_PERIOD := by
                    intro hty
                    have e2 := (tokens_period t2 (hash_find_key g2).1).1 hty
                    rw [hk2] at e2
                    simp at e2
                  rw [lexer_keyword_loop_next _ (by omega) (hf2.trans g2) c2
                    (fun hty => absurd hty hnp2) h2]
                  exact ⟨_, lexer_keyword_loop_final _ (by omega) hf3 (hper.2.2.1 (by simp)), m3,
                    fun _ => hr3⟩

theorem punctuators_head : ∀ t ∈ punctuators,
    (match t.key with
      | c :: _ => !(decide (c = CH_SPACE)) && !(decide (c = CH_TAB)) &&
          !(decide (c = CH_NEWLINE)) && !(decide (c = CH_HASH))
      | [] => false) = true ∧
    (t.key.head? = some CH_PERIOD →
      t.key = [CH_PERIOD] ∨ t.key = [CH_PERIOD, CH_PERIOD, CH_PERIOD]) := by
  decide

theorem punctuator_template {t : Token} (ht : t ∈ punctuators) :
    t.tk_flags &&& TOKEN_FLAG_DANGLING = 0 ∧ t.br_pv = none ∧ t.br_nx = none ∧
      t.tk_str = StrPtr.static t.key ∧ t.tk_len = t.key.length := by
  have := token_template (hash_find_punctuator ht)
  exact this

theorem lexer_keyword_result {lx : Lexer} {a : Nat} {r : List Nat} {t : Token}
    (hr : Ready lx) (h : lx.rest = a :: r) (hl : Longest (a :: r) t) :
    ∃ lx0, Moved lx lx0 t.key.length ∧ (t.key.length < (a :: r).length → Ready lx0) ∧
      lexer_keyword lx = Except.ok
        (if t.tk_flags &&& TOKEN_FLAG_DISCARD ≠ 0 then (lx0, some (Keyword.discard t))
         else ((lexer_emit lx0 lx.lx_st t).1,
           some (Keyword.emitted (lexer_emit lx0 lx.lx_st t).2))) := by
  obtain ⟨lx0, hloop, m, hrd⟩ := lexer_keyword_loop_longest hr h hl
  refine ⟨lx0, m, hrd, ?_⟩
  unfold lexer_keyword
  rw [ok_bind _ (lexer_getc_next h)]
  dsimp only
  rw [Lexer.next_bf, ok_bind _ hloop]
  dsimp only
  split <;> rfl

theorem lexer_read_out_inked {lx : Lexer} {h0 : List Token} {t : Token} {c : Nat} {r : List Nat}
    (hheap : lx.lx_heap = h0 ++ [t]) (hpre : t.tk_prefixes = []) (hr : Ready lx)
    (h : lx.rest = c :: r) (hc : inked c) (hs : c ≠ CH_SLASH) :
    lexer_read_out lx h0.length [] = Except.ok lx := by
  have e1 : ({ t with tk_prefixes := t.tk_prefixes ++ [] } : Token) = t := by
    simp
  have e2 : ({ lx with lx_heap := h0 ++ [t] } : Lexer) = lx := by
    rw [← hheap]
  unfold lexer_read_out
  rw [hheap, heap_update_last, ok_bind _ rfl]
  dsimp only
  rw [e1, e2, lexer_read_suffixes, ok_bind _ (lexer_comment_inked hr h hc hs false)]
  simp only [pure_eq_ok, ok_bind_eq]
  rw [ok_bind _ (lexer_eat_lines_inked hr h hc.2.2 true)]
  simp only [pure_eq_ok, ok_bind_eq]
  rw [hheap, deref_last]
  simp only [ok_bind_eq]
  rw [hpre]
  rfl

theorem lexer_read_punctuator {lx : Lexer} {a : Nat} {r : List Nat} {t : Token}
    (hr : Ready lx) (he : lx.lx_st.st_err = 0) (h : lx.rest = a :: r)
    (hl : Longest (a :: r) t) (hd : t.tk_flags &&& TOKEN_FLAG_DISCARD = 0)
    (hs : a ≠ CH_SLASH) :
    ∃ lx1, lexer_read lx = Except.ok (lx1, true, lx.lx_heap.length) ∧ Safe lx lx1 ∧
      Appends lx lx1 lx.lx_heap.length t.tk_type (StrPtr.static t.key) t.key.length [] ∧
      ∀ c r1, (a :: r).drop t.key.length = c :: r1 → inked c → c ≠ CH_SLASH →
        Ready lx1 ∧ lx1.rest = c :: r1 := by
  obtain ⟨hh1, _⟩ := punctuators_head t hl.mem
  have hkey : ∃ s, t.key = a :: s := by
    cases hk : t.key with
    | nil => rw [hk] at hh1; simp at hh1
    | cons a1 s =>
      have := hl.pre
      rw [hk] at this
      obtain ⟨rfl, _⟩ := prefix_head this
      exact ⟨s, rfl⟩
  obtain ⟨s, hk⟩ := hkey
  rw [hk] at hh1
  simp only [Bool.and_eq_true, Bool.not_eq_true', decide_eq_false_iff_not] at hh1
  obtain ⟨⟨⟨c1, c2⟩, c3⟩, c4⟩ := hh1
  have hink : inked a := ⟨c1, c2, c3⟩
  obtain ⟨lx0, m, hrd, hkw⟩ := lexer_keyword_result hr h hl
  rw [if_neg (by simp [hd])] at hkw
  obtain ⟨p1, p2, p3, p4, p5⟩ := punctuator_template hl.mem
  obtain ⟨tok, hemit, q1, q2, q3, q4, q5, q6, q7⟩ := lexer_emit_main lx0 lx.lx_st t p1
  rw [hemit] at hkw
  dsimp only at hkw
  have hph : (lx0.push tok).lx_heap = lx0.lx_heap ++ [tok] := rfl
  -- the second loop of `lexer_read`
  have hrk : lexer_read_keyword (lx.lx_bf.length + 2) lx =
      Except.ok (lx0.push tok, some lx0.lx_heap.length) := by
    rw [lexer_read_keyword, ok_bind _ (lexer_eat_space_inked hr h hink true false)]
    dsimp only
    rw [ok_bind _ hkw]
    dsimp only
    rw [ok_bind _ (show (TokRef.linked lx0.lx_heap.length).ptr = Except.ok lx0.lx_heap.length
      from rfl), hph, deref_last, ok_bind _ rfl]
    rw [if_neg (by rw [q2]; simp [hd])]
    rfl
  have hfits : Fits (lx0.push tok) := m.safe.fits
  obtain ⟨lx1, S, hout, s1, hh, htk⟩ := @lexer_read_out_total (lx0.push tok)
    lx0.lx_heap tok [] rfl q3 hfits (by simp)
  have htk1 : lx1.lx_tokens = lx.lx_tokens ++ [lx.lx_heap.length] := by
    rw [htk]
    show lx0.lx_tokens ++ [lx0.lx_heap.length] = _
    rw [m.tokens, m.heap]
  rw [m.heap] at hh hout hrk
  refine ⟨lx1, ?_, ⟨s1.fits, s1.bf.trans m.safe.bf, s1.err.trans m.safe.err,
    s1.branches.trans m.safe.branches⟩, ⟨htk1, by rw [hh]; simp, ?_⟩, ?_⟩
  · unfold lexer_read
    rw [if_neg (by simp [he])]
    rw [ok_bind _ (lexer_read_dangling_inked hr h hink hs c4 (lx.lx_bf.length + 1) [])]
    dsimp only
    rw [ok_bind _ hrk]
    dsimp only
    rw [ok_bind _ hout]
    rfl
  · refine ⟨{ tok with tk_prefixes := [], tk_suffixes := S }, by rw [hh]; simp, q1, ?_, ?_, rfl,
      q4.trans p2, q5.trans p3, hh⟩
    · show tok.tk_str = StrPtr.static t.key
      rw [q6, if_neg (by rw [p4]; simp), p4]
    · show tok.tk_len = t.key.length
      rw [q7, if_neg (by rw [p4]; simp), p5]
  · intro c r1 hdrop hc hcs
    have hlt : t.key.length < (a :: r).length := by
      by_contra hge
      rw [List.drop_eq_nil_of_le (by omega)] at hdrop
      cases hdrop
    have hr0 := hrd hlt
    have hrest0 : lx0.rest = c :: r1 := by
      rw [m.rest, h, hdrop]
    have hrx : Ready (lx0.push tok) := ⟨hr0.fits, hr0.eof⟩
    have hex := @lexer_read_out_inked (lx0.push tok) lx0.lx_heap tok _ _ rfl q3 hrx
      hrest0 hc hcs
    rw [m.heap] at hex
    rw [hex] at hout
    cases hout
    exact ⟨hrx, hrest0⟩

theorem Yields.of_appends {lx lx1 : Lexer} {type : TokenType} {str : StrPtr} {len : Nat}
    {D : List Dangling} (h : lexer_read lx = Except.ok (lx1, true, lx.lx_heap.length))
    (a : Appends lx lx1 lx.lx_heap.length type str len D) :
    ∃ tok, Yields lx lx1 tok ∧ tok.tk_type = type ∧ tok.tk_str = str ∧ tok.tk_len = len ∧
      tok.tk_prefixes = D ∧ tok.br_pv = none ∧ tok.br_nx = none := by
  obtain ⟨a1, _, tok, _, b2, b3, b4, b5, b6, b7, b8⟩ := a
  exact ⟨tok, ⟨h, b8, a1⟩, b2, b3, b4, b5, b6, b7⟩

theorem ready_new (bf : List Nat) (h : bf.length + 1 < UINT_MOD) : Ready (lexer_new bf) :=
  ⟨⟨Nat.zero_le _, le_refl _, le_refl _, h⟩, rfl⟩

theorem rest_new (bf : List Nat) : (lexer_new bf).rest = bf := rfl

theorem lexeme_buf {lx : Lexer} {l r : List Nat} (h : lx.rest = l ++ r) :
    lexeme lx.lx_bf (StrPtr.buf lx.lx_st.st_off) l.length = l := by
  unfold Lexer.rest at h
  show List.take l.length (List.drop lx.lx_st.st_off lx.lx_bf) = l
  rw [h]
  exact List.take_left' rfl

theorem lexeme_static (bf : List Nat) (s : List Nat) :
    lexeme bf (StrPtr.static s) s.length = s := by
  show s.take s.length = s
  exact List.take_length s

theorem period_longest {r : List Nat} (h : ¬([CH_PERIOD, CH_PERIOD] <+: r)) :
    Longest (CH_PERIOD :: r) (T TOKEN_PERIOD "." TOKEN_FLAG_AMBIGUOUS) := by
  refine ⟨by decide, ⟨r, rfl⟩, ?_⟩
  intro t1 h1 hp
  obtain ⟨hh, hdot⟩ := punctuators_head t1 h1
  cases hk : t1.key with
  | nil => simp
  | cons a s =>
    rw [hk] at hp hdot
    obtain ⟨tl, htl⟩ := hp
    have ha : a = CH_PERIOD := by
      simp only [List.cons_append] at htl
      exact (List.cons.inj htl).1
    subst ha
    rcases hdot rfl with e | e
    · rw [e]; exact le_refl _
    · exfalso
      apply h
      rw [e] at htl
      simp only [List.cons_append] at htl
      exact ⟨tl, by simpa using (List.cons.inj htl).2⟩

theorem ellipsis_longest (r : List Nat) :
    Longest (CH_PERIOD :: CH_PERIOD :: CH_PERIOD :: r) (T TOKEN_ELLIPSIS "..." TOKEN_FLAG_TYPE) := by
  refine ⟨by decide, ⟨r, rfl⟩, ?_⟩
  intro t1 h1 hp
  obtain ⟨hh, hdot⟩ := punctuators_head t1 h1
  cases hk : t1.key with
  | nil => simp
  | cons a s =>
    rw [hk] at hp hdot
    obtain ⟨tl, htl⟩ := hp
    have ha : a = CH_PERIOD := by
      simp only [List.cons_append] at htl
      exact (List.cons.inj htl).1
    subst ha
    rcases hdot rfl with e | e
    · rw [e]; decide
    · rw [e]; decide

theorem lexer_read_period_token {lx : Lexer} {r : List Nat} (hr : Ready lx)
    (he : lx.lx_st.st_err = 0) (h : lx.rest = CH_PERIOD :: r)
    (hx : ¬([CH_PERIOD, CH_PERIOD] <+: r)) :
    ∃ lx1 tok, Yields lx lx1 tok ∧ tok.tk_type = TOKEN_PERIOD ∧
      lexeme lx.lx_bf tok.tk_str tok.tk_len = [CH_PERIOD] ∧ Safe lx lx1 ∧
      ∀ c r1, r = c :: r1 → inked c → c ≠ CH_SLASH → Ready lx1 ∧ lx1.rest = c :: r1 := by
  obtain ⟨lx1, h1, s1, a1, hnext⟩ := lexer_read_punctuator hr he h (period_longest hx)
    (by decide) (by decide)
  obtain ⟨tok, y, t1, t2, t3, _⟩ := Yields.of_appends h1 a1
  refine ⟨lx1, tok, y, t1, ?_, s1, ?_⟩
  · rw [t2, t3]
    rfl
  · intro c r1 hc
    exact hnext c r1 (by rw [hc]; rfl)

/-- C14: the buffer `..` is tokenized to `PERIOD`, `PERIOD`, `EOF` and the
buffer `...` to `ELLIPSIS`, `EOF`.  When the scanner, whose counters fit and
which has not reached the end of the buffer, stands at exactly `k` periods in a
row and no error is pending, `lexer_read` appends one `PERIOD` for `k = 1`, two
calls append two `PERIOD` for `k = 2`, and `lexer_read` appends one `ELLIPSIS`,
with the three periods as its lexeme, for `k = 3`. -/
theorem lexer_read_periods (lx : Lexer) (r : List Nat) (hr : Ready lx)
    (he : lx.lx_st.st_err = 0) (hexact : r.head? ≠ some CH_PERIOD) :
    (∃ lx0, lexer_alloc (cstr "..") = Except.ok (some lx0) ∧
      lx0.stream.map (fun t => t.tk_type) = [TOKEN_PERIOD, TOKEN_PERIOD, TOKEN_EOF]) ∧
    (∃ lx0, lexer_alloc (cstr "...") = Except.ok (some lx0) ∧
      lx0.stream.map (fun t => t.tk_type) = [TOKEN_ELLIPSIS, TOKEN_EOF]) ∧
    (lx.rest = CH_PERIOD :: r →
      ∃ lx1 t1, Yields lx lx1 t1 ∧ t1.tk_type = TOKEN_PERIOD ∧
        lexeme lx.lx_bf t1.tk_str t1.tk_len = [CH_PERIOD]) ∧
    (lx.rest = CH_PERIOD :: CH_PERIOD :: r →
      ∃ lx1 t1 lx2 t2, Yields lx lx1 t1 ∧ Yields lx1 lx2 t2 ∧
        t1.tk_type = TOKEN_PERIOD ∧ t2.tk_type = TOKEN_PERIOD ∧
        lexeme lx.lx_bf t1.tk_str t1.tk_len = [CH_PERIOD] ∧
        lexeme lx.lx_bf t2.tk_str t2.tk_len = [CH_PERIOD]) ∧
    (lx.rest = CH_PERIOD :: CH_PERIOD :: CH_PERIOD :: r →
      ∃ lx1 t1, Yields lx lx1 t1 ∧ t1.tk_type = TOKEN_ELLIPSIS ∧
        lexeme lx.lx_bf t1.tk_str t1.tk_len = [CH_PERIOD, CH_PERIOD, CH_PERIOD]) := by
  have hx : ¬([CH_PERIOD, CH_PERIOD] <+: r) := by
    rintro ⟨tl, htl⟩
    apply hexact
    rw [← htl]
    rfl
  have hx2 : ¬([CH_PERIOD, CH_PERIOD] <+: CH_PERIOD :: r) := by
    rintro ⟨tl, htl⟩
    apply hexact
    simp only [List.cons_append] at htl
    rw [← (List.cons.inj htl).2]
    rfl
  refine ⟨⟨_, rfl, by decide⟩, ⟨_, rfl, by decide⟩, ?_, ?_, ?_⟩
  · intro h
    obtain ⟨lx1, t1, y1, e1, e2, _⟩ := lexer_read_period_token hr he h hx
    exact ⟨lx1, t1, y1, e1, e2⟩
  · intro h
    obtain ⟨lx1, t1, y1, e1, e2, s1, hnext⟩ := lexer_read_period_token hr he h hx2
    obtain ⟨hr1, hrest1⟩ := hnext CH_PERIOD r rfl (by decide) (by decide)
    obtain ⟨lx2, t2, y2, e3, e4, _⟩ := lexer_read_period_token hr1 (s1.err.trans he) hrest1 hx
    rw [s1.bf] at e4
    exact ⟨lx1, t1, lx2, t2, y1, y2, e1, e3, e2, e4⟩
  · intro h
    obtain ⟨lx1, h1, s1, a1, _⟩ := lexer_read_punctuator hr he h (ellipsis_longest r)
      (by decide) (by decide)
    obtain ⟨tok, y, t1, t2, t3, _⟩ := Yields.of_appends h1 a1
    refine ⟨lx1, tok, y, t1, ?_⟩
    rw [t2, t3]
    rfl

theorem lexer_read_periods_witness :
    ∃ lx1 t1 lx2 t2, Yields (lexer_new (cstr "..x")) lx1 t1 ∧ Yields lx1 lx2 t2 ∧
      t1.tk_type = TOKEN_PERIOD ∧ t2.tk_type = TOKEN_PERIOD ∧
      lexeme (lexer_new (cstr "..x")).lx_bf t1.tk_str t1.tk_len = [CH_PERIOD] ∧
      lexeme (lexer_new (cstr "..x")).lx_bf t2.tk_str t2.tk_len = [CH_PERIOD] :=
  (lexer_read_periods (lexer_new (cstr "..x")) (cstr "x") (ready_new _ (by decide)) rfl
    (by decide)).2.2.2.1 (by decide)

/-- C18: when the scanner, whose counters fit and which has not reached the
end of the buffer, stands at a quote `q`, no error is pending, and `k` is the
first index of the bytes after it at which `q` occurs after an even number of
backslashes in a row, `lexer_read` appends one token, `STRING` for `"` and
`LITERAL` for `'`, whose lexeme is the opening quote and the bytes after it up
to and with the one of index `k`. -/
theorem lexer_read_literal (lx : Lexer) (q : Nat) (body : List Nat) (k : Nat) (hr : Ready lx)
    (he : lx.lx_st.st_err = 0) (hq : q = CH_DQUOTE ∨ q = CH_SQUOTE)
    (h : lx.rest = q :: body) (hk : closes q body k)
    (hfirst : ∀ j, j < k → ¬closes q body j) :
    ∃ lx1 tok, Yields lx lx1 tok ∧
      tok.tk_type = (if q = CH_DQUOTE then TOKEN_STRING else TOKEN_LITERAL) ∧
      lexeme lx.lx_bf tok.tk_str tok.tk_len = q :: body.take (k + 1) := by
  obtain ⟨lx1, h1, s1, a1⟩ := lexer_read_quote hr he hq h hk hfirst
  obtain ⟨tok, y, t1, t2, t3, _⟩ := Yields.of_appends h1 a1
  refine ⟨lx1, tok, y, t1, ?_⟩
  have hlt : k < body.length := by
    have := hk.1
    by_contra hge
    rw [List.getElem?_eq_none (by omega)] at this
    cases this
  have hsplit : lx.rest = (q :: body.take (k + 1)) ++ body.drop (k + 1) := by
    rw [h, List.cons_append, List.take_append_drop]
  have := lexeme_buf hsplit
  rw [t2, t3]
  rw [List.length_cons, List.length_take, Nat.min_eq_left (by omega)] at this
  exact this

theorem lexer_read_literal_witness :
    ∃ lx1 tok, Yields (lexer_new (cstr "\"a\\\"b\" c")) lx1 tok ∧
      tok.tk_type = (if CH_DQUOTE = CH_DQUOTE then TOKEN_STRING else TOKEN_LITERAL) ∧
      lexeme (lexer_new (cstr "\"a\\\"b\" c")).lx_bf tok.tk_str tok.tk_len =
        CH_DQUOTE :: (cstr "a\\\"b\" c").take (4 + 1) :=
  lexer_read_literal (lexer_new (cstr "\"a\\\"b\" c")) CH_DQUOTE (cstr "a\\\"b\" c") 4
    (ready_new _ (by decide)) rfl (Or.inl rfl) (by decide) (by decide) (by decide)

/-- C19, as stated, fails: the backslash is a punctuator of the table and a
prefix of the buffer of a backslash and a newline, but `lexer_keyword` emits
no token for it: it returns the entry of the table, which has the flag
`DISCARD`, and the arena and the main stream stay empty. -/
theorem lexer_keyword_discards_backslash :
    T TOKEN_BACKSLASH "\\" TOKEN_FLAG_DISCARD ∈ punctuators ∧
    ∃ lx1, lexer_keyword (lexer_new (cstr "\\\n")) = Except.ok
        (lx1, some (Keyword.discard (T TOKEN_BACKSLASH "\\" TOKEN_FLAG_DISCARD))) ∧
      lx1.lx_heap = [] ∧ lx1.lx_tokens = [] ∧ lx1.lx_st.st_off = 1 := by
  refine ⟨by decide, _, rfl, ?_, ?_, ?_⟩ <;> decide

/-- C19, amended: when the counters of the scanner fit, it has not reached the
end of the buffer, and `t` is the longest punctuator of the table that the
bytes not yet read start with, `lexer_keyword` returns in a state that is the
length of `t` further in the same buffer.  For `t` without the flag `DISCARD` it appends
one token of the kind of `t`, with the spelling of `t` as its lexeme; for the
backslash, which has the flag, it returns the entry of the table and emits
nothing. -/
theorem lexer_keyword_longest (lx : Lexer) (a : Nat) (r : List Nat) (t : Token)
    (hr : Ready lx) (h : lx.rest = a :: r) (hl : Longest (a :: r) t) :
    ∃ lx1 res, lexer_keyword lx = Except.ok (lx1, some res) ∧
      lx1.lx_st.st_off = lx.lx_st.st_off + t.key.length ∧ lx1.lx_bf = lx.lx_bf ∧
      (t.tk_flags &&& TOKEN_FLAG_DISCARD = 0 →
        ∃ tok, res = Keyword.emitted (TokRef.linked lx.lx_heap.length) ∧
          lx1.lx_heap = lx.lx_heap ++ [tok] ∧
          lx1.lx_tokens = lx.lx_tokens ++ [lx.lx_heap.length] ∧
          tok.tk_type = t.tk_type ∧ lexeme lx.lx_bf tok.tk_str tok.tk_len = t.key) ∧
      (t.tk_flags &&& TOKEN_FLAG_DISCARD ≠ 0 →
        res = Keyword.discard t ∧ lx1.lx_heap = lx.lx_heap ∧ lx1.lx_tokens = lx.lx_tokens) := by
  obtain ⟨lx0, m, _, hres⟩ := lexer_keyword_result hr h hl
  obtain ⟨p1, p2, p3, p4, p5⟩ := punctuator_template hl.mem
  by_cases hd : t.tk_flags &&& TOKEN_FLAG_DISCARD ≠ 0
  · rw [if_pos hd] at hres
    exact ⟨lx0, _, hres, m.off, m.safe.bf, fun h0 => absurd h0 hd,
      fun _ => ⟨rfl, m.heap, m.tokens⟩⟩
  · rw [if_neg hd] at hres
    obtain ⟨tok, hemit, q1, q2, q3, q4, q5, q6, q7⟩ := lexer_emit_main lx0 lx.lx_st t p1
    rw [hemit] at hres
    refine ⟨lx0.push tok, _, hres, m.off, m.safe.bf, ?_, fun h0 => absurd h0 hd⟩
    intro _
    refine ⟨tok, by rw [m.heap], ?_, ?_, q1, ?_⟩
    · show lx0.lx_heap ++ [tok] = _
      rw [m.heap]
    · show lx0.lx_tokens ++ [lx0.lx_heap.length] = _
      rw [m.heap, m.tokens]
    · rw [q6, q7, if_neg (by rw [p4]; simp), if_neg (by rw [p4]; simp), p4, p5]
      exact lexeme_static _ _

theorem lexer_keyword_longest_witness :
    ∃ lx1 res, lexer_keyword (lexer_new (cstr "<<= 1")) = Except.ok (lx1, some res) ∧
      lx1.lx_st.st_off = (lexer_new (cstr "<<= 1")).lx_st.st_off +
        (T TOKEN_LESSLESSEQUAL "<<=" TOKEN_FLAG_ASSIGN).key.length ∧
      lx1.lx_bf = (lexer_new (cstr "<<= 1")).lx_bf ∧
      ((T TOKEN_LESSLESSEQUAL "<<=" TOKEN_FLAG_ASSIGN).tk_flags &&& TOKEN_FLAG_DISCARD = 0 →
        ∃ tok, res = Keyword.emitted (TokRef.linked (lexer_new (cstr "<<= 1")).lx_heap.length) ∧
          lx1.lx_heap = (lexer_new (cstr "<<= 1")).lx_heap ++ [tok] ∧
          lx1.lx_tokens = (lexer_new (cstr "<<= 1")).lx_tokens ++
            [(lexer_new (cstr "<<= 1")).lx_heap.length] ∧
          tok.tk_type = (T TOKEN_LESSLESSEQUAL "<<=" TOKEN_FLAG_ASSIGN).tk_type ∧
          lexeme (lexer_new (cstr "<<= 1")).lx_bf tok.tk_str tok.tk_len =
            (T TOKEN_LESSLESSEQUAL "<<=" TOKEN_FLAG_ASSIGN).key) ∧
      ((T TOKEN_LESSLESSEQUAL "<<=" TOKEN_FLAG_ASSIGN).tk_flags &&& TOKEN_FLAG_DISCARD ≠ 0 →
        res = Keyword.discard (T TOKEN_LESSLESSEQUAL "<<=" TOKEN_FLAG_ASSIGN) ∧
          lx1.lx_heap = (lexer_new (cstr "<<= 1")).lx_heap ∧
          lx1.lx_tokens = (lexer_new (cstr "<<= 1")).lx_tokens) :=
  lexer_keyword_longest (lexer_new (cstr "<<= 1")) 60 (cstr "<= 1")
    (T TOKEN_LESSLESSEQUAL "<<=" TOKEN_FLAG_ASSIGN) (ready_new _ (by decide)) (by decide)
    ⟨by decide, by decide, by decide⟩

theorem lexer_getc_exhausted (n : Nat) : ∀ (lx : Lexer),
    lx.lx_st.st_off = lx.lx_bf.length → lx.lx_eof ≠ 0 →
    ∃ lx1, lexer_getc_repeat n lx = Except.ok (lx1, List.replicate n none) ∧
      lx1.lx_st = lx.lx_st ∧ lx1.lx_bf = lx.lx_bf := by
  induction n with
  | zero => intro lx _ _; exact ⟨lx, rfl, rfl, rfl⟩
  | succ k ih =>
    intro lx hoff heof
    have hg : lexer_getc lx = Except.ok ({ lx with lx_eof := lx.lx_eof + 1 }, none) := by
      unfold lexer_getc
      rw [if_pos hoff, if_pos (Nat.pos_of_ne_zero heof)]
    obtain ⟨lx1, h1, hst, hbf⟩ := ih { lx with lx_eof := lx.lx_eof + 1 } hoff (Nat.succ_ne_zero _)
    refine ⟨lx1, ?_, hst, hbf⟩
    unfold lexer_getc_repeat
    rw [hg]
    dsimp only
    rw [h1]
    rfl

/-- C30: at exhaustion the first `lexer_getc` returns 0 and yields NUL, every
later call returns 1, and none changes the scanner state; below the length
`lexer_getc` returns 0, yields the byte at the offset, advances the offset by
one and sets (line, column) to (line + 1, 1) for a newline, to
(line, column + 1) otherwise, in the arithmetic of `unsigned int`. -/
theorem lexer_getc_contract (lx : Lexer) (n : Nat) :
    (lx.lx_st.st_off = lx.lx_bf.length → lx.lx_eof = 0 →
      ∃ lx1, lexer_getc_repeat (n + 1) lx =
          Except.ok (lx1, some CH_NUL :: List.replicate n none) ∧
        lx1.lx_st = lx.lx_st) ∧
    (lx.lx_st.st_off = lx.lx_bf.length → lx.lx_eof ≠ 0 →
      ∃ lx1, lexer_getc lx = Except.ok (lx1, none) ∧ lx1.lx_st = lx.lx_st) ∧
    (∀ h : lx.lx_st.st_off < lx.lx_bf.length,
      ∃ lx1, lexer_getc lx = Except.ok (lx1, some (lx.lx_bf.get ⟨lx.lx_st.st_off, h⟩)) ∧
        lx1.lx_st.st_off = lx.lx_st.st_off + 1 ∧
        (lx.lx_bf.get ⟨lx.lx_st.st_off, h⟩ = CH_NEWLINE →
          lx1.lx_st.st_lno = (lx.lx_st.st_lno + 1) % UINT_MOD ∧ lx1.lx_st.st_cno = 1 ∧
          (lx.lx_st.st_lno + 1 < UINT_MOD → lx1.lx_st.st_lno = lx.lx_st.st_lno + 1)) ∧
        (lx.lx_bf.get ⟨lx.lx_st.st_off, h⟩ ≠ CH_NEWLINE →
          lx1.lx_st.st_lno = lx.lx_st.st_lno ∧
          lx1.lx_st.st_cno = (lx.lx_st.st_cno + 1) % UINT_MOD ∧
          (lx.lx_st.st_cno + 1 < UINT_MOD → lx1.lx_st.st_cno = lx.lx_st.st_cno + 1))) := by
  refine ⟨?_, ?_, ?_⟩
  · intro hoff heof
    have hg : lexer_getc lx = Except.ok ({ lx with lx_eof := lx.lx_eof + 1 }, some CH_NUL) := by
      unfold lexer_getc
      rw [if_pos hoff, if_neg (by omega)]
    obtain ⟨lx1, h1, hst, _⟩ :=
      lexer_getc_exhausted n { lx with lx_eof := lx.lx_eof + 1 } hoff (Nat.succ_ne_zero _)
    refine ⟨lx1, ?_, hst⟩
    unfold lexer_getc_repeat
    rw [hg]
    dsimp only
    rw [h1]
  · intro hoff heof
    refine ⟨{ lx with lx_eof := lx.lx_eof + 1 }, ?_, rfl⟩
    unfold lexer_getc
    rw [if_pos hoff, if_pos (Nat.pos_of_ne_zero heof)]
  · intro h
    have hget : lx.lx_bf[lx.lx_st.st_off]? = some (lx.lx_bf.get ⟨lx.lx_st.st_off, h⟩) := by
      rw [List.getElem?_eq_getElem h]; rfl
    have hg : lexer_getc lx = Except.ok (lx.next (lx.lx_bf.get ⟨lx.lx_st.st_off, h⟩),
        some (lx.lx_bf.get ⟨lx.lx_st.st_off, h⟩)) := by
      unfold lexer_getc Lexer.next
      rw [if_neg (Nat.ne_of_lt h), hget]
      dsimp only
      split <;> rfl
    refine ⟨_, hg, ?_, ?_, ?_⟩
    · unfold Lexer.next; split <;> rfl
    · intro hc
      unfold Lexer.next
      rw [if_pos hc]
      exact ⟨rfl, rfl, fun hl => Nat.mod_eq_of_lt hl⟩
    · intro hc
      unfold Lexer.next
      rw [if_neg hc]
      exact ⟨rfl, rfl, fun hl => Nat.mod_eq_of_lt hl⟩

/-- The claim C30 on the buffer `a\n`: at its end, and at its two bytes. -/
theorem lexer_getc_contract_witness :
    (∃ lx1, lexer_getc_repeat (3 + 1) (lexer_at (cstr "a\n") 2 2 1) =
        Except.ok (lx1, some CH_NUL :: List.replicate 3 none) ∧
      lx1.lx_st = (lexer_at (cstr "a\n") 2 2 1).lx_st) ∧
    (∃ lx1, lexer_getc (lexer_at (cstr "a\n") 1 1 2) = Except.ok (lx1, some CH_NEWLINE) ∧
      lx1.lx_st.st_off = 2 ∧ lx1.lx_st.st_lno = 2 ∧ lx1.lx_st.st_cno = 1) ∧
    (∃ lx1, lexer_getc (lexer_at (cstr "a\n") 0 1 1) = Except.ok (lx1, some 97) ∧
      lx1.lx_st.st_off = 1 ∧ lx1.lx_st.st_lno = 1 ∧ lx1.lx_st.st_cno = 2) := by
  refine ⟨(lexer_getc_contract (lexer_at (cstr "a\n") 2 2 1) 3).1 (by decide) (by decide), ?_, ?_⟩
  · obtain ⟨lx1, h1, h2, h3, _⟩ :=
      (lexer_getc_contract (lexer_at (cstr "a\n") 1 1 2) 0).2.2 (by decide)
    obtain ⟨h4, h5, h6⟩ := h3 (by decide)
    exact ⟨lx1, h1, h2, h6 (by decide), h5⟩
  · obtain ⟨lx1, h1, h2, _, h3⟩ :=
      (lexer_getc_contract (lexer_at (cstr "a\n") 0 1 1) 0).2.2 (by decide)
    obtain ⟨h4, h5, h6⟩ := h3 (by decide)
    exact ⟨lx1, h1, h2, h4, h6 (by decide)⟩

/-- C29 fails for a newline: in the buffer `a\n`, after `a` is read the column
is 2; `lexer_getc` reads the newline and `lexer_ungetc` steps back over it,
which restores the offset and the line and leaves the column at 1. -/
theorem lexer_ungetc_newline_column :
    ∃ lx lx1 lx2, lexer_getc (lexer_new (cstr "a\n")) = Except.ok (lx, some 97) ∧
      lx.lx_st.st_off < lx.lx_bf.length ∧ lx.lx_eof = 0 ∧
      lexer_getc lx = Except.ok (lx1, some CH_NEWLINE) ∧
      lexer_ungetc lx1 = Except.ok lx2 ∧
      lx2.lx_st.st_off = lx.lx_st.st_off ∧ lx2.lx_st.st_lno = lx.lx_st.st_lno ∧
      lx.lx_st.st_cno = 2 ∧ lx2.lx_st.st_cno = 1 := by
  refine ⟨_, _, _, rfl, ?_, ?_, rfl, rfl, ?_, ?_, ?_, ?_⟩ <;> decide

/-- C29, as the code has it: below the length of the buffer and before the
end was probed, with line and column below `UINT_MAX`, `lexer_getc` followed
by `lexer_ungetc` restores the offset and the line; it restores the column
when the byte read is not a newline and sets the column to 1 when it is. -/
theorem lexer_getc_ungetc (lx : Lexer) (h : lx.lx_st.st_off < lx.lx_bf.length)
    (heof : lx.lx_eof = 0) (hlno : lx.lx_st.st_lno + 1 < UINT_MOD)
    (hcno : lx.lx_st.st_cno + 1 < UINT_MOD) :
    ∃ lx1 lx2, lexer_getc lx = Except.ok (lx1, some (lx.lx_bf.get ⟨lx.lx_st.st_off, h⟩)) ∧
      lexer_ungetc lx1 = Except.ok lx2 ∧
      lx2.lx_st.st_off = lx.lx_st.st_off ∧ lx2.lx_st.st_lno = lx.lx_st.st_lno ∧
      (lx.lx_bf.get ⟨lx.lx_st.st_off, h⟩ ≠ CH_NEWLINE → lx2 = lx) ∧
      (lx.lx_bf.get ⟨lx.lx_st.st_off, h⟩ = CH_NEWLINE →
        lx2 = { lx with lx_st := { lx.lx_st with st_cno := 1 } }) := by
  have hget : lx.lx_bf[lx.lx_st.st_off]? = some (lx.lx_bf.get ⟨lx.lx_st.st_off, h⟩) := by
    rw [List.getElem?_eq_getElem h]; rfl
  have hg : lexer_getc lx = Except.ok (lx.next (lx.lx_bf.get ⟨lx.lx_st.st_off, h⟩),
      some (lx.lx_bf.get ⟨lx.lx_st.st_off, h⟩)) := by
    unfold lexer_getc Lexer.next
    rw [if_neg (Nat.ne_of_lt h), hget]
    dsimp only
    split <;> rfl
  have hu : lexer_ungetc (lx.next (lx.lx_bf.get ⟨lx.lx_st.st_off, h⟩)) =
      Except.ok (lx.back (lx.lx_bf.get ⟨lx.lx_st.st_off, h⟩)) := by
    by_cases hc : lx.lx_bf.get ⟨lx.lx_st.st_off, h⟩ = CH_NEWLINE
    · unfold lexer_ungetc Lexer.next Lexer.back
      rw [if_pos hc, if_pos hc]
      dsimp only
      rw [if_neg (by rw [heof]; exact fun h0 => h0 rfl), if_neg (Nat.succ_ne_zero _)]
      simp only [Nat.add_sub_cancel, hget]
      rw [if_pos hc, Nat.mod_eq_of_lt hlno, if_neg (Nat.succ_ne_zero _)]
      simp only [Nat.add_sub_cancel]
    · unfold lexer_ungetc Lexer.next Lexer.back
      rw [if_neg hc, if_neg hc]
      dsimp only
      rw [if_neg (by rw [heof]; exact fun h0 => h0 rfl), if_neg (Nat.succ_ne_zero _)]
      simp only [Nat.add_sub_cancel, hget]
      rw [if_neg hc, Nat.mod_eq_of_lt hcno, if_neg (Nat.succ_ne_zero _)]
      simp only [Nat.add_sub_cancel]
  refine ⟨_, _, hg, hu, ?_, ?_, ?_, ?_⟩
  · unfold Lexer.back; split <;> rfl
  · unfold Lexer.back; split <;> rfl
  · intro hc; unfold Lexer.back; rw [if_neg hc]
  · intro hc; unfold Lexer.back; rw [if_pos hc]

/-- The claim C29 as amended, on the two bytes of the buffer `a\n`. -/
theorem lexer_getc_ungetc_witness :
    (∃ lx1 lx2, lexer_getc (lexer_at (cstr "a\n") 0 1 1) = Except.ok (lx1, some 97) ∧
      lexer_ungetc lx1 = Except.ok lx2 ∧ lx2 = lexer_at (cstr "a\n") 0 1 1) ∧
    (∃ lx1 lx2, lexer_getc (lexer_at (cstr "a\n") 1 1 2) = Except.ok (lx1, some CH_NEWLINE) ∧
      lexer_ungetc lx1 = Except.ok lx2 ∧ lx2 = lexer_at (cstr "a\n") 1 1 1) := by
  constructor
  · obtain ⟨lx1, lx2, h1, h2, _, _, h3, _⟩ :=
      lexer_getc_ungetc (lexer_at (cstr "a\n") 0 1 1) (by decide) (by decide) (by decide)
        (by decide)
    exact ⟨lx1, lx2, h1, h2, h3 (by decide)⟩
  · obtain ⟨lx1, lx2, h1, h2, _, _, _, h3⟩ :=
      lexer_getc_ungetc (lexer_at (cstr "a\n") 1 1 2) (by decide) (by decide) (by decide)
        (by decide)
    exact ⟨lx1, lx2, h1, h2, h3 (by decide)⟩

/-- C26 fails: on the stream of `struct s *p`, with no token consumed,
`lexer_peek_if_type` returns non-zero and stores the token `*`, not the
`IDENT` `s`, as the end of the type. -/
theorem lexer_peek_if_type_star :
    ∃ lx lx1 t, lexer_alloc (cstr "struct s *p") = Except.ok (some lx) ∧
      lx.lx_st.st_tok = none ∧
      lx.spelling = [(TOKEN_STRUCT, cstr "struct"), (TOKEN_IDENT, cstr "s"),
        (TOKEN_STAR, cstr "*"), (TOKEN_IDENT, cstr "p"), (TOKEN_EOF, [])] ∧
      lexer_peek_if_type lx = Except.ok (lx1, true, some t) ∧
      lx.lx_tokens.indexOf t = 2 ∧
      (lx1.lx_heap[t]?).map (fun tok => tok.tk_type) = some TOKEN_STAR := by
  refine ⟨_, _, _, rfl, ?_, ?_, rfl, ?_, ?_⟩ <;> decide

/-- C26, as the code has it: on the stream of `struct s *p`, with no token
consumed, `lexer_peek_if_type` returns non-zero and the end of the type is the
token `*`; `lexer_if_type` makes `*` the current token, and the next
`lexer_pop` yields the `IDENT` `p`, which was not consumed. -/
theorem lexer_if_type_struct_pointer :
    ∃ lx lx1 lx2 lx3 t n, lexer_alloc (cstr "struct s *p") = Except.ok (some lx) ∧
      lx.lx_st.st_tok = none ∧
      lx.spelling = [(TOKEN_STRUCT, cstr "struct"), (TOKEN_IDENT, cstr "s"),
        (TOKEN_STAR, cstr "*"), (TOKEN_IDENT, cstr "p"), (TOKEN_EOF, [])] ∧
      lexer_peek_if_type lx = Except.ok (lx1, true, some t) ∧
      lx1.lx_st = lx.lx_st ∧ lx1.lx_tokens = lx.lx_tokens ∧
      lx.lx_tokens.indexOf t = 2 ∧
      lexer_if_type lx = Except.ok (lx2, some t) ∧
      lx2.lx_st.st_tok = some t ∧ lx2.lx_tokens = lx.lx_tokens ∧
      lexer_pop lx2 = Except.ok (lx3, some n) ∧
      lx.lx_tokens.indexOf n = 3 ∧
      (lx3.lx_heap[n]?).map (fun tok => (tok.tk_type, lexeme lx3.lx_bf tok.tk_str tok.tk_len)) =
        some (TOKEN_IDENT, cstr "p") := by
  refine ⟨_, _, _, _, _, _, rfl, ?_, ?_, rfl, ?_, ?_, ?_, rfl, ?_, ?_, rfl, ?_, ?_⟩ <;> decide

/-- C27: on the stream of `(*f)(int)`, with no token consumed,
`lexer_peek_if_type` returns non-zero and stores the last `)` as the end of
the type; afterwards the second `(` is the one token with the flag
`TYPE_ARGS`, which no token had before; the state of the cursor, with the
current token and the error counter, the peek depth and the stream are as
before. -/
theorem lexer_peek_if_type_func_ptr :
    ∃ lx lx1 t, lexer_alloc (cstr "(*f)(int)") = Except.ok (some lx) ∧
      lx.lx_st.st_tok = none ∧ lx.lx_st.st_err = 0 ∧
      lx.spelling = [(TOKEN_LPAREN, cstr "("), (TOKEN_STAR, cstr "*"), (TOKEN_IDENT, cstr "f"),
        (TOKEN_RPAREN, cstr ")"), (TOKEN_LPAREN, cstr "("), (TOKEN_INT, cstr "int"),
        (TOKEN_RPAREN, cstr ")"), (TOKEN_EOF, [])] ∧
      lexer_peek_if_type lx = Except.ok (lx1, true, some t) ∧
      lx.lx_tokens.indexOf t = 6 ∧
      lx.flagged TOKEN_FLAG_TYPE_ARGS = [] ∧
      (lx1.flagged TOKEN_FLAG_TYPE_ARGS).map (fun p => lx.lx_tokens.indexOf p) = [4] ∧
      lx1.lx_st = lx.lx_st ∧ lx1.lx_peek = lx.lx_peek ∧ lx1.lx_tokens = lx.lx_tokens ∧
      lx1.spelling = lx.spelling := by
  refine ⟨_, _, _, rfl, ?_, ?_, ?_, rfl, ?_, ?_, ?_, ?_, ?_, ?_, ?_⟩ <;> decide

/-- What `lexer_pop` changes at most: the current token and the pending
branch. -/
theorem lexer_pop_frame {lx lx1 : Lexer} {t : Option Nat}
    (h : lexer_pop lx = Except.ok (lx1, t)) :
    ∃ tok br, lx1 = { lx with lx_st := { lx.lx_st with st_tok := tok }, lx_branch := br } := by
  unfold lexer_pop at h
  simp only [lexer_pop_out] at h
  repeat' split at h
  all_goals first
    | (cases h; done)
    | (simp only [Except.ok.injEq, Prod.mk.injEq] at h
       obtain ⟨rfl, rfl⟩ := h
       exact ⟨_, _, rfl⟩)

/-- A call of `lexer_pop` outside of a peek that returns 1 leaves the pending
branch as it was. -/
theorem lexer_pop_branch {lx lx1 : Lexer} {p : Nat}
    (h : lexer_pop lx = Except.ok (lx1, some p)) (hp : lx.lx_peek = 0) :
    lx1.lx_branch = lx.lx_branch := by
  unfold lexer_pop at h
  simp only [lexer_pop_out] at h
  repeat' split at h
  all_goals first
    | (cases h; done)
    | (simp only [Except.ok.injEq, Prod.mk.injEq] at h
       obtain ⟨rfl, _⟩ := h
       rfl)

/-- C23 fails while a branch is pending: on the stream of `else_example`,
after `x` was popped, `__lexer_expect` halts at the branch `y`, its pop fails
and it returns 0, and the error counter is still 0; and after a peek has gone
past `y`, `__lexer_expect` of a `;` pops `x`, returns 0, and the error counter
is still 0. -/
theorem lexer_expect_quiet_at_branch :
    (∃ lx lx1 lxh lx2 p, lexer_alloc else_example = Except.ok (some lx) ∧
      lexer_pop lx = Except.ok (lx1, some p) ∧
      lx1.lx_peek = 0 ∧ lx1.lx_st.st_err = 0 ∧
      lexer_pop lx1 = Except.ok (lxh, none) ∧
      __lexer_expect lx1 TOKEN_SEMI = Except.ok (lx2, none) ∧ lx2.lx_st.st_err = 0) ∧
    (∃ lx lx1 lx2 lx3 p, lexer_alloc else_example = Except.ok (some lx) ∧
      lexer_peek_until lx TOKEN_SEMI = Except.ok (lx1, none) ∧
      lx1.lx_peek = 0 ∧ lx1.lx_st.st_err = 0 ∧
      lexer_pop lx1 = Except.ok (lx2, some p) ∧
      (lx2.lx_heap[p]?).map (fun t => t.tk_type) = some TOKEN_IDENT ∧
      __lexer_expect lx1 TOKEN_SEMI = Except.ok (lx3, none) ∧ lx3.lx_st.st_err = 0) := by
  refine ⟨⟨_, _, _, _, _, rfl, rfl, ?_, ?_, rfl, rfl, ?_⟩, ⟨_, _, _, _, _, rfl, rfl, ?_, ?_, rfl, ?_, rfl, ?_⟩⟩ <;>
    decide

/-- C23, as the code has it.  Let `lexer_pop` yield a token of another kind
than `type`, or fail.  Outside of a peek, with the error counter 0 and no
branch pending, `__lexer_expect` of a token of another kind returns 0 and
leaves the error counter 1; while a branch is pending it returns 0 and leaves
the error counter as it was; inside a peek it returns 0, and the
`lexer_peek_leave` that follows puts back the state that `lexer_peek_enter`
saved, with its error counter. -/
theorem lexer_expect_mismatch (lx lx1 : Lexer) (type : TokenType) (r : Option Nat)
    (hpop : lexer_pop lx = Except.ok (lx1, r))
    (hmis : ∀ p, r = some p → ∃ tok, lx1.lx_heap[p]? = some tok ∧ tok.tk_type ≠ type) :
    (lx.lx_peek = 0 → lx.lx_st.st_err = 0 → lx.lx_branch = none → r ≠ none →
      __lexer_expect lx type = Except.ok (lx1.latched, none) ∧
        lx1.latched.lx_st.st_err = 1) ∧
    (lx1.lx_branch ≠ none →
      __lexer_expect lx type = Except.ok (lx1, none) ∧ lx1.lx_st.st_err = lx.lx_st.st_err) ∧
    (0 < lx.lx_peek → ∀ s : LexerState, ∃ lx2 lx3,
      __lexer_expect lx type = Except.ok (lx2, none) ∧
      lexer_peek_leave lx2 s = Except.ok lx3 ∧ lx3.lx_st = s ∧
      lx3.lx_peek = lx.lx_peek - 1) := by
  obtain ⟨tk, br, hfr⟩ := lexer_pop_frame hpop
  have hpeek : lx1.lx_peek = lx.lx_peek := by rw [hfr]
  have herr : lx1.lx_st.st_err = lx.lx_st.st_err := by rw [hfr]
  refine ⟨?_, ?_, ?_⟩
  · intro hp0 he0 hb0 hr
    cases r with
    | none => exact absurd rfl hr
    | some p =>
      obtain ⟨tok, htok, hne⟩ := hmis p rfl
      have hb1 : lx1.lx_branch = none := by rw [lexer_pop_branch hpop hp0, hb0]
      have hem : lexer_emit_error lx1 (some p) = Except.ok lx1.latched := by
        unfold lexer_emit_error deref Lexer.latched
        rw [if_neg (by rw [hb1]; exact fun h => h rfl)]
        dsimp only
        rw [if_neg (by rw [herr, he0]; decide), if_neg (by rw [hpeek, hp0]; decide), htok]
      refine ⟨?_, ?_⟩
      · unfold __lexer_expect
        rw [ok_bind _ hpop]
        dsimp only
        unfold deref
        rw [htok]
        dsimp only
        rw [ok_bind_eq, if_neg hne, ok_bind _ hem]
        rfl
      · show (lx1.lx_st.st_err + 1) % UINT_MOD = 1
        rw [herr, he0]; decide
  · intro hb
    have hem : ∀ t, lexer_emit_error lx1 t = Except.ok lx1 := by
      intro t
      unfold lexer_emit_error
      rw [if_pos hb]
    refine ⟨?_, herr⟩
    unfold __lexer_expect
    rw [ok_bind _ hpop]
    dsimp only
    cases r with
    | none =>
      dsimp only
      rw [ok_bind _ (hem none)]
      rfl
    | some p =>
      obtain ⟨tok, htok, hne⟩ := hmis p rfl
      dsimp only
      unfold deref
      rw [htok]
      dsimp only
      rw [ok_bind_eq, if_neg hne, ok_bind _ (hem _)]
      rfl
  · intro hp s
    have hem : ∀ t, ∃ lx2, lexer_emit_error lx1 t = Except.ok lx2 ∧ lx2.lx_peek = lx.lx_peek := by
      intro t
      unfold lexer_emit_error
      by_cases hb : lx1.lx_branch ≠ none
      · rw [if_pos hb]; exact ⟨_, rfl, hpeek⟩
      · rw [if_neg hb]
        dsimp only
        by_cases he : lx1.lx_st.st_err > 0
        · rw [if_pos he]; exact ⟨_, rfl, hpeek⟩
        · rw [if_neg he, if_pos (by rw [hpeek]; exact hp)]; exact ⟨_, rfl, hpeek⟩
    have hex : ∃ lx2, __lexer_expect lx type = Except.ok (lx2, none) ∧
        lx2.lx_peek = lx.lx_peek := by
      unfold __lexer_expect
      rw [ok_bind _ hpop]
      dsimp only
      cases r with
      | none =>
        obtain ⟨lx2, h2, hp2⟩ := hem none
        dsimp only
        rw [ok_bind _ h2]
        exact ⟨lx2, rfl, hp2⟩
      | some p =>
        obtain ⟨tok, htok, hne⟩ := hmis p rfl
        obtain ⟨lx2, h2, hp2⟩ := hem (some p)
        dsimp only
        unfold deref
        rw [htok]
        dsimp only
        rw [ok_bind_eq, if_neg hne, ok_bind _ h2]
        exact ⟨lx2, rfl, hp2⟩
    obtain ⟨lx2, h2, hp2⟩ := hex
    refine ⟨lx2, { lx2 with lx_st := s, lx_peek := lx2.lx_peek - 1 }, h2, ?_, rfl, ?_⟩
    · unfold lexer_peek_leave
      rw [if_pos (by rw [hp2]; exact hp)]
    · show lx2.lx_peek - 1 = lx.lx_peek - 1
      rw [hp2]

/-- The claim C23 as amended, on the stream of `x y`: `__lexer_expect` of a
`;` outside of a peek, and between `lexer_peek_enter` and
`lexer_peek_leave`; and on the stream of `else_example`, after `x` was
popped, where the pop halts at the branch `y`. -/
theorem lexer_expect_mismatch_witness :
    (__lexer_expect (lexer_of (cstr "x y")) TOKEN_SEMI =
        Except.ok (((lexer_of (cstr "x y")).at 0).latched, none) ∧
      ((lexer_of (cstr "x y")).at 0).latched.lx_st.st_err = 1) ∧
    (∃ lx2 lx3,
      __lexer_expect (lexer_peek_enter (lexer_of (cstr "x y"))).1 TOKEN_SEMI =
        Except.ok (lx2, none) ∧
      lexer_peek_leave lx2 (lexer_peek_enter (lexer_of (cstr "x y"))).2 = Except.ok lx3 ∧
      lx3.lx_st = (lexer_of (cstr "x y")).lx_st ∧
      lx3.lx_peek = (lexer_of (cstr "x y")).lx_peek) ∧
    (__lexer_expect ((lexer_of else_example).at 0) TOKEN_SEMI =
        Except.ok ({ (lexer_of else_example).at 1 with lx_branch := some 1 }, none) ∧
      ({ (lexer_of else_example).at 1 with lx_branch := some 1 } : Lexer).lx_st.st_err = 0) := by
  refine ⟨?_, ?_, ?_⟩
  · exact (lexer_expect_mismatch (lexer_of (cstr "x y")) ((lexer_of (cstr "x y")).at 0) TOKEN_SEMI
      (some 0) rfl (fun p hp => ⟨_, by cases hp; rfl, by decide⟩)).1 (by decide) (by decide)
      (by decide) (by decide)
  · exact (lexer_expect_mismatch (lexer_peek_enter (lexer_of (cstr "x y"))).1
      ((lexer_peek_enter (lexer_of (cstr "x y"))).1.at 0) TOKEN_SEMI
      (some 0) rfl (fun p hp => ⟨_, by cases hp; rfl, by decide⟩)).2.2 (by decide)
      (lexer_peek_enter (lexer_of (cstr "x y"))).2
  · exact (lexer_expect_mismatch ((lexer_of else_example).at 0)
      { (lexer_of else_example).at 1 with lx_branch := some 1 } TOKEN_SEMI
      none rfl (fun p hp => by cases hp)).2.1 (by decide)

theorem tailq_next_append {pre rest : List Nat} {c : Nat} (h : c ∉ pre) :
    tailq_next (pre ++ c :: rest) c = rest.head? := by
  induction pre with
  | nil => simp [tailq_next]
  | cons a l ih =>
    have ha : a ≠ c := fun e => h (by rw [e]; exact List.mem_cons_self _ _)
    have hl : c ∉ l := fun e => h (List.mem_cons_of_mem _ e)
    simp only [List.cons_append, tailq_next, if_neg ha]
    exact ih hl

theorem tailq_next_index {l : List Nat} {c n : Nat} (hn : l.Nodup)
    (h : tailq_next l c = some n) : n ∈ l ∧ l.indexOf n = l.indexOf c + 1 := by
  induction l with
  | nil => simp [tailq_next] at h
  | cons a l ih =>
    rw [List.nodup_cons] at hn
    unfold tailq_next at h
    by_cases ha : a = c
    · rw [if_pos ha] at h
      cases l with
      | nil => simp at h
      | cons b l2 =>
        simp only [List.head?_cons, Option.some.injEq] at h
        subst h
        subst ha
        have hne : a ≠ b := fun e => hn.1 (by rw [e]; exact List.mem_cons_self _ _)
        refine ⟨List.mem_cons_of_mem _ (List.mem_cons_self _ _), ?_⟩
        rw [List.indexOf_cons_self, List.indexOf_cons_ne _ hne, List.indexOf_cons_self]
    · rw [if_neg ha] at h
      obtain ⟨h1, h2⟩ := ih hn.2 h
      have hna : a ≠ n := fun e => hn.1 (by rw [e]; exact h1)
      refine ⟨List.mem_cons_of_mem _ h1, ?_⟩
      rw [List.indexOf_cons_ne _ hna, List.indexOf_cons_ne _ ha, h2]

theorem Forward.link {lx : Lexer} (hf : Forward lx) {p n : Nat} {t : Token}
    (hp : p ∈ lx.lx_tokens) (ht : lx.lx_heap[p]? = some t) (hn : t.br_nx = some n) :
    n ∈ lx.lx_tokens ∧ lx.lx_tokens.indexOf p < lx.lx_tokens.indexOf n := by
  have h := hf p hp
  unfold Lexer.forward_at Lexer.br_nx at h
  rw [ht] at h
  dsimp only at h
  rw [hn] at h
  exact of_decide_eq_true h

theorem Unbranched.not_branch {lx : Lexer} (hu : Unbranched lx) {p : Nat} {t : Token}
    (hp : p ∈ lx.lx_tokens) (ht : lx.lx_heap[p]? = some t) : token_is_branch t true = false := by
  have h := hu p hp
  unfold Lexer.is_branch at h
  rw [ht] at h
  exact h

theorem branch_last_forward {lx : Lexer} (hf : Forward lx) : ∀ (fuel b0 b : Nat),
    branch_last fuel lx.lx_heap b0 = Except.ok b → b0 ∈ lx.lx_tokens →
    b ∈ lx.lx_tokens ∧ lx.lx_tokens.indexOf b0 ≤ lx.lx_tokens.indexOf b := by
  intro fuel
  induction fuel with
  | zero => intro b0 b h _; cases h
  | succ f ih =>
    intro b0 b h hb0
    unfold branch_last at h
    split at h
    · cases h
    · rename_i t ht
      split at h
      · cases h
        exact ⟨hb0, le_refl _⟩
      · rename_i nx hnx
        obtain ⟨h1, h2⟩ := hf.link hb0 ht hnx
        obtain ⟨h3, h4⟩ := ih nx b h h1
        exact ⟨h3, le_trans (Nat.le_of_lt h2) h4⟩

/-- A call of `lexer_pop` that returns 1 yields the current token. -/
theorem lexer_pop_current {lx lx1 : Lexer} {p : Nat}
    (h : lexer_pop lx = Except.ok (lx1, some p)) : lx1.lx_st.st_tok = some p := by
  unfold lexer_pop at h
  simp only [lexer_pop_out] at h
  repeat' split at h
  all_goals first
    | (cases h; done)
    | (simp only [Except.ok.injEq, Prod.mk.injEq] at h
       obtain ⟨rfl, h2⟩ := h
       exact h2)

/-- C24 fails at the end of the stream: on the stream of the empty buffer two
calls of `lexer_pop` in a row return 1 and yield the same token, `EOF`. -/
theorem lexer_pop_eof_again :
    ∃ lx lx1 lx2 p, lexer_alloc [] = Except.ok (some lx) ∧
      lexer_pop lx = Except.ok (lx1, some p) ∧ lexer_pop lx1 = Except.ok (lx2, some p) ∧
      lx.kind p = some TOKEN_EOF ∧ ¬ lx.lx_tokens.indexOf p < lx.lx_tokens.indexOf p := by
  refine ⟨_, _, _, _, rfl, rfl, rfl, ?_, ?_⟩ <;> decide

/-- C24, as the code has it: in a stream of distinct tokens whose links
`br_nx` point forward, when two calls of `lexer_pop` in a row return 1 and the
first yields a token other than `EOF`, the second yields a token of the main
stream strictly later than the first; when the first yields `EOF`, the second
yields the same token. -/
theorem lexer_pop_twice (lx lx1 lx2 : Lexer) (p q : Nat)
    (hn : lx.lx_tokens.Nodup) (hf : Forward lx)
    (h1 : lexer_pop lx = Except.ok (lx1, some p))
    (h2 : lexer_pop lx1 = Except.ok (lx2, some q)) :
    (lx.kind p ≠ some TOKEN_EOF →
      q ∈ lx.lx_tokens ∧ lx.lx_tokens.indexOf p < lx.lx_tokens.indexOf q) ∧
    (lx.kind p = some TOKEN_EOF → q = p) := by
  have hcur := lexer_pop_current h1
  obtain ⟨tk, br, hfr⟩ := lexer_pop_frame h1
  have hheap : lx1.lx_heap = lx.lx_heap := by rw [hfr]
  have htok : lx1.lx_tokens = lx.lx_tokens := by rw [hfr]
  unfold lexer_pop at h2
  simp only [lexer_pop_out, hcur, hheap, htok] at h2
  split at h2
  · cases h2
  · unfold deref at h2
    cases hc : lx.lx_heap[p]? with
    | none =>
      rw [hc] at h2
      cases h2
    | some c =>
      rw [hc] at h2
      dsimp only at h2
      have hk : lx.kind p = some c.tk_type := by unfold Lexer.kind; rw [hc]; rfl
      by_cases he : c.tk_type = TOKEN_EOF
      · rw [if_neg (by rw [he]; exact fun h => h rfl)] at h2
        simp only [Except.ok.injEq, Prod.mk.injEq] at h2
        refine ⟨fun h => absurd (by rw [hk, he]) h, fun _ => ?_⟩
        have := h2.2
        cases this
        rfl
      · rw [if_pos he] at h2
        refine ⟨fun _ => ?_, fun h => ?_⟩
        · split at h2
          · cases h2
          · cases hnx : tailq_next lx.lx_tokens p with
            | none =>
              rw [hnx] at h2
              cases h2
            | some nx =>
              rw [hnx] at h2
              dsimp only at h2
              obtain ⟨hm, hi⟩ := tailq_next_index hn hnx
              cases hd : lx.lx_heap[nx]? with
              | none =>
                rw [hd] at h2
                cases h2
              | some n =>
                rw [hd] at h2
                dsimp only at h2
                split at h2
                · simp only [Except.ok.injEq, Prod.mk.injEq, Option.some.injEq] at h2
                  obtain ⟨_, rfl⟩ := h2
                  exact ⟨hm, by omega⟩
                · have hq : ∃ b, branch_last lx.lx_heap.length lx.lx_heap nx = Except.ok b ∧
                      q = b := by
                    by_cases hbr : lx1.lx_branch = none
                    · simp only [if_pos hbr] at h2
                      split at h2
                      · cases h2
                      · cases hb : branch_last lx.lx_heap.length lx.lx_heap nx with
                        | error e =>
                          rw [hb] at h2
                          cases h2
                        | ok b =>
                          rw [hb] at h2
                          simp only [Except.ok.injEq, Prod.mk.injEq, Option.some.injEq] at h2
                          exact ⟨b, rfl, h2.2.symm⟩
                    · simp only [if_neg hbr] at h2
                      split at h2
                      · cases h2
                      · cases hb : branch_last lx.lx_heap.length lx.lx_heap nx with
                        | error e =>
                          rw [hb] at h2
                          cases h2
                        | ok b =>
                          rw [hb] at h2
                          simp only [Except.ok.injEq, Prod.mk.injEq, Option.some.injEq] at h2
                          exact ⟨b, rfl, h2.2.symm⟩
                  obtain ⟨b, hb, rfl⟩ := hq
                  obtain ⟨h3, h4⟩ := branch_last_forward hf _ _ _ hb hm
                  exact ⟨h3, by omega⟩
        · rw [hk] at h
          simp only [Option.some.injEq] at h
          exact absurd h he

/-- The claim C24 as amended, on the stream of `elif_example` inside a peek:
after `a`, the first pop yields `b` and the second goes past the branch and
yields `e`, three tokens later. -/
theorem lexer_pop_twice_witness :
    4 ∈ (lexer_of elif_example).lx_tokens ∧
      (lexer_of elif_example).lx_tokens.indexOf 1 < (lexer_of elif_example).lx_tokens.indexOf 4 :=
  (lexer_pop_twice (((lexer_of elif_example).at 0).peeking 1)
    (((lexer_of elif_example).at 1).peeking 1)
    ({ ((lexer_of elif_example).at 4).peeking 1 with lx_branch := some 2 }) 1 4
    (by decide) (by decide) rfl rfl).1 (by decide)

theorem Lexer.at_at (lx : Lexer) (p q : Nat) : (lx.at p).at q = lx.at q := rfl

theorem Queue.queue_at {lx : Lexer} (h : Queue lx) (p : Nat) : Queue (lx.at p) := ⟨h.nodup, h.valid⟩

theorem Unbranched.unbranched_at {lx : Lexer} (h : Unbranched lx) (p : Nat) : Unbranched (lx.at p) := h

theorem Cursor.mem_valid {lx : Lexer} {pre rest : List Nat} (hq : Queue lx)
    (hc : Cursor lx pre rest) {p : Nat} (hp : p ∈ pre ++ rest) :
    ∃ t, lx.lx_heap[p]? = some t ∧ lx.kind p = some t.tk_type := by
  have hv : p < lx.lx_heap.length := hq.valid p (by rw [hc.tokens]; exact hp)
  refine ⟨lx.lx_heap[p], List.getElem?_eq_getElem hv, ?_⟩
  unfold Lexer.kind
  rw [List.getElem?_eq_getElem hv]
  rfl

/-- In a stream without branch tokens `lexer_pop` returns 1, yields the token
after the current one and makes it the current token. -/
theorem lexer_pop_next {lx : Lexer} {pre rest : List Nat} {p : Nat} (hq : Queue lx)
    (hu : Unbranched lx) (hc : Cursor lx pre (p :: rest)) :
    lexer_pop lx = Except.ok (lx.at p, some p) := by
  have hne : lx.lx_tokens ≠ [] := by rw [hc.tokens]; simp
  have hmem : ∀ x ∈ pre ++ p :: rest, x ∈ lx.lx_tokens := fun x hx => by rw [hc.tokens]; exact hx
  obtain ⟨tp, htp, _⟩ := hc.mem_valid hq (List.mem_append_right _ (List.mem_cons_self _ _))
  unfold lexer_pop
  rw [if_neg hne, hc.tok]
  rcases List.eq_nil_or_concat pre with hpre | ⟨pre1, c, hpre⟩
  · subst hpre
    have : lx.lx_tokens.head? = some p := by rw [hc.tokens]; rfl
    simp only [List.getLast?_nil, this, lexer_pop_out]
    rfl
  · rw [List.concat_eq_append] at hpre
    subst hpre
    have hcm : c ∈ pre1 ++ [c] ++ p :: rest :=
      List.mem_append_left _ (List.mem_append_right _ (List.mem_singleton_self c))
    obtain ⟨tc, htc, hkc⟩ := hc.mem_valid hq hcm
    have hlive : tc.tk_type ≠ TOKEN_EOF := by
      have := hc.live c (by simp)
      rw [hkc] at this
      exact fun e => this (by rw [e])
    have hnd : (pre1 ++ c :: p :: rest).Nodup := by
      have := hq.nodup
      rw [hc.tokens] at this
      simpa using this
    have hcn : c ∉ pre1 := by
      intro hin
      have := (List.nodup_append.mp hnd).2.2
      exact this hin (List.mem_cons_self _ _)
    have hnx : tailq_next lx.lx_tokens c = some p := by
      rw [hc.tokens]
      have : pre1 ++ [c] ++ p :: rest = pre1 ++ c :: (p :: rest) := by simp
      rw [this, tailq_next_append hcn]
      rfl
    have hl : (pre1 ++ [c]).getLast? = some c := by simp
    have hbc := hu.not_branch (hmem c hcm) htc
    have hbp := hu.not_branch (hmem p (List.mem_append_right _ (List.mem_cons_self _ _))) htp
    rw [hl]
    dsimp only
    unfold deref
    rw [htc]
    dsimp only
    rw [if_pos hlive, if_neg (by rw [hbc]; exact fun h => Bool.noConfusion h.2), hnx]
    dsimp only
    rw [htp]
    dsimp only
    rw [if_pos hbp]
    rfl

theorem Cursor.step {lx : Lexer} {pre rest : List Nat} {p : Nat} (hc : Cursor lx pre (p :: rest))
    (hp : lx.kind p ≠ some TOKEN_EOF) : Cursor (lx.at p) (pre ++ [p]) rest := by
  refine ⟨?_, ?_, ?_⟩
  · show lx.lx_tokens = pre ++ [p] ++ rest
    rw [hc.tokens]; simp
  · show some p = (pre ++ [p]).getLast?
    simp
  · intro c h
    simp at h
    subst h
    exact hp

/-- With a token to print `lexer_emit_error` returns, and leaves the cursor
where it is. -/
theorem lexer_emit_error_total {lx : Lexer} {p : Nat} {t : Token}
    (ht : lx.lx_heap[p]? = some t) :
    ∃ lx1, lexer_emit_error lx (some p) = Except.ok lx1 ∧ lx1.lx_st.st_tok = lx.lx_st.st_tok := by
  unfold lexer_emit_error deref
  dsimp only
  rw [ht]
  dsimp only
  split
  · exact ⟨_, rfl, rfl⟩
  · split
    · exact ⟨_, rfl, rfl⟩
    · split
      · exact ⟨_, rfl, rfl⟩
      · exact ⟨_, rfl, rfl⟩

theorem FoundBefore.head_stop {lx : Lexer} {type : TokenType} {stop : Option Nat}
    {rest : List Nat} {q p : Nat} (h : FoundBefore lx type stop (q :: rest) p) :
    lx.kind q ≠ some TOKEN_EOF ∧ stop ≠ some q := by
  obtain ⟨a, b, h1, _, _, h4⟩ := h
  cases a with
  | nil =>
    simp only [List.nil_append, List.cons.injEq] at h1
    rw [h1.1]
    exact h4 p (by simp)
  | cons x a =>
    simp only [List.cons_append, List.cons.injEq] at h1
    rw [h1.1]
    exact h4 x (by simp)

theorem FoundBefore.found_head {lx : Lexer} {type : TokenType} {stop : Option Nat}
    {rest : List Nat} {q : Nat} (hk : lx.kind q = some type)
    (hs : lx.kind q ≠ some TOKEN_EOF ∧ stop ≠ some q) (p : Nat) :
    FoundBefore lx type stop (q :: rest) p ↔ p = q := by
  constructor
  · rintro ⟨a, b, h1, _, h3, _⟩
    cases a with
    | nil =>
      simp only [List.nil_append, List.cons.injEq] at h1
      exact h1.1.symm
    | cons x a =>
      simp only [List.cons_append, List.cons.injEq] at h1
      exact absurd hk (by rw [h1.1]; exact h3 x (List.mem_cons_self _ _))
  · rintro rfl
    refine ⟨[], rest, rfl, hk, (fun _ h => absurd h (List.not_mem_nil _)), ?_⟩
    intro x hx
    simp only [List.nil_append, List.mem_singleton] at hx
    rw [hx]
    exact hs

theorem FoundBefore.found_tail {lx : Lexer} {type : TokenType} {stop : Option Nat}
    {rest : List Nat} {q : Nat} (hk : lx.kind q ≠ some type)
    (hs : lx.kind q ≠ some TOKEN_EOF ∧ stop ≠ some q) (p : Nat) :
    FoundBefore lx type stop (q :: rest) p ↔ FoundBefore lx type stop rest p := by
  constructor
  · rintro ⟨a, b, h1, h2, h3, h4⟩
    cases a with
    | nil =>
      simp only [List.nil_append, List.cons.injEq] at h1
      exact absurd (by rw [h1.1]; exact h2) hk
    | cons x a =>
      simp only [List.cons_append, List.cons.injEq] at h1
      refine ⟨a, b, h1.2, h2, fun y hy => h3 y (List.mem_cons_of_mem _ hy), ?_⟩
      intro y hy
      exact h4 y (by simp only [List.cons_append, List.mem_cons]; exact Or.inr hy)
  · rintro ⟨a, b, h1, h2, h3, h4⟩
    refine ⟨q :: a, b, by rw [h1]; rfl, h2, ?_, ?_⟩
    · intro y hy
      rcases List.mem_cons.mp hy with rfl | hy
      · exact hk
      · exact h3 y hy
    · intro y hy
      simp only [List.cons_append, List.mem_cons] at hy
      rcases hy with rfl | hy
      · exact hs
      · exact h4 y hy

theorem FoundBefore.of_later {lx : Lexer} {type : TokenType} {stop : Option Nat} {p : Nat}
    {b : List Nat} (hk : lx.kind p = some type) : ∀ (a : List Nat),
    (∀ q ∈ a ++ [p], lx.kind q ≠ some TOKEN_EOF ∧ stop ≠ some q) →
    ∃ p1, FoundBefore lx type stop (a ++ p :: b) p1 := by
  intro a
  induction a with
  | nil =>
    intro h
    exact ⟨p, (FoundBefore.found_head hk (h p (by simp)) p).mpr rfl⟩
  | cons x a ih =>
    intro h
    have hx := h x (by simp)
    by_cases hkx : lx.kind x = some type
    · exact ⟨x, (FoundBefore.found_head hkx hx x).mpr rfl⟩
    · obtain ⟨p1, h1⟩ := ih (fun q hq => h q (by
        simp only [List.cons_append, List.mem_cons]; exact Or.inr hq))
      exact ⟨p1, (FoundBefore.found_tail hkx hx p1).mpr h1⟩

theorem FoundBefore.first {lx : Lexer} {type : TokenType} {stop : Option Nat} {p p1 : Nat}
    {b : List Nat} (hk : lx.kind p = some type) : ∀ (a : List Nat),
    (∀ q ∈ a, lx.kind q ≠ some type) → FoundBefore lx type stop (a ++ p :: b) p1 → p1 = p := by
  intro a
  induction a with
  | nil =>
    intro _ h
    exact (FoundBefore.found_head hk h.head_stop p1).mp h
  | cons x a ih =>
    intro ha h
    have hkx := ha x (List.mem_cons_self _ _)
    exact ih (fun q hq => ha q (List.mem_cons_of_mem _ hq))
      ((FoundBefore.found_tail hkx h.head_stop p1).mp h)

theorem lexer_until_scan (type : TokenType) (stop : Option Nat) :
    ∀ (rest pre : List Nat) (lx : Lexer) (fuel : Nat),
    Queue lx → Unbranched lx → Cursor lx pre rest →
    (∃ e ∈ rest, lx.kind e = some TOKEN_EOF) → rest.length ≤ fuel →
    ∃ lx1 r, __lexer_until type stop fuel lx = Except.ok (lx1, r) ∧
      (∀ p, r = some p ↔ FoundBefore lx type stop rest p) ∧
      (∀ p, r = some p → lx1 = lx.at p) := by
  intro rest
  induction rest with
  | nil =>
    intro pre lx fuel _ _ _ he _
    obtain ⟨e, he, _⟩ := he
    cases he
  | cons q rest ih =>
    intro pre lx fuel hq hu hc he hfuel
    obtain ⟨f, rfl⟩ : ∃ f, fuel = f + 1 := ⟨fuel - 1, by simp at hfuel; omega⟩
    have hpop := lexer_pop_next hq hu hc
    obtain ⟨tq, htq, hkq⟩ := hc.mem_valid hq (List.mem_append_right _ (List.mem_cons_self _ _))
    have htq1 : (lx.at q).lx_heap[q]? = some tq := htq
    unfold __lexer_until
    rw [ok_bind _ hpop]
    dsimp only
    unfold deref
    rw [htq1]
    dsimp only
    rw [ok_bind_eq]
    by_cases hstop : tq.tk_type = TOKEN_EOF ∨ stop = some q
    · rw [if_pos hstop]
      obtain ⟨lx1, h1, _⟩ := lexer_emit_error_total (p := q) htq1
      rw [ok_bind _ h1]
      refine ⟨lx1, none, rfl, ?_, fun p h => by cases h⟩
      intro p
      constructor
      · intro h; cases h
      · intro h
        obtain ⟨h1, h2⟩ := h.head_stop
        rcases hstop with h3 | h3
        · exact absurd (by rw [hkq, h3]) h1
        · exact absurd h3 h2
    · rw [if_neg hstop]
      have hs : lx.kind q ≠ some TOKEN_EOF ∧ stop ≠ some q := by
        constructor
        · rw [hkq]
          exact fun e => hstop (Or.inl (Option.some.inj e))
        · exact fun e => hstop (Or.inr e)
      by_cases hty : tq.tk_type = type
      · rw [if_pos hty]
        refine ⟨lx.at q, some q, rfl, ?_, ?_⟩
        · intro p
          rw [FoundBefore.found_head (by rw [hkq, hty]) hs]
          constructor
          · intro h; cases h; rfl
          · intro h; rw [h]
        · intro p h
          cases h
          rfl
      · rw [if_neg hty]
        have hk : lx.kind q ≠ some type := by
          rw [hkq]
          exact fun e => hty (Option.some.inj e)
        have he1 : ∃ e ∈ rest, (lx.at q).kind e = some TOKEN_EOF := by
          obtain ⟨e, hm, hke⟩ := he
          rcases List.mem_cons.mp hm with rfl | hm
          · exact absurd hke hs.1
          · exact ⟨e, hm, hke⟩
        obtain ⟨lx1, r, h1, h2, h3⟩ := ih (pre ++ [q]) (lx.at q) f (hq.queue_at q) (hu.unbranched_at q)
          (hc.step hs.1) he1 (by simp at hfuel; omega)
        refine ⟨lx1, r, h1, ?_, ?_⟩
        · intro p
          rw [FoundBefore.found_tail hk hs]
          exact h2 p
        · intro p hp
          rw [h3 p hp]
          rfl

theorem lexer_until_ahead (lx : Lexer) (type : TokenType) (stop : Option Nat)
    (pre rest : List Nat) (fuel : Nat)
    (hq : Queue lx) (hu : Unbranched lx) (hc : Cursor lx pre rest)
    (he : ∃ e ∈ rest, lx.kind e = some TOKEN_EOF) (hfuel : rest.length ≤ fuel) :
    ∃ lx1 r, __lexer_until type stop fuel lx = Except.ok (lx1, r) ∧
      (∀ p, r = some p ↔ FoundBefore lx type stop rest p) ∧
      (∀ p, r = some p → lx1 = lx.at p) ∧
      (r ≠ none ↔ ∃ a p b, rest = a ++ p :: b ∧ lx.kind p = some type ∧
        ∀ q ∈ a ++ [p], lx.kind q ≠ some TOKEN_EOF ∧ stop ≠ some q) ∧
      (type = TOKEN_EOF → r = none) ∧
      (∀ a p b, rest = a ++ p :: b → lx.kind p = some type → (∀ q ∈ a, lx.kind q ≠ some type) →
        stop = some p → r = none) := by
  obtain ⟨lx1, r, h1, h2, h3⟩ := lexer_until_scan type stop rest pre lx fuel hq hu hc he hfuel
  refine ⟨lx1, r, h1, h2, h3, ?_, ?_, ?_⟩
  · constructor
    · intro hr
      cases r with
      | none => exact absurd rfl hr
      | some p =>
        obtain ⟨a, b, h4, h5, _, h6⟩ := (h2 p).mp rfl
        exact ⟨a, p, b, h4, h5, h6⟩
    · rintro ⟨a, p, b, h4, h5, h6⟩ hr
      obtain ⟨p1, h7⟩ := FoundBefore.of_later (b := b) h5 a h6
      rw [← h4] at h7
      rw [hr] at h2
      exact absurd ((h2 p1).mpr h7) (fun e => by cases e)
  · intro ht
    cases r with
    | none => rfl
    | some p =>
      obtain ⟨a, b, _, h5, _, h6⟩ := (h2 p).mp rfl
      exact absurd (by rw [h5, ht]) (h6 p (by simp)).1
  · intro a p b h4 h5 h6 h7
    cases r with
    | none => rfl
    | some p1 =>
      have h8 := (h2 p1).mp rfl
      have h9 := h8
      rw [h4] at h9
      have := FoundBefore.first h5 a h6 h9
      subst this
      obtain ⟨a1, b1, _, _, _, h10⟩ := h8
      exact absurd h7 (h10 p1 (by simp)).2

theorem lexer_until_at_eof (lx : Lexer) (type : TokenType) (stop : Option Nat) (fuel c : Nat)
    (hcur : lx.lx_st.st_tok = some c) (hmem : c ∈ lx.lx_tokens)
    (hk : lx.kind c = some TOKEN_EOF) (hfuel : 0 < fuel) :
    ∃ lx1, __lexer_until type stop fuel lx = Except.ok (lx1, none) := by
  obtain ⟨f, rfl⟩ : ∃ f, fuel = f + 1 := ⟨fuel - 1, by omega⟩
  have hne : lx.lx_tokens ≠ [] := fun e => by rw [e] at hmem; cases hmem
  obtain ⟨tc, htc, hty⟩ : ∃ tc, lx.lx_heap[c]? = some tc ∧ tc.tk_type = TOKEN_EOF := by
    unfold Lexer.kind at hk
    cases hc : lx.lx_heap[c]? with
    | none => rw [hc] at hk; cases hk
    | some tc =>
      rw [hc] at hk
      exact ⟨tc, rfl, Option.some.inj hk⟩
  have hpop : lexer_pop lx = Except.ok (lx, some c) := by
    unfold lexer_pop
    rw [if_neg hne, hcur]
    dsimp only
    unfold deref
    rw [htc]
    dsimp only
    rw [if_neg (by rw [hty]; exact fun h => h rfl)]
    unfold lexer_pop_out
    rw [hcur]
  obtain ⟨lx1, h1, _⟩ := lexer_emit_error_total (p := c) htc
  refine ⟨lx1, ?_⟩
  unfold __lexer_until
  rw [ok_bind _ hpop]
  dsimp only
  unfold deref
  rw [htc]
  dsimp only
  rw [ok_bind_eq, if_pos (Or.inl hty), ok_bind _ h1]
  rfl

/-- C22: in a stream without branch tokens `__lexer_until(type, stop)`
returns.  With an `EOF` among the tokens after the cursor, it returns 1 and
the token `p` if and only if `p` is the first token of kind `type` after the
cursor and no token up to and including `p` is `EOF` or the token `stop`, and
then `p` is the current token and nothing else has changed; so it returns 0
when the first token of kind `type` is the token `stop`, and when `type` is
`EOF`.  With the cursor on `EOF` it returns 0. -/
theorem lexer_until_found (lx : Lexer) (type : TokenType) (stop : Option Nat) (fuel : Nat)
    (hq : Queue lx) (hu : Unbranched lx) :
    (∀ pre rest, Cursor lx pre rest → (∃ e ∈ rest, lx.kind e = some TOKEN_EOF) →
      rest.length ≤ fuel →
      ∃ lx1 r, __lexer_until type stop fuel lx = Except.ok (lx1, r) ∧
        (∀ p, r = some p ↔ FoundBefore lx type stop rest p) ∧
        (∀ p, r = some p → lx1 = lx.at p) ∧
        (r ≠ none ↔ ∃ a p b, rest = a ++ p :: b ∧ lx.kind p = some type ∧
          ∀ q ∈ a ++ [p], lx.kind q ≠ some TOKEN_EOF ∧ stop ≠ some q) ∧
        (type = TOKEN_EOF → r = none) ∧
        (∀ a p b, rest = a ++ p :: b → lx.kind p = some type →
          (∀ q ∈ a, lx.kind q ≠ some type) → stop = some p → r = none)) ∧
    (∀ c, lx.lx_st.st_tok = some c → c ∈ lx.lx_tokens → lx.kind c = some TOKEN_EOF →
      0 < fuel → ∃ lx1, __lexer_until type stop fuel lx = Except.ok (lx1, none)) :=
  ⟨fun pre rest hc he hfuel => lexer_until_ahead lx type stop pre rest fuel hq hu hc he hfuel,
    fun c hcur hmem hk hfuel => lexer_until_at_eof lx type stop fuel c hcur hmem hk hfuel⟩

/-- The claim C22 on the stream of `a b ; c`, from the start: with no stop
token the `;` is found, and with the `;` itself as the stop token it is
not. -/
theorem lexer_until_found_witness :
    (∃ lx1, __lexer_until TOKEN_SEMI none 5 (lexer_of (cstr "a b ; c")) = Except.ok (lx1, some 2) ∧
      lx1 = (lexer_of (cstr "a b ; c")).at 2) ∧
    (∃ lx1, __lexer_until TOKEN_SEMI (some 2) 5 (lexer_of (cstr "a b ; c")) =
      Except.ok (lx1, none)) := by
  constructor
  · obtain ⟨lx1, r, h1, h2, h3, _⟩ := (lexer_until_found (lexer_of (cstr "a b ; c")) TOKEN_SEMI none
      5 ⟨by decide, by decide⟩ (by decide)).1 [] [0, 1, 2, 3, 4]
      ⟨by decide, by decide, fun c h => by cases h⟩ ⟨4, by decide, by decide⟩ (by decide)
    have hr : r = some 2 := (h2 2).mpr ⟨[0, 1], [3, 4], rfl, by decide, by decide, by decide⟩
    subst hr
    exact ⟨lx1, h1, h3 2 rfl⟩
  · obtain ⟨lx1, r, h1, _, _, _, _, h6⟩ := (lexer_until_found (lexer_of (cstr "a b ; c"))
      TOKEN_SEMI (some 2) 5 ⟨by decide, by decide⟩ (by decide)).1 [] [0, 1, 2, 3, 4]
      ⟨by decide, by decide, fun c h => by cases h⟩ ⟨4, by decide, by decide⟩ (by decide)
    have hr : r = none := h6 [0, 1] 2 [3, 4] rfl (by decide) (by decide) rfl
    subst hr
    exact ⟨lx1, h1⟩

theorem Lexer.pair_depth_cons (lx : Lexer) (lhs rhs : TokenType) (q : Nat) (l : List Nat) :
    lx.pair_depth lhs rhs (q :: l) = lx.pair_step lhs rhs q + lx.pair_depth lhs rhs l := by
  simp [Lexer.pair_depth]

theorem Matches.head_live {lx : Lexer} {lhs rhs : TokenType} {d : Int} {rest : List Nat}
    {q p : Nat} (h : Matches lx lhs rhs d (q :: rest) p) : lx.kind q ≠ some TOKEN_EOF := by
  obtain ⟨a, b, h1, _, _, h4⟩ := h
  cases a with
  | nil =>
    simp only [List.nil_append, List.cons.injEq] at h1
    rw [h1.1]
    exact h4 p (by simp)
  | cons x a =>
    simp only [List.cons_append, List.cons.injEq] at h1
    rw [h1.1]
    exact h4 x (by simp)

theorem Matches.matches_head {lx : Lexer} {lhs rhs : TokenType} {d : Int} {rest : List Nat}
    {q : Nat} (hd : d + lx.pair_step lhs rhs q = 0) (hl : lx.kind q ≠ some TOKEN_EOF) (p : Nat) :
    Matches lx lhs rhs d (q :: rest) p ↔ p = q := by
  constructor
  · rintro ⟨a, b, h1, _, h3, _⟩
    cases a with
    | nil =>
      simp only [List.nil_append, List.cons.injEq] at h1
      exact h1.1.symm
    | cons x a =>
      simp only [List.cons_append, List.cons.injEq] at h1
      have := h3 0 (by simp)
      simp only [List.take_succ_cons, List.take_zero, Lexer.pair_depth_cons, zero_add] at this
      rw [← h1.1] at this
      exact absurd (by simpa [Lexer.pair_depth] using hd) this
  · rintro rfl
    refine ⟨[], rest, rfl, ?_, (fun k hk => absurd hk (Nat.not_lt_zero _)), ?_⟩
    · simpa [Lexer.pair_depth] using hd
    · intro x hx
      simp only [List.nil_append, List.mem_singleton] at hx
      rw [hx]
      exact hl

theorem Matches.matches_tail {lx : Lexer} {lhs rhs : TokenType} {d : Int} {rest : List Nat}
    {q : Nat} (hd : d + lx.pair_step lhs rhs q ≠ 0) (hl : lx.kind q ≠ some TOKEN_EOF) (p : Nat) :
    Matches lx lhs rhs d (q :: rest) p ↔
      Matches lx lhs rhs (d + lx.pair_step lhs rhs q) rest p := by
  constructor
  · rintro ⟨a, b, h1, h2, h3, h4⟩
    cases a with
    | nil =>
      simp only [List.nil_append, List.cons.injEq] at h1
      rw [← h1.1] at h2
      exact absurd (by simpa [Lexer.pair_depth] using h2) hd
    | cons x a =>
      simp only [List.cons_append, List.cons.injEq] at h1
      obtain ⟨rfl, h1⟩ := h1
      refine ⟨a, b, h1, ?_, ?_, ?_⟩
      · rw [List.cons_append, Lexer.pair_depth_cons] at h2
        omega
      · intro k hk
        have := h3 (k + 1) (by simp; omega)
        rw [List.take_succ_cons, Lexer.pair_depth_cons] at this
        omega
      · intro y hy
        exact h4 y (by simp only [List.cons_append, List.mem_cons]; exact Or.inr hy)
  · rintro ⟨a, b, h1, h2, h3, h4⟩
    refine ⟨q :: a, b, by rw [h1]; rfl, ?_, ?_, ?_⟩
    · rw [List.cons_append, Lexer.pair_depth_cons]
      omega
    · intro k hk
      cases k with
      | zero =>
        simpa [Lexer.pair_depth] using hd
      | succ k =>
        have := h3 k (by simp at hk; omega)
        rw [List.take_succ_cons, Lexer.pair_depth_cons]
        omega
    · intro y hy
      simp only [List.cons_append, List.mem_cons] at hy
      rcases hy with rfl | hy
      · exact hl
      · exact h4 y hy

theorem lexer_peek_if_pair_loop_scan (lhs rhs : TokenType) :
    ∀ (rest pre : List Nat) (lx : Lexer) (fuel : Nat) (t0 : Option Nat) (d0 : Int),
    Queue lx → Unbranched lx → Cursor lx pre rest →
    (∃ e ∈ rest, lx.kind e = some TOKEN_EOF) → rest.length ≤ fuel →
    (d0 = 0 → ∀ q, rest.head? = some q → lx.kind q ≠ some TOKEN_EOF) →
    ∃ lx1 t d, lexer_peek_if_pair_loop lhs rhs fuel lx t0 d0 = Except.ok (lx1, t, d) ∧
      (∃ tok, lx1 = { lx with lx_st := { lx.lx_st with st_tok := tok } }) ∧
      (∀ p, Matches lx lhs rhs d0 rest p → d = 0 ∧ t = some p) ∧
      (d = 0 → ∃ p, t = some p ∧ Matches lx lhs rhs d0 rest p) := by
  intro rest
  induction rest with
  | nil =>
    intro pre lx fuel _ _ _ _ _ he _
    obtain ⟨e, he, _⟩ := he
    cases he
  | cons q rest ih =>
    intro pre lx fuel t0 d0 hq hu hc he hfuel hfirst
    obtain ⟨f, rfl⟩ : ∃ f, fuel = f + 1 := ⟨fuel - 1, by simp at hfuel; omega⟩
    have hpop := lexer_pop_next hq hu hc
    obtain ⟨tq, htq, hkq⟩ := hc.mem_valid hq (List.mem_append_right _ (List.mem_cons_self _ _))
    have htq1 : (lx.at q).lx_heap[q]? = some tq := htq
    unfold lexer_peek_if_pair_loop
    rw [ok_bind _ hpop]
    dsimp only
    unfold deref
    rw [htq1]
    dsimp only
    rw [ok_bind_eq]
    by_cases heof : tq.tk_type = TOKEN_EOF
    · rw [if_pos heof]
      have hkq1 : lx.kind q = some TOKEN_EOF := by rw [hkq, heof]
      have hd0 : d0 ≠ 0 := fun h => hfirst h q rfl hkq1
      refine ⟨lx.at q, some q, d0, rfl, ⟨_, rfl⟩, ?_, fun h => absurd h hd0⟩
      intro p hp
      exact absurd hkq1 hp.head_live
    · rw [if_neg heof]
      have hl : lx.kind q ≠ some TOKEN_EOF := by
        rw [hkq]
        exact fun e => heof (Option.some.inj e)
      have hstep : (if tq.tk_type = rhs then (if tq.tk_type = lhs then d0 + 1 else d0) - 1
          else (if tq.tk_type = lhs then d0 + 1 else d0)) = d0 + lx.pair_step lhs rhs q := by
        unfold Lexer.pair_step
        rw [hkq]
        by_cases h1 : tq.tk_type = lhs
        · by_cases h2 : tq.tk_type = rhs
          · rw [if_pos h2, if_pos h1, if_pos (congrArg some h1), if_pos (congrArg some h2)]
            omega
          · rw [if_neg h2, if_pos h1, if_pos (congrArg some h1),
              if_neg (fun e => h2 (Option.some.inj e))]
            omega
        · by_cases h2 : tq.tk_type = rhs
          · rw [if_pos h2, if_neg h1, if_neg (fun e => h1 (Option.some.inj e)),
              if_pos (congrArg some h2)]
            omega
          · rw [if_neg h2, if_neg h1, if_neg (fun e => h1 (Option.some.inj e)),
              if_neg (fun e => h2 (Option.some.inj e))]
            omega
      rw [hstep]
      by_cases hz : d0 + lx.pair_step lhs rhs q = 0
      · rw [if_pos hz]
        refine ⟨lx.at q, some q, _, rfl, ⟨_, rfl⟩, ?_, ?_⟩
        · intro p hp
          rw [Matches.matches_head hz hl] at hp
          exact ⟨hz, by rw [hp]⟩
        · intro _
          exact ⟨q, rfl, (Matches.matches_head hz hl q).mpr rfl⟩
      · rw [if_neg hz]
        have he1 : ∃ e ∈ rest, (lx.at q).kind e = some TOKEN_EOF := by
          obtain ⟨e, hm, hke⟩ := he
          rcases List.mem_cons.mp hm with rfl | hm
          · exact absurd hke hl
          · exact ⟨e, hm, hke⟩
        obtain ⟨lx1, t, d, h1, h2, h3, h4⟩ := ih (pre ++ [q]) (lx.at q) f (some q)
          (d0 + lx.pair_step lhs rhs q) (hq.queue_at q) (hu.unbranched_at q) (hc.step hl) he1
          (by simp at hfuel; omega) (fun h => absurd h hz)
        refine ⟨lx1, t, d, h1, ?_, ?_, ?_⟩
        · obtain ⟨tok, h2⟩ := h2
          exact ⟨tok, by rw [h2]; rfl⟩
        · intro p hp
          exact h3 p ((Matches.matches_tail hz hl p).mp hp)
        · intro hd
          obtain ⟨p, hp1, hp2⟩ := h4 hd
          exact ⟨p, hp1, (Matches.matches_tail hz hl p).mpr hp2⟩

theorem Lexer.leave_enter (lx : Lexer) {lx1 : Lexer} {tok : Option Nat}
    (h : lx1 = { (lexer_peek_enter lx).1 with
        lx_st := { (lexer_peek_enter lx).1.lx_st with st_tok := tok } }) :
    lexer_peek_leave lx1 (lexer_peek_enter lx).2 = Except.ok lx := by
  subst h
  unfold lexer_peek_leave lexer_peek_enter
  dsimp only
  rw [if_pos (Nat.succ_pos _)]
  simp only [Nat.add_sub_cancel]

theorem Queue.queue_entered {lx : Lexer} (h : Queue lx) : Queue (lexer_peek_enter lx).1 :=
  ⟨h.nodup, h.valid⟩

theorem Unbranched.unbranched_entered {lx : Lexer} (h : Unbranched lx) :
    Unbranched (lexer_peek_enter lx).1 := h

theorem Cursor.cursor_entered {lx : Lexer} {pre rest : List Nat} (h : Cursor lx pre rest) :
    Cursor (lexer_peek_enter lx).1 pre rest := ⟨h.tokens, h.tok, h.live⟩

/-- In a stream without branch tokens `lexer_peek` yields the token after the
current one and changes nothing. -/
theorem lexer_peek_next {lx : Lexer} {pre rest : List Nat} {p : Nat} (hq : Queue lx)
    (hu : Unbranched lx) (hc : Cursor lx pre (p :: rest)) :
    lexer_peek lx = Except.ok (lx, some p) := by
  unfold lexer_peek
  dsimp only
  rw [ok_bind _ (lexer_pop_next hq.queue_entered hu.unbranched_entered hc.cursor_entered)]
  dsimp only
  have hleave : lexer_peek_leave ((lexer_peek_enter lx).1.at p) (lexer_peek_enter lx).2 =
      Except.ok lx := Lexer.leave_enter lx rfl
  rw [ok_bind _ hleave]
  rfl

theorem lexer_peek_if_next {lx : Lexer} {pre rest : List Nat} {p : Nat} {type : TokenType}
    (hq : Queue lx) (hu : Unbranched lx) (hc : Cursor lx pre (p :: rest))
    (hk : lx.kind p = some type) : lexer_peek_if lx type = Except.ok (lx, some p) := by
  obtain ⟨tp, htp, hkp⟩ := hc.mem_valid hq (List.mem_append_right _ (List.mem_cons_self _ _))
  unfold lexer_peek_if
  rw [ok_bind _ (lexer_peek_next hq hu hc)]
  dsimp only
  unfold deref
  rw [htp]
  dsimp only
  rw [ok_bind_eq, if_pos (by rw [hkp] at hk; exact Option.some.inj hk)]
  rfl

/-- Calls of `lexer_pop` over tokens other than `EOF`, in a stream without
branch tokens. -/
theorem run_calls_pops : ∀ (a pre : List Nat) (lx : Lexer) (p : Nat) (b : List Nat),
    Queue lx → Unbranched lx → Cursor lx pre (a ++ p :: b) →
    (∀ q ∈ a, lx.kind q ≠ some TOKEN_EOF) →
    run_calls lx (List.replicate (a.length + 1) CursorCall.pop) = Except.ok (lx.at p) := by
  intro a
  induction a with
  | nil =>
    intro pre lx p b hq hu hc _
    have hpop := lexer_pop_next hq hu hc
    simp only [List.length_nil, List.replicate, run_calls, CursorCall.run, hpop, Except.map]
  | cons x a ih =>
    intro pre lx p b hq hu hc hl
    have hpop := lexer_pop_next hq hu hc
    have := ih (pre ++ [x]) (lx.at x) p b (hq.queue_at x) (hu.unbranched_at x)
      (hc.step (hl x (List.mem_cons_self _ _))) (fun q hq => hl q (List.mem_cons_of_mem _ hq))
    simp only [List.length_cons, List.replicate, run_calls, CursorCall.run, hpop, Except.map]
    exact this

theorem lexer_peek_if_pair_scan {lx : Lexer} {lhs : TokenType} (rhs : TokenType)
    {pre rest : List Nat} {o : Nat}
    (hq : Queue lx) (hu : Unbranched lx) (hc : Cursor lx pre (o :: rest))
    (ho : lx.kind o = some lhs) (hlhs : lhs ≠ TOKEN_EOF)
    (he : ∃ e ∈ rest, lx.kind e = some TOKEN_EOF) :
    ∃ r, lexer_peek_if_pair lx lhs rhs = Except.ok (lx, r) ∧
      (∀ p, r = some p ↔ Matches lx lhs rhs 0 (o :: rest) p ∧ lx.lx_st.st_err = 0) := by
  have hlen : (o :: rest).length ≤ (lexer_peek_enter lx).1.lx_tokens.length + 1 := by
    show (o :: rest).length ≤ lx.lx_tokens.length + 1
    rw [hc.tokens]
    simp
    omega
  have ho1 : lx.kind o ≠ some TOKEN_EOF := by
    rw [ho]
    exact fun e => hlhs (Option.some.inj e)
  obtain ⟨lx1, t, d, h1, ⟨tok, h2⟩, h3, h4⟩ := lexer_peek_if_pair_loop_scan lhs rhs (o :: rest) pre
    (lexer_peek_enter lx).1 ((lexer_peek_enter lx).1.lx_tokens.length + 1) none 0
    hq.queue_entered hu.unbranched_entered hc.cursor_entered
    (by obtain ⟨e, hm, hk⟩ := he; exact ⟨e, List.mem_cons_of_mem _ hm, hk⟩) hlen
    (fun _ q hq => by cases hq; exact ho1)
  have hleave : lexer_peek_leave lx1 (lexer_peek_enter lx).2 = Except.ok lx :=
    Lexer.leave_enter lx h2
  unfold lexer_peek_if_pair
  rw [ok_bind _ (lexer_peek_if_next hq hu hc ho)]
  dsimp only
  rw [ok_bind _ h1]
  dsimp only
  rw [ok_bind _ hleave]
  by_cases hok : lx.lx_st.st_err = 0 ∧ d = 0
  · rw [if_pos hok]
    refine ⟨t, rfl, ?_⟩
    obtain ⟨p, hp1, hp2⟩ := h4 hok.2
    intro p1
    constructor
    · intro h
      rw [hp1] at h
      cases h
      exact ⟨hp2, hok.1⟩
    · rintro ⟨hm, _⟩
      exact (h3 p1 hm).2
  · rw [if_neg hok]
    refine ⟨none, rfl, ?_⟩
    intro p
    constructor
    · intro h; cases h
    · rintro ⟨hm, herr⟩
      exact absurd ⟨herr, (h3 p hm).1⟩ hok

/-- C21 fails for the opener `EOF`: on the stream of the empty buffer, which
is `EOF` alone, `lexer_if_pair(EOF, RPAREN)` returns 1 and yields `EOF`,
though no token closes the pair. -/
theorem lexer_if_pair_eof :
    ∃ lx lx1 p, lexer_alloc [] = Except.ok (some lx) ∧ Unbranched lx ∧ lx.lx_tokens = [p] ∧
      lx.lx_st.st_tok = none ∧ lx.kind p = some TOKEN_EOF ∧
      lexer_if_pair lx TOKEN_EOF TOKEN_RPAREN = Except.ok (lx1, some p) ∧
      lx.pair_depth TOKEN_EOF TOKEN_RPAREN lx.lx_tokens ≠ 0 := by
  refine ⟨_, _, _, rfl, ?_, rfl, ?_, ?_, rfl, ?_⟩ <;> decide

/-- C21, as the code has it: in a stream without branch tokens, with the next
token `o` of kind `lhs`, which is not `EOF`, and an `EOF` further on,
`lexer_if_pair(lhs, rhs)` returns; it returns 1 and the token `p` if and only
if `p` is the first token from `o` on at which the count of `lhs` less the
count of `rhs` is 0, no token from `o` to `p` is `EOF`, and the error counter
is 0; then the lexer is the one that calls of `lexer_pop` up to and including
`p` give, with `p` the current token; when it returns 0 the lexer is
unchanged. -/
theorem lexer_if_pair_matches (lx : Lexer) (lhs rhs : TokenType) (pre rest : List Nat) (o : Nat)
    (hq : Queue lx) (hu : Unbranched lx) (hc : Cursor lx pre (o :: rest))
    (ho : lx.kind o = some lhs) (hlhs : lhs ≠ TOKEN_EOF)
    (he : ∃ e ∈ rest, lx.kind e = some TOKEN_EOF) :
    ∃ lx1 r, lexer_if_pair lx lhs rhs = Except.ok (lx1, r) ∧
      (∀ p, r = some p ↔ Matches lx lhs rhs 0 (o :: rest) p ∧ lx.lx_st.st_err = 0) ∧
      (r ≠ none ↔ (∃ p, Matches lx lhs rhs 0 (o :: rest) p) ∧ lx.lx_st.st_err = 0) ∧
      (∀ p, r = some p → lx1 = lx.at p ∧ ∃ a b, o :: rest = a ++ p :: b ∧
        run_calls lx (List.replicate (a.length + 1) CursorCall.pop) = Except.ok lx1) ∧
      (r = none → lx1 = lx) := by
  obtain ⟨r, h1, h2⟩ := lexer_peek_if_pair_scan rhs hq hu hc ho hlhs he
  have hiff : r ≠ none ↔ (∃ p, Matches lx lhs rhs 0 (o :: rest) p) ∧ lx.lx_st.st_err = 0 := by
    constructor
    · intro hr
      cases r with
      | none => exact absurd rfl hr
      | some p =>
        obtain ⟨h3, h4⟩ := (h2 p).mp rfl
        exact ⟨⟨p, h3⟩, h4⟩
    · rintro ⟨⟨p, hp⟩, herr⟩ hr
      rw [hr] at h2
      exact absurd ((h2 p).mpr ⟨hp, herr⟩) (fun e => by cases e)
  cases r with
  | none =>
    refine ⟨lx, none, ?_, h2, hiff, (fun p h => by cases h), fun _ => rfl⟩
    unfold lexer_if_pair
    rw [ok_bind _ h1]
    rfl
  | some p =>
    refine ⟨lx.at p, some p, ?_, h2, hiff, ?_, (fun h => by cases h)⟩
    · unfold lexer_if_pair
      rw [ok_bind _ h1]
      rfl
    · intro p1 hp1
      cases hp1
      obtain ⟨⟨a, b, h3, _, _, h6⟩, _⟩ := (h2 p).mp rfl
      refine ⟨rfl, a, b, h3, ?_⟩
      exact run_calls_pops a pre lx p b hq hu (by rw [← h3]; exact hc)
        (fun q hq => h6 q (List.mem_append_left _ hq))

/-- The claim C21 as amended, on the stream of `( a ( b ) ) c` from the
start: the closer returned is the second `)`, and it is the current token
afterwards. -/
theorem lexer_if_pair_matches_witness :
    ∃ lx1, lexer_if_pair (lexer_of (cstr "( a ( b ) ) c")) TOKEN_LPAREN TOKEN_RPAREN =
        Except.ok (lx1, some 5) ∧
      lx1 = (lexer_of (cstr "( a ( b ) ) c")).at 5 := by
  obtain ⟨lx1, r, h1, h2, _, h3, _⟩ := lexer_if_pair_matches (lexer_of (cstr "( a ( b ) ) c"))
    TOKEN_LPAREN TOKEN_RPAREN [] [1, 2, 3, 4, 5, 6, 7] 0 ⟨by decide, by decide⟩ (by decide)
    ⟨by decide, by decide, fun c h => by cases h⟩ (by decide) (by decide)
    ⟨7, by decide, by decide⟩
  have hr : r = some 5 :=
    (h2 5).mpr ⟨⟨[0, 1, 2, 3, 4], [6, 7], rfl, by decide, by decide, by decide⟩, by decide⟩
  subst hr
  exact ⟨lx1, h1, (h3 5 rfl).1⟩

theorem lexer_branch_loop_removes (B : Nat) (post : List Nat) :
    ∀ (mid pre : List Nat) (lx : Lexer) (rm fuel : Nat),
    lx.lx_tokens = pre ++ rm :: mid ++ B :: post → lx.lx_tokens.Nodup → mid.length < fuel →
    lexer_branch_loop B fuel lx rm = Except.ok { lx with lx_tokens := pre ++ B :: post } := by
  intro mid
  induction mid with
  | nil =>
    intro pre lx rm fuel htok hnd hfuel
    obtain ⟨f, rfl⟩ : ∃ f, fuel = f + 1 := ⟨fuel - 1, by omega⟩
    have hnd1 : (pre ++ rm :: B :: post).Nodup := by rw [htok] at hnd; simpa using hnd
    have hrm : rm ∉ pre := fun h => (List.nodup_append.mp hnd1).2.2 h (List.mem_cons_self _ _)
    have hnx : tailq_next lx.lx_tokens rm = some B := by
      rw [htok]
      have : pre ++ rm :: [] ++ B :: post = pre ++ rm :: (B :: post) := by simp
      rw [this, tailq_next_append hrm]
      rfl
    have her : lx.lx_tokens.erase rm = pre ++ B :: post := by
      rw [htok]
      have : pre ++ rm :: [] ++ B :: post = pre ++ rm :: (B :: post) := by simp
      rw [this, List.erase_append_right _ hrm, List.erase_cons_head]
    unfold lexer_branch_loop
    dsimp only
    rw [if_pos hnx, her]
  | cons m mid ih =>
    intro pre lx rm fuel htok hnd hfuel
    obtain ⟨f, rfl⟩ : ∃ f, fuel = f + 1 := ⟨fuel - 1, by omega⟩
    have hnd1 : (pre ++ rm :: (m :: mid ++ B :: post)).Nodup := by
      rw [htok] at hnd; simpa using hnd
    have hrm : rm ∉ pre := fun h => (List.nodup_append.mp hnd1).2.2 h (List.mem_cons_self _ _)
    have hnd2 : (rm :: (m :: mid ++ B :: post)).Nodup := (List.nodup_append.mp hnd1).2.1
    have hnd3 : (m :: (mid ++ B :: post)).Nodup := (List.nodup_cons.mp hnd2).2
    have hmB : m ≠ B := by
      intro e
      exact (List.nodup_cons.mp hnd3).1 (by rw [e]; simp)
    have hnx : tailq_next lx.lx_tokens rm = some m := by
      rw [htok]
      have : pre ++ rm :: (m :: mid) ++ B :: post = pre ++ rm :: (m :: mid ++ B :: post) := by simp
      rw [this, tailq_next_append hrm]
      rfl
    have her : lx.lx_tokens.erase rm = pre ++ m :: mid ++ B :: post := by
      rw [htok]
      have : pre ++ rm :: (m :: mid) ++ B :: post = pre ++ rm :: (m :: mid ++ B :: post) := by simp
      rw [this, List.erase_append_right _ hrm, List.erase_cons_head]
      simp
    unfold lexer_branch_loop
    dsimp only
    rw [if_neg (by rw [hnx]; exact fun e => hmB (Option.some.inj e)), hnx]
    dsimp only
    rw [ih pre { lx with lx_tokens := lx.lx_tokens.erase rm } m f her (hnd.erase rm)
      (by simp at hfuel; omega)]

theorem tailq_prev_absent {s : Nat} :
    ∀ (l : List Nat) (a : Nat), s ∉ l → tailq_prev (a :: l) s = none := by
  intro l
  induction l with
  | nil => intro a _; rfl
  | cons b l ih =>
    intro a h
    unfold tailq_prev
    rw [if_neg (fun e => h (by rw [e]; exact List.mem_cons_self _ _))]
    exact ih b (fun e => h (List.mem_cons_of_mem _ e))

theorem tailq_prev_append_left {s : Nat} {post : List Nat} (hs : s ∉ post) :
    ∀ (pre : List Nat), tailq_prev (pre ++ post) s = tailq_prev pre s := by
  have hnone : ∀ (l : List Nat) (a : Nat), s ∉ l → tailq_prev (a :: l) s = none :=
    tailq_prev_absent
  intro pre
  induction pre with
  | nil =>
    cases post with
    | nil => rfl
    | cons a l => exact hnone l a (fun e => hs (List.mem_cons_of_mem _ e))
  | cons a pre ih =>
    cases pre with
    | nil =>
      cases post with
      | nil => rfl
      | cons b l =>
        show tailq_prev (a :: b :: l) s = tailq_prev [a] s
        unfold tailq_prev
        rw [if_neg (fun e => hs (by rw [e]; exact List.mem_cons_self _ _))]
        exact hnone l b (fun e => hs (List.mem_cons_of_mem _ e))
    | cons b pre =>
      show tailq_prev (a :: b :: (pre ++ post)) s = tailq_prev (a :: b :: pre) s
      unfold tailq_prev
      by_cases hb : b = s
      · rw [if_pos hb, if_pos hb]
      · rw [if_neg hb, if_neg hb]
        exact ih

theorem tailq_prev_append_right {s c : Nat} {post : List Nat} (hc : s ≠ c) :
    ∀ (pre : List Nat), s ∉ pre → tailq_prev (pre ++ c :: post) s = tailq_prev (c :: post) s := by
  intro pre
  induction pre with
  | nil => intro _; rfl
  | cons a pre ih =>
    intro h
    have h1 : s ∉ pre := fun e => h (List.mem_cons_of_mem _ e)
    cases pre with
    | nil =>
      show tailq_prev (a :: c :: post) s = tailq_prev (c :: post) s
      rw [tailq_prev, if_neg (fun e => hc e.symm)]
    | cons b pre =>
      show tailq_prev (a :: b :: (pre ++ c :: post)) s = tailq_prev (c :: post) s
      rw [tailq_prev, if_neg (fun e => h1 (by rw [← e]; exact List.mem_cons_self _ _))]
      exact ih h1

theorem tailq_prev_at {s : Nat} {post : List Nat} (hpost : s ∉ post) :
    ∀ (pre : List Nat), s ∉ pre → tailq_prev (pre ++ s :: post) s = pre.getLast? := by
  intro pre
  induction pre with
  | nil =>
    intro _
    exact tailq_prev_absent post s hpost
  | cons a pre ih =>
    intro h
    have h1 : s ∉ pre := fun e => h (List.mem_cons_of_mem _ e)
    cases pre with
    | nil =>
      show tailq_prev (a :: s :: post) s = some a
      rw [tailq_prev, if_pos rfl]
    | cons b pre =>
      show tailq_prev (a :: b :: (pre ++ s :: post)) s = (a :: b :: pre).getLast?
      rw [tailq_prev, if_neg (fun e => h1 (by rw [← e]; exact List.mem_cons_self _ _))]
      rw [List.getLast?_cons_cons]
      exact ih h1

/-- C25: with no branch pending `lexer_branch` returns 0 and changes nothing.
With the branch `B` pending, its link `br_pv` pointing to the token `pv` before
it in the main stream, and `seek` either `pv` or a token of the main stream
outside of the tokens from `pv` up to `B`, `lexer_branch` returns 1; it removes
from the main stream the tokens from `pv` up to but not including `B` and no
others, clears the link `br_pv` of `B`, sets the flag `UNMUTE` on `B`, clears
the pending branch, and makes current the token before `seek` in the main
stream, with `B` in the place of `seek` when `seek` is `pv`: this is the token
before the removed ones when `seek` is `pv` or `B`, and the token that was
before `seek` otherwise. -/
theorem lexer_branch_takes (lx : Lexer) (seek : Option Nat) :
    (lx.lx_branch = none → lexer_branch lx seek = Except.ok (lx, false)) ∧
    (∀ (B pv s : Nat) (b : Token) (pre mid post : List Nat),
      lx.lx_branch = some B → lx.lx_heap[B]? = some b → b.br_pv = some pv →
      lx.lx_tokens = pre ++ pv :: mid ++ B :: post → lx.lx_tokens.Nodup →
      seek = some s → (s = pv ∨ s ∈ pre ∨ s ∈ B :: post) →
      lexer_branch lx seek =
        Except.ok (lx.branched B b (pre ++ B :: post) (if s = pv then B else s), true) ∧
      (s = pv ∨ s = B →
        tailq_prev (pre ++ B :: post) (if s = pv then B else s) = pre.getLast?) ∧
      (s ≠ pv → s ≠ B → tailq_prev (pre ++ B :: post) s = tailq_prev lx.lx_tokens s)) := by
  constructor
  · intro h
    unfold lexer_branch
    rw [h]
  · intro B pv s b pre mid post hbr hB hpv htok hnd hseek hs
    have hnd1 : (pre ++ (pv :: mid ++ B :: post)).Nodup := by
      rw [htok] at hnd; simpa using hnd
    have hnd2 : (pv :: mid ++ B :: post).Nodup := (List.nodup_append.mp hnd1).2.1
    have hdis := (List.nodup_append.mp hnd1).2.2
    have hBpre : B ∉ pre := fun h => hdis h (by simp)
    have hnd3 : (B :: post).Nodup := by
      have : (pv :: mid ++ B :: post) = (pv :: mid) ++ (B :: post) := by simp
      rw [this] at hnd2
      exact (List.nodup_append.mp hnd2).2.1
    have hBpost : B ∉ post := (List.nodup_cons.mp hnd3).1
    have hpvB : pv ≠ B := by
      intro e
      have := (List.nodup_cons.mp hnd2).1
      exact this (by rw [e]; simp)
    have hloop := lexer_branch_loop_removes B post mid pre lx pv (lx.lx_tokens.length + 1) htok hnd
      (by rw [htok]; simp; omega)
    have hmem : (if s = pv then B else s) ∈ pre ++ B :: post := by
      by_cases h : s = pv
      · rw [if_pos h]; simp
      · rw [if_neg h]
        rcases hs with h1 | h1 | h1
        · exact absurd h1 h
        · exact List.mem_append_left _ h1
        · exact List.mem_append_right _ h1
    refine ⟨?_, ?_, ?_⟩
    · unfold lexer_branch
      rw [hbr]
      dsimp only
      unfold deref
      rw [hB]
      dsimp only
      rw [ok_bind_eq, hpv]
      dsimp only
      rw [ok_bind _ hloop]
      dsimp only
      rw [hB]
      dsimp only
      rw [ok_bind_eq, hseek]
      by_cases h : s = pv
      · rw [if_pos (by rw [h]), if_pos h] at *
        dsimp only
        rw [if_pos hmem]
        rfl
      · rw [if_neg (fun e => h (Option.some.inj e)), if_neg h] at *
        dsimp only
        rw [if_pos hmem]
        rfl
    · intro h
      have : (if s = pv then B else s) = B := by
        by_cases h1 : s = pv
        · rw [if_pos h1]
        · rw [if_neg h1]
          rcases h with h | h
          · exact absurd h h1
          · exact h
      rw [this]
      exact tailq_prev_at hBpost pre hBpre
    · intro h1 h2
      rw [htok]
      rcases hs with h | h | h
      · exact absurd h h1
      · have hx : s ∉ pv :: mid ++ B :: post := fun e => hdis h e
        have hy : s ∉ B :: post := fun e => hx (by
          simp only [List.cons_append, List.mem_cons, List.mem_append] at e ⊢
          rcases e with e | e
          · exact Or.inr (Or.inr (Or.inl e))
          · exact Or.inr (Or.inr (Or.inr e)))
        have e1 : pre ++ pv :: mid ++ B :: post = pre ++ (pv :: mid ++ B :: post) := by simp
        rw [e1, tailq_prev_append_left hx, tailq_prev_append_left hy]
      · have hsp : s ∉ pre := fun e => hdis e (by
          simp only [List.cons_append, List.mem_cons, List.mem_append] at h ⊢
          rcases h with h | h
          · exact Or.inr (Or.inr (Or.inl h))
          · exact Or.inr (Or.inr (Or.inr h)))
        have hsm : s ∉ pv :: mid := by
          intro e
          have : (pv :: mid ++ B :: post) = (pv :: mid) ++ (B :: post) := by simp
          rw [this] at hnd2
          exact (List.nodup_append.mp hnd2).2.2 e h
        have e1 : pre ++ pv :: mid ++ B :: post = (pre ++ pv :: mid) ++ B :: post := by simp
        have hspm : s ∉ pre ++ pv :: mid := by
          intro e
          rcases List.mem_append.mp e with e | e
          · exact hsp e
          · exact hsm e
        rw [e1, tailq_prev_append_right h2 _ hspm, tailq_prev_append_right h2 _ hsp]

/-- The claim C25 on the stream of `seek_example`: five calls of `lexer_pop`
leave the branch `long` pending, and `lexer_branch` with the token `int` as
`seek` removes `int x ;`, so that `f` is the current token and `long` comes
next. -/
theorem lexer_branch_takes_witness :
    (∃ lx0, run_calls (lexer_of seek_example) (List.replicate 5 CursorCall.pop) = Except.ok lx0 ∧
      lx0 = { (lexer_of seek_example).at 4 with lx_branch := some 4 }) ∧
    ∃ lx1, lexer_branch { (lexer_of seek_example).at 4 with lx_branch := some 4 } (some 1) =
        Except.ok (lx1, true) ∧
      (lexer_of seek_example).lx_tokens = [0, 1, 2, 3, 4, 5, 6, 7] ∧
      lx1.lx_tokens = [0, 4, 5, 6, 7] ∧ lx1.lx_st.st_tok = some 0 ∧ lx1.lx_branch = none ∧
      (lx1.lx_heap[4]?).map (fun t => (t.br_pv, t.tk_flags &&& TOKEN_FLAG_UNMUTE)) =
        some (none, TOKEN_FLAG_UNMUTE) := by
  refine ⟨⟨_, rfl, ?_⟩, _, ((lexer_branch_takes
    { (lexer_of seek_example).at 4 with lx_branch := some 4 }
    (some 1)).2 4 1 1 ((lexer_of seek_example).lx_heap.getD 4 tkeof) [0] [2, 3] [5, 6, 7]
    (by decide) (by decide) (by decide) (by decide) (by decide) rfl (by decide)).1, ?_, ?_, ?_, ?_, ?_⟩
    <;> decide

theorem take_succ_of_get {bf : List Nat} {a c : Nat} (h : bf[a]? = some c) :
    bf.take (a + 1) = bf.take a ++ [c] := by
  rw [List.take_succ, h]
  rfl

theorem line_of_succ {bf : List Nat} {a c : Nat} (h : bf[a]? = some c) :
    line_of bf (a + 1) = line_of bf a + (if c = CH_NEWLINE then 1 else 0) := by
  unfold line_of
  rw [take_succ_of_get h, List.count_append]
  by_cases hc : c = CH_NEWLINE
  · rw [if_pos hc, hc]
    simp
    omega
  · rw [if_neg hc]
    have : List.count CH_NEWLINE [c] = 0 := by
      rw [List.count_eq_zero]
      intro hm
      exact hc (List.mem_singleton.mp hm).symm
    omega

theorem column_of_succ {bf : List Nat} {a c : Nat} (h : bf[a]? = some c) :
    column_of bf (a + 1) = if c = CH_NEWLINE then 1 else column_of bf a + 1 := by
  unfold column_of
  rw [take_succ_of_get h, List.reverse_append, List.reverse_singleton, List.singleton_append,
    List.takeWhile_cons]
  by_cases hc : c = CH_NEWLINE
  · rw [if_pos hc]
    simp [hc]
  · rw [if_neg hc]
    simp [hc]
    omega

theorem line_of_le (bf : List Nat) (a : Nat) : line_of bf a ≤ a + 1 := by
  unfold line_of
  have h1 := List.count_le_length CH_NEWLINE (bf.take a)
  have h2 : (bf.take a).length ≤ a := by rw [List.length_take]; exact Nat.min_le_left _ _
  omega

theorem column_of_le (bf : List Nat) (a : Nat) : column_of bf a ≤ a + 1 := by
  unfold column_of
  have h1 := (List.takeWhile_prefix (fun c => decide (c ≠ CH_NEWLINE))
    (l := (bf.take a).reverse)).length_le
  have h2 : (bf.take a).length ≤ a := by rw [List.length_take]; exact Nat.min_le_left _ _
  rw [List.length_reverse] at h1
  omega

theorem Exact.sited {bf : List Nat} {st : LexerState} (h : Exact bf st) : Sited bf st :=
  ⟨h.1, h.2.1, h.2.2.1, Or.inl h.2.2.2⟩

theorem Fresh.placed {bf : List Nat} {lx : Lexer} (h : Fresh bf lx) : Placed bf lx := h.1

theorem Poised.to_placed {bf : List Nat} {lx : Lexer} (h : Poised bf lx) : Placed bf lx := h.1

theorem Placed.rewound {bf : List Nat} {lx lx1 : Lexer} (h : Placed bf lx) (h1 : Placed bf lx1) :
    Placed bf { lx1 with lx_st := lx.lx_st } := ⟨h1.buffer, h1.size, h.sited⟩

/-- What `lexer_getc` does to a placed lexer: it reads a byte and the state is
exact, or it is at the end of the buffer, the state is the same and
`lexer_getc` fails from now on. -/
theorem lexer_getc_placed {bf : List Nat} {lx lx1 : Lexer} {ch : Option Nat}
    (hp : Placed bf lx) (h : lexer_getc lx = Except.ok (lx1, ch)) :
    lx1.lx_bf = bf ∧ lx.lx_eof ≤ lx1.lx_eof ∧ lx1.lx_heap = lx.lx_heap ∧
      ((Exact bf lx1.lx_st ∧ lx1.lx_st.st_off = lx.lx_st.st_off + 1 ∧ lx1.lx_eof = lx.lx_eof ∧
          ∃ c, ch = some c ∧ bf[lx.lx_st.st_off]? = some c) ∨
        (lx1.lx_st = lx.lx_st ∧ Spent lx1 ∧ (ch = none ∨ ch = some CH_NUL))) := by
  obtain ⟨hbf, hsize, hoff, herr, hlno, hcno⟩ := hp
  unfold lexer_getc at h
  split at h
  · rename_i hend
    split at h
    · cases h
      exact ⟨hbf, Nat.le_succ _, rfl, Or.inr ⟨rfl, ⟨hend, Nat.succ_ne_zero _⟩, Or.inl rfl⟩⟩
    · cases h
      exact ⟨hbf, Nat.le_succ _, rfl, Or.inr ⟨rfl, ⟨hend, Nat.succ_ne_zero _⟩, Or.inr rfl⟩⟩
  · rename_i hend
    split at h
    · cases h
    · rename_i c hc
      rw [hbf] at hc hend
      have hlt : lx.lx_st.st_off < bf.length := lt_of_le_of_ne hoff hend
      have hl := line_of_le bf lx.lx_st.st_off
      have hcl := column_of_le bf lx.lx_st.st_off
      split at h
      · rename_i hnl
        cases h
        refine ⟨hbf, le_refl _, rfl, Or.inl ⟨⟨?_, herr, ?_, ?_⟩, rfl, rfl, c, rfl, hc⟩⟩
        · show lx.lx_st.st_off + 1 ≤ bf.length
          omega
        · show (lx.lx_st.st_lno + 1) % UINT_MOD = line_of bf (lx.lx_st.st_off + 1)
          rw [line_of_succ hc, if_pos hnl, hlno, Nat.mod_eq_of_lt (by omega)]
        · show 1 = column_of bf (lx.lx_st.st_off + 1)
          rw [column_of_succ hc, if_pos hnl]
      · rename_i hnl
        cases h
        have hcn : lx.lx_st.st_cno = column_of bf lx.lx_st.st_off := by
          rcases hcno with h1 | h1
          · exact h1
          · rw [hc] at h1
            exact absurd (Option.some.inj h1) hnl
        refine ⟨hbf, le_refl _, rfl, Or.inl ⟨⟨?_, herr, ?_, ?_⟩, rfl, rfl, c, rfl, hc⟩⟩
        · show lx.lx_st.st_off + 1 ≤ bf.length
          omega
        · show lx.lx_st.st_lno = line_of bf (lx.lx_st.st_off + 1)
          rw [line_of_succ hc, if_neg hnl, hlno]
          rfl
        · show (lx.lx_st.st_cno + 1) % UINT_MOD = column_of bf (lx.lx_st.st_off + 1)
          rw [column_of_succ hc, if_neg hnl, hcn, Nat.mod_eq_of_lt (by omega)]

theorem lexer_getc_fresh {bf : List Nat} {lx lx1 : Lexer} {ch : Option Nat}
    (hp : Placed bf lx) (h : lexer_getc lx = Except.ok (lx1, ch)) : Fresh bf lx1 := by
  obtain ⟨h1, _, _, h2⟩ := lexer_getc_placed hp h
  rcases h2 with ⟨he, _⟩ | ⟨hst, hs, _⟩
  · exact ⟨⟨h1, hp.size, he.sited⟩, Or.inr he⟩
  · exact ⟨⟨h1, hp.size, by rw [hst]; exact hp.sited⟩, Or.inl hs.2⟩

/-- What `lexer_ungetc` does after `lexer_getc`: the lexer stays placed; the
state stays exact when `lexer_ungetc` does nothing or steps back over a byte
other than a newline. -/
theorem lexer_ungetc_placed {bf : List Nat} {lx lx1 : Lexer}
    (hf : Fresh bf lx) (h : lexer_ungetc lx = Except.ok lx1) :
    Placed bf lx1 ∧ lx1.lx_eof = lx.lx_eof ∧ lx1.lx_heap = lx.lx_heap ∧
      (lx.lx_eof ≠ 0 → lx1 = lx) ∧
      (Exact bf lx.lx_st → bf[lx.lx_st.st_off - 1]? ≠ some CH_NEWLINE → Exact bf lx1.lx_st) := by
  obtain ⟨hp, hfr⟩ := hf
  unfold lexer_ungetc at h
  split at h
  · rename_i he
    cases h
    exact ⟨hp, rfl, rfl, fun _ => rfl, fun hx _ => hx⟩
  · rename_i he
    have hex : Exact bf lx.lx_st := by
      rcases hfr with h1 | h1
      · exact absurd h1 he
      · exact h1
    obtain ⟨hoff, herr, hlno, hcno⟩ := hex
    split at h
    · cases h
    · rename_i h0
      split at h
      · cases h
      · rename_i c hc
        rw [hp.buffer] at hc
        have hsucc : lx.lx_st.st_off - 1 + 1 = lx.lx_st.st_off := by omega
        have hl := line_of_succ hc
        have hcl := column_of_succ hc
        rw [hsucc] at hl hcl
        split at h
        · rename_i hnl
          split at h
          · cases h
          · cases h
            refine ⟨⟨hp.buffer, hp.size, ?_, herr, ?_, Or.inr ?_⟩, rfl, rfl,
              fun h1 => absurd h1 he, fun _ h2 => absurd (by rw [hc, hnl]) h2⟩
            · show lx.lx_st.st_off - 1 ≤ bf.length
              omega
            · show lx.lx_st.st_lno - 1 = line_of bf (lx.lx_st.st_off - 1)
              rw [hlno, hl, if_pos hnl]
              omega
            · show bf[lx.lx_st.st_off - 1]? = some CH_NEWLINE
              rw [hc, hnl]
        · rename_i hnl
          split at h
          · cases h
          · cases h
            have h1 : lx.lx_st.st_off - 1 ≤ bf.length := by omega
            have h2 : lx.lx_st.st_lno = line_of bf (lx.lx_st.st_off - 1) := by
              rw [hlno, hl, if_neg hnl]
              rfl
            have h3 : lx.lx_st.st_cno - 1 = column_of bf (lx.lx_st.st_off - 1) := by
              rw [hcno, hcl, if_neg hnl]
              omega
            exact ⟨⟨hp.buffer, hp.size, h1, herr, h2, Or.inl h3⟩, rfl, rfl,
              fun h4 => absurd h4 he, fun _ _ => ⟨h1, herr, h2, h3⟩⟩

theorem lexer_emit_state (lx : Lexer) (st : LexerState) (tk : Token) :
    (lexer_emit lx st tk).1.lx_st = lx.lx_st ∧ (lexer_emit lx st tk).1.lx_bf = lx.lx_bf ∧
      (lexer_emit lx st tk).1.lx_eof = lx.lx_eof := by
  unfold lexer_emit
  by_cases hn : tk.tk_str = StrPtr.null <;>
    by_cases hf : tk.tk_flags &&& TOKEN_FLAG_DANGLING = 0 <;>
    simp [hn, hf]

theorem Placed.emit {bf : List Nat} {lx : Lexer} (h : Placed bf lx) (st : LexerState)
    (tk : Token) : Placed bf (lexer_emit lx st tk).1 := by
  obtain ⟨h1, h2, _⟩ := lexer_emit_state lx st tk
  exact ⟨h2.trans h.buffer, h.size, by rw [h1]; exact h.sited⟩

theorem lexer_eat_lines_loop_placed {bf : List Nat} : ∀ (fuel : Nat) (lx lx1 : Lexer) (n n1 : Nat),
    Placed bf lx → lexer_eat_lines_loop fuel lx n = Except.ok (lx1, n1) → Placed bf lx1 := by
  intro fuel
  induction fuel with
  | zero => intro lx lx1 n n1 _ h; cases h
  | succ f ih =>
    intro lx lx1 n n1 hp h
    unfold lexer_eat_lines_loop at h
    obtain ⟨⟨lx2, ch⟩, h1, h⟩ := bind_ok h
    have k1 := lexer_getc_fresh hp h1
    cases ch with
    | none => cases h; exact k1.1
    | some c =>
      dsimp only at h
      split at h
      · exact ih _ _ _ _ k1.1 h
      · obtain ⟨lx3, h3, h⟩ := bind_ok h
        cases h
        exact (lexer_ungetc_placed k1 h3).1

theorem lexer_eat_lines_placed {bf : List Nat} {lx lx1 : Lexer} {emit : Bool} {r : Option TokRef}
    (hp : Placed bf lx) (h : lexer_eat_lines lx emit = Except.ok (lx1, r)) : Placed bf lx1 := by
  unfold lexer_eat_lines at h
  obtain ⟨⟨lx2, n⟩, h1, h⟩ := bind_ok h
  have k1 := lexer_eat_lines_loop_placed _ _ _ _ _ hp h1
  dsimp only at h
  split at h
  · cases h; exact k1
  · split at h
    · rw [lexer_emit_tkline] at h
      cases h
      exact k1
    · cases h; exact k1

theorem lexer_eat_space_loop_placed {bf : List Nat} (newline : Bool) :
    ∀ (fuel : Nat) (lx lx1 : Lexer) (more : Bool),
    Placed bf lx → lexer_eat_space_loop newline fuel lx = Except.ok (lx1, more) →
    Fresh bf lx1 ∧ (newline = true →
      Spent lx1 ∨ (Exact bf lx1.lx_st ∧ bf[lx1.lx_st.st_off - 1]? ≠ some CH_NEWLINE)) := by
  intro fuel
  induction fuel with
  | zero => intro lx lx1 more _ h; cases h
  | succ f ih =>
    intro lx lx1 more hp h
    unfold lexer_eat_space_loop at h
    obtain ⟨⟨lx2, ch⟩, h1, h⟩ := bind_ok h
    have k1 := lexer_getc_fresh hp h1
    obtain ⟨_, _, _, k2⟩ := lexer_getc_placed hp h1
    cases ch with
    | none =>
      cases h
      refine ⟨k1, fun _ => Or.inl ?_⟩
      rcases k2 with ⟨_, _, _, c, hc, _⟩ | ⟨_, hs, _⟩
      · cases hc
      · exact hs
    | some c =>
      dsimp only at h
      split at h
      · exact ih _ _ _ k1.1 h
      · rename_i hblank
        cases h
        refine ⟨k1, fun hn => ?_⟩
        rcases k2 with ⟨hx, hoff, _, c1, hc, hget⟩ | ⟨_, hs, _⟩
        · cases hc
          refine Or.inr ⟨hx, ?_⟩
          rw [hoff, Nat.add_sub_cancel, hget]
          intro e
          exact hblank (Or.inr (Or.inr ⟨Option.some.inj e, hn⟩))
        · exact Or.inl hs

theorem lexer_eat_space_placed {bf : List Nat} {lx lx1 : Lexer} {newline : Bool}
    {r : Option TokRef} (hp : Placed bf lx)
    (h : lexer_eat_space lx newline false = Except.ok (lx1, r)) :
    Placed bf lx1 ∧ (newline = true → Poised bf lx1) := by
  unfold lexer_eat_space at h
  obtain ⟨⟨lx2, more⟩, h1, h⟩ := bind_ok h
  obtain ⟨k1, k2⟩ := lexer_eat_space_loop_placed _ _ _ _ _ hp h1
  dsimp only at h
  split at h
  · cases h
    refine ⟨k1.1, fun hn => ⟨k1.1, ?_⟩⟩
    rcases k2 hn with hs | ⟨hx, _⟩
    · exact Or.inr hs
    · exact Or.inl hx
  · obtain ⟨lx3, h3, h⟩ := bind_ok h
    obtain ⟨k3, _, _, k4, k5⟩ := lexer_ungetc_placed k1 h3
    simp at h
    cases h
    refine ⟨k3, fun hn => ⟨k3, ?_⟩⟩
    rcases k2 hn with hs | ⟨hx, hprev⟩
    · rw [k4 hs.2]
      exact Or.inr hs
    · exact Or.inl (k5 hx hprev)

theorem Fresh.fresh_rewound {bf : List Nat} {lx lx1 : Lexer} (h : Fresh bf lx) (h1 : Placed bf lx1)
    (he : lx.lx_eof ≤ lx1.lx_eof) : Fresh bf { lx1 with lx_st := lx.lx_st } := by
  refine ⟨h.1.rewound h1, ?_⟩
  rcases h.2 with h2 | h2
  · left
    show lx1.lx_eof ≠ 0
    omega
  · exact Or.inr h2

theorem lexer_ellipsis_placed {bf : List Nat} {lx lx1 : Lexer} {st : LexerState}
    {r : Option Token} (hf : Fresh bf lx) (h : lexer_ellipsis lx st = Except.ok (lx1, r)) :
    Fresh bf lx1 := by
  unfold lexer_ellipsis at h
  dsimp only at h
  split at h
  · cases h; exact hf
  · obtain ⟨⟨lx2, ch⟩, h2, h⟩ := bind_ok h
    have k2 := lexer_getc_fresh hf.1 h2
    obtain ⟨_, e2, _, _⟩ := lexer_getc_placed hf.1 h2
    dsimp only at h
    split at h
    · cases h; exact hf.fresh_rewound k2.1 e2
    · split at h
      · cases h; exact hf.fresh_rewound k2.1 e2
      · obtain ⟨⟨lx3, ch3⟩, h3, h⟩ := bind_ok h
        have k3 := lexer_getc_fresh k2.1 h3
        obtain ⟨_, e3, _, _⟩ := lexer_getc_placed k2.1 h3
        dsimp only at h
        split at h
        · cases h; exact hf.fresh_rewound k3.1 (le_trans e2 e3)
        · cases h
          exact k3

theorem lexer_keyword_loop_placed {bf : List Nat} (st : LexerState) :
    ∀ (fuel : Nat) (lx lx1 : Lexer) (pv r : Option Token),
    Fresh bf lx → lexer_keyword_loop st fuel lx pv = Except.ok (lx1, r) → Placed bf lx1 := by
  intro fuel
  induction fuel with
  | zero => intro lx lx1 pv r _ h; cases h
  | succ f ih =>
    intro lx lx1 pv r hf h
    unfold lexer_keyword_loop at h
    split at h
    · obtain ⟨lx2, h2, h⟩ := bind_ok h
      cases h
      exact (lexer_ungetc_placed hf h2).1
    · rename_i tmp hfind
      split at h
      · cases h
        exact hf.1
      · obtain ⟨⟨lx2, e⟩, h2, h⟩ := bind_ok h
        have k2 : Fresh bf lx2 := by
          split at h2
          · exact lexer_ellipsis_placed hf h2
          · cases h2; exact hf
        cases e with
        | some e =>
          cases h
          exact k2.1
        | none =>
          obtain ⟨⟨lx3, ch⟩, h3, h⟩ := bind_ok h
          have k3 := lexer_getc_fresh k2.1 h3
          cases ch with
          | none =>
            cases h
            exact k3.1
          | some c => exact ih _ _ _ _ k3 h

theorem lexer_comment_body_placed {bf : List Nat} (cstyle : Bool) :
    ∀ (fuel : Nat) (lx lx1 : Lexer) (ch : Nat),
    Placed bf lx → lexer_comment_body cstyle fuel lx ch = Except.ok lx1 → Placed bf lx1 := by
  intro fuel
  induction fuel with
  | zero => intro lx lx1 ch _ h; cases h
  | succ f ih =>
    intro lx lx1 ch hp h
    unfold lexer_comment_body at h
    obtain ⟨⟨lx2, peek⟩, h1, h⟩ := bind_ok h
    have k1 := lexer_getc_fresh hp h1
    cases peek with
    | none => cases h; exact k1.1
    | some c =>
      dsimp only at h
      split at h
      · split at h
        · cases h; exact k1.1
        · exact ih _ _ _ k1.1 h
      · split at h
        · exact (lexer_ungetc_placed k1 h).1
        · exact ih _ _ _ k1.1 h

theorem lexer_comment_loop_placed {bf : List Nat} (block : Bool) :
    ∀ (fuel : Nat) (lx lx1 : Lexer) (n n1 : Nat),
    Placed bf lx → lexer_comment_loop block fuel lx n = Except.ok (lx1, n1) → Placed bf lx1 := by
  intro fuel
  induction fuel with
  | zero => intro lx lx1 n n1 _ h; cases h
  | succ f ih =>
    intro lx lx1 n n1 hp h
    unfold lexer_comment_loop at h
    dsimp only at h
    obtain ⟨⟨lx2, r2⟩, h2, h⟩ := bind_ok h
    have k2 := (lexer_eat_space_placed hp h2).1
    obtain ⟨⟨lx3, ch3⟩, h3, h⟩ := bind_ok h
    have k3 := (lexer_getc_fresh k2 h3).1
    dsimp only at h
    split at h
    · cases h; exact hp.rewound k3
    · obtain ⟨⟨lx4, ch4⟩, h4, h⟩ := bind_ok h
      have k4 := (lexer_getc_fresh k3 h4).1
      dsimp only at h
      split at h
      · cases h; exact hp.rewound k4
      · obtain ⟨lx5, h5, h⟩ := bind_ok h
        have k5 := lexer_comment_body_placed _ _ _ _ _ k4 h5
        split at h
        · cases h; exact k5
        · exact ih _ _ _ _ k5 h

theorem lexer_comment_placed {bf : List Nat} {lx lx1 : Lexer} {block : Bool} {r : Option TokRef}
    (hp : Placed bf lx) (h : lexer_comment lx block = Except.ok (lx1, r)) : Placed bf lx1 := by
  unfold lexer_comment at h
  obtain ⟨⟨lx2, n⟩, h1, h⟩ := bind_ok h
  have k1 := lexer_comment_loop_placed _ _ _ _ _ _ hp h1
  dsimp only at h
  split at h
  · cases h; exact k1
  · obtain ⟨lx3, h3, h⟩ := bind_ok h
    have k3 : Placed bf lx3 := by
      split at h3
      · obtain ⟨⟨lx4, r4⟩, h4, h3⟩ := bind_ok h3
        have k4 := (lexer_eat_space_placed k1 h4).1
        obtain ⟨⟨lx5, r5⟩, h5, h3⟩ := bind_ok h3
        have k5 := lexer_eat_lines_placed k4 h5
        cases h3
        exact k5
      · cases h3; exact k1
    rw [lexer_emit_tkcomment] at h
    cases h
    exact k3

theorem lexer_cpp_line_placed {bf : List Nat} :
    ∀ (fuel : Nat) (lx lx1 : Lexer) (ch : Nat) (comment : Bool),
    Placed bf lx → lexer_cpp_line fuel lx ch comment = Except.ok lx1 → Placed bf lx1 := by
  intro fuel
  induction fuel with
  | zero => intro lx lx1 ch comment _ h; cases h
  | succ f ih =>
    intro lx lx1 ch comment hp h
    unfold lexer_cpp_line at h
    obtain ⟨⟨lx2, peek⟩, h1, h⟩ := bind_ok h
    have k1 := (lexer_getc_fresh hp h1).1
    cases peek with
    | none => cases h; exact k1
    | some c =>
      dsimp only at h
      split at h
      · exact ih _ _ _ _ k1 h
      · split at h
        · exact ih _ _ _ _ k1 h
        · split at h
          · cases h; exact k1
          · exact ih _ _ _ _ k1 h

theorem lexer_cpp_loop_placed {bf : List Nat} :
    ∀ (fuel : Nat) (lx lx1 : Lexer) (ncpp : Nat) (off : Int) (r : TokenType × Nat),
    Placed bf lx → lexer_cpp_loop fuel lx ncpp off = Except.ok (lx1, r) → Placed bf lx1 := by
  intro fuel
  induction fuel with
  | zero => intro lx lx1 ncpp off r _ h; cases h
  | succ f ih =>
    intro lx lx1 ncpp off r hp h
    unfold lexer_cpp_loop at h
    dsimp only at h
    obtain ⟨⟨lx2, r2⟩, h2, h⟩ := bind_ok h
    have k2 := (lexer_eat_space_placed hp h2).1
    obtain ⟨⟨lx3, ch3⟩, h3, h⟩ := bind_ok h
    have k3 := (lexer_getc_fresh k2 h3).1
    cases ch3 with
    | none => cases h; exact hp.rewound k3
    | some c =>
      dsimp only at h
      split at h
      · cases h; exact hp.rewound k3
      · obtain ⟨lx4, h4, h⟩ := bind_ok h
        have k4 := lexer_cpp_line_placed _ _ _ _ _ k3 h4
        repeat' split at h
        all_goals first
          | exact ih _ _ _ _ _ k4 h
          | (cases h; exact k4)

theorem lexer_cpp_placed {bf : List Nat} {lx lx1 : Lexer} {r : Option TokRef}
    (hp : Placed bf lx) (h : lexer_cpp lx = Except.ok (lx1, r)) : Placed bf lx1 := by
  unfold lexer_cpp at h
  obtain ⟨⟨lx2, type, n⟩, h1, h⟩ := bind_ok h
  have k1 := lexer_cpp_loop_placed _ _ _ _ _ _ hp h1
  dsimp only at h
  split at h
  · cases h; exact k1
  · obtain ⟨⟨lx3, r3⟩, h3, h⟩ := bind_ok h
    have k3 := lexer_eat_lines_placed k1 h3
    dsimp only at h
    rw [lexer_emit_tkcpp] at h
    cases h
    exact k3

theorem lexer_read_dangling_placed {bf : List Nat} :
    ∀ (fuel : Nat) (lx lx1 : Lexer) (D D1 : List Dangling),
    Placed bf lx → lexer_read_dangling fuel lx D = Except.ok (lx1, D1) → Placed bf lx1 := by
  intro fuel
  induction fuel with
  | zero => intro lx lx1 D D1 _ h; cases h
  | succ f ih =>
    intro lx lx1 D D1 hp h
    unfold lexer_read_dangling at h
    obtain ⟨⟨lx2, tmp⟩, h2, h⟩ := bind_ok h
    have k2 := lexer_comment_placed hp h2
    cases tmp with
    | some t =>
      obtain ⟨d, _, h⟩ := bind_ok h
      exact ih _ _ _ _ k2 h
    | none =>
      obtain ⟨⟨lx3, tmp3⟩, h3, h⟩ := bind_ok h
      have k3 := lexer_cpp_placed k2 h3
      cases tmp3 with
      | some t =>
        obtain ⟨d, _, h⟩ := bind_ok h
        exact ih _ _ _ _ k3 h
      | none =>
        cases h
        exact k3

theorem take_take_length (l : List Nat) (m : Nat) : l.take (l.take m).length = l.take m := by
  rw [List.length_take]
  rcases Nat.le_total m l.length with h | h
  · rw [Nat.min_eq_left h]
  · rw [Nat.min_eq_right h, List.take_length, List.take_of_length_le h]

theorem take_take_le (l : List Nat) (n k : Nat) : ∃ m, (l.take k).take n = l.take m ∧ m ≤ k :=
  ⟨min n k, by rw [List.take_take], Nat.min_le_right _ _⟩

/-- The token that `lexer_emit` links into the main stream. -/
theorem lexer_emit_at {lx lx1 : Lexer} {st : LexerState} {tk : Token} {p : Nat}
    (h : lexer_emit lx st tk = (lx1, TokRef.linked p)) :
    ∃ t : Token, lx1.lx_heap = lx.lx_heap ++ [t] ∧ p = lx.lx_heap.length ∧
      t.tk_type = tk.tk_type ∧ t.tk_lno = st.st_lno ∧ t.tk_cno = st.st_cno ∧
      t.tk_prefixes = [] ∧ t.tk_suffixes = [] ∧
      t.tk_str = (if tk.tk_str = StrPtr.null then StrPtr.buf st.st_off else tk.tk_str) ∧
      t.tk_len = (if tk.tk_str = StrPtr.null then lx.lx_st.st_off - st.st_off else tk.tk_len) := by
  unfold lexer_emit at h
  by_cases hnull : tk.tk_str = StrPtr.null <;>
    by_cases hflags : tk.tk_flags &&& TOKEN_FLAG_DANGLING = 0 <;>
    simp [hnull, hflags] at h
  · obtain ⟨rfl, rfl⟩ := h
    exact ⟨_, rfl, rfl, rfl, rfl, rfl, rfl, rfl, by simp [hnull], by simp [hnull]⟩
  · obtain ⟨rfl, rfl⟩ := h
    exact ⟨_, rfl, rfl, rfl, rfl, rfl, rfl, rfl, by simp [hnull], by simp [hnull]⟩

/-- A token emitted at an exact state, with its lexeme taken from the buffer
at the offset of the state, starts there. -/
theorem LocatedAt.of_exact {bf : List Nat} {st : LexerState} {t : Token} {e : Nat}
    (hx : Exact bf st) (hlno : t.tk_lno = st.st_lno) (hcno : t.tk_cno = st.st_cno)
    (hoff : st.st_off ≤ e)
    (hstr : (t.tk_str = StrPtr.buf st.st_off ∧ t.tk_len = e - st.st_off) ∨
      ∃ k, t.tk_str = StrPtr.static ((bf.drop st.st_off).take k) ∧ st.st_off + k ≤ e) :
    LocatedAt bf t st.st_off ∧ st.st_off + (lexeme bf t.tk_str t.tk_len).length ≤ e := by
  obtain ⟨h1, _, h3, h4⟩ := hx
  have hlex : ∃ m, lexeme bf t.tk_str t.tk_len = (bf.drop st.st_off).take m ∧
      st.st_off + m ≤ e := by
    rcases hstr with ⟨hs, hl⟩ | ⟨k, hs, hk⟩
    · refine ⟨t.tk_len, ?_, ?_⟩
      · rw [hs]; rfl
      · rw [hl]; omega
    · obtain ⟨m, hm, hmk⟩ := take_take_le (bf.drop st.st_off) t.tk_len k
      refine ⟨m, ?_, by omega⟩
      rw [hs]
      exact hm
  obtain ⟨m, hm, hme⟩ := hlex
  refine ⟨⟨h1, ?_, ?_, hlno.trans h3, hcno.trans h4⟩, ?_⟩
  · rw [hm, take_take_length]
  · intro o ho
    rcases hstr with ⟨hs, _⟩ | ⟨k, hs, _⟩
    · rw [hs] at ho
      cases ho
      rfl
    · rw [hs] at ho
      cases ho
  · rw [hm, List.length_take]
    have := Nat.min_le_left m (bf.drop st.st_off).length
    omega

/-- What `lexer_keyword` does to a placed lexer: when it returns `NULL` the
state is the one before the call; the token that it emits has the line and
the column of the state before the call, and is spelled by the bytes of the
buffer from its offset. -/
theorem lexer_keyword_placed {bf : List Nat} {lx lx1 : Lexer} {r : Option Keyword}
    (hp : Placed bf lx) (h : lexer_keyword lx = Except.ok (lx1, r)) :
    Placed bf lx1 ∧ (r = none → lx1.lx_st = lx.lx_st ∧ lx.lx_eof ≤ lx1.lx_eof) ∧
      (∀ p, r = some (Keyword.emitted (TokRef.linked p)) → ¬ Spent lx ∧
        ∃ t k, lx1.lx_heap = lx.lx_heap ++ [t] ∧ t.tk_lno = lx.lx_st.st_lno ∧
          t.tk_cno = lx.lx_st.st_cno ∧
          t.tk_str = StrPtr.static ((bf.drop lx.lx_st.st_off).take k) ∧
          lx.lx_st.st_off + k ≤ lx1.lx_st.st_off) := by
  unfold lexer_keyword at h
  obtain ⟨⟨lx2, ch⟩, h2, h⟩ := bind_ok h
  have k2 := lexer_getc_scans h2
  have f2 := lexer_getc_fresh hp h2
  obtain ⟨_, e2, _, g2⟩ := lexer_getc_placed hp h2
  cases ch with
  | none =>
    cases h
    refine ⟨f2.1, fun _ => ⟨?_, e2⟩, (fun p hp => by cases hp)⟩
    rcases g2 with ⟨_, _, _, c, hc, _⟩ | ⟨hst, _, _⟩
    · cases hc
    · exact hst
  | some c =>
    have hns : ¬ Spent lx := by
      intro hs
      unfold lexer_getc at h2
      rw [if_pos hs.1, if_pos (Nat.pos_of_ne_zero hs.2)] at h2
      cases h2
    obtain ⟨⟨lx3, tk⟩, h3, h⟩ := bind_ok h
    have k3 := lexer_keyword_loop_scans lx.lx_st _ lx lx2 lx3 none tk h3 k2 (le_refl _)
      (fun t ht => by cases ht)
    have p3 := lexer_keyword_loop_placed lx.lx_st _ _ _ _ _ f2 h3
    cases tk with
    | none =>
      cases h
      exact ⟨hp.rewound p3, fun _ => ⟨rfl, k3.1.eof_le⟩, (fun p hp => by cases hp)⟩
    | some tk =>
      dsimp only at h
      split at h
      · cases h
        exact ⟨p3, (fun hr => by cases hr), (fun p hp => by cases hp)⟩
      · cases hemit : lexer_emit lx3 lx.lx_st tk with
        | mk lx4 ref =>
          rw [hemit] at h
          cases h
          have p4 : Placed bf lx4 := by
            have := p3.emit lx.lx_st tk
            rw [hemit] at this
            exact this
          refine ⟨p4, (fun hr => by cases hr), fun p hp => ?_⟩
          cases hp
          obtain ⟨t, hheap, _, _, hlno, hcno, _, _, hstr, _⟩ := lexer_emit_at hemit
          obtain ⟨k, hk, hke⟩ := k3.2 tk rfl
          have hst4 : lx4.lx_st = lx3.lx_st := by
            have := (lexer_emit_state lx3 lx.lx_st tk).1
            rw [hemit] at this
            exact this
          refine ⟨hns, t, k, ?_, hlno, hcno, ?_, ?_⟩
          · rw [hheap, k3.1.heap]
          · rw [hstr, hk, if_neg (fun e => by cases e), k3.1.bf, hp.buffer]
          · rw [hst4]
            exact hke

theorem Poised.exact {bf : List Nat} {lx : Lexer} (h : Poised bf lx) (hs : ¬ Spent lx) :
    Exact bf lx.lx_st := by
  rcases h.2 with h1 | h1
  · exact h1
  · exact absurd h1 hs

theorem lexer_read_keyword_placed {bf : List Nat} : ∀ (fuel : Nat) (lx lx1 : Lexer) (r : Option Nat),
    Placed bf lx → lexer_read_keyword fuel lx = Except.ok (lx1, r) →
    Placed bf lx1 ∧ (r = none → Poised bf lx1) ∧
      (∀ p, r = some p → ∃ t a, lx1.lx_heap = lx.lx_heap ++ [t] ∧ LocatedAt bf t a ∧
        lx.lx_st.st_off ≤ a ∧
        a + (lexeme bf t.tk_str t.tk_len).length ≤ lx1.lx_st.st_off) := by
  intro fuel
  induction fuel with
  | zero => intro lx lx1 r _ h; cases h
  | succ f ih =>
    intro lx lx1 r hp h
    unfold lexer_read_keyword at h
    obtain ⟨⟨lx2, r2⟩, h2, h⟩ := bind_ok h
    have k2 := lexer_eat_space_scans h2
    obtain ⟨p2, q2⟩ := lexer_eat_space_placed hp h2
    have q2 := q2 rfl
    obtain ⟨⟨lx3, kw⟩, h3, h⟩ := bind_ok h
    have k3 := lexer_keyword_scans h3
    obtain ⟨p3, n3, e3⟩ := lexer_keyword_placed p2 h3
    cases kw with
    | none =>
      cases h
      obtain ⟨hst, heof⟩ := n3 rfl
      refine ⟨p3, fun _ => ⟨p3, ?_⟩, (fun p hp => by cases hp)⟩
      rcases q2.2 with hx | hs
      · left
        rw [hst]
        exact hx
      · right
        refine ⟨?_, ?_⟩
        · rw [hst, p3.buffer, ← p2.buffer]
          exact hs.1
        · have := hs.2
          omega
    | some kw =>
      cases kw with
      | discard tk =>
        have k23 := k2.scans_trans (k3.2 (fun p hp => by cases hp))
        dsimp only at h
        split at h
        · obtain ⟨i1, i2, i3⟩ := ih _ _ _ p3 h
          refine ⟨i1, i2, fun p hp => ?_⟩
          obtain ⟨t, a, j1, j2, j3, j4⟩ := i3 p hp
          refine ⟨t, a, ?_, j2, le_trans k23.off_le j3, j4⟩
          rw [j1, k23.heap]
        · cases h
      | emitted ref =>
        cases ref with
        | loose d =>
          obtain ⟨p, hp, _⟩ := bind_ok h
          cases hp
        | linked q =>
          obtain ⟨p, hpq, hq⟩ := bind_ok h
          cases hpq
          obtain ⟨t, hem, hdis⟩ := k3.1 q rfl
          obtain ⟨tok, htok, h⟩ := bind_ok hq
          have : tok = t := by
            unfold deref at htok
            rw [hem.heap, hem.ptr, List.getElem?_concat_length] at htok
            cases htok
            rfl
          subst this
          split at h
          · rename_i hc
            exact absurd hdis hc
          · cases h
            refine ⟨p3, (fun hr => by cases hr), fun p1 hp1 => ?_⟩
            cases hp1
            obtain ⟨hns, t1, k, hheap, hlno, hcno, hstr, hke⟩ := e3 q rfl
            have ht : t1 = tok := by
              have := hem.heap
              rw [hheap] at this
              exact (List.append_inj' this rfl).2 |> List.singleton_inj.mp
            subst ht
            obtain ⟨hloc, hend⟩ := LocatedAt.of_exact (e := lx1.lx_st.st_off) (q2.exact hns)
              hlno hcno (by omega) (Or.inr ⟨k, hstr, hke⟩)
            refine ⟨t1, lx2.lx_st.st_off, ?_, hloc, k2.off_le, hend⟩
            rw [hheap, k2.heap]

theorem Placed.of_state {bf : List Nat} {lx lx1 : Lexer} (h : Placed bf lx)
    (hbf : lx1.lx_bf = lx.lx_bf) (hst : lx1.lx_st = lx.lx_st) : Placed bf lx1 :=
  ⟨hbf.trans h.buffer, h.size, by rw [hst]; exact h.sited⟩

theorem lexer_read_string_placed {bf : List Nat} (delim : Nat) :
    ∀ (fuel : Nat) (lx lx1 : Lexer) (pch : Nat) (r : Bool),
    Placed bf lx → lexer_read_string delim fuel lx pch = Except.ok (lx1, r) → Placed bf lx1 := by
  intro fuel
  induction fuel with
  | zero => intro lx lx1 pch r _ h; cases h
  | succ f ih =>
    intro lx lx1 pch r hp h
    unfold lexer_read_string at h
    obtain ⟨⟨lx2, ch⟩, h2, h⟩ := bind_ok h
    have k2 := (lexer_getc_fresh hp h2).1
    cases ch with
    | none => cases h; exact k2
    | some c =>
      dsimp only at h
      repeat' split at h
      all_goals first
        | (cases h; exact k2)
        | exact ih _ _ _ _ k2 h

theorem lexer_read_number_placed {bf : List Nat} : ∀ (fuel : Nat) (lx lx1 : Lexer) (r : Bool),
    Placed bf lx → lexer_read_number fuel lx = Except.ok (lx1, r) → Fresh bf lx1 := by
  intro fuel
  induction fuel with
  | zero => intro lx lx1 r _ h; cases h
  | succ f ih =>
    intro lx lx1 r hp h
    unfold lexer_read_number at h
    obtain ⟨⟨lx2, ch⟩, h2, h⟩ := bind_ok h
    have k2 := lexer_getc_fresh hp h2
    cases ch with
    | none => cases h; exact k2
    | some c =>
      dsimp only at h
      split at h
      · exact ih _ _ _ k2.1 h
      · cases h; exact k2

theorem lexer_read_ident_placed {bf : List Nat} :
    ∀ (fuel : Nat) (lx lx1 : Lexer) (ch : Nat) (r : Bool),
    Fresh bf lx → lexer_read_ident fuel lx ch = Except.ok (lx1, r) → Fresh bf lx1 := by
  intro fuel
  induction fuel with
  | zero => intro lx lx1 ch r _ h; cases h
  | succ f ih =>
    intro lx lx1 ch r hf h
    unfold lexer_read_ident at h
    split at h
    · obtain ⟨⟨lx2, ch2⟩, h2, h⟩ := bind_ok h
      have k2 := lexer_getc_fresh hf.1 h2
      cases ch2 with
      | none => cases h; exact k2
      | some c => exact ih _ _ _ _ k2 h
    · cases h; exact hf

theorem lexer_read_suffixes_placed {bf : List Nat} : ∀ (fuel : Nat) (lx lx1 : Lexer) (tk : Nat),
    Placed bf lx → lexer_read_suffixes fuel lx tk = Except.ok lx1 → Placed bf lx1 := by
  intro fuel
  induction fuel with
  | zero => intro lx lx1 tk _ h; cases h
  | succ f ih =>
    intro lx lx1 tk hp h
    unfold lexer_read_suffixes at h
    obtain ⟨⟨lx2, tmp⟩, h2, h⟩ := bind_ok h
    have k2 := lexer_comment_placed hp h2
    cases tmp with
    | none =>
      cases h
      exact k2
    | some r =>
      obtain ⟨d, hd, ha⟩ := bind_ok h
      obtain ⟨heap3, h3, hb⟩ := bind_ok ha
      refine ih _ _ _ ?_ hb
      exact k2.of_state rfl rfl

theorem lexer_read_out_placed {bf : List Nat} {lx lx1 : Lexer} {tk : Nat} {D : List Dangling}
    (hp : Placed bf lx) (h : lexer_read_out lx tk D = Except.ok lx1) : Placed bf lx1 := by
  unfold lexer_read_out at h
  obtain ⟨heap2, h2, ha⟩ := bind_ok h
  obtain ⟨lx3, h3, hb⟩ := bind_ok ha
  have k3 : Placed bf lx3 := by
    refine lexer_read_suffixes_placed _ _ _ _ ?_ h3
    exact hp.of_state rfl rfl
  obtain ⟨⟨lx4, tmp⟩, h4, hc⟩ := bind_ok hb
  have k4 := lexer_eat_lines_placed k3 h4
  obtain ⟨lx5, h5, hd⟩ := bind_ok hc
  obtain ⟨t5, _, he⟩ := bind_ok hd
  have k6 := lexer_read_branches_links _ _ _ _ he
  have k5 : Placed bf lx5 := by
    cases tmp with
    | none =>
      cases h5
      exact k4
    | some r =>
      obtain ⟨d, hd1, h5a⟩ := bind_ok h5
      obtain ⟨heap6, h6, h5b⟩ := bind_ok h5a
      cases h5b
      exact k4.of_state rfl rfl
  exact k5.of_state k6.bf k6.st

/-- What `lexer_read` does when it emits a token of the main stream at the
state `st`, which is exact: the token appended to the arena starts at the
offset of `st` and ends before the offset of the scanner. -/
theorem lexer_read_emit_located {bf : List Nat} {lx lx1 : Lexer} {st : LexerState}
    {tmpl : Token} {D : List Dangling} {p : Nat} (hp : Placed bf lx)
    (h : lexer_read_emit lx st tmpl D = Except.ok (lx1, p))
    (hx : tmpl.tk_type ≠ TOKEN_EOF → Exact bf st ∧ st.st_off ≤ lx.lx_st.st_off ∧
      (tmpl.tk_str = StrPtr.null ∨ ∃ k, tmpl.tk_str = StrPtr.static ((bf.drop st.st_off).take k) ∧
        st.st_off + k ≤ lx.lx_st.st_off)) :
    Placed bf lx1 ∧ lx.lx_st.st_off ≤ lx1.lx_st.st_off ∧
      ∃ t, lx1.lx_heap.map Token.plain = lx.lx_heap.map Token.plain ++ [t] ∧
        (t.tk_type ≠ TOKEN_EOF → LocatedAt bf t st.st_off ∧
          st.st_off + (lexeme bf t.tk_str t.tk_len).length ≤ lx1.lx_st.st_off) := by
  unfold lexer_read_emit at h
  cases hemit : lexer_emit lx st tmpl with
  | mk lx2 ref =>
    rw [hemit] at h
    have p2 : Placed bf lx2 := by
      have := hp.emit st tmpl
      rw [hemit] at this
      exact this
    have hst2 : lx2.lx_st = lx.lx_st := by
      have := (lexer_emit_state lx st tmpl).1
      rw [hemit] at this
      exact this
    cases ref with
    | loose d =>
      obtain ⟨q, hq, _⟩ := bind_ok h
      cases hq
    | linked q =>
      obtain ⟨q1, hq, ha⟩ := bind_ok h
      cases hq
      obtain ⟨lx3, h3, hb⟩ := bind_ok ha
      cases hb
      obtain ⟨t, hheap, hq, htype, hlno, hcno, hpre, hsuf, hstr, hlen⟩ := lexer_emit_at hemit
      subst hq
      obtain ⟨S, hS, _, _, hr⟩ := lexer_read_out_reads hheap hpre hsuf h3
      have hoff : lx.lx_st.st_off ≤ lx1.lx_st.st_off := by
        have := hr.off_le
        rw [hst2] at this
        exact this
      refine ⟨lexer_read_out_placed p2 h3, hoff, _, hS, ?_⟩
      intro hty
      have hty1 : tmpl.tk_type ≠ TOKEN_EOF := by
        rw [← htype]
        exact hty
      obtain ⟨hex, hle, hs⟩ := hx hty1
      have := LocatedAt.of_exact (t := t) (e := lx.lx_st.st_off) hex hlno hcno hle (by
        rcases hs with hs | ⟨k, hs, hk⟩
        · left
          rw [hstr, hlen, if_pos hs, if_pos hs]
          exact ⟨rfl, rfl⟩
        · right
          refine ⟨k, ?_, hk⟩
          rw [hstr, hs, if_neg (fun e => by cases e)])
      exact ⟨this.1, le_trans this.2 hoff⟩

theorem lexer_read_ident_fresh {bf : List Nat} {fuel : Nat} {lx lx1 : Lexer} {ch : Nat} {r : Bool}
    (hp : Placed bf lx) (hch : isalpha ch = true ∨ ch = CH_UNDERSCORE)
    (h : lexer_read_ident fuel lx ch = Except.ok (lx1, r)) : Fresh bf lx1 := by
  cases fuel with
  | zero => cases h
  | succ f =>
    unfold lexer_read_ident at h
    have hal : isalnum ch = true ∨ ch = CH_UNDERSCORE := by
      rcases hch with h1 | h1
      · left
        unfold isalnum
        rw [h1]
        rfl
      · exact Or.inr h1
    rw [if_pos hal] at h
    obtain ⟨⟨lx2, ch2⟩, h2, h⟩ := bind_ok h
    have k2 := lexer_getc_fresh hp h2
    cases ch2 with
    | none => cases h; exact k2
    | some c => exact lexer_read_ident_placed _ _ _ _ _ k2 h

/-- What `lexer_read` does to a placed lexer: it stays placed, and the token
that it appends to the arena, unless it is `EOF`, starts at an offset of the
buffer between the offsets of the scanner before and after the call. -/
theorem lexer_read_located {bf : List Nat} {lx lx1 : Lexer} {r : Bool} {p : Nat}
    (hp : Placed bf lx) (h : lexer_read lx = Except.ok (lx1, r, p)) :
    Placed bf lx1 ∧ lx.lx_st.st_off ≤ lx1.lx_st.st_off ∧
      ∃ t, lx1.lx_heap.map Token.plain = lx.lx_heap.map Token.plain ++ [t] ∧
        (t.tk_type ≠ TOKEN_EOF → ∃ a, lx.lx_st.st_off ≤ a ∧ LocatedAt bf t a ∧
          a + (lexeme bf t.tk_str t.tk_len).length ≤ lx1.lx_st.st_off) := by
  unfold lexer_read at h
  dsimp only at h
  split at h
  · rename_i herr
    exact absurd hp.sited.2.1 herr
  · obtain ⟨⟨lxd, D⟩, hd, ha⟩ := bind_ok h
    obtain ⟨kd, _⟩ := lexer_read_dangling_scans _ _ _ _ _ hd
    have pd := lexer_read_dangling_placed _ _ _ _ _ hp hd
    obtain ⟨⟨lxk, kw⟩, hk, hb⟩ := bind_ok ha
    have kk := lexer_read_keyword_scans _ _ _ _ hk
    obtain ⟨pk, nk, ek⟩ := lexer_read_keyword_placed _ _ _ _ pd hk
    cases kw with
    | some q =>
      obtain ⟨lx3, h3, hc⟩ := bind_ok hb
      obtain ⟨t, hem⟩ := kk.2 q rfl
      obtain ⟨t1, a, hheap1, hloc, hla, hle⟩ := ek q rfl
      have ht : t1 = t := by
        have := hem.heap
        rw [hheap1] at this
        exact List.singleton_inj.mp (List.append_inj' this rfl).2
      subst ht
      have hq : q = lx.lx_heap.length := by rw [hem.ptr, kd.heap]
      have hheap : lxk.lx_heap = lx.lx_heap ++ [t1] := by rw [hem.heap, kd.heap]
      rw [hq] at h3
      obtain ⟨S, hS, _, _, hr⟩ := lexer_read_out_reads hheap hem.prefixes hem.suffixes h3
      have p3 := lexer_read_out_placed pk h3
      cases hc
      refine ⟨p3, le_trans kd.off_le (le_trans hem.off_le hr.off_le),
        _, hS, fun _ => ⟨a, le_trans kd.off_le hla, hloc, le_trans hle hr.off_le⟩⟩
    | none =>
      have qk := nk rfl
      have kdk : Scans lx lxk := kd.scans_trans (kk.1 rfl)
      obtain ⟨⟨lxa, ch⟩, hga, hc⟩ := bind_ok hb
      have ka := lexer_getc_scans hga
      have fa := lexer_getc_fresh pk hga
      have emit : ∀ (lxe : Lexer) (tmpl : Token) (q : Nat) (lxf : Lexer), Scans lxk lxe →
          Placed bf lxe →
          (tmpl.tk_type ≠ TOKEN_EOF → Exact bf lxk.lx_st ∧
            (tmpl.tk_str = StrPtr.null ∨
              ∃ k, tmpl.tk_str = StrPtr.static ((bf.drop lxk.lx_st.st_off).take k) ∧
                lxk.lx_st.st_off + k ≤ lxe.lx_st.st_off)) →
          lexer_read_emit lxe lxk.lx_st tmpl D = Except.ok (lxf, q) →
          Placed bf lxf ∧ lx.lx_st.st_off ≤ lxf.lx_st.st_off ∧
            ∃ t, lxf.lx_heap.map Token.plain = lx.lx_heap.map Token.plain ++ [t] ∧
              (t.tk_type ≠ TOKEN_EOF → ∃ a, lx.lx_st.st_off ≤ a ∧ LocatedAt bf t a ∧
                a + (lexeme bf t.tk_str t.tk_len).length ≤ lxf.lx_st.st_off) := by
        intro lxe tmpl q lxf hse hpe htm he
        obtain ⟨h1, h2, t, h3, h4⟩ := lexer_read_emit_located hpe he (fun hty =>
          ⟨(htm hty).1, hse.off_le, (htm hty).2⟩)
        refine ⟨h1, le_trans (kdk.scans_trans hse).off_le h2, t, ?_, fun hty => ?_⟩
        · rw [h3, hse.heap, kdk.heap]
        · exact ⟨lxk.lx_st.st_off, kdk.off_le, (h4 hty).1, (h4 hty).2⟩
      have heof : ∀ (lxe : Lexer), tkeof.tk_type ≠ TOKEN_EOF → Exact bf lxk.lx_st ∧
          (tkeof.tk_str = StrPtr.null ∨
            ∃ k, tkeof.tk_str = StrPtr.static ((bf.drop lxk.lx_st.st_off).take k) ∧
              lxk.lx_st.st_off + k ≤ lxe.lx_st.st_off) := fun _ h => absurd rfl h
      cases ch with
      | none =>
        obtain ⟨⟨lxf, q⟩, he, hg⟩ := bind_ok hc
        cases hg
        exact emit _ _ _ _ ka.1 fa.1 (heof _) he
      | some c =>
        have hns : ¬ Spent lxk := by
          intro hs
          unfold lexer_getc at hga
          rw [if_pos hs.1, if_pos (Nat.pos_of_ne_zero hs.2)] at hga
          cases hga
        have hex : Exact bf lxk.lx_st := qk.exact hns
        have hnull : ∀ (lxe : Lexer) (tmpl : Token), tmpl.tk_str = StrPtr.null →
            tmpl.tk_type ≠ TOKEN_EOF → Exact bf lxk.lx_st ∧
            (tmpl.tk_str = StrPtr.null ∨
              ∃ k, tmpl.tk_str = StrPtr.static ((bf.drop lxk.lx_st.st_off).take k) ∧
                lxk.lx_st.st_off + k ≤ lxe.lx_st.st_off) := fun _ _ h1 _ => ⟨hex, Or.inl h1⟩
        obtain ⟨⟨lxb, c2⟩, hlb, hd1⟩ := bind_ok hc
        have kb : Scans1 lxk lxb ∧ Placed bf lxb := by
          split at hlb
          · obtain ⟨⟨lxp, peek⟩, hpk, hlb⟩ := bind_ok hlb
            have kp := lexer_getc_scans hpk
            have fp := lexer_getc_fresh fa.1 hpk
            dsimp only at hlb
            split at hlb
            · cases hlb; exact ⟨ka.scans1_trans kp.1, fp.1⟩
            · obtain ⟨lxu, hu, hlb⟩ := bind_ok hlb
              cases hlb
              exact ⟨ka.scans1_trans (lexer_ungetc_scans kp hu), (lexer_ungetc_placed fp hu).1⟩
          · cases hlb; exact ⟨ka, fa.1⟩
        obtain ⟨kb, pb⟩ := kb
        dsimp only at hd1
        split at hd1
        · obtain ⟨⟨lxc, closed⟩, hs1, hd2⟩ := bind_ok hd1
          have kc := kb.1.scans_trans (lexer_read_string_scans _ _ _ _ _ _ hs1)
          have pc := lexer_read_string_placed _ _ _ _ _ _ pb hs1
          obtain ⟨⟨lxf, q⟩, he, hg⟩ := bind_ok hd2
          cases hg
          refine emit _ _ _ _ kc pc ?_ he
          split
          · exact heof _
          · split
            · exact hnull _ _ rfl
            · exact hnull _ _ rfl
        · split at hd1
          · obtain ⟨⟨lxc, more⟩, hs1, hd2⟩ := bind_ok hd1
            have kc := kb.scans1_trans (lexer_read_number_scans _ _ _ _ hs1)
            have fc := lexer_read_number_placed _ _ _ _ pb hs1
            dsimp only at hd2
            split at hd2
            · obtain ⟨⟨lxf, q⟩, he, hg⟩ := bind_ok hd2
              cases hg
              exact emit _ _ _ _ kc.1 fc.1 (heof _) he
            · obtain ⟨lxu, hu, hd3⟩ := bind_ok hd2
              have ku := lexer_ungetc_scans kc hu
              have pu := (lexer_ungetc_placed fc hu).1
              obtain ⟨⟨lxf, q⟩, he, hg⟩ := bind_ok hd3
              cases hg
              exact emit _ _ _ _ ku pu (hnull _ _ rfl) he
          · split at hd1
            · rename_i hal
              obtain ⟨⟨lxc, more⟩, hs1, hd2⟩ := bind_ok hd1
              have kc := kb.scans1_trans (lexer_read_ident_scans _ _ _ _ _ hs1)
              have fc := lexer_read_ident_fresh pb hal hs1
              dsimp only at hd2
              split at hd2
              · obtain ⟨⟨lxf, q⟩, he, hg⟩ := bind_ok hd2
                cases hg
                exact emit _ _ _ _ kc.1 fc.1 (heof _) he
              · obtain ⟨lxu, hu, hd3⟩ := bind_ok hd2
                have ku := lexer_ungetc_scans kc hu
                have pu := (lexer_ungetc_placed fc hu).1
                obtain ⟨⟨lxf, q⟩, he, hg⟩ := bind_ok hd3
                cases hg
                refine emit _ _ _ _ ku pu ?_ he
                split
                · rename_i t hfind
                  intro _
                  obtain ⟨k, h1, h2⟩ := lexer_find_token_key hfind ku.off_le
                  rw [pu.buffer] at h1
                  exact ⟨hex, Or.inr ⟨k, h1, h2⟩⟩
                · exact hnull _ _ rfl
            · obtain ⟨⟨lxf, q⟩, he, hg⟩ := bind_ok hd1
              cases hg
              exact emit _ _ _ _ kb.1 pb (hnull _ _ rfl) he

theorem Laid.snoc {bf : List Nat} {t : Token} {e e1 : Nat} (he : e ≤ e1)
    (ht : t.tk_type ≠ TOKEN_EOF → ∃ a, e ≤ a ∧ LocatedAt bf t a ∧
      a + (lexeme bf t.tk_str t.tk_len).length ≤ e1) :
    ∀ (ts : List Token) (b : Nat), Laid bf b ts e → Laid bf b (ts ++ [t]) e1 := by
  intro ts
  induction ts with
  | nil =>
    intro b h
    have hb : b ≤ e := h
    by_cases hty : t.tk_type = TOKEN_EOF
    · exact Or.inl ⟨hty, le_trans hb he⟩
    · obtain ⟨a, h1, h2, h3⟩ := ht hty
      exact Or.inr ⟨a, le_trans hb h1, h2, h3⟩
  | cons x ts ih =>
    intro b h
    rcases h with ⟨h1, h2⟩ | ⟨a, h1, h2, h3⟩
    · exact Or.inl ⟨h1, ih b h2⟩
    · exact Or.inr ⟨a, h1, h2, ih _ h3⟩

theorem Laid.extend_end {bf : List Nat} {e e1 : Nat} (he : e ≤ e1) :
    ∀ (ts : List Token) (b : Nat), Laid bf b ts e → Laid bf b ts e1 := by
  intro ts
  induction ts with
  | nil => intro b h; exact le_trans h he
  | cons x ts ih =>
    intro b h
    rcases h with ⟨h1, h2⟩ | ⟨a, h1, h2, h3⟩
    · exact Or.inl ⟨h1, ih b h2⟩
    · exact Or.inr ⟨a, h1, h2, ih _ h3⟩

theorem Laid.unplain {bf : List Nat} {e : Nat} :
    ∀ (ts : List Token) (b : Nat), Laid bf b (ts.map Token.plain) e → Laid bf b ts e := by
  intro ts
  induction ts with
  | nil => intro b h; exact h
  | cons x ts ih =>
    intro b h
    rcases h with ⟨h1, h2⟩ | ⟨a, h1, h2, h3⟩
    · exact Or.inl ⟨h1, ih b h2⟩
    · exact Or.inr ⟨a, h1, h2, ih _ h3⟩

theorem Laid.located {bf : List Nat} {e : Nat} :
    ∀ (ts : List Token) (b : Nat), Laid bf b ts e →
    ∀ t ∈ ts, t.tk_type ≠ TOKEN_EOF → ∃ a, LocatedAt bf t a := by
  intro ts
  induction ts with
  | nil => intro b _ t ht; cases ht
  | cons x ts ih =>
    intro b h t ht hty
    rcases List.mem_cons.mp ht with rfl | ht
    · rcases h with ⟨h1, _⟩ | ⟨a, _, h2, _⟩
      · exact absurd h1 hty
      · exact ⟨a, h2⟩
    · rcases h with ⟨_, h2⟩ | ⟨a, _, _, h3⟩
      · exact ih b h2 t ht hty
      · exact ih _ h3 t ht hty

theorem lexer_alloc_loop_laid {bf : List Nat} : ∀ (fuel : Nat) (lx lx1 : Lexer) (err : Bool),
    Placed bf lx → Laid bf 0 (lx.lx_heap.map Token.plain) lx.lx_st.st_off →
    lexer_alloc_loop fuel lx = Except.ok (lx1, err) →
    Placed bf lx1 ∧ Laid bf 0 (lx1.lx_heap.map Token.plain) lx1.lx_st.st_off := by
  intro fuel
  induction fuel with
  | zero => intro lx lx1 err _ _ h; cases h
  | succ f ih =>
    intro lx lx1 err hp hl h
    unfold lexer_alloc_loop at h
    obtain ⟨⟨lx2, ok, tk⟩, h2, ha⟩ := bind_ok h
    obtain ⟨p2, hoff, t, hheap, ht⟩ := lexer_read_located hp h2
    have hl2 : Laid bf 0 (lx2.lx_heap.map Token.plain) lx2.lx_st.st_off := by
      rw [hheap]
      exact Laid.snoc hoff ht _ _ hl
    dsimp only at ha
    split at ha
    · cases ha
      exact ⟨p2, hl2⟩
    · obtain ⟨tok, _, hb⟩ := bind_ok ha
      split at hb
      · cases hb
        exact ⟨p2, hl2⟩
      · exact ih _ _ _ p2 hl2 hb

theorem placed_new {bf : List Nat} (h : bf.length + 1 < UINT_MOD) : Placed bf (lexer_new bf) := by
  refine ⟨rfl, h, Nat.zero_le _, rfl, ?_, Or.inl ?_⟩
  · show 1 = line_of bf 0
    simp [line_of]
  · show 1 = column_of bf 0
    simp [column_of]

/-- C28: in the stream of a buffer whose positions fit `unsigned int`, every
token other than `EOF` has a start offset `a` in the buffer: its lexeme is in
the buffer at `a`, a token that points into the buffer points to `a`, its line
is 1 plus the number of newlines before `a` and its column is 1 plus the
number of bytes between the last newline before `a`, or the start of the
buffer, and `a`; and the start offsets follow each other in the order of the
stream, no lexeme overlapping the next. -/
theorem lexer_alloc_positions (bf : List Nat) (lx : Lexer)
    (h : lexer_alloc bf = Except.ok (some lx)) (hsize : bf.length + 1 < UINT_MOD) :
    (∀ t ∈ lx.stream, t.tk_type ≠ TOKEN_EOF → ∃ a, LocatedAt bf t a ∧
      t.tk_lno = 1 + (bf.take a).count CH_NEWLINE ∧
      t.tk_cno =
        1 + ((bf.take a).reverse.takeWhile (fun c => decide (c ≠ CH_NEWLINE))).length) ∧
    Laid bf 0 lx.stream bf.length := by
  obtain ⟨_, hstream, _, _⟩ := lexer_alloc_stream h
  unfold lexer_alloc at h
  obtain ⟨⟨lx1, err⟩, h1, ha⟩ := bind_ok h
  obtain ⟨hp1, hl⟩ := lexer_alloc_loop_laid _ _ _ _ (placed_new hsize) (Nat.le_refl 0) h1
  dsimp only at ha
  split at ha
  · cases ha
  · split at ha
    · cases ha
    · cases ha
      have hl1 : Laid bf 0 lx1.lx_heap bf.length :=
        Laid.unplain _ _ (Laid.extend_end hp1.sited.1 _ _ hl)
      rw [hstream]
      refine ⟨fun t ht hty => ?_, hl1⟩
      obtain ⟨a, hloc⟩ := Laid.located _ _ hl1 t ht hty
      exact ⟨a, hloc, hloc.2.2.2.1, hloc.2.2.2.2⟩

/-- The claim C28 on the buffer `lines_example`: the tokens of its stream,
with the lines and columns that they hold. -/
theorem lexer_alloc_positions_witness :
    ∃ lx, lexer_alloc lines_example = Except.ok (some lx) ∧
      lx.stream.map (fun t => (lexeme lx.lx_bf t.tk_str t.tk_len, t.tk_lno, t.tk_cno)) =
        [(cstr "int", 1, 1), (cstr "x", 1, 5), (cstr ";", 1, 6), (cstr "y", 2, 3),
          (cstr "=", 2, 5), (cstr "22", 2, 7), (cstr ";", 2, 9), (cstr "z", 2, 19),
          ([], 3, 1)] ∧
      (∀ t ∈ lx.stream, t.tk_type ≠ TOKEN_EOF → ∃ a, LocatedAt lines_example t a ∧
        t.tk_lno = 1 + (lines_example.take a).count CH_NEWLINE ∧
        t.tk_cno = 1 + ((lines_example.take a).reverse.takeWhile
          (fun c => decide (c ≠ CH_NEWLINE))).length) ∧
      Laid lines_example 0 lx.stream lines_example.length := by
  obtain ⟨lx, h, hpos⟩ : ∃ lx, lexer_alloc lines_example = Except.ok (some lx) ∧
      lx.stream.map (fun t => (lexeme lx.lx_bf t.tk_str t.tk_len, t.tk_lno, t.tk_cno)) =
        [(cstr "int", 1, 1), (cstr "x", 1, 5), (cstr ";", 1, 6), (cstr "y", 2, 3),
          (cstr "=", 2, 5), (cstr "22", 2, 7), (cstr ";", 2, 9), (cstr "z", 2, 19),
          ([], 3, 1)] := by
    refine ⟨_, rfl, ?_⟩
    decide
  exact ⟨lx, h, hpos, lexer_alloc_positions lines_example lx h (by decide)⟩

/-- C34: `token_trim` keeps the suffixes that are not of kind `SPACE`, in
their order, and no others: what it leaves is a sublist of the suffixes
without a `SPACE`, and every sublist of the suffixes without a `SPACE` is a
sublist of it; every suffix of another kind is kept as often as it occurs.
The prefixes and the other members of the token are the same, afterwards
`token_has_line` returns 0, and a second call changes nothing.
`token_has_line` returns non-zero if and only if a suffix has the kind
`SPACE`. -/
theorem token_trim_spaces (tk : Token) :
    (token_trim tk).tk_suffixes.Sublist tk.tk_suffixes ∧
    (∀ s ∈ (token_trim tk).tk_suffixes, s.tk_type ≠ TOKEN_SPACE) ∧
    (∀ l : List Dangling, l.Sublist tk.tk_suffixes → (∀ s ∈ l, s.tk_type ≠ TOKEN_SPACE) →
      l.Sublist (token_trim tk).tk_suffixes) ∧
    (∀ s : Dangling, s.tk_type ≠ TOKEN_SPACE →
      (token_trim tk).tk_suffixes.count s = tk.tk_suffixes.count s) ∧
    (token_trim tk).tk_suffixes.length +
      tk.tk_suffixes.countP (fun s => decide (s.tk_type = TOKEN_SPACE)) = tk.tk_suffixes.length ∧
    (token_trim tk).tk_prefixes = tk.tk_prefixes ∧
    { token_trim tk with tk_suffixes := tk.tk_suffixes } = tk ∧
    token_has_line (token_trim tk) = false ∧
    token_trim (token_trim tk) = token_trim tk ∧
    (token_has_line tk = true ↔ ∃ s ∈ tk.tk_suffixes, s.tk_type = TOKEN_SPACE) := by
  refine ⟨?_, ?_, ?_, ?_, ?_, rfl, rfl, ?_, ?_, ?_⟩
  · exact List.filter_sublist _
  · intro s hs
    have := (List.mem_filter.mp hs).2
    simpa using this
  · intro l hl hs
    have h1 := hl.filter (fun s => decide (s.tk_type ≠ TOKEN_SPACE))
    have h2 : l.filter (fun s => decide (s.tk_type ≠ TOKEN_SPACE)) = l := by
      rw [List.filter_eq_self]
      intro s hm
      simpa using hs s hm
    rw [h2] at h1
    exact h1
  · intro s hs
    show (tk.tk_suffixes.filter (fun s => decide (s.tk_type ≠ TOKEN_SPACE))).count s = _
    rw [List.count_filter]
    simpa using hs
  · show (tk.tk_suffixes.filter (fun s => decide (s.tk_type ≠ TOKEN_SPACE))).length + _ = _
    induction tk.tk_suffixes with
    | nil => rfl
    | cons a l ih =>
      by_cases ha : a.tk_type = TOKEN_SPACE
      · simp [List.filter_cons, List.countP_cons, ha] at ih ⊢
        omega
      · simp [List.filter_cons, List.countP_cons, ha] at ih ⊢
        omega
  · show (tk.tk_suffixes.filter (fun s => decide (s.tk_type ≠ TOKEN_SPACE))).any _ = false
    rw [List.any_eq_false]
    intro s hs
    have := (List.mem_filter.mp hs).2
    simpa using this
  · have hff : (tk.tk_suffixes.filter (fun s => decide (s.tk_type ≠ TOKEN_SPACE))).filter
        (fun s => decide (s.tk_type ≠ TOKEN_SPACE)) =
        tk.tk_suffixes.filter (fun s => decide (s.tk_type ≠ TOKEN_SPACE)) := by
      rw [List.filter_filter]
      simp
    unfold token_trim
    dsimp only
    rw [hff]
  · unfold token_has_line
    rw [List.any_eq_true]
    constructor
    · rintro ⟨s, hs, h⟩
      exact ⟨s, hs, by simpa using h⟩
    · rintro ⟨s, hs, h⟩
      exact ⟨s, hs, by simpa using h⟩

/-- C33, the code against the claim: the entry of `>=` in `token.h` carries
`ASSIGN` and not `BINARY`.  Every other punctuator carries `ASSIGN` if and
only if it is an assignment operator, and the comparisons `<=`, `==` and `!=`
carry `BINARY` and not `ASSIGN`.  So in `a >= b;`, after `a` is consumed,
`lexer_if_flags(ASSIGN)` returns 1 and consumes the comparison `>=`; in
`a <= b;` it returns 0 and consumes nothing. -/
theorem keywords_greaterequal_assign :
    (∃ t ∈ punctuators, t.key = cstr ">=") ∧
    (∀ t ∈ punctuators, t.key = cstr ">=" → t.tk_type = TOKEN_GREATEREQUAL ∧
      t.tk_flags &&& TOKEN_FLAG_ASSIGN ≠ 0 ∧ t.tk_flags &&& TOKEN_FLAG_BINARY = 0) ∧
    (∀ t ∈ punctuators, t.key ≠ cstr ">=" →
      (t.tk_flags &&& TOKEN_FLAG_ASSIGN ≠ 0 ↔ t.key ∈ assignment_operators)) ∧
    (∀ t ∈ punctuators, t.key ∈ comparison_operators → t.key ≠ cstr ">=" →
      t.tk_flags &&& TOKEN_FLAG_BINARY ≠ 0 ∧ t.tk_flags &&& TOKEN_FLAG_ASSIGN = 0) ∧
    (∀ k ∈ comparison_operators, ∃ t ∈ punctuators, t.key = k) ∧
    (∃ lx lx0 lx1, lexer_alloc (cstr "a >= b;") = Except.ok (some lx) ∧
      lx.spelling = [(TOKEN_IDENT, cstr "a"), (TOKEN_GREATEREQUAL, cstr ">="),
        (TOKEN_IDENT, cstr "b"), (TOKEN_SEMI, cstr ";"), (TOKEN_EOF, [])] ∧
      lexer_pop lx = Except.ok (lx0, some 0) ∧
      lexer_if_flags lx0 TOKEN_FLAG_ASSIGN = Except.ok (lx1, some 1) ∧
      lx0.lx_st.st_tok = some 0 ∧ lx1.lx_st.st_tok = some 1 ∧
      lx1.kind 1 = some TOKEN_GREATEREQUAL) ∧
    (∃ lx lx0 lx1, lexer_alloc (cstr "a <= b;") = Except.ok (some lx) ∧
      lexer_pop lx = Except.ok (lx0, some 0) ∧
      lexer_if_flags lx0 TOKEN_FLAG_ASSIGN = Except.ok (lx1, none) ∧
      lx0.lx_st.st_tok = some 0 ∧ lx1.lx_st.st_tok = some 0 ∧
      lx1.kind 1 = some TOKEN_LESSEQUAL) := by
  refine ⟨by decide, by decide, by decide, by decide, by decide, ?_, ?_⟩
  · refine ⟨_, _, _, rfl, ?_, rfl, rfl, ?_, ?_, ?_⟩ <;> decide
  · refine ⟨_, _, _, rfl, rfl, rfl, ?_, ?_, ?_⟩ <;> decide

theorem Lexer.noted_none {lx : Lexer} (h : lx.branch_ahead = none) : lx.noted = lx.lx_branch := by
  unfold Lexer.noted
  cases hb : lx.lx_branch with
  | none => exact h
  | some b => rfl

theorem Lexer.ahead_nil {lx : Lexer} (h : lx.lx_tokens = []) : lx.branch_ahead = none := by
  unfold Lexer.branch_ahead
  rw [h]
  cases lx.lx_st.st_tok with
  | none => rfl
  | some cur =>
    dsimp only
    cases lx.lx_heap[cur]? with
    | none => rfl
    | some c =>
      dsimp only
      split
      · rfl
      · rfl

theorem Lexer.ahead_fresh {lx : Lexer} (h : lx.lx_st.st_tok = none) : lx.branch_ahead = none := by
  unfold Lexer.branch_ahead
  rw [h]

theorem Lexer.ahead_eof {lx : Lexer} {cur : Nat} {c : Token} (hcur : lx.lx_st.st_tok = some cur)
    (hc : lx.lx_heap[cur]? = some c) (heof : c.tk_type = TOKEN_EOF) : lx.branch_ahead = none := by
  unfold Lexer.branch_ahead
  rw [hcur]
  dsimp only
  rw [hc]
  dsimp only
  rw [if_pos heof]

theorem Lexer.ahead_next {lx : Lexer} {cur nx : Nat} {c n : Token}
    (hcur : lx.lx_st.st_tok = some cur) (hc : lx.lx_heap[cur]? = some c)
    (heof : c.tk_type ≠ TOKEN_EOF) (hnx : tailq_next lx.lx_tokens cur = some nx)
    (hn : lx.lx_heap[nx]? = some n) :
    lx.branch_ahead = if token_is_branch n true = true then some nx else none := by
  unfold Lexer.branch_ahead
  rw [hcur]
  dsimp only
  rw [hc]
  dsimp only
  rw [if_neg heof, hnx]
  dsimp only
  rw [hn]

theorem deref_ok {heap : List Token} {p : Nat} {t : Token} (h : deref heap p = Except.ok t) :
    heap[p]? = some t := by
  unfold deref at h
  cases hp : heap[p]? with
  | none => rw [hp] at h; cases h
  | some u => rw [hp] at h; cases h; rfl

theorem Lexer.same_cursor (lx : Lexer) :
    lx = { lx with lx_st := { lx.lx_st with st_tok := lx.lx_st.st_tok }, lx_branch := lx.lx_branch } :=
  rfl

theorem lexer_pop_peeking_noted {lx lx1 : Lexer} {t : Option Nat} (hp : 0 < lx.lx_peek)
    (h : lexer_pop lx = Except.ok (lx1, t)) :
    lx1 = { lx with lx_st := { lx.lx_st with st_tok := lx1.lx_st.st_tok },
                    lx_branch := lx.noted } := by
  have hp0 : lx.lx_peek ≠ 0 := by omega
  unfold lexer_pop at h
  simp only [lexer_pop_out] at h
  split at h
  · rename_i hnil
    cases h
    rw [Lexer.noted_none (Lexer.ahead_nil hnil)]
  · split at h
    · rename_i hcur
      cases h
      rw [Lexer.noted_none (Lexer.ahead_fresh hcur)]
    · rename_i cur hcur
      split at h
      · cases h
      · rename_i c hc
        have hc := deref_ok hc
        split at h
        · rename_i heof
          rw [if_neg (fun hh => hp0 hh.1)] at h
          split at h
          · cases h
          · rename_i nx hnx
            split at h
            · cases h
            · rename_i n hn
              have hn := deref_ok hn
              have ha := Lexer.ahead_next hcur hc heof hnx hn
              split at h
              · rename_i hb
                cases h
                rw [hb] at ha
                rw [Lexer.noted_none (by simpa using ha)]
              · rename_i hb
                have hb : token_is_branch n true = true := by simpa using hb
                rw [if_pos hb] at ha
                have hnoted : lx.noted = if lx.lx_branch = none then some nx else lx.lx_branch := by
                  unfold Lexer.noted
                  rw [ha]
                  cases lx.lx_branch <;> simp
                by_cases hbr : lx.lx_branch = none
                · simp only [hbr, if_true] at h hnoted
                  rw [if_neg hp0] at h
                  split at h
                  · cases h
                  · cases h
                    rw [hnoted]
                · simp only [hbr, if_false] at h hnoted
                  rw [if_neg hp0] at h
                  split at h
                  · cases h
                  · cases h
                    rw [hnoted]
        · rename_i heof
          cases h
          rw [Lexer.noted_none (Lexer.ahead_eof hcur hc (by simpa using heof))]

theorem lexer_pop_halts {lx lx1 : Lexer} (hp : lx.lx_peek = 0)
    (h : lexer_pop lx = Except.ok (lx1, none)) :
    (lx1 = lx ∧ (lx.branch_ahead = none ∨ lexer_is_branch lx = Except.ok true)) ∨
    (lexer_is_branch lx = Except.ok false ∧ lx.branch_ahead ≠ none ∧
      lx1 = { lx with lx_st := { lx.lx_st with st_tok := lx.branch_ahead },
                      lx_branch := lx.noted }) := by
  unfold lexer_pop at h
  simp only [lexer_pop_out] at h
  split at h
  · rename_i hnil
    cases h
    exact Or.inl ⟨rfl, Or.inl (Lexer.ahead_nil hnil)⟩
  · rename_i hne
    split at h
    · simp only [Except.ok.injEq, Prod.mk.injEq] at h
      exact absurd (List.head?_eq_none_iff.mp h.2) hne
    · rename_i cur hcur
      split at h
      · cases h
      · rename_i c hd
        have hc := deref_ok hd
        have hib : lexer_is_branch lx = Except.ok (token_is_branch c true) := by
          unfold lexer_is_branch lexer_back
          rw [hcur]
          dsimp only
          rw [hd]
        split at h
        · rename_i heof
          split at h
          · rename_i hb
            cases h
            refine Or.inl ⟨rfl, Or.inr ?_⟩
            rw [hib, hb.2]
          · rename_i hb
            have hcb : token_is_branch c true = false := by
              cases hv : token_is_branch c true with
              | false => rfl
              | true => exact absurd ⟨hp, hv⟩ hb
            split at h
            · cases h
            · rename_i nx hnx
              split at h
              · cases h
              · rename_i n hn
                have hn := deref_ok hn
                have ha := Lexer.ahead_next hcur hc heof hnx hn
                split at h
                · simp only [Except.ok.injEq, Prod.mk.injEq] at h
                  exact absurd h.2 (by simp)
                · rename_i hb
                  have hb : token_is_branch n true = true := by simpa using hb
                  rw [if_pos hb] at ha
                  have hnoted : lx.noted = if lx.lx_branch = none then some nx else lx.lx_branch := by
                    unfold Lexer.noted
                    rw [ha]
                    cases lx.lx_branch <;> simp
                  refine Or.inr ⟨by rw [hib, hcb], by rw [ha]; simp, ?_⟩
                  rw [ha, hnoted]
                  by_cases hbr : lx.lx_branch = none
                  · simp only [hbr, if_true] at h ⊢
                    rw [if_pos hp] at h
                    cases h
                    rfl
                  · simp only [hbr, if_false] at h ⊢
                    rw [if_pos hp] at h
                    cases h
                    rfl
        · simp only [Except.ok.injEq, Prod.mk.injEq] at h
          rw [hcur] at h
          exact absurd h.2 (by simp)

theorem lexer_peek_noted {lx lx1 : Lexer} {t : Option Nat}
    (h : lexer_peek lx = Except.ok (lx1, t)) : lx1 = { lx with lx_branch := lx.noted } := by
  unfold lexer_peek at h
  obtain ⟨⟨lx2, t2⟩, h1, h⟩ := bind_ok h
  obtain ⟨lx3, h2, h⟩ := bind_ok h
  cases h
  have k := lexer_pop_peeking_noted (by simp [lexer_peek_enter]) h1
  unfold lexer_peek_leave at h2
  split at h2
  · cases h2
    rw [k]
    simp only [lexer_peek_enter]
    have : lx.lx_peek + 1 - 1 = lx.lx_peek := by omega
    rw [this]
    rfl
  · cases h2

theorem lexer_peek_if_noted {lx lx1 : Lexer} {type : TokenType} {t : Option Nat}
    (h : lexer_peek_if lx type = Except.ok (lx1, t)) :
    lx1 = { lx with lx_branch := lx.noted } ∧ ∀ p, t = some p → lx.kind p = some type := by
  unfold lexer_peek_if at h
  obtain ⟨⟨lx2, t2⟩, h1, h⟩ := bind_ok h
  have k1 := lexer_peek_noted h1
  cases t2 with
  | none =>
    cases h
    exact ⟨k1, fun p hp => by cases hp⟩
  | some p =>
    obtain ⟨tok, hd, h⟩ := bind_ok h
    have hd := deref_ok hd
    split at h
    · rename_i hty
      cases h
      refine ⟨k1, fun q hq => ?_⟩
      cases hq
      have hh : lx.lx_heap[p]? = some tok := by
        rw [k1] at hd
        exact hd
      unfold Lexer.kind
      rw [hh]
      simp [hty]
    · cases h
      exact ⟨k1, fun p hp => by cases hp⟩

theorem Lexer.noted_noted (lx : Lexer) :
    Lexer.noted { lx with lx_branch := lx.noted } = lx.noted := by
  unfold Lexer.noted
  cases hb : lx.lx_branch with
  | some b => rfl
  | none =>
    dsimp only
    cases ha : lx.branch_ahead with
    | none => exact ha
    | some nx => rfl

/-- C31, the code against the claim: in `f`, `#if A`, `int x;`, `#else`,
`long x;`, `#endif`, four calls of `lexer_pop` make the `;` of the first
alternative the current token, at peek depth 0 and with no branch pending.
There `lexer_if(TOKEN_EOF)` returns 0 (the peek glides over the branch to
`EOF`, the pop halts on the branch token `long`), and afterwards the current
token is `long` and `long` is the pending branch.  `lexer_if(TOKEN_RBRACE)`
returns 0 as well, keeps the current token and makes `long` the pending
branch.  The error counter stays 0 in both calls. -/
theorem lexer_if_parks_on_branch :
    ∃ lx lx0 lx1 lx2, lexer_alloc seek_example = Except.ok (some lx) ∧
      run_calls lx [CursorCall.pop, CursorCall.pop, CursorCall.pop, CursorCall.pop] =
        Except.ok lx0 ∧
      lx0.lx_peek = 0 ∧ lx0.lx_st.st_tok = some 3 ∧ lx0.lx_branch = none ∧
      lx0.lx_st.st_err = 0 ∧
      lexer_if lx0 TOKEN_EOF = Except.ok (lx1, false, some 7) ∧
      lx1.lx_st.st_tok = some 4 ∧ lx1.lx_branch = some 4 ∧ lx1.lx_st.st_err = 0 ∧
      lexer_if lx0 TOKEN_RBRACE = Except.ok (lx2, false, none) ∧
      lx2.lx_st.st_tok = some 3 ∧ lx2.lx_branch = some 4 ∧ lx2.lx_st.st_err = 0 ∧
      lx0.kind 3 = some TOKEN_SEMI ∧ lx0.kind 4 = some TOKEN_LONG ∧
      lx0.kind 7 = some TOKEN_EOF := by
  refine ⟨_, _, _, _, rfl, rfl, ?_, ?_, ?_, ?_, rfl, ?_, ?_, ?_, rfl, ?_, ?_, ?_, ?_, ?_, ?_⟩ <;>
    decide

/-- C31: when `lexer_if(type)` returns 0 at peek depth 0, the error counter
is the same as before the call, and so is everything else but the current
token and the pending branch.  The pending branch is the one that was
pending and, when none was, the fully linked branch token right after the
current token, if there is one: the peek of `lexer_if` takes note of it.  The
current token is that branch token when the peek found a token of the kind
asked for (the last alternative of the branch) and the current token is not
itself a fully linked branch: the pop halts on the branch.  In all other
cases the current token is the same; with no fully linked branch token right
after the current token, the lexer is the same. -/
theorem lexer_if_fails (lx lx1 : Lexer) (type : TokenType) (tk : Option Nat)
    (hp : lx.lx_peek = 0) (h : lexer_if lx type = Except.ok (lx1, false, tk)) :
    lx1.lx_st.st_err = lx.lx_st.st_err ∧
    lx1 = { lx with lx_st := { lx.lx_st with st_tok := lx1.lx_st.st_tok },
                    lx_branch := lx1.lx_branch } ∧
    lx1.lx_branch = (match lx.lx_branch with
      | some b => some b
      | none => lx.branch_ahead) ∧
    (tk ≠ none → lexer_is_branch lx = Except.ok false → lx.branch_ahead ≠ none →
      lx1.lx_st.st_tok = lx.branch_ahead) ∧
    (tk = none ∨ lexer_is_branch lx ≠ Except.ok false ∨ lx.branch_ahead = none →
      lx1.lx_st.st_tok = lx.lx_st.st_tok) ∧
    (lx.branch_ahead = none → lx1 = lx) ∧
    (∀ p, tk = some p → lx.kind p = some type) := by
  unfold lexer_if at h
  obtain ⟨⟨lx2, t2⟩, h1, h⟩ := bind_ok h
  obtain ⟨k1, k2⟩ := lexer_peek_if_noted h1
  have hnone : lx.branch_ahead = none → ({ lx with lx_branch := lx.noted } : Lexer) = lx := by
    intro ha
    rw [Lexer.noted_none ha]
  cases t2 with
  | none =>
    cases h
    rw [k1]
    refine ⟨rfl, rfl, rfl, fun hh => absurd rfl hh, fun _ => rfl, hnone, fun p hh => by cases hh⟩
  | some p =>
    obtain ⟨⟨lx3, t3⟩, h2, h⟩ := bind_ok h
    cases t3 with
    | some q => cases h
    | none =>
      cases h
      rw [k1] at h2
      rcases @lexer_pop_halts { lx with lx_branch := lx.noted } lx1 hp h2 with ⟨e, hc⟩ | ⟨hb, ha, e⟩
      · have hc : lx.branch_ahead = none ∨ lexer_is_branch lx = Except.ok true := hc
        rw [e]
        refine ⟨rfl, rfl, rfl, ?_, fun _ => rfl, hnone, k2⟩
        intro _ hb ha
        rcases hc with hc | hc
        · exact absurd hc ha
        · rw [hc] at hb
          cases hb
      · have hb : lexer_is_branch lx = Except.ok false := hb
        have ha : lx.branch_ahead ≠ none := ha
        have hn := Lexer.noted_noted lx
        rw [hn] at e
        have e : lx1 = { lx with lx_st := { lx.lx_st with st_tok := lx.branch_ahead },
                                 lx_branch := lx.noted } := e
        rw [e]
        refine ⟨rfl, rfl, rfl, fun _ _ _ => rfl, ?_, ?_, k2⟩
        · intro hh
          rcases hh with hh | hh | hh
          · cases hh
          · exact absurd hb hh
          · exact absurd hh ha
        · intro hh
          exact absurd hh ha

theorem lexer_if_fails_witness :
    (lexer_of seek_example).lx_peek = 0 ∧
    ∃ lx1, lexer_if ((lexer_of seek_example).at 3) TOKEN_EOF = Except.ok (lx1, false, some 7) ∧
      lx1.lx_st.st_err = 0 ∧ lx1.lx_branch = some 4 ∧ lx1.lx_st.st_tok = some 4 ∧
      ((lexer_of seek_example).at 3).branch_ahead = some 4 :=
  ⟨by decide, _, rfl,
    (lexer_if_fails ((lexer_of seek_example).at 3) _ TOKEN_EOF (some 7) (by decide) rfl).1,
    (lexer_if_fails ((lexer_of seek_example).at 3) _ TOKEN_EOF (some 7) (by decide) rfl).2.2.1,
    (lexer_if_fails ((lexer_of seek_example).at 3) _ TOKEN_EOF (some 7) (by decide) rfl).2.2.2.1
      (by decide) rfl (by decide),
    by decide⟩

theorem Idle.idle_refl (lx : Lexer) : Idle lx lx := ⟨rfl, rfl⟩

theorem Idle.idle_trans {a b c : Lexer} (h1 : Idle a b) (h2 : Idle b c) : Idle a c :=
  ⟨h2.peek.trans h1.peek, h2.tok.trans h1.tok⟩

theorem Idle.idle_restore {a b : Lexer} (h : Idle a b) :
    Idle a { b with lx_st := a.lx_st } := ⟨h.peek, rfl⟩

theorem Idle.of_heap {a b : Lexer} (h : Idle a b) (heap : List Token) :
    Idle a { b with lx_heap := heap } := ⟨h.peek, h.tok⟩

theorem lexer_getc_idle {lx lx1 : Lexer} {ch : Option Nat}
    (h : lexer_getc lx = Except.ok (lx1, ch)) : Idle lx lx1 := by
  unfold lexer_getc at h
  repeat' split at h
  all_goals first
    | (cases h; done)
    | (cases h; exact ⟨rfl, rfl⟩)

theorem lexer_ungetc_idle {lx lx1 : Lexer}
    (h : lexer_ungetc lx = Except.ok lx1) : Idle lx lx1 := by
  unfold lexer_ungetc at h
  repeat' split at h
  all_goals first
    | (cases h; done)
    | (cases h; exact ⟨rfl, rfl⟩)

theorem lexer_emit_idle (lx : Lexer) (st : LexerState) (tk : Token) :
    Idle lx (lexer_emit lx st tk).1 := by
  cases he : lexer_emit lx st tk with
  | mk lx1 ref =>
    cases ref with
    | loose d =>
      obtain ⟨rfl, _⟩ := lexer_emit_loose he
      exact ⟨rfl, rfl⟩
    | linked q =>
      obtain ⟨_, t, rfl, _⟩ := lexer_emit_linked he
      exact ⟨rfl, rfl⟩

theorem lexer_eat_lines_loop_idle : ∀ (fuel : Nat) (lx lx1 : Lexer) (n n1 : Nat),
    lexer_eat_lines_loop fuel lx n = Except.ok (lx1, n1) → Idle lx lx1 := by
  intro fuel
  induction fuel with
  | zero => intro lx lx1 n n1 h; cases h
  | succ f ih =>
    intro lx lx1 n n1 h
    unfold lexer_eat_lines_loop at h
    obtain ⟨⟨lx2, ch⟩, h1, h⟩ := bind_ok h
    have k1 := lexer_getc_idle h1
    cases ch with
    | none => cases h; exact k1
    | some c =>
      dsimp only at h
      split at h
      · exact k1.idle_trans (ih _ _ _ _ h)
      · obtain ⟨lx3, h3, h⟩ := bind_ok h
        cases h
        exact k1.idle_trans (lexer_ungetc_idle h3)

theorem lexer_eat_lines_idle {lx lx1 : Lexer} {emit : Bool} {r : Option TokRef}
    (h : lexer_eat_lines lx emit = Except.ok (lx1, r)) : Idle lx lx1 := by
  unfold lexer_eat_lines at h
  obtain ⟨⟨lx2, n⟩, h1, h⟩ := bind_ok h
  have k1 := lexer_eat_lines_loop_idle _ _ _ _ _ h1
  dsimp only at h
  split at h
  · cases h; exact k1
  · split at h
    · cases h
      exact k1.idle_trans (lexer_emit_idle _ _ _)
    · cases h; exact k1

theorem lexer_eat_space_loop_idle (newline : Bool) :
    ∀ (fuel : Nat) (lx lx1 : Lexer) (more : Bool),
    lexer_eat_space_loop newline fuel lx = Except.ok (lx1, more) → Idle lx lx1 := by
  intro fuel
  induction fuel with
  | zero => intro lx lx1 more h; cases h
  | succ f ih =>
    intro lx lx1 more h
    unfold lexer_eat_space_loop at h
    obtain ⟨⟨lx2, ch⟩, h1, h⟩ := bind_ok h
    have k1 := lexer_getc_idle h1
    cases ch with
    | none => cases h; exact k1
    | some c =>
      dsimp only at h
      split at h
      · exact k1.idle_trans (ih _ _ _ h)
      · cases h; exact k1

theorem lexer_eat_space_idle {lx lx1 : Lexer} {newline emit : Bool} {r : Option TokRef}
    (h : lexer_eat_space lx newline emit = Except.ok (lx1, r)) : Idle lx lx1 := by
  unfold lexer_eat_space at h
  obtain ⟨⟨lx2, more⟩, h1, h⟩ := bind_ok h
  have k1 := lexer_eat_space_loop_idle _ _ _ _ _ h1
  dsimp only at h
  split at h
  · cases h; exact k1
  · obtain ⟨lx3, h3, h⟩ := bind_ok h
    have k3 := k1.idle_trans (lexer_ungetc_idle h3)
    split at h
    · cases h; exact k3
    · cases h
      exact k3.idle_trans (lexer_emit_idle _ _ _)

theorem lexer_ellipsis_idle {lx lx1 : Lexer} {st : LexerState} {r : Option Token}
    (h : lexer_ellipsis lx st = Except.ok (lx1, r)) : Idle lx lx1 := by
  unfold lexer_ellipsis at h
  dsimp only at h
  split at h
  · cases h; exact ⟨rfl, rfl⟩
  · obtain ⟨⟨lx2, ch⟩, h2, h⟩ := bind_ok h
    have k2 := lexer_getc_idle h2
    dsimp only at h
    split at h
    · cases h; exact k2.idle_restore
    · split at h
      · cases h; exact k2.idle_restore
      · obtain ⟨⟨lx3, ch3⟩, h3, h⟩ := bind_ok h
        have k3 := k2.idle_trans (lexer_getc_idle h3)
        dsimp only at h
        split at h
        · cases h; exact k3.idle_restore
        · cases h; exact k3

theorem lexer_keyword_loop_idle (st : LexerState) :
    ∀ (fuel : Nat) (lx lx1 : Lexer) (pv r : Option Token),
      lexer_keyword_loop st fuel lx pv = Except.ok (lx1, r) → Idle lx lx1 := by
  intro fuel
  induction fuel with
  | zero => intro lx lx1 pv r h; cases h
  | succ f ih =>
    intro lx lx1 pv r h
    unfold lexer_keyword_loop at h
    split at h
    · obtain ⟨lx2, h2, h⟩ := bind_ok h
      cases h
      exact lexer_ungetc_idle h2
    · split at h
      · cases h; exact Idle.idle_refl _
      · obtain ⟨⟨lx2, e⟩, h2, h⟩ := bind_ok h
        have k2 : Idle lx lx2 := by
          split at h2
          · exact lexer_ellipsis_idle h2
          · cases h2; exact Idle.idle_refl _
        cases e with
        | some e => cases h; exact k2
        | none =>
          obtain ⟨⟨lx3, ch⟩, h3, h⟩ := bind_ok h
          have k3 := k2.idle_trans (lexer_getc_idle h3)
          cases ch with
          | none => cases h; exact k3
          | some c => exact k3.idle_trans (ih _ _ _ _ h)

theorem lexer_keyword_idle {lx lx1 : Lexer} {r : Option Keyword}
    (h : lexer_keyword lx = Except.ok (lx1, r)) : Idle lx lx1 := by
  unfold lexer_keyword at h
  obtain ⟨⟨lx2, ch⟩, h2, h⟩ := bind_ok h
  have k2 := lexer_getc_idle h2
  cases ch with
  | none => cases h; exact k2
  | some c =>
    obtain ⟨⟨lx3, tk⟩, h3, h⟩ := bind_ok h
    have k3 := k2.idle_trans (lexer_keyword_loop_idle _ _ _ _ _ _ h3)
    cases tk with
    | none => cases h; exact k3.idle_restore
    | some tk =>
      dsimp only at h
      split at h
      · cases h; exact k3
      · cases h
        exact k3.idle_trans (lexer_emit_idle _ _ _)

theorem lexer_comment_body_idle (cstyle : Bool) : ∀ (fuel : Nat) (lx lx1 : Lexer) (ch : Nat),
    lexer_comment_body cstyle fuel lx ch = Except.ok lx1 → Idle lx lx1 := by
  intro fuel
  induction fuel with
  | zero => intro lx lx1 ch h; cases h
  | succ f ih =>
    intro lx lx1 ch h
    unfold lexer_comment_body at h
    obtain ⟨⟨lx2, peek⟩, h2, h⟩ := bind_ok h
    have k2 := lexer_getc_idle h2
    cases peek with
    | none => cases h; exact k2
    | some c =>
      dsimp only at h
      split at h
      · split at h
        · cases h; exact k2
        · exact k2.idle_trans (ih _ _ _ h)
      · split at h
        · exact k2.idle_trans (lexer_ungetc_idle h)
        · exact k2.idle_trans (ih _ _ _ h)

theorem lexer_comment_loop_idle (block : Bool) : ∀ (fuel : Nat) (lx lx1 : Lexer) (n n1 : Nat),
    lexer_comment_loop block fuel lx n = Except.ok (lx1, n1) → Idle lx lx1 := by
  intro fuel
  induction fuel with
  | zero => intro lx lx1 n n1 h; cases h
  | succ f ih =>
    intro lx lx1 n n1 h
    unfold lexer_comment_loop at h
    obtain ⟨⟨lx2, r2⟩, h2, h⟩ := bind_ok h
    have k2 := lexer_eat_space_idle h2
    obtain ⟨⟨lx3, ch⟩, h3, h⟩ := bind_ok h
    have k3 := k2.idle_trans (lexer_getc_idle h3)
    dsimp only at h
    split at h
    · cases h; exact k3.idle_restore
    · obtain ⟨⟨lx4, ch4⟩, h4, h⟩ := bind_ok h
      have k4 := k3.idle_trans (lexer_getc_idle h4)
      dsimp only at h
      split at h
      · cases h; exact k4.idle_restore
      · obtain ⟨lx5, h5, h⟩ := bind_ok h
        have k5 := k4.idle_trans (lexer_comment_body_idle _ _ _ _ _ h5)
        split at h
        · cases h; exact k5
        · exact k5.idle_trans (ih _ _ _ _ h)

theorem lexer_comment_idle {lx lx1 : Lexer} {block : Bool} {r : Option TokRef}
    (h : lexer_comment lx block = Except.ok (lx1, r)) : Idle lx lx1 := by
  unfold lexer_comment at h
  obtain ⟨⟨lx2, n⟩, h2, h⟩ := bind_ok h
  have k2 := lexer_comment_loop_idle _ _ _ _ _ _ h2
  dsimp only at h
  split at h
  · cases h; exact k2
  · obtain ⟨lx3, h3, h⟩ := bind_ok h
    have k3 : Idle lx lx3 := by
      split at h3
      · obtain ⟨⟨lx4, r4⟩, h4, h3⟩ := bind_ok h3
        obtain ⟨⟨lx5, r5⟩, h5, h3⟩ := bind_ok h3
        cases h3
        exact k2.idle_trans ((lexer_eat_space_idle h4).idle_trans (lexer_eat_lines_idle h5))
      · cases h3; exact k2
    cases h
    exact k3.idle_trans (lexer_emit_idle _ _ _)

theorem lexer_cpp_line_idle : ∀ (fuel : Nat) (lx lx1 : Lexer) (ch : Nat) (comment : Bool),
    lexer_cpp_line fuel lx ch comment = Except.ok lx1 → Idle lx lx1 := by
  intro fuel
  induction fuel with
  | zero => intro lx lx1 ch comment h; cases h
  | succ f ih =>
    intro lx lx1 ch comment h
    unfold lexer_cpp_line at h
    obtain ⟨⟨lx2, peek⟩, h2, h⟩ := bind_ok h
    have k2 := lexer_getc_idle h2
    cases peek with
    | none => cases h; exact k2
    | some c =>
      dsimp only at h
      repeat' split at h
      all_goals first
        | (cases h; exact k2)
        | exact k2.idle_trans (ih _ _ _ _ h)

theorem lexer_cpp_loop_idle : ∀ (fuel : Nat) (lx lx1 : Lexer) (ncpp : Nat) (off : Int)
    (r : TokenType × Nat),
    lexer_cpp_loop fuel lx ncpp off = Except.ok (lx1, r) → Idle lx lx1 := by
  intro fuel
  induction fuel with
  | zero => intro lx lx1 ncpp off r h; cases h
  | succ f ih =>
    intro lx lx1 ncpp off r h
    unfold lexer_cpp_loop at h
    obtain ⟨⟨lx2, r2⟩, h2, h⟩ := bind_ok h
    have k2 := lexer_eat_space_idle h2
    obtain ⟨⟨lx3, ch⟩, h3, h⟩ := bind_ok h
    have k3 := k2.idle_trans (lexer_getc_idle h3)
    cases ch with
    | none => cases h; exact k3.idle_restore
    | some c =>
      dsimp only at h
      split at h
      · cases h; exact k3.idle_restore
      · obtain ⟨lx4, h4, h⟩ := bind_ok h
        have k4 := k3.idle_trans (lexer_cpp_line_idle _ _ _ _ _ h4)
        repeat' split at h
        all_goals first
          | (cases h; exact k4)
          | exact k4.idle_trans (ih _ _ _ _ _ h)

theorem lexer_cpp_idle {lx lx1 : Lexer} {r : Option TokRef}
    (h : lexer_cpp lx = Except.ok (lx1, r)) : Idle lx lx1 := by
  unfold lexer_cpp at h
  obtain ⟨⟨lx2, type, ncpp⟩, h2, h⟩ := bind_ok h
  have k2 := lexer_cpp_loop_idle _ _ _ _ _ _ h2
  dsimp only at h
  split at h
  · cases h; exact k2
  · obtain ⟨⟨lx3, r3⟩, h3, h⟩ := bind_ok h
    have k3 := k2.idle_trans (lexer_eat_lines_idle h3)
    cases h
    exact k3.idle_trans (lexer_emit_idle _ _ _)

theorem lexer_read_dangling_idle : ∀ (fuel : Nat) (lx lx1 : Lexer) (D D1 : List Dangling),
    lexer_read_dangling fuel lx D = Except.ok (lx1, D1) → Idle lx lx1 := by
  intro fuel
  induction fuel with
  | zero => intro lx lx1 D D1 h; cases h
  | succ f ih =>
    intro lx lx1 D D1 h
    unfold lexer_read_dangling at h
    obtain ⟨⟨lx2, tmp⟩, h2, h⟩ := bind_ok h
    have k2 := lexer_comment_idle h2
    cases tmp with
    | some t =>
      obtain ⟨d, _, h⟩ := bind_ok h
      exact k2.idle_trans (ih _ _ _ _ h)
    | none =>
      obtain ⟨⟨lx3, tmp3⟩, h3, h⟩ := bind_ok h
      have k3 := k2.idle_trans (lexer_cpp_idle h3)
      cases tmp3 with
      | some t =>
        obtain ⟨d, _, h⟩ := bind_ok h
        exact k3.idle_trans (ih _ _ _ _ h)
      | none =>
        cases h
        exact k3

theorem lexer_read_keyword_idle : ∀ (fuel : Nat) (lx lx1 : Lexer) (r : Option Nat),
    lexer_read_keyword fuel lx = Except.ok (lx1, r) → Idle lx lx1 := by
  intro fuel
  induction fuel with
  | zero => intro lx lx1 r h; cases h
  | succ f ih =>
    intro lx lx1 r h
    unfold lexer_read_keyword at h
    obtain ⟨⟨lx2, r2⟩, h2, h⟩ := bind_ok h
    have k2 := lexer_eat_space_idle h2
    obtain ⟨⟨lx3, kw⟩, h3, h⟩ := bind_ok h
    have k3 := k2.idle_trans (lexer_keyword_idle h3)
    cases kw with
    | none =>
      cases h
      exact k3
    | some kw =>
      cases kw with
      | discard tk =>
        dsimp only at h
        split at h
        · exact k3.idle_trans (ih _ _ _ h)
        · cases h
      | emitted ref =>
        obtain ⟨p, _, h⟩ := bind_ok h
        obtain ⟨tok, _, h⟩ := bind_ok h
        split at h
        · exact k3.idle_trans (ih _ _ _ h)
        · cases h
          exact k3

theorem lexer_read_string_idle (delim : Nat) : ∀ (fuel : Nat) (lx lx1 : Lexer) (pch : Nat)
    (r : Bool), lexer_read_string delim fuel lx pch = Except.ok (lx1, r) → Idle lx lx1 := by
  intro fuel
  induction fuel with
  | zero => intro lx lx1 pch r h; cases h
  | succ f ih =>
    intro lx lx1 pch r h
    unfold lexer_read_string at h
    obtain ⟨⟨lx2, ch⟩, h2, h⟩ := bind_ok h
    have k2 := lexer_getc_idle h2
    cases ch with
    | none => cases h; exact k2
    | some c =>
      dsimp only at h
      repeat' split at h
      all_goals first
        | (cases h; exact k2)
        | exact k2.idle_trans (ih _ _ _ _ h)

theorem lexer_read_number_idle : ∀ (fuel : Nat) (lx lx1 : Lexer) (r : Bool),
    lexer_read_number fuel lx = Except.ok (lx1, r) → Idle lx lx1 := by
  intro fuel
  induction fuel with
  | zero => intro lx lx1 r h; cases h
  | succ f ih =>
    intro lx lx1 r h
    unfold lexer_read_number at h
    obtain ⟨⟨lx2, ch⟩, h2, h⟩ := bind_ok h
    have k2 := lexer_getc_idle h2
    cases ch with
    | none => cases h; exact k2
    | some c =>
      dsimp only at h
      split at h
      · exact k2.idle_trans (ih _ _ _ h)
      · cases h; exact k2

theorem lexer_read_ident_idle : ∀ (fuel : Nat) (lx lx1 : Lexer) (ch : Nat) (r : Bool),
    lexer_read_ident fuel lx ch = Except.ok (lx1, r) → Idle lx lx1 := by
  intro fuel
  induction fuel with
  | zero => intro lx lx1 ch r h; cases h
  | succ f ih =>
    intro lx lx1 ch r h
    unfold lexer_read_ident at h
    split at h
    · obtain ⟨⟨lx2, ch2⟩, h2, h⟩ := bind_ok h
      have k2 := lexer_getc_idle h2
      cases ch2 with
      | none => cases h; exact k2
      | some c => exact k2.idle_trans (ih _ _ _ _ h)
    · cases h; exact Idle.idle_refl _

theorem lexer_branch_enter_idle {lx lx1 : Lexer} {tk : Nat}
    (h : lexer_branch_enter lx tk = Except.ok lx1) : Idle lx lx1 := by
  unfold lexer_branch_enter at h
  obtain ⟨t, _, h⟩ := bind_ok h
  obtain ⟨heap, _, h⟩ := bind_ok h
  cases h
  exact ⟨rfl, rfl⟩

theorem lexer_branch_leave_idle {lx lx1 : Lexer} {tk : Nat}
    (h : lexer_branch_leave lx tk = Except.ok lx1) : Idle lx lx1 := by
  unfold lexer_branch_leave at h
  split at h
  · cases h
  · cases h; exact ⟨rfl, rfl⟩

theorem lexer_branch_link_idle {lx lx1 : Lexer} {tk : Nat}
    (h : lexer_branch_link lx tk = Except.ok lx1) : Idle lx lx1 := by
  unfold lexer_branch_link at h
  split at h
  · cases h
  · split at h
    · cases h; exact Idle.idle_refl _
    · obtain ⟨heap2, _, h⟩ := bind_ok h
      obtain ⟨heap3, _, h⟩ := bind_ok h
      cases h
      exact ⟨rfl, rfl⟩

theorem lexer_read_branches_idle (tk : Nat) : ∀ (l : List Dangling) (lx lx1 : Lexer),
    lexer_read_branches tk lx l = Except.ok lx1 → Idle lx lx1 := by
  intro l
  induction l with
  | nil => intro lx lx1 h; cases h; exact Idle.idle_refl _
  | cons d rest ih =>
    intro lx lx1 h
    unfold lexer_read_branches at h
    split at h
    · obtain ⟨lx2, h2, h⟩ := bind_ok h
      exact (lexer_branch_enter_idle h2).idle_trans (ih _ _ h)
    · split at h
      · obtain ⟨lx2, h2, h⟩ := bind_ok h
        exact (lexer_branch_link_idle h2).idle_trans (ih _ _ h)
      · split at h
        · obtain ⟨lx2, h2, h⟩ := bind_ok h
          obtain ⟨lx3, h3, h⟩ := bind_ok h
          exact ((lexer_branch_link_idle h2).idle_trans (lexer_branch_leave_idle h3)).idle_trans
            (ih _ _ h)
        · exact ih _ _ h

theorem lexer_read_suffixes_idle : ∀ (fuel : Nat) (lx lx1 : Lexer) (tk : Nat),
    lexer_read_suffixes fuel lx tk = Except.ok lx1 → Idle lx lx1 := by
  intro fuel
  induction fuel with
  | zero => intro lx lx1 tk h; cases h
  | succ f ih =>
    intro lx lx1 tk h
    unfold lexer_read_suffixes at h
    obtain ⟨⟨lx2, tmp⟩, h2, h⟩ := bind_ok h
    have k2 := lexer_comment_idle h2
    cases tmp with
    | none => cases h; exact k2
    | some r =>
      obtain ⟨d, _, h⟩ := bind_ok h
      obtain ⟨heap3, _, h⟩ := bind_ok h
      exact (k2.of_heap heap3).idle_trans (ih _ _ _ h)

theorem lexer_read_out_idle {lx lx1 : Lexer} {tk : Nat} {D : List Dangling}
    (h : lexer_read_out lx tk D = Except.ok lx1) : Idle lx lx1 := by
  unfold lexer_read_out at h
  obtain ⟨heap2, _, h⟩ := bind_ok h
  obtain ⟨lx3, h3, h⟩ := bind_ok h
  have k3 := ((Idle.idle_refl lx).of_heap heap2).idle_trans (lexer_read_suffixes_idle _ _ _ _ h3)
  obtain ⟨⟨lx4, tmp⟩, h4, h⟩ := bind_ok h
  have k4 := k3.idle_trans (lexer_eat_lines_idle h4)
  obtain ⟨lx5, h5, h⟩ := bind_ok h
  obtain ⟨t5, _, h⟩ := bind_ok h
  have k6 := lexer_read_branches_idle _ _ _ _ h
  have k5 : Idle lx lx5 := by
    cases tmp with
    | none => cases h5; exact k4
    | some r =>
      obtain ⟨d, _, h5⟩ := bind_ok h5
      obtain ⟨heap6, _, h5⟩ := bind_ok h5
      cases h5
      exact k4.of_heap heap6
  exact k5.idle_trans k6

theorem lexer_read_emit_idle {lx lx1 : Lexer} {st : LexerState} {tmpl : Token}
    {D : List Dangling} {p : Nat}
    (h : lexer_read_emit lx st tmpl D = Except.ok (lx1, p)) : Idle lx lx1 := by
  unfold lexer_read_emit at h
  have k1 := lexer_emit_idle lx st tmpl
  obtain ⟨q, _, h⟩ := bind_ok h
  obtain ⟨lx2, h2, h⟩ := bind_ok h
  cases h
  exact k1.idle_trans (lexer_read_out_idle h2)

theorem lexer_read_idle {lx lx1 : Lexer} {r : Bool} {p : Nat}
    (h : lexer_read lx = Except.ok (lx1, r, p)) : Idle lx lx1 := by
  unfold lexer_read at h
  dsimp only at h
  split at h
  · obtain ⟨⟨lx2, q⟩, h2, ha⟩ := bind_ok h
    cases ha
    exact lexer_read_emit_idle h2
  · obtain ⟨⟨lxd, D⟩, hd, ha⟩ := bind_ok h
    have kd := lexer_read_dangling_idle _ _ _ _ _ hd
    obtain ⟨⟨lxk, kw⟩, hk, hb⟩ := bind_ok ha
    have kk := kd.idle_trans (lexer_read_keyword_idle _ _ _ _ hk)
    cases kw with
    | some q =>
      obtain ⟨lx3, h3, hc⟩ := bind_ok hb
      cases hc
      exact kk.idle_trans (lexer_read_out_idle h3)
    | none =>
      obtain ⟨⟨lxa, ch⟩, hga, hc⟩ := bind_ok hb
      have ka := kk.idle_trans (lexer_getc_idle hga)
      have emit : ∀ (lxe : Lexer) (st : LexerState) (tmpl : Token) (q : Nat) (lxf : Lexer),
          Idle lx lxe → lexer_read_emit lxe st tmpl D = Except.ok (lxf, q) → Idle lx lxf :=
        fun _ _ _ _ _ hse he => hse.idle_trans (lexer_read_emit_idle he)
      cases ch with
      | none =>
        obtain ⟨⟨lxf, q⟩, he, hg⟩ := bind_ok hc
        cases hg
        exact emit _ _ _ _ _ ka he
      | some c =>
        obtain ⟨⟨lxb, c2⟩, hlb, hd1⟩ := bind_ok hc
        have kb : Idle lx lxb := by
          split at hlb
          · obtain ⟨⟨lxp, peek⟩, hp, hlb⟩ := bind_ok hlb
            have kp := ka.idle_trans (lexer_getc_idle hp)
            dsimp only at hlb
            split at hlb
            · cases hlb; exact kp
            · obtain ⟨lxu, hu, hlb⟩ := bind_ok hlb
              cases hlb
              exact kp.idle_trans (lexer_ungetc_idle hu)
          · cases hlb; exact ka
        dsimp only at hd1
        split at hd1
        · obtain ⟨⟨lxc, closed⟩, hs1, hd2⟩ := bind_ok hd1
          have kc := kb.idle_trans (lexer_read_string_idle _ _ _ _ _ _ hs1)
          obtain ⟨⟨lxf, q⟩, he, hg⟩ := bind_ok hd2
          cases hg
          exact emit _ _ _ _ _ kc he
        · split at hd1
          · obtain ⟨⟨lxc, more⟩, hs1, hd2⟩ := bind_ok hd1
            have kc := kb.idle_trans (lexer_read_number_idle _ _ _ _ hs1)
            dsimp only at hd2
            split at hd2
            · obtain ⟨⟨lxf, q⟩, he, hg⟩ := bind_ok hd2
              cases hg
              exact emit _ _ _ _ _ kc he
            · obtain ⟨lxu, hu, hd3⟩ := bind_ok hd2
              have ku := kc.idle_trans (lexer_ungetc_idle hu)
              obtain ⟨⟨lxf, q⟩, he, hg⟩ := bind_ok hd3
              cases hg
              exact emit _ _ _ _ _ ku he
          · split at hd1
            · obtain ⟨⟨lxc, more⟩, hs1, hd2⟩ := bind_ok hd1
              have kc := kb.idle_trans (lexer_read_ident_idle _ _ _ _ _ hs1)
              dsimp only at hd2
              split at hd2
              · obtain ⟨⟨lxf, q⟩, he, hg⟩ := bind_ok hd2
                cases hg
                exact emit _ _ _ _ _ kc he
              · obtain ⟨lxu, hu, hd3⟩ := bind_ok hd2
                have ku := kc.idle_trans (lexer_ungetc_idle hu)
                obtain ⟨⟨lxf, q⟩, he, hg⟩ := bind_ok hd3
                cases hg
                exact emit _ _ _ _ _ ku he
            · obtain ⟨⟨lxf, q⟩, he, hg⟩ := bind_ok hd1
              cases hg
              exact emit _ _ _ _ _ kb he

theorem lexer_alloc_loop_idle : ∀ (fuel : Nat) (lx lx1 : Lexer) (err : Bool),
    lexer_alloc_loop fuel lx = Except.ok (lx1, err) → Idle lx lx1 := by
  intro fuel
  induction fuel with
  | zero => intro lx lx1 err h; cases h
  | succ f ih =>
    intro lx lx1 err h
    unfold lexer_alloc_loop at h
    obtain ⟨⟨lx2, ok, tk⟩, h2, ha⟩ := bind_ok h
    have k2 := lexer_read_idle h2
    dsimp only at ha
    split at ha
    · cases ha; exact k2
    · obtain ⟨tok, _, hb⟩ := bind_ok ha
      split at hb
      · cases hb; exact k2
      · exact k2.idle_trans (ih _ _ _ hb)

theorem lexer_alloc_loop_ended : ∀ (fuel : Nat) (lx lx1 : Lexer),
    lexer_alloc_loop fuel lx = Except.ok (lx1, false) → Ended lx1 := by
  intro fuel
  induction fuel with
  | zero => intro lx lx1 h; cases h
  | succ f ih =>
    intro lx lx1 h
    unfold lexer_alloc_loop at h
    obtain ⟨⟨lx2, ok, tk⟩, h2, ha⟩ := bind_ok h
    obtain ⟨t, ht⟩ := lexer_read_step h2
    dsimp only at ha
    split at ha
    · cases ha
    · obtain ⟨tok, hd, hb⟩ := bind_ok ha
      have hd := deref_ok hd
      split at hb
      · rename_i hty
        cases hb
        refine ⟨tk, ?_, ?_⟩
        · rw [ht.tokens]
          simp
        · unfold Lexer.kind
          rw [hd]
          simp [hty]
      · exact ih _ _ hb

theorem lexer_alloc_fresh {bf : List Nat} {lx : Lexer}
    (h : lexer_alloc bf = Except.ok (some lx)) :
    lx.lx_peek = 0 ∧ lx.lx_st.st_tok = none ∧ lx.lx_branch = none ∧
      lx.lx_tokens = List.range lx.lx_heap.length ∧ Ended lx := by
  unfold lexer_alloc at h
  obtain ⟨⟨lx1, err⟩, h1, ha⟩ := bind_ok h
  have ki := lexer_alloc_loop_idle _ _ _ _ h1
  obtain ⟨ts, hheap, _, htok, _⟩ := lexer_alloc_loop_steps _ _ _ _ h1
  dsimp only at ha
  split at ha
  · cases ha
  · split at ha
    · cases ha
    · rename_i herr
      have herr : err = false := by simpa using herr
      subst herr
      have he := lexer_alloc_loop_ended _ _ _ h1
      cases ha
      simp only [lexer_new, List.map_nil, List.nil_append, List.length_nil] at hheap htok
      have hlen : ts.length = lx1.lx_heap.length := by
        have := congrArg List.length hheap
        simpa using this.symm
      refine ⟨ki.peek, ki.tok, rfl, ?_, he⟩
      show lx1.lx_tokens = List.range lx1.lx_heap.length
      rw [htok, hlen, ← List.range_eq_range']

theorem tailq_next_inner {l : List Nat} {c p : Nat} (hc : c ∈ l) (hl : l.getLast? = some p)
    (hne : c ≠ p) : ∃ n, tailq_next l c = some n ∧ n ∈ l := by
  obtain ⟨pre, rest, rfl, hpre⟩ := List.eq_append_cons_of_mem hc
  rw [tailq_next_append hpre]
  cases rest with
  | nil =>
    rw [List.getLast?_append] at hl
    simp at hl
    exact absurd hl hne
  | cons n rest =>
    exact ⟨n, rfl, by simp⟩

theorem Queue.deref_mem {lx : Lexer} (hq : Queue lx) {p : Nat} (hp : p ∈ lx.lx_tokens) :
    ∃ t, lx.lx_heap[p]? = some t ∧ deref lx.lx_heap p = Except.ok t := by
  have hlt := hq.valid p hp
  refine ⟨lx.lx_heap[p], List.getElem?_eq_getElem hlt, ?_⟩
  unfold deref
  rw [List.getElem?_eq_getElem hlt]

theorem Committed.pop {lx : Lexer} (hk : Committed lx) :
    ∃ lx1 r, lexer_pop lx = Except.ok (lx1, r) ∧ Committed lx1 ∧
      lx1.lx_tokens = lx.lx_tokens ∧ lx1.lx_heap = lx.lx_heap ∧
      (r = none → lexer_is_branch lx1 = Except.ok true ∧
        ∃ b t, lexer_back lx1 = some b ∧ b ∈ lx1.lx_tokens ∧ lx1.lx_heap[b]? = some t ∧
          t.br_pv ≠ none ∧ t.br_nx ≠ none) := by
  obtain ⟨hq, he, hcur, hp⟩ := hk
  obtain ⟨e, hlast, hke⟩ := he
  have hne : lx.lx_tokens ≠ [] := by
    intro h
    rw [h] at hlast
    cases hlast
  have links : ∀ t : Token, token_is_branch t true = true → t.br_pv ≠ none ∧ t.br_nx ≠ none := by
    intro t ht
    unfold token_is_branch at ht
    cases hpv : t.br_pv <;> cases hnx : t.br_nx <;> simp [hpv, hnx] at ht ⊢
  unfold lexer_pop
  rw [if_neg hne]
  cases hst : lx.lx_st.st_tok with
  | none =>
    dsimp only
    unfold lexer_pop_out
    obtain ⟨a, l, hal⟩ := List.exists_cons_of_ne_nil hne
    refine ⟨_, _, rfl, ⟨⟨hq.nodup, hq.valid⟩, ⟨e, hlast, hke⟩, ?_, hp⟩, rfl, rfl, ?_⟩
    · intro c hc
      have hc : lx.lx_tokens.head? = some c := hc
      exact List.mem_of_mem_head? hc
    · intro hr
      have hr : lx.lx_tokens.head? = none := hr
      rw [hal] at hr
      cases hr
  | some cur =>
    dsimp only
    have hmem := hcur cur hst
    obtain ⟨c, hc, hd⟩ := hq.deref_mem hmem
    rw [hd]
    dsimp only
    by_cases heof : c.tk_type = TOKEN_EOF
    · rw [if_neg (by simpa using heof)]
      unfold lexer_pop_out
      refine ⟨_, _, rfl, ⟨hq, ⟨e, hlast, hke⟩, hcur, hp⟩, rfl, rfl, ?_⟩
      intro hr
      rw [hst] at hr
      cases hr
    · rw [if_pos heof]
      by_cases hb : token_is_branch c true = true
      · rw [if_pos ⟨hp, hb⟩]
        refine ⟨_, _, rfl, ⟨hq, ⟨e, hlast, hke⟩, hcur, hp⟩, rfl, rfl, ?_⟩
        intro _
        refine ⟨?_, cur, c, hst, hmem, hc, links c hb⟩
        unfold lexer_is_branch lexer_back
        rw [hst]
        dsimp only
        rw [hd]
        dsimp only
        rw [hb]
      · rw [if_neg (fun h => hb h.2)]
        have hce : cur ≠ e := by
          intro h
          rw [h] at hc
          unfold Lexer.kind at hke
          rw [hc] at hke
          exact heof (Option.some.inj hke)
        obtain ⟨nx, hnx, hnmem⟩ := tailq_next_inner hmem hlast hce
        rw [hnx]
        dsimp only
        obtain ⟨n, hn, hdn⟩ := hq.deref_mem hnmem
        rw [hdn]
        dsimp only
        have hon : ∀ x, some nx = some x → x ∈ lx.lx_tokens := by
          intro x hx
          cases hx
          exact hnmem
        by_cases hnb : token_is_branch n true = false
        · rw [if_pos hnb]
          unfold lexer_pop_out
          refine ⟨_, _, rfl, ⟨⟨hq.nodup, hq.valid⟩, ⟨e, hlast, hke⟩, hon, hp⟩, rfl, rfl, ?_⟩
          intro hr
          cases hr
        · rw [if_neg hnb]
          have hnb : token_is_branch n true = true := by simpa using hnb
          by_cases hbr : lx.lx_branch = none
          · simp only [hbr, if_true]
            rw [if_pos hp]
            refine ⟨_, _, rfl, ⟨⟨hq.nodup, hq.valid⟩, ⟨e, hlast, hke⟩, hon, hp⟩, rfl, rfl, ?_⟩
            intro _
            refine ⟨?_, nx, n, rfl, hnmem, hn, links n hnb⟩
            unfold lexer_is_branch lexer_back
            dsimp only
            rw [hdn]
            dsimp only
            rw [hnb]
          · simp only [hbr, if_false]
            rw [if_pos hp]
            refine ⟨_, _, rfl, ⟨⟨hq.nodup, hq.valid⟩, ⟨e, hlast, hke⟩, hon, hp⟩, rfl, rfl, ?_⟩
            intro _
            refine ⟨?_, nx, n, rfl, hnmem, hn, links n hnb⟩
            unfold lexer_is_branch lexer_back
            dsimp only
            rw [hdn]
            dsimp only
            rw [hnb]

theorem Committed.pops {lx : Lexer} (hk : Committed lx) : ∀ (n : Nat),
    ∃ lx1, run_calls lx (List.replicate n CursorCall.pop) = Except.ok lx1 ∧ Committed lx1 ∧
      lx1.lx_tokens = lx.lx_tokens ∧ lx1.lx_heap = lx.lx_heap := by
  intro n
  induction n generalizing lx with
  | zero => exact ⟨lx, rfl, hk, rfl, rfl⟩
  | succ n ih =>
    obtain ⟨lx1, r, h1, k1, ht, hh, _⟩ := hk.pop
    obtain ⟨lx2, h2, k2, ht2, hh2⟩ := ih k1
    refine ⟨lx2, ?_, k2, ht2.trans ht, hh2.trans hh⟩
    rw [List.replicate_succ]
    unfold run_calls
    have hrun : CursorCall.pop.run lx = Except.ok lx1 := by
      unfold CursorCall.run
      rw [h1]
      rfl
    rw [hrun]
    exact h2

theorem lexer_alloc_committed {bf : List Nat} {lx : Lexer}
    (h : lexer_alloc bf = Except.ok (some lx)) : Committed lx := by
  obtain ⟨hp, ht, _, htok, he⟩ := lexer_alloc_fresh h
  refine ⟨⟨?_, ?_⟩, he, ?_, hp⟩
  · rw [htok]
    exact List.nodup_range _
  · intro p hp
    rw [htok] at hp
    exact List.mem_range.mp hp
  · intro c hc
    rw [ht] at hc
    cases hc

/-- C32: the main stream that `lexer_alloc` returns is not empty and ends in
`EOF`, the peek depth is 0 and no token is current.  From there every
sequence of calls of `lexer_pop` returns, and a further call of `lexer_pop`
returns as well; when it returns 0, `lexer_is_branch` returns non-zero
afterwards: the current token is a token of the main stream with both branch
links. -/
theorem lexer_pop_fails_on_branch (bf : List Nat) (lx : Lexer)
    (h : lexer_alloc bf = Except.ok (some lx)) (n : Nat) :
    lx.lx_tokens ≠ [] ∧
    (∃ p, lx.lx_tokens.getLast? = some p ∧ lx.kind p = some TOKEN_EOF) ∧
    lx.lx_peek = 0 ∧ lx.lx_st.st_tok = none ∧
    ∃ lx1, run_calls lx (List.replicate n CursorCall.pop) = Except.ok lx1 ∧
      lx1.lx_peek = 0 ∧ lx1.lx_tokens = lx.lx_tokens ∧ lx1.lx_heap = lx.lx_heap ∧
      ∃ lx2 r, lexer_pop lx1 = Except.ok (lx2, r) ∧
        (r = none → lexer_is_branch lx2 = Except.ok true ∧
          ∃ b t, lexer_back lx2 = some b ∧ b ∈ lx2.lx_tokens ∧ lx2.lx_heap[b]? = some t ∧
            t.br_pv ≠ none ∧ t.br_nx ≠ none) := by
  have hk := lexer_alloc_committed h
  obtain ⟨hp, ht, _, _, he⟩ := lexer_alloc_fresh h
  obtain ⟨lx1, h1, k1, ht1, hh1⟩ := hk.pops n
  obtain ⟨lx2, r, h2, _, _, _, hr⟩ := k1.pop
  refine ⟨?_, he, hp, ht, lx1, h1, k1.peek, ht1, hh1, lx2, r, h2, hr⟩
  intro hnil
  obtain ⟨p, hl, _⟩ := he
  rw [hnil] at hl
  cases hl

theorem lexer_pop_fails_on_branch_witness :
    ∃ lx lx1 lx2, lexer_alloc seek_example = Except.ok (some lx) ∧
      run_calls lx (List.replicate 3 CursorCall.pop) = Except.ok lx1 ∧
      lx1.lx_st.st_tok = some 2 ∧
      lexer_pop lx1 = Except.ok (lx2, some 3) ∧
      lexer_pop lx2 = Except.ok ({ lx2.at 4 with lx_branch := some 4 }, none) ∧
      lexer_is_branch { lx2.at 4 with lx_branch := some 4 } = Except.ok true ∧
      (lexer_of seek_example).lx_tokens ≠ [] ∧
      ∃ lx3, run_calls (lexer_of seek_example) (List.replicate 4 CursorCall.pop) =
          Except.ok lx3 ∧
        ∃ lx4 r, lexer_pop lx3 = Except.ok (lx4, r) ∧
          (r = none → lexer_is_branch lx4 = Except.ok true ∧
            ∃ b t, lexer_back lx4 = some b ∧ b ∈ lx4.lx_tokens ∧ lx4.lx_heap[b]? = some t ∧
              t.br_pv ≠ none ∧ t.br_nx ≠ none) := by
  have w := lexer_pop_fails_on_branch seek_example (lexer_of seek_example) rfl 4
  obtain ⟨w1, _, _, _, lx3, w3, _, _, _, lx4, r, w4, w5⟩ := w
  exact ⟨_, _, _, rfl, rfl, by decide, rfl, rfl, rfl, w1, lx3, w3, lx4, r, w4, w5⟩

/-! ## Disabled regions of lines as `lexer_cpp` reads them -/

theorem Calm.calm_refl (lx : Lexer) : Calm lx lx := ⟨rfl, rfl⟩

theorem Calm.calm_heap {a b : Lexer} (h : Calm a b) (heap : List Token) :
    Calm a { b with lx_heap := heap } := ⟨h.err, h.branches⟩

theorem squeeze_blank {l : List Nat} (h : ∀ b ∈ l, ¬inked b ∨ b = CH_BACKSLASH) :
    squeeze l = [] := by
  unfold squeeze
  rw [List.filter_eq_nil_iff]
  intro b hb
  rcases h b hb with h1 | h1
  · unfold inked at h1
    simp only [Bool.not_eq_true, Bool.not_eq_false', Bool.or_eq_true, decide_eq_true_eq,
      Bool.not_not]
    by_cases h2 : b = CH_SPACE
    · simp [h2]
    · by_cases h3 : b = CH_TAB
      · simp [h3]
      · by_cases h4 : b = CH_NEWLINE
        · simp [h4]
        · exact absurd ⟨h2, h3, h4⟩ h1
  · simp [h1]

theorem Slack.slack_nil : Slack [] := ⟨[], [], rfl, fun b hb => (by cases hb), Or.inl rfl⟩

theorem Slack.slack_of_blank {l : List Nat} (h : ∀ b ∈ l, ¬inked b) : Slack l :=
  ⟨l, [], by simp, h, Or.inl rfl⟩

theorem Slack.cons {c : Nat} {l : List Nat} (hc : ¬inked c) (h : Slack l) : Slack (c :: l) := by
  obtain ⟨ws, tl, rfl, hw, ht⟩ := h
  refine ⟨c :: ws, tl, rfl, ?_, ht⟩
  intro b hb
  rcases List.mem_cons.mp hb with rfl | hb
  · exact hc
  · exact hw b hb

theorem Slack.slack_tail {c : Nat} {l : List Nat} (h : Slack (c :: l)) : Slack l := by
  obtain ⟨ws, tl, he, hw, ht⟩ := h
  cases ws with
  | nil =>
    rcases ht with rfl | rfl
    · cases he
    · cases he
      exact Slack.slack_nil
  | cons w ws =>
    cases he
    exact ⟨ws, tl, rfl, fun b hb => hw b (List.mem_cons_of_mem _ hb), ht⟩

theorem Slack.drop {l : List Nat} (h : Slack l) : ∀ n, Slack (l.drop n) := by
  intro n
  induction n generalizing l with
  | zero => exact h
  | succ k ih =>
    cases l with
    | nil => exact Slack.slack_nil
    | cons c l => exact ih h.slack_tail

theorem Tail.loose {lx : Lexer} (h : Tail lx) : Loose lx := by
  rcases h with h | h
  · exact Or.inl h
  · exact Or.inr (Slack.slack_of_blank h)

theorem Covers.gap {bf : List Nat} {a b : Nat}
    (h : ∀ x ∈ (bf.drop a).take (b - a), ¬inked x ∨ x = CH_BACKSLASH) : Covers bf a b [] := by
  left
  rw [squeeze_blank h]
  rfl

/-- A slash that is the last byte of the buffer, read and not given back. -/
theorem Covers.lost {bf : List Nat} {a : Nat} (hs : bf.getLast? = some CH_SLASH)
    (ha : a + 1 = bf.length) : Covers bf a (a + 1) [] := by
  right
  refine ⟨hs, by omega, by omega, ?_⟩
  have : bf.length - 1 - a = 0 := by omega
  rw [this, List.take_zero]

theorem span_subset (lx : Lexer) (b : Nat) :
    ∀ x ∈ (lx.lx_bf.drop lx.lx_st.st_off).take (b - lx.lx_st.st_off), x ∈ lx.rest := by
  intro x hx
  exact List.mem_of_mem_take hx

theorem Tail.tail_of_eq {lx lx1 : Lexer} (ht : Tail lx) (hbf : lx1.lx_bf = lx.lx_bf)
    (hst : lx1.lx_st = lx.lx_st) (he : lx1.lx_eof = lx.lx_eof) : Tail lx1 := by
  unfold Tail Lexer.rest at *
  rw [he, hbf, hst]
  exact ht

theorem rest_last {lx : Lexer} {c : Nat} (h : lx.rest = [c]) : lx.lx_bf.getLast? = some c := by
  unfold Lexer.rest at h
  have := List.take_append_drop lx.lx_st.st_off lx.lx_bf
  rw [h] at this
  rw [← this]
  simp

theorem span_cons {lx lx1 : Lexer} {c : Nat} {b : Nat} (hrest : lx.rest = c :: lx1.rest)
    (hbf : lx1.lx_bf = lx.lx_bf) (hoff : lx1.lx_st.st_off = lx.lx_st.st_off + 1)
    (hb : lx1.lx_st.st_off ≤ b) :
    (lx.lx_bf.drop lx.lx_st.st_off).take (b - lx.lx_st.st_off) =
      c :: (lx.lx_bf.drop lx1.lx_st.st_off).take (b - lx1.lx_st.st_off) := by
  unfold Lexer.rest at hrest
  rw [hbf] at hrest
  have e : b - lx.lx_st.st_off = (b - lx1.lx_st.st_off) + 1 := by omega
  rw [hrest, e, List.take_succ_cons]

theorem span_nil (bf : List Nat) {a b : Nat} (h : b ≤ a) : (bf.drop a).take (b - a) = [] := by
  have : b - a = 0 := by omega
  rw [this, List.take_zero]

/-- One byte that is read and is space, tab, newline or backslash. -/
theorem Covers.read {lx lx1 : Lexer} {c : Nat} (hrest : lx.rest = c :: lx1.rest)
    (hbf : lx1.lx_bf = lx.lx_bf) (hoff : lx1.lx_st.st_off = lx.lx_st.st_off + 1)
    (hc : ¬inked c ∨ c = CH_BACKSLASH) :
    Covers lx.lx_bf lx.lx_st.st_off lx1.lx_st.st_off [] := by
  apply Covers.gap
  rw [span_cons hrest hbf hoff (le_refl _), span_nil _ (le_refl _)]
  intro x hx
  rw [List.mem_singleton] at hx
  rw [hx]
  exact hc

end Knfmt
